import Mathlib

/-!
# goker: hand evaluation and comparison

A shallow embedding of the 5-card hand evaluator of the repository
(card.go, handrank.go, errors.go, hand.go) together with the properties
proved about it.

Modelling conventions.
* `CardRank` is a Go `int`; it is a `Nat` here and every statement bounds the
  ranks by `Two .. Ace` (2..14), where no shift leaves the 64-bit range.
* `CardSuit` is the four constants declared in card.go.
* `HandRank` is a Go `int`; it is a `Nat` here with the ten constants of
  handrank.go (iota + 1).
* The map `map[CardRank]int` is an association list with pairwise distinct
  keys; a `range` over the map visits the entries in an arbitrary order, so
  the statements about it quantify over every permutation of the entries.
* `sort.Slice` on a slice of at most 12 elements is the insertion sort of the
  Go standard library; `sortSlice` is that loop. Statements about the result
  of an unstable sort quantify over every ordered permutation.
* The 64-bit two-complement negation `-x` of a positive `x` is the bit pattern
  `2^64 - x`.
* A method that changes its receiver (board, deck, player, game) returns the
  receiver after the call next to its result; a nil error is `none`.
* A random shuffle is an argument: the permutation it produces.
* Goroutines that each write their own entry of a shared slice are run one
  after the other in an arbitrary order, given as the list of their indices;
  the statements hold for every order that runs each goroutine once.
-/

namespace Goker

/-! ## card.go -/

/-- CardSuit of card.go: the four declared suits. -/
inductive CardSuit where
  | Clubs
  | Diamonds
  | Hearts
  | Spades
deriving DecidableEq, Repr

/-- CardRank of card.go (an integer, 2..14 for the declared constants). The
fields and functions below spell it `Nat`. -/
abbrev CardRank := Nat

abbrev Two : Nat := 2
abbrev Three : Nat := 3
abbrev Four : Nat := 4
abbrev Five : Nat := 5
abbrev Six : Nat := 6
abbrev Seven : Nat := 7
abbrev Eight : Nat := 8
abbrev Nine : Nat := 9
abbrev Ten : Nat := 10
abbrev Jack : Nat := 11
abbrev Queen : Nat := 12
abbrev King : Nat := 13
abbrev Ace : Nat := 14

/-- Card of card.go. -/
structure Card where
  Rank : Nat
  Suit : CardSuit
deriving DecidableEq, Repr

/-- NewCard of card.go. -/
def NewCard (rank : Nat) (suit : CardSuit) : Card := ⟨rank, suit⟩

/-! ## handrank.go -/

/-- HandRank of handrank.go (an integer); spelled `Nat` below. -/
abbrev HandRank := Nat

abbrev HighCard : Nat := 1
abbrev Pair : Nat := 2
abbrev TwoPair : Nat := 3
abbrev ThreeOfAKind : Nat := 4
abbrev Straight : Nat := 5
abbrev Flush : Nat := 6
abbrev FullHouse : Nat := 7
abbrev FourOfAKind : Nat := 8
abbrev StraightFlush : Nat := 9
abbrev RoyalFlush : Nat := 10

abbrev straightValue : Nat := 31
abbrev wheelStraightValue : Nat := 16444
abbrev royalFlushValue : Nat := 31744

/-- The variable tiebreakerShifts of handrank.go. -/
def tiebreakerShifts : List Nat := [16, 12, 8, 4, 0]

/-! ## errors.go -/

/-- The error values of errors.go. -/
inductive GoError where
  | ErrEmptyDeck
  | ErrInvalidHandSize
  | ErrDuplicateCards
  | ErrInvalidHoleCards
  | ErrInvalidBoardState
deriving DecidableEq, Repr

/-! ## player.go -/

/-- Player of player.go. -/
structure Player where
  Name : String
  HoleCards : List Card
deriving DecidableEq, Repr

/-! ## Library behaviour used by hand.go -/

/-- One pass of the inner loop of the insertion sort: `x` sits right of the
ordered block whose elements are listed from right to left, and moves left
while `less x y` holds for its left neighbour `y`. -/
def insertLeft {α : Type} (less : α → α → Bool) (x : α) : List α → List α
  | [] => [x]
  | y :: ys => if less x y then y :: insertLeft less x ys else x :: y :: ys

/-- The call sort.Slice(s, less) on a short slice: insertion sort from left to
right. -/
def sortSlice {α : Type} (less : α → α → Bool) (s : List α) : List α :=
  (s.foldl (fun acc x => insertLeft less x acc) []).reverse

/-- Read of a map[CardRank]int: the zero value when the key is absent. -/
def mapGet (m : List (Nat × Nat)) (k : Nat) : Nat :=
  match m with
  | [] => 0
  | (k1, v) :: rest => if k1 = k then v else mapGet rest k

/-- The statement m[k]++ on a map[CardRank]int. -/
def mapIncr (m : List (Nat × Nat)) (k : Nat) : List (Nat × Nat) :=
  match m with
  | [] => [(k, 1)]
  | (k1, v) :: rest => if k1 = k then (k1, v + 1) :: rest else (k1, v) :: mapIncr rest k

/-! ## hand.go -/

abbrev handSize : Nat := 5

/-- Hand of hand.go. -/
structure Hand where
  Cards : List Card
  Player : Option Player
  cardValues : Nat
  cardCounts : Nat
  isFlush : Bool
  isStraight : Bool
  isWheel : Bool
  handRank : Nat
  evaluated : Bool
deriving DecidableEq, Repr

/-- Hand.computeCardValues: the OR of 1 << rank over the cards. -/
def computeCardValues (h : Hand) : Nat :=
  h.Cards.foldl (fun values card => values ||| (1 <<< card.Rank)) 0

/-- Hand.computeCardCounts. -/
def computeCardCounts (_h : Hand) : Nat := 0

/-- Hand.getRankCounts. -/
def getRankCounts (h : Hand) : List (Nat × Nat) :=
  h.Cards.foldl (fun counts card => mapIncr counts card.Rank) []

/-- Hand.computeIsFlush. -/
def computeIsFlush (h : Hand) : Bool :=
  match h.Cards with
  | [] => false
  | c0 :: rest => rest.all (fun card => decide (card.Suit = c0.Suit))

/-- The expression x & (-x) on a 64-bit integer holding x > 0. -/
def lowestSetBit (x : Nat) : Nat := x &&& ((2 ^ 64 - x) % 2 ^ 64)

/-- Hand.computeIsStraight, returning (isStraight, isWheel). The divisor of
the last step is `lowestSetBit h.cardValues`. -/
def computeIsStraight (h : Hand) : Bool × Bool :=
  if h.cardValues = wheelStraightValue then (true, true)
  else if h.cardValues = 0 then (false, false)
  else
    let lsb := lowestSetBit h.cardValues
    let quotient := h.cardValues / lsb
    (decide (quotient = straightValue), false)

/-- The counting loop of computeHandRank over the entries of the map, in the
order in which the range statement visits them: (pairs, trips, quads). -/
def countKinds (entries : List (Nat × Nat)) : Nat × Nat × Nat :=
  entries.foldl
    (fun acc e =>
      if e.2 = 2 then (acc.1 + 1, acc.2.1, acc.2.2)
      else if e.2 = 3 then (acc.1, acc.2.1 + 1, acc.2.2)
      else if e.2 = 4 then (acc.1, acc.2.1, acc.2.2 + 1)
      else acc)
    (0, 0, 0)

/-- The final decision of computeHandRank from the three counters. -/
def rankOfKinds (k : Nat × Nat × Nat) : Nat :=
  let pairs := k.1
  let trips := k.2.1
  let quads := k.2.2
  if quads = 1 then FourOfAKind
  else if trips = 1 ∧ pairs = 1 then FullHouse
  else if trips = 1 then ThreeOfAKind
  else if pairs = 2 then TwoPair
  else if pairs = 1 then Pair
  else HighCard

/-- Hand.computeHandRank. -/
def computeHandRank (h : Hand) : Nat :=
  if h.isFlush then
    if h.cardValues = royalFlushValue then RoyalFlush
    else if h.isStraight then StraightFlush
    else Flush
  else if h.isStraight then Straight
  else rankOfKinds (countKinds (getRankCounts h))

/-- Hand.evaluate. -/
def evaluate (h : Hand) : Hand :=
  if h.evaluated then h
  else
    let h1 := { h with cardValues := computeCardValues h }
    let h2 := { h1 with cardCounts := computeCardCounts h1 }
    let h3 := { h2 with isFlush := computeIsFlush h2 }
    let sw := computeIsStraight h3
    let h4 := { h3 with isStraight := sw.1, isWheel := sw.2 }
    let h5 := { h4 with handRank := computeHandRank h4 }
    { h5 with evaluated := true }

/-- The duplicate check of NewHand: the loop over the cards with the set of
keys seen so far. The key "%d-%d" of rank and suit is the pair itself. -/
def hasDuplicate : List Card → List (Nat × CardSuit) → Bool
  | [], _ => false
  | c :: rest, seen =>
    if (c.Rank, c.Suit) ∈ seen then true
    else hasDuplicate rest ((c.Rank, c.Suit) :: seen)

/-- The composite literal Hand{Cards: cards}: every other field has its zero
value. -/
def zeroHand (cards : List Card) : Hand :=
  { Cards := cards, Player := none, cardValues := 0, cardCounts := 0,
    isFlush := false, isStraight := false, isWheel := false, handRank := 0,
    evaluated := false }

/-- NewHand of hand.go. -/
def NewHand (cards : List Card) : Except GoError Hand :=
  if cards.length ≠ handSize then Except.error GoError.ErrInvalidHandSize
  else if hasDuplicate cards [] then Except.error GoError.ErrDuplicateCards
  else
    let sortedCards := sortSlice (fun a b => decide (a.Rank > b.Rank)) cards
    Except.ok (evaluate (zeroHand sortedCards))

/-- NewHandWithPlayer of hand.go. -/
def NewHandWithPlayer (cards : List Card) (player : Player) : Except GoError Hand :=
  match NewHand cards with
  | Except.error err => Except.error err
  | Except.ok h => Except.ok { h with Player := some player }

/-- Hand.Rank. -/
def Hand.Rank (h : Hand) : Nat := h.handRank

/-- Hand.IsFlush. -/
def Hand.IsFlush (h : Hand) : Bool := h.isFlush

/-- Hand.IsStraight. -/
def Hand.IsStraight (h : Hand) : Bool := h.isStraight

/-- Hand.IsWheel. -/
def Hand.IsWheel (h : Hand) : Bool := h.isWheel

/-- The local type cardWithCount of TiebreakScore. -/
structure cardWithCount where
  card : Card
  count : Nat
deriving DecidableEq, Repr

/-- The comparison function given to sort.Slice in TiebreakScore. -/
def lessByCountThenRank (a b : cardWithCount) : Bool :=
  if a.count ≠ b.count then decide (a.count > b.count)
  else decide (a.card.Rank > b.card.Rank)

/-- The scoring loop of TiebreakScore, from index `i` with the score so far. -/
def scoreLoop : List cardWithCount → Nat → Nat → Nat
  | [], _, score => score
  | cwc :: rest, i, score =>
    if i < tiebreakerShifts.length then
      scoreLoop rest (i + 1) (score ||| (cwc.card.Rank <<< tiebreakerShifts.getD i 0))
    else scoreLoop rest (i + 1) score

/-- Hand.TiebreakScore. -/
def Hand.TiebreakScore (h : Hand) : Nat :=
  let counts := h.Cards.foldl (fun counts card => mapIncr counts card.Rank) []
  let cardsWithCounts := h.Cards.map (fun card => cardWithCount.mk card (mapGet counts card.Rank))
  let sorted := sortSlice lessByCountThenRank cardsWithCounts
  scoreLoop sorted 0 0

/-- Hand.Compare. -/
def Hand.Compare (h other : Hand) : Int :=
  if h.handRank > other.handRank then 1
  else if h.handRank < other.handRank then -1
  else if h.isStraight && other.isStraight && (h.isWheel && !other.isWheel) then -1
  else if h.isStraight && other.isStraight && (!h.isWheel && other.isWheel) then 1
  else
    let myScore := h.TiebreakScore
    let otherScore := other.TiebreakScore
    if myScore > otherScore then 1
    else if myScore < otherScore then -1
    else 0

/-- Hand.Beats. -/
def Hand.Beats (h other : Hand) : Bool := decide (h.Compare other > 0)

/-- Hand.Ties. -/
def Hand.Ties (h other : Hand) : Bool := decide (h.Compare other = 0)

/-! ## Reference notions of the specification -/

/-- The ranks of a list of cards, in the order of the cards. -/
def ranksOf (cards : List Card) : List Nat := cards.map (fun c => c.Rank)

/-- A valid hand input: exactly 5 pairwise distinct cards with ranks in 2..14. -/
def ValidCards (cards : List Card) : Prop :=
  cards.length = 5 ∧ cards.Nodup ∧ ∀ c ∈ cards, 2 ≤ c.Rank ∧ c.Rank ≤ 14

instance (cards : List Card) : Decidable (ValidCards cards) := by
  unfold ValidCards; infer_instance

/-- All cards share one suit. -/
def AllSameSuit (cards : List Card) : Prop :=
  ∀ a ∈ cards, ∀ b ∈ cards, a.Suit = b.Suit

instance (cards : List Card) : Decidable (AllSameSuit cards) := by
  unfold AllSameSuit; infer_instance

/-- The set of ranks held by the cards is exactly the set listed in `s`. -/
def RanksExactly (cards : List Card) (s : List Nat) : Prop :=
  (∀ r ∈ ranksOf cards, r ∈ s) ∧ (∀ r ∈ s, r ∈ ranksOf cards)

instance (cards : List Card) (s : List Nat) : Decidable (RanksExactly cards s) := by
  unfold RanksExactly; infer_instance

/-- Reference wheel: the ranks are exactly A, 2, 3, 4, 5. -/
def IsWheelRef (cards : List Card) : Prop :=
  RanksExactly cards [14, 2, 3, 4, 5]

instance (cards : List Card) : Decidable (IsWheelRef cards) := by
  unfold IsWheelRef; infer_instance

/-- Reference straight: the ranks are exactly r, r+1, r+2, r+3, r+4 for some
r with 2 ≤ r ≤ 10, or the hand is the wheel. -/
def IsStraightRef (cards : List Card) : Prop :=
  (∃ r, r < 11 ∧ 2 ≤ r ∧ RanksExactly cards [r, r + 1, r + 2, r + 3, r + 4]) ∨
    IsWheelRef cards

instance (cards : List Card) : Decidable (IsStraightRef cards) := by
  unfold IsStraightRef; infer_instance

/-- Reference royal ranks: the ranks are exactly 10, J, Q, K, A. -/
def IsRoyalRef (cards : List Card) : Prop :=
  RanksExactly cards [10, 11, 12, 13, 14]

instance (cards : List Card) : Decidable (IsRoyalRef cards) := by
  unfold IsRoyalRef; infer_instance

/-- The invariant of an evaluated hand: every cached field holds the value its
compute function gives on the hand itself. -/
def Evaluated (h : Hand) : Prop :=
  h.cardValues = computeCardValues h ∧ h.isFlush = computeIsFlush h ∧
    h.isStraight = (computeIsStraight h).1 ∧ h.isWheel = (computeIsStraight h).2 ∧
    h.handRank = computeHandRank h

/-- The hand `h` is an evaluated hand holding the cards `cards` in some order. -/
def Built (h : Hand) (cards : List Card) : Prop :=
  h.Cards.Perm cards ∧ Evaluated h

/-! ## Sample hands of hand_test.go -/

/-- The royal flush of TestRoyalFlush: A K Q J T of spades. -/
def royalSpades : List Card :=
  [NewCard Ace CardSuit.Spades, NewCard King CardSuit.Spades, NewCard Queen CardSuit.Spades,
    NewCard Jack CardSuit.Spades, NewCard Ten CardSuit.Spades]

/-- The ace-high straight of TestNewHandWithPlayer: A K Q J T in mixed suits. -/
def broadwayMixed : List Card :=
  [NewCard Ace CardSuit.Spades, NewCard King CardSuit.Hearts, NewCard Queen CardSuit.Diamonds,
    NewCard Jack CardSuit.Clubs, NewCard Ten CardSuit.Spades]

/-- The wheel of TestWheel: A 2 3 4 5 in mixed suits. -/
def wheelMixed : List Card :=
  [NewCard Ace CardSuit.Spades, NewCard Two CardSuit.Hearts, NewCard Three CardSuit.Diamonds,
    NewCard Four CardSuit.Clubs, NewCard Five CardSuit.Spades]

/-- The second wheel of TestWheelTiesWheel. -/
def wheelMixed2 : List Card :=
  [NewCard Ace CardSuit.Hearts, NewCard Two CardSuit.Diamonds, NewCard Three CardSuit.Clubs,
    NewCard Four CardSuit.Spades, NewCard Five CardSuit.Hearts]

/-- The six-high straight of TestWheelVsHigherStraight. -/
def sixHighStraight : List Card :=
  [NewCard Six CardSuit.Spades, NewCard Five CardSuit.Hearts, NewCard Four CardSuit.Diamonds,
    NewCard Three CardSuit.Clubs, NewCard Two CardSuit.Hearts]

/-- The high-card hand of TestHighCard: A K 9 5 2. -/
def highCardHand : List Card :=
  [NewCard Ace CardSuit.Spades, NewCard King CardSuit.Hearts, NewCard Nine CardSuit.Diamonds,
    NewCard Five CardSuit.Clubs, NewCard Two CardSuit.Spades]

/-- The same ranks in other suits (second hand of TestHandTies). -/
def highCardHand2 : List Card :=
  [NewCard Ace CardSuit.Hearts, NewCard King CardSuit.Diamonds, NewCard Nine CardSuit.Clubs,
    NewCard Five CardSuit.Spades, NewCard Two CardSuit.Hearts]

/-- The pair of aces of TestHandTiebreakerPair: A A 2 3 4. -/
def pairOfAces : List Card :=
  [NewCard Ace CardSuit.Spades, NewCard Ace CardSuit.Hearts, NewCard Two CardSuit.Diamonds,
    NewCard Three CardSuit.Clubs, NewCard Four CardSuit.Spades]

/-- The pair of kings of TestHandTiebreakerPair: K K A Q J. -/
def pairOfKings : List Card :=
  [NewCard King CardSuit.Spades, NewCard King CardSuit.Hearts, NewCard Ace CardSuit.Diamonds,
    NewCard Queen CardSuit.Clubs, NewCard Jack CardSuit.Hearts]

/-- The two pair of TestTwoPair: A A K K 2. -/
def twoPairHand : List Card :=
  [NewCard Ace CardSuit.Spades, NewCard Ace CardSuit.Hearts, NewCard King CardSuit.Diamonds,
    NewCard King CardSuit.Clubs, NewCard Two CardSuit.Spades]

/-- Reference order of the tie-break on ranks, relative to the ranks `rs` of a
hand: `a` stands before `b` when `a` occurs more often in `rs`, or as often and
`a` is not the smaller rank (count descending, then rank descending). -/
def groupedBefore (rs : List Nat) (a b : Nat) : Prop :=
  rs.count b < rs.count a ∨ (rs.count a = rs.count b ∧ b ≤ a)

instance (rs : List Nat) : DecidableRel (groupedBefore rs) := fun a b => by
  unfold groupedBefore; infer_instance

/-- Reference grouped rank sequence of a hand: the ranks of its cards ordered
by (number of cards of that rank descending, rank descending). -/
def groupedRanks (cards : List Card) : List Nat :=
  List.insertionSort (groupedBefore (ranksOf cards)) (ranksOf cards)

/-- Reference lexicographic comparison of two rank sequences: 1, -1 or 0. -/
def lexCompare : List Nat → List Nat → Int
  | [], [] => 0
  | [], _ :: _ => -1
  | _ :: _, [] => 1
  | a :: as, b :: bs => if a > b then 1 else if a < b then -1 else lexCompare as bs

/-- The slice cardsWithCounts of TiebreakScore before it is sorted. -/
def cardsWithCounts (h : Hand) : List cardWithCount :=
  h.Cards.map (fun card => cardWithCount.mk card (mapGet (getRankCounts h) card.Rank))

/-- The packing of a five-rank sequence into one integer by the shifts
16, 12, 8, 4, 0, written as a sum. -/
def packRanks : List Nat → Nat
  | [r1, r2, r3, r4, r5] => r1 * 2 ^ 16 + r2 * 2 ^ 12 + r3 * 2 ^ 8 + r4 * 2 ^ 4 + r5
  | _ => 0

/-- The wheel rule of Compare as a key: 0 for a wheel straight, 1 otherwise. -/
def wheelKey (h : Hand) : Nat := if h.isStraight && h.isWheel then 0 else 1

/-- The number of distinct ranks that occur exactly `n` times among `rs`. -/
def kindCount (rs : List Nat) (n : Nat) : Nat :=
  rs.dedup.countP (fun r => decide (rs.count r = n))

/-- Reference four of a kind: some rank occurs 4 times. -/
def IsFourOfAKindRef (cards : List Card) : Prop :=
  ∃ x ∈ ranksOf cards, (ranksOf cards).count x = 4

instance (cards : List Card) : Decidable (IsFourOfAKindRef cards) := by
  unfold IsFourOfAKindRef; infer_instance

/-- Reference full house: one rank occurs 3 times and another 2 times. -/
def IsFullHouseRef (cards : List Card) : Prop :=
  ∃ x ∈ ranksOf cards, ∃ y ∈ ranksOf cards,
    (ranksOf cards).count x = 3 ∧ (ranksOf cards).count y = 2

instance (cards : List Card) : Decidable (IsFullHouseRef cards) := by
  unfold IsFullHouseRef; infer_instance

/-- Reference three of a kind: one rank occurs 3 times and every other rank
held occurs once (the other two ranks differ). -/
def IsThreeOfAKindRef (cards : List Card) : Prop :=
  ∃ x ∈ ranksOf cards, (ranksOf cards).count x = 3 ∧
    ∀ y ∈ ranksOf cards, y ≠ x → (ranksOf cards).count y = 1

instance (cards : List Card) : Decidable (IsThreeOfAKindRef cards) := by
  unfold IsThreeOfAKindRef; infer_instance

/-- Reference two pair: exactly two ranks occur twice. -/
def IsTwoPairRef (cards : List Card) : Prop :=
  ∃ x ∈ ranksOf cards, ∃ y ∈ ranksOf cards, x ≠ y ∧
    (ranksOf cards).count x = 2 ∧ (ranksOf cards).count y = 2 ∧
    ∀ z ∈ ranksOf cards, (ranksOf cards).count z = 2 → z = x ∨ z = y

instance (cards : List Card) : Decidable (IsTwoPairRef cards) := by
  unfold IsTwoPairRef; infer_instance

/-- Reference pair: exactly one rank occurs twice and every other rank held
occurs once (the other three are distinct). -/
def IsPairRef (cards : List Card) : Prop :=
  ∃ x ∈ ranksOf cards, (ranksOf cards).count x = 2 ∧
    ∀ y ∈ ranksOf cards, y ≠ x → (ranksOf cards).count y = 1

instance (cards : List Card) : Decidable (IsPairRef cards) := by
  unfold IsPairRef; infer_instance

/-- Reference high card: all ranks are distinct. -/
def IsHighCardRef (cards : List Card) : Prop := (ranksOf cards).Nodup

instance (cards : List Card) : Decidable (IsHighCardRef cards) := by
  unfold IsHighCardRef; infer_instance

/-! ## utils.go -/

/-- The variables captured by the closure generate of Combinations: the
buffer combination and the slice result. -/
structure GenState (α : Type) where
  combination : List α
  result : List (List α)

/-- The closure generate(start, depth) of Combinations, acting on the captured
variables. The recursion goes from depth to depth + 1 and stops at depth = n;
`fuel` bounds the recursion depth and Combinations passes n. The loop
`for i := start; i <= len(items)-(n-depth); i++` visits the indices
start, start+1, ... up to the bound. -/
def generate {α : Type} [Inhabited α] (items : List α) (n : Nat) :
    Nat → Nat → Nat → GenState α → GenState α
  | 0, _, depth, st =>
    if depth = n then { st with result := st.result ++ [st.combination] } else st
  | fuel + 1, start, depth, st =>
    if depth = n then { st with result := st.result ++ [st.combination] }
    else
      (List.range' start (items.length - (n - depth) + 1 - start)).foldl
        (fun s i =>
          generate items n fuel (i + 1) (depth + 1)
            { s with combination := s.combination.set depth (items.getD i default) })
        st

/-- Combinations of utils.go. The nil result is the empty list; `default` is
the zero value of the element type, which fills the fresh buffer. -/
def Combinations {α : Type} [Inhabited α] (items : List α) (n : Int) : List (List α) :=
  if n ≤ 0 ∨ n > items.length then []
  else
    (generate items n.toNat n.toNat 0 0
      { combination := List.replicate n.toNat default, result := [] }).result

instance : Inhabited Card := ⟨{ Rank := 0, Suit := CardSuit.Clubs }⟩

/-- CardCombinations of utils.go. -/
def CardCombinations (cards : List Card) (n : Int) : List (List Card) :=
  Combinations cards n

/-- Reference enumeration of the k-element selections of a list, in the order
of the input: first those that take the head, then those that skip it. -/
def combosRef {α : Type} : List α → Nat → List (List α)
  | _, 0 => [[]]
  | [], _ + 1 => []
  | x :: xs, k + 1 => (combosRef xs k).map (fun c => x :: c) ++ combosRef xs (k + 1)

/-- Reference list of the strictly increasing index tuples i1 < ... < ik below
n, in lexicographic order. -/
def indexTuples (n k : Nat) : List (List Nat) := combosRef (List.range n) k

/-- The six cards A A K Q J T of spades, the ace given twice. -/
def sixWithDuplicate : List Card :=
  [NewCard Ace CardSuit.Spades, NewCard Ace CardSuit.Spades, NewCard King CardSuit.Spades,
    NewCard Queen CardSuit.Spades, NewCard Jack CardSuit.Spades, NewCard Ten CardSuit.Spades]

/-- The five cards of TestNewHandDuplicates: the ace of spades given twice. -/
def fiveWithDuplicate : List Card :=
  [NewCard Ace CardSuit.Spades, NewCard Ace CardSuit.Spades, NewCard King CardSuit.Spades,
    NewCard Queen CardSuit.Spades, NewCard Jack CardSuit.Spades]

/-- The seven cards of TestCardCombinations. -/
def sevenCards : List Card :=
  [NewCard Ace CardSuit.Spades, NewCard King CardSuit.Hearts, NewCard Queen CardSuit.Diamonds,
    NewCard Jack CardSuit.Clubs, NewCard Ten CardSuit.Spades, NewCard Nine CardSuit.Hearts,
    NewCard Eight CardSuit.Diamonds]

/-! ## equity.go -/

/-- EquityResult of equity.go. The field Equity is a float64 in the source; it
holds the exact rational value of the expression when the divisor Total is not
zero, and `none` when Total is zero (the source then computes 0/0, not a
number). -/
structure EquityResult where
  Wins : Int
  Ties : Int
  Losses : Int
  Total : Int
  Equity : Option Rat
deriving DecidableEq, Repr

/-- EquityCalculator of equity.go. -/
structure EquityCalculator where
  workers : Nat
deriving DecidableEq, Repr

/-- NewEquityCalculator of equity.go; `numCPU` is the value of runtime.NumCPU(). -/
def NewEquityCalculator (numCPU : Nat) (workers : Int) : EquityCalculator :=
  if workers ≤ 0 then { workers := numCPU } else { workers := workers.toNat }

/-- AllSuits of card.go. -/
def AllSuits : List CardSuit :=
  [CardSuit.Clubs, CardSuit.Diamonds, CardSuit.Hearts, CardSuit.Spades]

/-- AllRanks of card.go. -/
def AllRanks : List Nat :=
  [Two, Three, Four, Five, Six, Seven, Eight, Nine, Ten, Jack, Queen, King, Ace]

/-- The code point of the string string(rune(x)) for a non-negative int `x`:
rune(x) keeps the low 32 bits as an int32, and the conversion to a string
gives U+FFFD for what is no valid code point (a negative value, a surrogate
half, a value above U+10FFFF). -/
def runeString (x : Nat) : Nat :=
  let r := x % 4294967296
  if r < 55296 ∨ (57344 ≤ r ∧ r ≤ 1114111) then r else 65533

/-- The key cardKey(c) of equity.go: string(rune(c.Rank)) + string(rune(c.Suit)).
A string of two characters is determined by its two code points, so the key is
the pair of the code point of the rank and the suit (the four suits are the
code points 0 to 3). -/
def cardKey (c : Card) : Nat × CardSuit := (runeString c.Rank, c.Suit)

/-- The statement usedCards[key] = true on the key set of the map. -/
def setUsed (usedCards : List (Nat × CardSuit)) (key : Nat × CardSuit) :
    List (Nat × CardSuit) :=
  if key ∈ usedCards then usedCards else usedCards ++ [key]

/-- The two loops of Calculate and CalculateExact that fill usedCards from
the hole cards and the board. -/
def buildUsedCards (holeCards : List (List Card)) (board : List Card) :
    List (Nat × CardSuit) :=
  let afterHoles := holeCards.foldl
    (fun used hole => hole.foldl (fun used c => setUsed used (cardKey c)) used) []
  board.foldl (fun used c => setUsed used (cardKey c)) afterHoles

/-- buildRemainingDeck of equity.go. The result is `none` when the capacity
52 - len(usedCards) of the make call is negative (the call panics). -/
def buildRemainingDeck (usedCards : List (Nat × CardSuit)) : Option (List Card) :=
  if usedCards.length > 52 then none
  else
    some (AllSuits.foldl
      (fun deck suit =>
        AllRanks.foldl
          (fun deck rank =>
            let c := NewCard rank suit
            if cardKey c ∈ usedCards then deck else deck ++ [c])
          deck)
      [])

/-- findBestHand of equity.go; `none` is the nil hand. -/
def findBestHand (cards : List Card) : Option Hand :=
  (CardCombinations cards 5).foldl
    (fun best combo =>
      match NewHand combo with
      | Except.error _ => best
      | Except.ok hand =>
        match best with
        | none => some hand
        | some b => if hand.Beats b then some hand else best)
    none

/-- The local variables winners and bestHand of findWinnerIndices. -/
structure WinnerState where
  winners : List Nat
  bestHand : Option Hand

/-- One iteration of the loop of findWinnerIndices at index `i`. -/
def winnerStep (st : WinnerState) (i : Nat) (hand : Option Hand) : WinnerState :=
  match hand with
  | none => st
  | some hand =>
    match st.bestHand with
    | none => { winners := [i], bestHand := some hand }
    | some best =>
      let cmp := hand.Compare best
      if cmp > 0 then { winners := [i], bestHand := some hand }
      else if cmp = 0 then { st with winners := st.winners ++ [i] }
      else st

/-- findWinnerIndices of equity.go. -/
def findWinnerIndices (hands : List (Option Hand)) : List Nat :=
  (hands.enum.foldl (fun st ih => winnerStep st ih.1 ih.2)
    { winners := [], bestHand := none }).winners

/-- The call atomic.AddInt64(&xs[idx], 1), and xs[idx]++. -/
def incrAt : List Nat → Nat → List Nat
  | [], _ => []
  | x :: xs, 0 => (x + 1) :: xs
  | x :: xs, idx + 1 => x :: incrAt xs idx

/-- The update of the counters (wins, ties) by the winner set of one trial. -/
def recordWinners (counters : List Nat × List Nat) (winnerIndices : List Nat) :
    List Nat × List Nat :=
  if winnerIndices.length = 1 then (incrAt counters.1 (winnerIndices.getD 0 0), counters.2)
  else (counters.1, winnerIndices.foldl incrAt counters.2)

/-- The winner set of one trial: the board is completed by `boardCards`, every
player's best hand is searched, and the winners are determined. -/
def trialWinners (holeCards : List (List Card)) (board boardCards : List Card) : List Nat :=
  let fullBoard := board ++ boardCards
  let bestHands := holeCards.map (fun hole => findBestHand (hole ++ fullBoard))
  findWinnerIndices bestHands

/-- EquityCalculator.runSimulations of equity.go on the counters (wins, ties).
`shuffle sim deck` is the deck after the call shuffleDeck of trial `sim`.
The result is `none` when a trial panics: the make call with length
len(board) above the capacity 5, or the slice localDeck[:cardsNeeded] out of
range; a panic ends the run (`bind`). -/
def runSimulations (shuffle : Nat → List Card → List Card) (holeCards : List (List Card))
    (board deck : List Card) (cardsNeeded : Int) (numSims : Nat)
    (counters : List Nat × List Nat) : Option (List Nat × List Nat) :=
  (List.range numSims).foldl
    (fun acc sim =>
      acc.bind (fun st =>
        let localDeck := shuffle sim deck
        if board.length > 5 then none
        else if cardsNeeded < 0 ∨ cardsNeeded > localDeck.length then none
        else some (recordWinners st
          (trialWinners holeCards board (localDeck.take cardsNeeded.toNat)))))
    (some counters)

/-- The EquityResult literal built at the end of Calculate and CalculateExact
from a player's counters. -/
def mkEquityResult (w t : Nat) (total : Nat) (numPlayers : Nat) : EquityResult :=
  { Wins := w, Ties := t, Losses := (total : Int) - w - t, Total := total,
    Equity :=
      if total = 0 then none
      else some (((w : Rat) + (t : Rat) / (numPlayers : Rat)) / (total : Rat)) }

/-- EquityCalculator.Calculate of equity.go. `shuffle w sim deck` is the
outcome of the shuffle of trial `sim` of worker `w`; `simulations` is a
non-negative trial count. The workers only add to the shared counters, so they
are run one after the other. The result is `none` when the call panics
(buildRemainingDeck, the division by ec.workers = 0, or a trial). -/
def EquityCalculator.Calculate (ec : EquityCalculator)
    (shuffle : Nat → Nat → List Card → List Card) (holeCards : List (List Card))
    (board : List Card) (simulations : Nat) : Option (List EquityResult) :=
  let numPlayers := holeCards.length
  let wins := List.replicate numPlayers 0
  let ties := List.replicate numPlayers 0
  match buildRemainingDeck (buildUsedCards holeCards board) with
  | none => none
  | some remainingDeck =>
    let cardsNeeded : Int := 5 - (board.length : Int)
    if ec.workers = 0 then none
    else
      let simsPerWorker := simulations / ec.workers
      let remainder := simulations % ec.workers
      let final := (List.range ec.workers).foldl
        (fun acc w =>
          acc.bind (fun st =>
            let workerSims := if w < remainder then simsPerWorker + 1 else simsPerWorker
            runSimulations (shuffle w) holeCards board remainingDeck cardsNeeded workerSims st))
        (some (wins, ties))
      match final with
      | none => none
      | some st =>
        some ((List.range numPlayers).map
          (fun i => mkEquityResult (st.1.getD i 0) (st.2.getD i 0) simulations numPlayers))

/-- The outcomes of CalculateExact: a panic (or the deadlock of the semaphore
of capacity 0), the nil result, or the results. -/
inductive ExactOutcome where
  | panicked
  | notComputed
  | results (rs : List EquityResult)
deriving DecidableEq, Repr

/-- EquityCalculator.CalculateExact of equity.go. The goroutines only send
their winner sets, which are added to the counters one after the other. -/
def EquityCalculator.CalculateExact (ec : EquityCalculator) (holeCards : List (List Card))
    (board : List Card) (maxCombinations : Int) : ExactOutcome :=
  match buildRemainingDeck (buildUsedCards holeCards board) with
  | none => ExactOutcome.panicked
  | some remainingDeck =>
    let cardsNeeded : Int := 5 - (board.length : Int)
    let combos := Combinations remainingDeck cardsNeeded
    if (combos.length : Int) > maxCombinations then ExactOutcome.notComputed
    else
      let numPlayers := holeCards.length
      let total := combos.length
      if ec.workers = 0 ∧ combos ≠ [] then ExactOutcome.panicked
      else
        let st := combos.foldl
          (fun st combo => recordWinners st (trialWinners holeCards board combo))
          (List.replicate numPlayers 0, List.replicate numPlayers 0)
        ExactOutcome.results ((List.range numPlayers).map
          (fun i => mkEquityResult (st.1.getD i 0) (st.2.getD i 0) total numPlayers))

/-- The hole cards of TestEquityCalculatorExact: A A against K K. -/
def acesVsKings : List (List Card) :=
  [[NewCard Ace CardSuit.Spades, NewCard Ace CardSuit.Hearts],
    [NewCard King CardSuit.Spades, NewCard King CardSuit.Hearts]]

/-- The 4-card board of TestEquityCalculatorExact. -/
def turnBoard : List Card :=
  [NewCard Two CardSuit.Clubs, NewCard Five CardSuit.Diamonds, NewCard Nine CardSuit.Hearts,
    NewCard Jack CardSuit.Spades]

/-- A complete 5-card board: the board above and the three of clubs. -/
def riverBoard : List Card :=
  [NewCard Two CardSuit.Clubs, NewCard Five CardSuit.Diamonds, NewCard Nine CardSuit.Hearts,
    NewCard Jack CardSuit.Spades, NewCard Three CardSuit.Clubs]

/-- The counters of one player after some trials: wins[i] + ties[i] is at most
the number `trials` of trials run so far. -/
def CountersWithin (counters : List Nat × List Nat) (trials : Nat) : Prop :=
  ∀ i, counters.1.getD i 0 + counters.2.getD i 0 ≤ trials

/-- The invariant of an EquityResult: the three counts are non-negative and
add up to Total (so Wins + Ties is at most Total). -/
def ResultInvariant (r : EquityResult) : Prop :=
  0 ≤ r.Wins ∧ 0 ≤ r.Ties ∧ 0 ≤ r.Losses ∧ r.Wins + r.Ties + r.Losses = r.Total ∧
    r.Wins + r.Ties ≤ r.Total

instance (r : EquityResult) : Decidable (ResultInvariant r) := by
  unfold ResultInvariant; infer_instance

/-- The 52 cards in the order in which buildRemainingDeck visits them: suit by
suit over AllSuits, rank by rank over AllRanks. -/
def fullDeck : List Card :=
  AllSuits.flatMap (fun suit => AllRanks.map (fun rank => NewCard rank suit))

/-! ## board.go -/

/-- BoardState of board.go. -/
inductive BoardState where
  | Preflop
  | Flop
  | Turn
  | River
deriving DecidableEq, Repr

/-- Board of board.go. -/
structure Board where
  Cards : List Card
deriving DecidableEq, Repr

/-- NewBoard of board.go. -/
def NewBoard : Board := { Cards := [] }

/-- Board.State: the switch on len(b.Cards). -/
def Board.State (b : Board) : BoardState :=
  if b.Cards.length = 0 then BoardState.Preflop
  else if b.Cards.length = 3 then BoardState.Flop
  else if b.Cards.length = 4 then BoardState.Turn
  else if b.Cards.length = 5 then BoardState.River
  else BoardState.Preflop

/-- Board.SetFlop: the board after the call and the error returned (`none` is
the nil error). -/
def Board.SetFlop (b : Board) (cards : List Card) : Board × Option GoError :=
  if cards.length ≠ 3 then (b, some GoError.ErrInvalidBoardState)
  else if b.Cards.length ≠ 0 then (b, some GoError.ErrInvalidBoardState)
  else ({ Cards := b.Cards ++ cards }, none)

/-- Board.SetTurn. -/
def Board.SetTurn (b : Board) (card : Card) : Board × Option GoError :=
  if b.Cards.length ≠ 3 then (b, some GoError.ErrInvalidBoardState)
  else ({ Cards := b.Cards ++ [card] }, none)

/-- Board.SetRiver. -/
def Board.SetRiver (b : Board) (card : Card) : Board × Option GoError :=
  if b.Cards.length ≠ 4 then (b, some GoError.ErrInvalidBoardState)
  else ({ Cards := b.Cards ++ [card] }, none)

/-- A call of one of the three setters of a board. -/
inductive BoardCall where
  | setFlop (cards : List Card)
  | setTurn (card : Card)
  | setRiver (card : Card)
deriving DecidableEq, Repr

/-- The board after a call of a setter, whether the call succeeds or fails. -/
def Board.after (b : Board) (call : BoardCall) : Board :=
  match call with
  | BoardCall.setFlop cards => (b.SetFlop cards).1
  | BoardCall.setTurn card => (b.SetTurn card).1
  | BoardCall.setRiver card => (b.SetRiver card).1

/-! ## deck.go -/

/-- Deck of deck.go; the top of the deck is the end of the list. -/
structure Deck where
  cards : List Card
deriving DecidableEq, Repr

/-- Deck.Shuffle; `shuffle` is the outcome of rand.Shuffle on the slice. -/
def Deck.Shuffle (shuffle : List Card → List Card) (d : Deck) : Deck :=
  { cards := shuffle d.cards }

/-- NewDeck of deck.go: the 52 cards, suit by suit and rank by rank, then
shuffled. -/
def NewDeck (shuffle : List Card → List Card) : Deck :=
  Deck.Shuffle shuffle
    { cards := AllSuits.foldl
        (fun cards suit =>
          AllRanks.foldl (fun cards rank => cards ++ [NewCard rank suit]) cards)
        [] }

/-- Deck.Len. -/
def Deck.Len (d : Deck) : Nat := d.cards.length

/-- Deck.Draw: the deck after the call and the result. -/
def Deck.Draw (d : Deck) : Deck × Except GoError Card :=
  if d.cards.length = 0 then (d, Except.error GoError.ErrEmptyDeck)
  else
    ({ cards := d.cards.take (d.cards.length - 1) },
      Except.ok (d.cards.getD (d.cards.length - 1) default))

/-- The loop of Deck.DrawMany with `k` draws to go; `drawn` holds the cards
drawn so far. -/
def Deck.drawLoop : Nat → Deck → List Card → Deck × Except GoError (List Card)
  | 0, d, drawn => (d, Except.ok drawn)
  | k + 1, d, drawn =>
    match d.Draw with
    | (d2, Except.error err) => (d2, Except.error err)
    | (d2, Except.ok card) => Deck.drawLoop k d2 (drawn ++ [card])

/-- Deck.DrawMany for a count `n >= 0`: the deck after the call and the
result. -/
def Deck.DrawMany (d : Deck) (n : Nat) : Deck × Except GoError (List Card) :=
  Deck.drawLoop n d []

/-- Deck.Burn. -/
def Deck.Burn (d : Deck) : Deck × Option GoError :=
  match d.Draw with
  | (d2, Except.error err) => (d2, some err)
  | (d2, Except.ok _) => (d2, none)

/-- Deck.Remaining. -/
def Deck.Remaining (d : Deck) : List Card := d.cards

/-! ## player.go (operations) -/

/-- NewPlayer of player.go. -/
def NewPlayer (name : String) : Player := { Name := name, HoleCards := [] }

/-- Player.SetHoleCards: the player after the call and the error returned. -/
def Player.SetHoleCards (p : Player) (cards : List Card) : Player × Option GoError :=
  if cards.length ≠ 2 then (p, some GoError.ErrInvalidHoleCards)
  else ({ p with HoleCards := cards }, none)

/-! ## game.go -/

/-- Game of game.go; the three pointers are held by value, and a method that
changes the deck, the board or a player returns the game after the call. -/
structure Game where
  Deck : Deck
  Board : Board
  Players : List Player
deriving DecidableEq, Repr

/-- The loop of Game.DealHoleCards over the players still to be served;
`served` holds the players already served. The result is the deck, all the
players and the error returned. -/
def dealHoleCardsLoop : List Player → Deck → List Player → Deck × List Player × Option GoError
  | [], d, served => (d, served, none)
  | player :: rest, d, served =>
    match d.DrawMany 2 with
    | (d2, Except.error err) => (d2, served ++ player :: rest, some err)
    | (d2, Except.ok cards) =>
      match player.SetHoleCards cards with
      | (p2, some err) => (d2, served ++ p2 :: rest, some err)
      | (p2, none) => dealHoleCardsLoop rest d2 (served ++ [p2])

/-- Game.DealHoleCards: the game after the call and the error returned. -/
def Game.DealHoleCards (g : Game) : Game × Option GoError :=
  match dealHoleCardsLoop g.Players g.Deck [] with
  | (d, players, err) => ({ g with Deck := d, Players := players }, err)

/-- NewGame of game.go; `shuffle` is the outcome of the shuffle of the new
deck. The result is `none` when numPlayers is negative (the make call
panics). The error of DealHoleCards is dropped, as in the source. -/
def NewGame (shuffle : List Card → List Card) (numPlayers : Int) : Option Game :=
  if numPlayers < 0 then none
  else
    let g : Game :=
      { Deck := NewDeck shuffle, Board := NewBoard,
        Players := (List.range numPlayers.toNat).map
          (fun i => NewPlayer ("Player " ++ toString (i + 1))) }
    some g.DealHoleCards.1

/-- Game.DealFlop: the game after the call and the error returned. -/
def Game.DealFlop (g : Game) : Game × Option GoError :=
  if g.Board.State ≠ BoardState.Preflop then (g, some GoError.ErrInvalidBoardState)
  else
    match g.Deck.Burn with
    | (d1, some err) => ({ g with Deck := d1 }, some err)
    | (d1, none) =>
      match d1.DrawMany 3 with
      | (d2, Except.error err) => ({ g with Deck := d2 }, some err)
      | (d2, Except.ok cards) =>
        ({ g with Deck := d2, Board := (g.Board.SetFlop cards).1 }, (g.Board.SetFlop cards).2)

/-- Game.DealTurn. -/
def Game.DealTurn (g : Game) : Game × Option GoError :=
  if g.Board.State ≠ BoardState.Flop then (g, some GoError.ErrInvalidBoardState)
  else
    match g.Deck.Burn with
    | (d1, some err) => ({ g with Deck := d1 }, some err)
    | (d1, none) =>
      match d1.Draw with
      | (d2, Except.error err) => ({ g with Deck := d2 }, some err)
      | (d2, Except.ok card) =>
        ({ g with Deck := d2, Board := (g.Board.SetTurn card).1 }, (g.Board.SetTurn card).2)

/-- Game.DealRiver. -/
def Game.DealRiver (g : Game) : Game × Option GoError :=
  if g.Board.State ≠ BoardState.Turn then (g, some GoError.ErrInvalidBoardState)
  else
    match g.Deck.Burn with
    | (d1, some err) => ({ g with Deck := d1 }, some err)
    | (d1, none) =>
      match d1.Draw with
      | (d2, Except.error err) => ({ g with Deck := d2 }, some err)
      | (d2, Except.ok card) =>
        ({ g with Deck := d2, Board := (g.Board.SetRiver card).1 }, (g.Board.SetRiver card).2)

/-- Game.DealNextStreet. -/
def Game.DealNextStreet (g : Game) : Game × Option GoError :=
  match g.Board.State with
  | BoardState.Preflop => g.DealFlop
  | BoardState.Flop => g.DealTurn
  | BoardState.Turn => g.DealRiver
  | BoardState.River => (g, some GoError.ErrInvalidBoardState)

/-- Game.GetCandidateHands. -/
def Game.GetCandidateHands (g : Game) (player : Player) : Except GoError (List Hand) :=
  if g.Board.Cards.length < 3 then Except.error GoError.ErrInvalidBoardState
  else
    let allCards := player.HoleCards ++ g.Board.Cards
    let combos := CardCombinations allCards 5
    Except.ok (combos.foldl
      (fun hands combo =>
        match NewHandWithPlayer combo player with
        | Except.error _ => hands
        | Except.ok hand => hands ++ [hand])
      [])

/-- Game.GetBestHand. -/
def Game.GetBestHand (g : Game) (player : Player) : Except GoError Hand :=
  match g.GetCandidateHands player with
  | Except.error err => Except.error err
  | Except.ok hands =>
    match hands with
    | [] => Except.error GoError.ErrInvalidBoardState
    | first :: rest =>
      Except.ok (rest.foldl (fun best hand => if hand.Beats best then hand else best) first)

/-- The loop "find the winning hand(s)" of GetWinners and GetWinnersParallel
over the values of the local type playerHand, here pairs of a player and a
hand. -/
def findWinners {α : Type} (bestHands : List (α × Hand)) : List (α × Hand) :=
  bestHands.foldl
    (fun winners ph =>
      match winners with
      | [] => [ph]
      | first :: _ =>
        let cmp := ph.2.Compare first.2
        if cmp > 0 then [ph]
        else if cmp = 0 then winners ++ [ph]
        else winners)
    []

/-- Game.GetWinners: the winning players and their hands, or the error. -/
def Game.GetWinners (g : Game) : Except GoError (List Player × List Hand) :=
  if g.Board.State ≠ BoardState.River then Except.error GoError.ErrInvalidBoardState
  else
    let bestHands := g.Players.foldl
      (fun acc player =>
        match acc with
        | Except.error err => Except.error err
        | Except.ok bestHands =>
          match g.GetBestHand player with
          | Except.error err => Except.error err
          | Except.ok best => Except.ok (bestHands ++ [(player, best)]))
      (Except.ok [])
    match bestHands with
    | Except.error err => Except.error err
    | Except.ok bestHands =>
      let winners := findWinners bestHands
      Except.ok (winners.map (fun w => w.1), winners.map (fun w => w.2))

/-! ## parallel.go -/

/-- The first error among the entries of the results of GetWinnersParallel. -/
def firstError : List (Player × Except GoError Hand) → Option GoError
  | [] => none
  | (_, Except.error err) :: _ => some err
  | (_, Except.ok _) :: rest => firstError rest

/-- The hands of the entries of the results that hold one. -/
def playerHands : List (Player × Except GoError Hand) → List (Player × Hand)
  | [] => []
  | (_, Except.error _) :: rest => playerHands rest
  | (p, Except.ok hand) :: rest => (p, hand) :: playerHands rest

/-- Game.GetWinnersParallel. One goroutine per player writes its entry of
results; `order` lists the indices of the goroutines in the order in which
they write. The call returns after all of them have written (wg.Wait); the
result is `none` if an entry was never written. -/
def Game.GetWinnersParallel (order : List Nat) (g : Game) :
    Option (Except GoError (List Player × List Hand)) :=
  if g.Board.State ≠ BoardState.River then some (Except.error GoError.ErrInvalidBoardState)
  else
    let written : List (Option (Player × Except GoError Hand)) :=
      order.foldl
        (fun results idx =>
          match g.Players.get? idx with
          | none => results
          | some p => results.set idx (some (p, g.GetBestHand p)))
        (List.replicate g.Players.length none)
    if written.all Option.isSome then
      let results := written.filterMap id
      match firstError results with
      | some err => some (Except.error err)
      | none =>
        let winners := findWinners (playerHands results)
        some (Except.ok (winners.map (fun w => w.1), winners.map (fun w => w.2)))
    else none

/-- EvaluateHandsBatch of parallel.go; `numCPU` is the value of
runtime.NumCPU(), and `order` lists the indices of the goroutines in the
order in which they reach their write to results. An entry that is never
written keeps the nil hand. The result is `none` when the semaphore has
capacity 0 and there is a goroutine to run (no goroutine ever proceeds). -/
def EvaluateHandsBatch (numCPU : Nat) (order : List Nat) (cardSets : List (List Card))
    (workers : Int) : Option (List (Option Hand)) :=
  let workers : Int := if workers ≤ 0 then (numCPU : Int) else workers
  if workers = 0 ∧ cardSets ≠ [] then none
  else
    some (order.foldl
      (fun results idx =>
        match cardSets.get? idx with
        | none => results
        | some c =>
          match NewHand c with
          | Except.error _ => results
          | Except.ok hand => results.set idx (some hand))
      (List.replicate cardSets.length none))

/-- EvaluateAndCompareBatch of parallel.go: the loop over the hands is the
loop of findWinnerIndices, and both of its variables are returned. -/
def EvaluateAndCompareBatch (numCPU : Nat) (order : List Nat) (cardSets : List (List Card))
    (workers : Int) : Option (List Nat × Option Hand) :=
  match EvaluateHandsBatch numCPU order cardSets workers with
  | none => none
  | some hands =>
    let st := hands.enum.foldl (fun st ih => winnerStep st ih.1 ih.2)
      { winners := [], bestHand := none }
    some (st.winners, st.bestHand)

/-- The key by which Compare orders two evaluated hands: the category, then
the wheel rule, then the tie-break score. -/
def compareKey (h : Hand) : Lex (Nat × Lex (Nat × Nat)) :=
  toLex (h.handRank, toLex (wheelKey h, h.TiebreakScore))

/-- The hand `h` is an evaluated hand of 5 distinct cards with ranks 2..14. -/
def GoodHand (h : Hand) : Prop := ∃ cards, Built h cards ∧ ValidCards cards

/-- The seven cards of TestFindBestHand. -/
def royalPlusTwo : List Card :=
  [NewCard Ace CardSuit.Spades, NewCard King CardSuit.Spades, NewCard Queen CardSuit.Spades,
    NewCard Jack CardSuit.Spades, NewCard Ten CardSuit.Spades, NewCard Two CardSuit.Hearts,
    NewCard Three CardSuit.Hearts]

/-- The board of TestGameMultipleWinners: 4d 5c 6d Kc Qc. -/
def splitBoard : List Card :=
  [NewCard Four CardSuit.Diamonds, NewCard Five CardSuit.Clubs, NewCard Six CardSuit.Diamonds,
    NewCard King CardSuit.Clubs, NewCard Queen CardSuit.Clubs]

/-- The game of TestGameMultipleWinners: two players holding 2-3 in spades and
in hearts on the board 4d 5c 6d Kc Qc. -/
def splitPotGame : Game :=
  { Deck := NewDeck (fun d => d),
    Board := { Cards := splitBoard },
    Players :=
      [{ Name := "Player 1",
         HoleCards := [NewCard Two CardSuit.Spades, NewCard Three CardSuit.Spades] },
       { Name := "Player 2",
         HoleCards := [NewCard Two CardSuit.Hearts, NewCard Three CardSuit.Hearts] }] }

/-- A game at the river whose board holds the ace of spades five times (the
setters accept any cards), with one player holding Ks Qs. -/
def repeatedBoardGame : Game :=
  { Deck := NewDeck (fun d => d),
    Board := { Cards := List.replicate 5 (NewCard Ace CardSuit.Spades) },
    Players :=
      [{ Name := "Player 1",
         HoleCards := [NewCard King CardSuit.Spades, NewCard Queen CardSuit.Spades] }] }

/-- Three players: 2-3 in spades, 2-3 in hearts, and Ad Jd. On the board
4d 5c 6d Kc Qc the first two split the pot with a six-high straight. -/
def splitOfThree : List (List Card) :=
  [[NewCard Two CardSuit.Spades, NewCard Three CardSuit.Spades],
    [NewCard Two CardSuit.Hearts, NewCard Three CardSuit.Hearts],
    [NewCard Ace CardSuit.Diamonds, NewCard Jack CardSuit.Diamonds]]

/-- The sum over the players of the exact rational equity
(Wins + Ties/numPlayers) / Total of their results. -/
def equitySum (numPlayers : Nat) (rs : List EquityResult) : Rat :=
  (rs.map (fun r => ((r.Wins : Rat) + (r.Ties : Rat) / (numPlayers : Rat)) / (r.Total : Rat))).sum

/-- The counters (wins, ties) of `n` players after `T` trials in each of which
either one player won or at least two and at most all players tied. -/
def CountersSplit (n : Nat) (counters : List Nat × List Nat) (T : Nat) : Prop :=
  counters.1.length = n ∧ counters.2.length = n ∧
    n * counters.1.sum + counters.2.sum ≤ n * T ∧ 2 * T ≤ n * counters.1.sum + counters.2.sum

/-- The value of the variable workerSims of Calculate for worker `w`, when
`simulations` trials are split over `workers` workers. -/
def workerSims (simulations workers w : Nat) : Nat :=
  if w < simulations % workers then simulations / workers + 1 else simulations / workers

/-- The reduction of a list of per-trial winner sets into the counters
(wins, ties) of `numPlayers` players, from zero. -/
def aggregate (numPlayers : Nat) (winnerSets : List (List Nat)) : List Nat × List Nat :=
  winnerSets.foldl recordWinners (List.replicate numPlayers 0, List.replicate numPlayers 0)

/-- The runouts dealt by Calculate, worker by worker and trial by trial, from
the remaining deck `deck`. -/
def calculateRunouts (ec : EquityCalculator) (shuffle : Nat → Nat → List Card → List Card)
    (board deck : List Card) (simulations : Nat) : List (List Card) :=
  (List.range ec.workers).flatMap
    (fun w => (List.range (workerSims simulations ec.workers w)).map
      (fun sim => (shuffle w sim deck).take (5 - (board.length : Int)).toNat))

/-- The words "player i's best hand strictly beats every other player's best
hand" of the specification, on the best hands of one completion (`none` is the
nil hand, which is no hand). -/
def beatsAllOthers (hands : List (Option Hand)) (i : Nat) : Bool :=
  match hands.get? i with
  | some (some h) =>
    (List.range hands.length).all (fun j =>
      decide (j = i) ||
        match hands.get? j with
        | some (some h2) => h.Beats h2
        | _ => true)
  | _ => false

/-- The words "player i's best hand is unbeaten and at least one other player's
best hand ties it" of the specification, on the best hands of one completion. -/
def unbeatenAndTied (hands : List (Option Hand)) (i : Nat) : Bool :=
  match hands.get? i with
  | some (some h) =>
    (List.range hands.length).all (fun j =>
        match hands.get? j with
        | some (some h2) => !h2.Beats h
        | _ => true) &&
      (List.range hands.length).any (fun j =>
        decide (j ≠ i) &&
          match hands.get? j with
          | some (some h2) => h.Ties h2
          | _ => false)
  | _ => false

/-- The best hands of the players on the board completed by `boardCards`, as
computed in a trial. -/
def trialBestHands (holeCards : List (List Card)) (board boardCards : List Card) :
    List (Option Hand) :=
  holeCards.map (fun hole => findBestHand (hole ++ (board ++ boardCards)))

/-- A call of one of the dealing methods of a game. -/
inductive GameCall where
  | dealHoleCards
  | dealFlop
  | dealTurn
  | dealRiver
  | dealNextStreet
deriving DecidableEq, Repr

/-- The game after a call of a dealing method, whether the call succeeds or
fails. -/
def Game.after (g : Game) (call : GameCall) : Game :=
  match call with
  | GameCall.dealHoleCards => g.DealHoleCards.1
  | GameCall.dealFlop => g.DealFlop.1
  | GameCall.dealTurn => g.DealTurn.1
  | GameCall.dealRiver => g.DealRiver.1
  | GameCall.dealNextStreet => g.DealNextStreet.1

/-- The hole cards of all players, the board cards and the cards remaining in
the deck of a game. -/
def Game.allCards (g : Game) : List Card :=
  (g.Players.map (fun p => p.HoleCards)).flatten ++ g.Board.Cards ++ g.Deck.cards

/-! # Properties -/

/-! ## The insertion sort -/

theorem insertLeft_perm {α : Type} (less : α → α → Bool) (x : α) (l : List α) :
    (insertLeft less x l).Perm (x :: l) := by
  induction l with
  | nil => simp [insertLeft]
  | cons y ys ih =>
    simp only [insertLeft]
    split
    · exact (List.Perm.cons y ih).trans (List.Perm.swap x y ys)
    · exact List.Perm.refl _

theorem foldl_insertLeft_perm {α : Type} (less : α → α → Bool) (s acc : List α) :
    (s.foldl (fun acc x => insertLeft less x acc) acc).Perm (s ++ acc) := by
  induction s generalizing acc with
  | nil => simp
  | cons x xs ih =>
    simp only [List.foldl_cons]
    refine (ih _).trans ?_
    refine (List.Perm.append_left xs (insertLeft_perm less x acc)).trans ?_
    exact List.perm_middle

theorem sortSlice_perm {α : Type} (less : α → α → Bool) (s : List α) :
    (sortSlice less s).Perm s := by
  unfold sortSlice
  refine (List.reverse_perm _).trans ?_
  simpa using foldl_insertLeft_perm less s []

theorem insertLeft_pairwise {α : Type} (less : α → α → Bool)
    (hasymm : ∀ a b, less a b = true → less b a = false)
    (htrans : ∀ a b c, less a b = false → less b c = false → less a c = false)
    (x : α) (l : List α) (hl : l.Pairwise (fun a b => less a b = false)) :
    (insertLeft less x l).Pairwise (fun a b => less a b = false) := by
  induction l with
  | nil => simp [insertLeft]
  | cons y ys ih =>
    rw [List.pairwise_cons] at hl
    simp only [insertLeft]
    split
    · rename_i hxy
      rw [List.pairwise_cons]
      refine ⟨?_, ih hl.2⟩
      intro z hz
      have hz2 := (insertLeft_perm less x ys).mem_iff.1 hz
      rw [List.mem_cons] at hz2
      rcases hz2 with rfl | hz2
      · exact hasymm _ _ hxy
      · exact hl.1 z hz2
    · rename_i hxy
      have hxy2 : less x y = false := by simpa using hxy
      rw [List.pairwise_cons]
      refine ⟨?_, List.pairwise_cons.2 hl⟩
      intro z hz
      rw [List.mem_cons] at hz
      rcases hz with rfl | hz
      · exact hxy2
      · exact htrans _ _ _ hxy2 (hl.1 z hz)

theorem sortSlice_pairwise {α : Type} (less : α → α → Bool)
    (hasymm : ∀ a b, less a b = true → less b a = false)
    (htrans : ∀ a b c, less a b = false → less b c = false → less a c = false)
    (s : List α) :
    (sortSlice less s).Pairwise (fun a b => less b a = false) := by
  unfold sortSlice
  rw [List.pairwise_reverse]
  suffices h : ∀ acc : List α, acc.Pairwise (fun a b => less a b = false) →
      (s.foldl (fun acc x => insertLeft less x acc) acc).Pairwise (fun a b => less a b = false) from
    h [] List.Pairwise.nil
  induction s with
  | nil => intro acc h; simpa using h
  | cons x xs ih =>
    intro acc h
    simp only [List.foldl_cons]
    exact ih _ (insertLeft_pairwise less hasymm htrans x acc h)

/-! ## Construction of a hand -/

theorem hasDuplicate_eq_false_iff (cards : List Card) (seen : List (Nat × CardSuit)) :
    hasDuplicate cards seen = false ↔
      cards.Nodup ∧ ∀ c ∈ cards, (c.Rank, c.Suit) ∉ seen := by
  induction cards generalizing seen with
  | nil => simp [hasDuplicate]
  | cons c rest ih =>
    simp only [hasDuplicate]
    by_cases hc : (c.Rank, c.Suit) ∈ seen
    · simp only [hc, if_true]
      constructor
      · intro h; cases h
      · intro h; exact absurd hc (h.2 c (List.mem_cons_self _ _))
    · simp only [hc, if_false]
      rw [ih, List.nodup_cons]
      constructor
      · rintro ⟨hnd, hall⟩
        refine ⟨⟨?_, hnd⟩, ?_⟩
        · intro hmem
          exact hall c hmem (List.mem_cons_self _ _)
        · intro d hd
          rw [List.mem_cons] at hd
          rcases hd with rfl | hd
          · exact hc
          · intro hmem
            exact hall d hd (List.mem_cons_of_mem _ hmem)
      · rintro ⟨⟨hnotin, hnd⟩, hall⟩
        refine ⟨hnd, ?_⟩
        intro d hd hmem
        rw [List.mem_cons] at hmem
        rcases hmem with heq | hmem
        · have : d = c := by
            cases d; cases c; simp only [Prod.mk.injEq] at heq; simp [heq.1, heq.2]
          exact hnotin (this ▸ hd)
        · exact hall d (List.mem_cons_of_mem _ hd) hmem

theorem NewHand_ok (cards : List Card) (hlen : cards.length = 5) (hnd : cards.Nodup) :
    NewHand cards =
      Except.ok (evaluate (zeroHand (sortSlice (fun a b => decide (a.Rank > b.Rank)) cards))) := by
  have hdup : hasDuplicate cards [] = false := by
    rw [hasDuplicate_eq_false_iff]; exact ⟨hnd, by simp⟩
  simp [NewHand, hlen, hdup]

theorem evaluate_Cards (cs : List Card) : (evaluate (zeroHand cs)).Cards = cs := rfl

theorem evaluate_cardValues (cs : List Card) :
    (evaluate (zeroHand cs)).cardValues = computeCardValues (zeroHand cs) := rfl

theorem testBit_foldl_or (cs : List Card) (v i : Nat) :
    (cs.foldl (fun values card => values ||| (1 <<< card.Rank)) v).testBit i =
      (v.testBit i || decide (i ∈ ranksOf cs)) := by
  induction cs generalizing v with
  | nil => simp [ranksOf]
  | cons c rest ih =>
    simp only [List.foldl_cons]
    rw [ih]
    simp only [Nat.testBit_or, Nat.one_shiftLeft, Nat.testBit_two_pow, ranksOf, List.map_cons,
      List.mem_cons]
    by_cases h1 : c.Rank = i
    · simp [h1]
    · have h2 : ¬ i = c.Rank := fun h => h1 h.symm
      simp [h1, h2]

theorem testBit_computeCardValues (h : Hand) (i : Nat) :
    (computeCardValues h).testBit i = decide (i ∈ ranksOf h.Cards) := by
  unfold computeCardValues
  rw [testBit_foldl_or]
  simp

theorem computeIsFlush_iff (h : Hand) (hne : h.Cards ≠ []) :
    computeIsFlush h = true ↔ AllSameSuit h.Cards := by
  unfold computeIsFlush AllSameSuit
  cases hc : h.Cards with
  | nil => exact absurd hc hne
  | cons c0 rest =>
    simp only [List.all_eq_true, decide_eq_true_eq, List.mem_cons]
    constructor
    · intro hall a ha b hb
      have h1 : a.Suit = c0.Suit := by
        rcases ha with rfl | ha
        · rfl
        · exact hall a ha
      have h2 : b.Suit = c0.Suit := by
        rcases hb with rfl | hb
        · rfl
        · exact hall b hb
      rw [h1, h2]
    · intro hall x hx
      exact hall x (Or.inr hx) c0 (Or.inl rfl)

theorem AllSameSuit_perm {l1 l2 : List Card} (hp : l1.Perm l2) :
    AllSameSuit l1 ↔ AllSameSuit l2 := by
  unfold AllSameSuit
  constructor
  · intro h a ha b hb
    exact h a (hp.mem_iff.2 ha) b (hp.mem_iff.2 hb)
  · intro h a ha b hb
    exact h a (hp.mem_iff.1 ha) b (hp.mem_iff.1 hb)

theorem ranksOf_perm {l1 l2 : List Card} (hp : l1.Perm l2) :
    (ranksOf l1).Perm (ranksOf l2) := hp.map _

theorem RanksExactly_perm {l1 l2 : List Card} (hp : l1.Perm l2) (s : List Nat) :
    RanksExactly l1 s ↔ RanksExactly l2 s := by
  unfold RanksExactly
  have hm : ∀ r, r ∈ ranksOf l1 ↔ r ∈ ranksOf l2 := fun r => (ranksOf_perm hp).mem_iff
  simp only [hm]

/-! ## The lowest set bit and the straight test -/

theorem lowestSetBit_eq (x k : Nat) (hx : x < 2 ^ 64) (hk : x.testBit k = true)
    (hlow : ∀ j, j < k → x.testBit j = false) : lowestSetBit x = 2 ^ k := by
  have hge : 2 ^ k ≤ x := Nat.testBit_implies_ge hk
  have hk64 : k < 64 := by
    by_contra hcon
    have : 2 ^ 64 ≤ 2 ^ k := Nat.pow_le_pow_right (by norm_num) (by omega)
    omega
  have hpos : 0 < x := Nat.lt_of_lt_of_le (Nat.pos_pow_of_pos k (by norm_num)) hge
  have hmod : x % 2 ^ (k + 1) = 2 ^ k := by
    apply Nat.eq_of_testBit_eq
    intro i
    rw [Nat.testBit_mod_two_pow, Nat.testBit_two_pow]
    by_cases hik : i < k
    · have : ¬ k = i := by omega
      simp [hlow i hik, this]
    · by_cases hik2 : i = k
      · subst hik2; simp [hk]
      · have h1 : ¬ i < k + 1 := by omega
        have h2 : ¬ k = i := by omega
        simp [h1, h2]
  have hxdecomp : x = 2 ^ (k + 1) * (x / 2 ^ (k + 1)) + 2 ^ k := by
    have := Nat.div_add_mod x (2 ^ (k + 1))
    rw [hmod] at this
    exact this.symm
  have hkpos : 0 < 2 ^ k := Nat.pos_pow_of_pos k (by norm_num)
  have hb1 : 2 ^ k < 2 ^ (k + 1) := by rw [Nat.pow_succ]; omega
  have hb2 : 2 ^ k - 1 < 2 ^ (k + 1) := by omega
  have hydecomp : x - 1 = 2 ^ (k + 1) * (x / 2 ^ (k + 1)) + (2 ^ k - 1) := by omega
  have hneg : (2 ^ 64 - x) % 2 ^ 64 = 2 ^ 64 - ((x - 1) + 1) := by
    rw [Nat.mod_eq_of_lt (by omega)]
    congr 1
    omega
  have hy : x - 1 < 2 ^ 64 := by omega
  unfold lowestSetBit
  apply Nat.eq_of_testBit_eq
  intro i
  rw [hneg, Nat.testBit_and, Nat.testBit_two_pow_sub_succ hy, Nat.testBit_two_pow]
  have hxi := Nat.testBit_mul_pow_two_add (x / 2 ^ (k + 1)) hb1 i
  rw [← hxdecomp] at hxi
  have hyi := Nat.testBit_mul_pow_two_add (x / 2 ^ (k + 1)) hb2 i
  rw [← hydecomp] at hyi
  rw [hxi, hyi]
  by_cases hik : i < k + 1
  · simp only [hik, if_true, Nat.testBit_two_pow, Nat.testBit_two_pow_sub_one]
    by_cases hik2 : k = i
    · subst hik2
      simp [hk64]
    · simp [hik2]
  · have hne : ¬ k = i := by omega
    simp only [hik, if_false, hne, decide_False]
    cases (x / 2 ^ (k + 1)).testBit (i - (k + 1)) <;> simp

theorem div_lowestSetBit_eq_iff (x k : Nat) (hx : x < 2 ^ 64) (hk : x.testBit k = true)
    (hlow : ∀ j, j < k → x.testBit j = false) :
    x / lowestSetBit x = straightValue ↔ ∀ i, x.testBit i = decide (k ≤ i ∧ i < k + 5) := by
  rw [lowestSetBit_eq x k hx hk hlow, ← Nat.shiftRight_eq_div_pow]
  constructor
  · intro h i
    by_cases hik : i < k
    · have : ¬ (k ≤ i ∧ i < k + 5) := by omega
      simp [hlow i hik, this]
    · have hi : i = k + (i - k) := by omega
      have h2 : (x >>> k).testBit (i - k) = (31 : Nat).testBit (i - k) := by rw [h]
      rw [Nat.testBit_shiftRight, ← hi] at h2
      rw [h2]
      have h31 : (31 : Nat) = 2 ^ 5 - 1 := by norm_num
      rw [h31, Nat.testBit_two_pow_sub_one]
      have : (i - k < 5) ↔ (k ≤ i ∧ i < k + 5) := by omega
      simp [this]
  · intro h
    apply Nat.eq_of_testBit_eq
    intro i
    rw [Nat.testBit_shiftRight, h]
    have h31 : (straightValue : Nat) = 2 ^ 5 - 1 := by norm_num
    rw [h31, Nat.testBit_two_pow_sub_one]
    have : (k ≤ k + i ∧ k + i < k + 5) ↔ i < 5 := by omega
    simp [this]

theorem testBit_wheelStraightValue (i : Nat) :
    wheelStraightValue.testBit i = decide (i ∈ [14, 2, 3, 4, 5]) := by
  by_cases hi : i < 15
  · interval_cases i <;> rfl
  · have h1 : wheelStraightValue.testBit i = false := by
      apply Nat.testBit_lt_two_pow
      calc wheelStraightValue < 2 ^ 15 := by norm_num
        _ ≤ 2 ^ i := Nat.pow_le_pow_right (by norm_num) (by omega)
    rw [h1]
    symm
    simp only [decide_eq_false_iff_not, List.mem_cons, List.mem_singleton, List.not_mem_nil,
      or_false]
    omega

theorem testBit_royalFlushValue (i : Nat) :
    royalFlushValue.testBit i = decide (i ∈ [10, 11, 12, 13, 14]) := by
  by_cases hi : i < 15
  · interval_cases i <;> rfl
  · have h1 : royalFlushValue.testBit i = false := by
      apply Nat.testBit_lt_two_pow
      calc royalFlushValue < 2 ^ 15 := by norm_num
        _ ≤ 2 ^ i := Nat.pow_le_pow_right (by norm_num) (by omega)
    rw [h1]
    symm
    simp only [decide_eq_false_iff_not, List.mem_cons, List.mem_singleton, List.not_mem_nil,
      or_false]
    omega

/-- A mask whose set bits are the ranks of `cards` equals a constant whose set
bits are listed in `s` exactly when the ranks are exactly `s`. -/
theorem mask_eq_iff_RanksExactly (v c : Nat) (cards : List Card) (s : List CardRank)
    (hv : ∀ i, v.testBit i = decide (i ∈ ranksOf cards))
    (hc : ∀ i, c.testBit i = decide (i ∈ s)) :
    v = c ↔ RanksExactly cards s := by
  unfold RanksExactly
  constructor
  · intro h
    subst h
    have hiff : ∀ i, i ∈ ranksOf cards ↔ i ∈ s := by
      intro i
      have := (hv i).symm.trans (hc i)
      simpa using this
    exact ⟨fun r hr => (hiff r).1 hr, fun r hr => (hiff r).2 hr⟩
  · rintro ⟨h1, h2⟩
    apply Nat.eq_of_testBit_eq
    intro i
    rw [hv, hc]
    have : i ∈ ranksOf cards ↔ i ∈ s := ⟨h1 i, h2 i⟩
    simp [this]

theorem mask_lt (v : Nat) (cards : List Card)
    (hv : ∀ i, v.testBit i = decide (i ∈ ranksOf cards))
    (hr : ∀ c ∈ cards, 2 ≤ c.Rank ∧ c.Rank ≤ 14) : v < 2 ^ 15 := by
  apply Nat.lt_pow_two_of_testBit
  intro i hi
  rw [hv]
  simp only [decide_eq_false_iff_not, ranksOf, List.mem_map, not_exists, not_and]
  intro c hc heq
  have := (hr c hc).2
  omega

/-- The bit trick of computeIsStraight against the reference definitions, for a
hand whose mask holds exactly the ranks of `cards`. -/
theorem computeIsStraight_spec (h : Hand) (cards : List Card)
    (hv : ∀ i, h.cardValues.testBit i = decide (i ∈ ranksOf cards))
    (hne : cards ≠ [])
    (hr : ∀ c ∈ cards, 2 ≤ c.Rank ∧ c.Rank ≤ 14) :
    ((computeIsStraight h).1 = true ↔ IsStraightRef cards) ∧
    ((computeIsStraight h).2 = true ↔ IsWheelRef cards) ∧
    h.cardValues ≠ 0 ∧ lowestSetBit h.cardValues ≠ 0 := by
  have hwheel : h.cardValues = wheelStraightValue ↔ IsWheelRef cards :=
    mask_eq_iff_RanksExactly _ _ cards _ hv testBit_wheelStraightValue
  have hlt : h.cardValues < 2 ^ 64 :=
    Nat.lt_trans (mask_lt _ cards hv hr) (by norm_num)
  have hex : ∃ k, h.cardValues.testBit k = true := by
    cases hcs : cards with
    | nil => exact absurd hcs hne
    | cons c rest =>
      refine ⟨c.Rank, ?_⟩
      rw [hv, hcs]
      simp [ranksOf]
  obtain ⟨k, hk, hlow, hmin⟩ : ∃ k, h.cardValues.testBit k = true ∧
      (∀ j, j < k → h.cardValues.testBit j = false) ∧
      (∀ j, h.cardValues.testBit j = true → k ≤ j) := by
    refine ⟨Nat.find hex, Nat.find_spec hex, ?_, fun j hj => Nat.find_min' hex hj⟩
    intro j hj
    have := Nat.find_min hex hj
    simpa using this
  have hnz : h.cardValues ≠ 0 := by
    intro h0
    simp [h0] at hk
  have hlsb := lowestSetBit_eq _ _ hlt hk hlow
  have hlsbnz : lowestSetBit h.cardValues ≠ 0 := by
    rw [hlsb]
    exact Nat.pos_iff_ne_zero.1 (Nat.pos_pow_of_pos _ (by norm_num))
  have hdiv := div_lowestSetBit_eq_iff _ _ hlt hk hlow
  -- the run test against the reference
  have hrun : h.cardValues / lowestSetBit h.cardValues = straightValue ↔
      ∃ r, r < 11 ∧ 2 ≤ r ∧ RanksExactly cards [r, r + 1, r + 2, r + 3, r + 4] := by
    rw [hdiv]
    constructor
    · intro hbits
      have hmem : ∀ i, i ∈ ranksOf cards ↔ (k ≤ i ∧ i < k + 5) := by
        intro i
        have h5 := (hv i).symm.trans (hbits i)
        by_cases hi : i ∈ ranksOf cards
        · simp only [hi, decide_True] at h5
          simpa [hi] using h5.symm
        · simp only [hi, decide_False] at h5
          simpa [hi] using h5.symm
      have hbound : ∀ i, i ∈ ranksOf cards → 2 ≤ i ∧ i ≤ 14 := by
        intro i hi
        simp only [ranksOf, List.mem_map] at hi
        obtain ⟨c, hc, rfl⟩ := hi
        exact hr c hc
      have h1 := hbound _ ((hmem (k)).2 ⟨le_refl _, by omega⟩)
      have h2 := hbound _ ((hmem (k + 4)).2 ⟨by omega, by omega⟩)
      refine ⟨k, by omega, h1.1, ?_, ?_⟩
      · intro r hr2
        have := (hmem r).1 hr2
        simp only [List.mem_cons, List.mem_singleton, List.not_mem_nil, or_false]
        omega
      · intro r hr2
        apply (hmem r).2
        simp only [List.mem_cons, List.mem_singleton, List.not_mem_nil, or_false] at hr2
        omega
    · rintro ⟨r, -, -, hsub, hsup⟩
      have hrmem : r ∈ ranksOf cards := hsup r (by simp)
      have hrbit : h.cardValues.testBit r = true := by rw [hv]; simpa using hrmem
      have hle : k ≤ r := hmin r hrbit
      have hkmem : k ∈ ranksOf cards := by
        have := hk
        rw [hv] at this
        simpa using this
      have hge := hsub _ hkmem
      simp only [List.mem_cons, List.mem_singleton, List.not_mem_nil, or_false] at hge
      have hkr : k = r := by omega
      intro i
      rw [hv, hkr]
      by_cases hi : i ∈ ranksOf cards
      · have := hsub i hi
        simp only [List.mem_cons, List.mem_singleton, List.not_mem_nil, or_false] at this
        have h3 : r ≤ i ∧ i < r + 5 := by omega
        simp [hi, h3]
      · have h3 : ¬ (r ≤ i ∧ i < r + 5) := by
          intro hcon
          apply hi
          apply hsup
          simp only [List.mem_cons, List.mem_singleton, List.not_mem_nil, or_false]
          omega
        simp [hi, h3]
  refine ⟨?_, ?_, hnz, hlsbnz⟩
  · unfold computeIsStraight IsStraightRef
    by_cases hw : h.cardValues = wheelStraightValue
    · simp only [hw, if_true, true_iff]
      exact Or.inr (hwheel.1 hw)
    · have hw2 : ¬ IsWheelRef cards := fun hc => hw (hwheel.2 hc)
      simp only [hw, if_false, hnz, decide_eq_true_eq, hw2, or_false]
      exact hrun
  · unfold computeIsStraight
    by_cases hw : h.cardValues = wheelStraightValue
    · simp only [hw, if_true, true_iff]
      exact hwheel.1 hw
    · have hw2 : ¬ IsWheelRef cards := fun hc => hw (hwheel.2 hc)
      simp only [hw, if_false, hnz, hw2, iff_false]
      simp

/-! ## The fields of a built hand -/

theorem evaluate_Evaluated (cs : List Card) : Evaluated (evaluate (zeroHand cs)) :=
  ⟨rfl, rfl, rfl, rfl, rfl⟩

theorem NewHand_Built (cards : List Card) (hlen : cards.length = 5) (hnd : cards.Nodup) :
    ∃ h, NewHand cards = Except.ok h ∧ Built h cards :=
  ⟨_, NewHand_ok cards hlen hnd, sortSlice_perm _ cards, evaluate_Evaluated _⟩

theorem NewHand_valid (cards : List Card) (hv : ValidCards cards) :
    ∃ h, NewHand cards = Except.ok h ∧ Built h cards :=
  NewHand_Built cards hv.1 hv.2.1

theorem Built_of_NewHand (cards : List Card) (h : Hand) (hlen : cards.length = 5)
    (hnd : cards.Nodup) (hok : NewHand cards = Except.ok h) : Built h cards := by
  obtain ⟨h2, hok2, hb⟩ := NewHand_Built cards hlen hnd
  rw [hok] at hok2
  cases hok2
  exact hb

theorem Built.testBit {h : Hand} {cards : List Card} (hb : Built h cards) (i : Nat) :
    h.cardValues.testBit i = decide (i ∈ ranksOf cards) := by
  rw [hb.2.1, testBit_computeCardValues]
  have := (ranksOf_perm hb.1).mem_iff (a := i)
  simp [this]

theorem Built.isFlush_iff {h : Hand} {cards : List Card} (hb : Built h cards)
    (hne : cards ≠ []) : h.isFlush = true ↔ AllSameSuit cards := by
  rw [hb.2.2.1, computeIsFlush_iff, AllSameSuit_perm hb.1]
  intro hnil
  have := hb.1
  rw [hnil] at this
  exact hne (List.nil_perm.1 this)

theorem Built.straight {h : Hand} {cards : List Card} (hb : Built h cards)
    (hne : cards ≠ []) (hr : ∀ c ∈ cards, 2 ≤ c.Rank ∧ c.Rank ≤ 14) :
    (h.isStraight = true ↔ IsStraightRef cards) ∧ (h.isWheel = true ↔ IsWheelRef cards) ∧
      h.cardValues ≠ 0 ∧ lowestSetBit h.cardValues ≠ 0 := by
  rw [hb.2.2.2.1, hb.2.2.2.2.1]
  exact computeIsStraight_spec h cards hb.testBit hne hr

theorem Built.royal_iff {h : Hand} {cards : List Card} (hb : Built h cards) :
    h.cardValues = royalFlushValue ↔ IsRoyalRef cards :=
  mask_eq_iff_RanksExactly _ _ cards _ hb.testBit testBit_royalFlushValue

theorem ValidCards.ne_nil {cards : List Card} (hv : ValidCards cards) : cards ≠ [] := by
  intro h
  have := hv.1
  rw [h] at this
  simp at this

/-! ## Flush and straight categories -/

theorem rankOfKinds_cases (k : Nat × Nat × Nat) :
    rankOfKinds k = FourOfAKind ∨ rankOfKinds k = FullHouse ∨ rankOfKinds k = ThreeOfAKind ∨
      rankOfKinds k = TwoPair ∨ rankOfKinds k = Pair ∨ rankOfKinds k = HighCard := by
  unfold rankOfKinds
  simp only
  split_ifs <;> simp

theorem IsRoyalRef.isStraightRef {cards : List Card} (h : IsRoyalRef cards) :
    IsStraightRef cards :=
  Or.inl ⟨10, by norm_num, by norm_num, h⟩

/-- Cards whose ranks are exactly the five distinct values of `s` have pairwise
distinct ranks, listed by `s` up to order. -/
theorem RanksExactly.perm {cards : List Card} {s : List Nat} (h : RanksExactly cards s)
    (hlen : cards.length = 5) (hs : s.Nodup) (hslen : s.length = 5) :
    s.Perm (ranksOf cards) := by
  have hsub : s ⊆ ranksOf cards := fun r hr => h.2 r hr
  have hsp := List.subperm_of_subset hs hsub
  apply hsp.perm_of_length_le
  simp [ranksOf, hlen, hslen]

theorem IsStraightRef.nodup {cards : List Card} (h : IsStraightRef cards)
    (hlen : cards.length = 5) : (ranksOf cards).Nodup := by
  rcases h with ⟨r, -, -, hr⟩ | hw
  · have hs : [r, r + 1, r + 2, r + 3, r + 4].Nodup := by simp
    exact (hr.perm hlen hs rfl).nodup_iff.1 hs
  · have hs : [14, 2, 3, 4, 5].Nodup := by decide
    exact (RanksExactly.perm hw hlen hs rfl).nodup_iff.1 hs

/-- The category of a built hand, by cases on the reference notions. -/
theorem Built.handRank_cases {h : Hand} {cards : List Card} (hb : Built h cards)
    (hv : ValidCards cards) :
    (AllSameSuit cards ∧ IsRoyalRef cards ∧ h.handRank = RoyalFlush) ∨
    (AllSameSuit cards ∧ ¬ IsRoyalRef cards ∧ IsStraightRef cards ∧
      h.handRank = StraightFlush) ∨
    (AllSameSuit cards ∧ ¬ IsStraightRef cards ∧ h.handRank = Flush) ∨
    (¬ AllSameSuit cards ∧ IsStraightRef cards ∧ h.handRank = Straight) ∨
    (¬ AllSameSuit cards ∧ ¬ IsStraightRef cards ∧
      h.handRank = rankOfKinds (countKinds (getRankCounts h))) := by
  have hF := hb.isFlush_iff hv.ne_nil
  obtain ⟨hS, -, -, -⟩ := hb.straight hv.ne_nil hv.2.2
  have hR := hb.royal_iff
  have hrank := hb.2.2.2.2.2
  unfold computeHandRank at hrank
  by_cases hf : h.isFlush = true
  · have hf2 := hF.1 hf
    rw [if_pos hf] at hrank
    by_cases hr : h.cardValues = royalFlushValue
    · rw [if_pos hr] at hrank
      exact Or.inl ⟨hf2, hR.1 hr, hrank⟩
    · rw [if_neg hr] at hrank
      have hr2 : ¬ IsRoyalRef cards := fun hc => hr (hR.2 hc)
      by_cases hs : h.isStraight = true
      · rw [if_pos hs] at hrank
        exact Or.inr (Or.inl ⟨hf2, hr2, hS.1 hs, hrank⟩)
      · rw [if_neg hs] at hrank
        exact Or.inr (Or.inr (Or.inl ⟨hf2, fun hc => hs (hS.2 hc), hrank⟩))
  · have hf2 : ¬ AllSameSuit cards := fun hc => hf (hF.2 hc)
    rw [if_neg hf] at hrank
    by_cases hs : h.isStraight = true
    · rw [if_pos hs] at hrank
      exact Or.inr (Or.inr (Or.inr (Or.inl ⟨hf2, hS.1 hs, hrank⟩)))
    · rw [if_neg hs] at hrank
      exact Or.inr (Or.inr (Or.inr (Or.inr ⟨hf2, fun hc => hs (hS.2 hc), hrank⟩)))

/-- C1: for every hand built by NewHand from 5 pairwise distinct cards with
ranks in 2..14, Rank() is RoyalFlush iff the cards share one suit and the ranks
are exactly 10, J, Q, K, A; StraightFlush iff the hand is a flush and a straight
(wheel included) but not 10..A; Flush iff it is a flush and not a straight;
Straight iff it is a straight and not a flush; a 10..A hand whose suits are not
all equal is a Straight; and IsFlush() holds iff the cards share one suit. -/
theorem C1_flush_straight_categories (cards : List Card) (hv : ValidCards cards) :
    ∃ h, NewHand cards = Except.ok h ∧
      (h.Rank = RoyalFlush ↔ AllSameSuit cards ∧ IsRoyalRef cards) ∧
      (h.Rank = StraightFlush ↔
        AllSameSuit cards ∧ IsStraightRef cards ∧ ¬ IsRoyalRef cards) ∧
      (h.Rank = Flush ↔ AllSameSuit cards ∧ ¬ IsStraightRef cards) ∧
      (h.Rank = Straight ↔ IsStraightRef cards ∧ ¬ AllSameSuit cards) ∧
      (IsRoyalRef cards → ¬ AllSameSuit cards → h.Rank = Straight) ∧
      (h.IsFlush = true ↔ AllSameSuit cards) := by
  obtain ⟨h, hok, hb⟩ := NewHand_valid cards hv
  have hk := rankOfKinds_cases (countKinds (getRankCounts h))
  have hcases := hb.handRank_cases hv
  have hRS : IsRoyalRef cards → IsStraightRef cards := IsRoyalRef.isStraightRef
  refine ⟨h, hok, ?_, ?_, ?_, ?_, ?_, hb.isFlush_iff hv.ne_nil⟩
  all_goals
    simp only [Hand.Rank, RoyalFlush, StraightFlush, Flush, Straight, FourOfAKind, FullHouse,
      ThreeOfAKind, TwoPair, Pair, HighCard] at *
    rcases hcases with ⟨h1, h2, h3⟩ | ⟨h1, h2, h3, h4⟩ | ⟨h1, h2, h3⟩ | ⟨h1, h2, h3⟩ |
      ⟨h1, h2, h3⟩
  all_goals first
    | (constructor <;> intro hx <;> first | omega | tauto)
    | (intros; first | omega | tauto)

/-- C1 at the royal flush of spades. -/
theorem C1_flush_straight_categories_witness :
    ValidCards royalSpades ∧ ∃ h, NewHand royalSpades = Except.ok h ∧ h.Rank = RoyalFlush := by
  refine ⟨by decide, ?_⟩
  obtain ⟨h, hok, h1, -⟩ := C1_flush_straight_categories royalSpades (by decide)
  exact ⟨h, hok, h1.2 ⟨by decide, by decide⟩⟩

/-- C3: for every hand built by NewHand from 5 pairwise distinct cards with
ranks in 2..14, IsStraight() holds iff the set of ranks is r..r+4 for some r in
2..10 or is A,2,3,4,5; IsWheel() holds iff the set of ranks is A,2,3,4,5; a hand
with two cards of the same rank is not a straight; and the divisor of the
division mask / lsb is not zero (nor is the mask). -/
theorem C3_straight_bit_trick (cards : List Card) (hv : ValidCards cards) :
    ∃ h, NewHand cards = Except.ok h ∧
      (h.IsStraight = true ↔ IsStraightRef cards) ∧
      (h.IsWheel = true ↔ IsWheelRef cards) ∧
      (¬ (ranksOf cards).Nodup → h.IsStraight = false) ∧
      h.cardValues ≠ 0 ∧ lowestSetBit h.cardValues ≠ 0 := by
  obtain ⟨h, hok, hb⟩ := NewHand_valid cards hv
  obtain ⟨hS, hW, hnz, hlsb⟩ := hb.straight hv.ne_nil hv.2.2
  refine ⟨h, hok, hS, hW, ?_, hnz, hlsb⟩
  intro hnd
  cases hs : h.IsStraight with
  | false => rfl
  | true => exact absurd ((hS.1 hs).nodup hv.1) hnd

/-- C3 at the wheel of TestWheel. -/
theorem C3_straight_bit_trick_witness :
    ValidCards wheelMixed ∧
      ∃ h, NewHand wheelMixed = Except.ok h ∧ h.IsStraight = true ∧ h.IsWheel = true := by
  refine ⟨by decide, ?_⟩
  obtain ⟨h, hok, h1, h2, -⟩ := C3_straight_bit_trick wheelMixed (by decide)
  exact ⟨h, hok, h1.2 (by decide), h2.2 (by decide)⟩

theorem Built.handRank_range {h : Hand} {cards : List Card} (hb : Built h cards)
    (hv : ValidCards cards) : 1 ≤ h.handRank ∧ h.handRank ≤ 10 := by
  have hk := rankOfKinds_cases (countKinds (getRankCounts h))
  have hcases := hb.handRank_cases hv
  simp only [RoyalFlush, StraightFlush, Flush, Straight, FourOfAKind, FullHouse,
    ThreeOfAKind, TwoPair, Pair, HighCard] at *
  omega

/-- C4: for two valid hands whose categories differ, Compare gives 1 when the
first category is the higher one and -1 when it is the lower one, whatever the
tie-break scores; the categories are the ten values ordered HighCard < Pair <
TwoPair < ThreeOfAKind < Straight < Flush < FullHouse < FourOfAKind <
StraightFlush < RoyalFlush, so a Straight beats a TwoPair. -/
theorem C4_category_order (cardsA cardsB : List Card) (hA : ValidCards cardsA)
    (hB : ValidCards cardsB) :
    ∃ a b, NewHand cardsA = Except.ok a ∧ NewHand cardsB = Except.ok b ∧
      (a.Rank > b.Rank → a.Compare b = 1) ∧
      (a.Rank < b.Rank → a.Compare b = -1) ∧
      (a.Rank = Straight → b.Rank = TwoPair → a.Compare b = 1 ∧ a.Beats b = true) ∧
      (HighCard ≤ a.Rank ∧ a.Rank ≤ RoyalFlush) ∧
      (HighCard < Pair ∧ Pair < TwoPair ∧ TwoPair < ThreeOfAKind ∧ ThreeOfAKind < Straight ∧
        Straight < Flush ∧ Flush < FullHouse ∧ FullHouse < FourOfAKind ∧
        FourOfAKind < StraightFlush ∧ StraightFlush < RoyalFlush) := by
  obtain ⟨a, hoka, hba⟩ := NewHand_valid cardsA hA
  obtain ⟨b, hokb, -⟩ := NewHand_valid cardsB hB
  have hgt : a.handRank > b.handRank → a.Compare b = 1 := by
    intro h
    unfold Hand.Compare
    rw [if_pos h]
  have hlt : a.handRank < b.handRank → a.Compare b = -1 := by
    intro h
    unfold Hand.Compare
    rw [if_neg (by omega), if_pos h]
  refine ⟨a, b, hoka, hokb, hgt, hlt, ?_, hba.handRank_range hA, by decide⟩
  intro h1 h2
  have h3 : a.Compare b = 1 := hgt (by
    simp only [Hand.Rank, Straight, TwoPair] at h1 h2
    omega)
  exact ⟨h3, by simp [Hand.Beats, h3]⟩

/-- C4 at the six-high straight against the two pair A A K K 2. -/
theorem C4_category_order_witness :
    ValidCards sixHighStraight ∧ ValidCards twoPairHand ∧
      ∃ a b, NewHand sixHighStraight = Except.ok a ∧ NewHand twoPairHand = Except.ok b ∧
        a.Compare b = 1 := by
  refine ⟨by decide, by decide, ?_⟩
  obtain ⟨a, b, ha, hb, h1, -⟩ := C4_category_order sixHighStraight twoPairHand
    (by decide) (by decide)
  have ha2 : NewHand sixHighStraight = Except.ok
      (evaluate (zeroHand (sortSlice (fun a b => decide (a.Rank > b.Rank)) sixHighStraight))) :=
    rfl
  have hb2 : NewHand twoPairHand = Except.ok
      (evaluate (zeroHand (sortSlice (fun a b => decide (a.Rank > b.Rank)) twoPairHand))) := rfl
  rw [ha] at ha2
  rw [hb] at hb2
  cases ha2
  cases hb2
  exact ⟨_, _, ha, hb, h1 (by decide)⟩

/-! ## The rank counts -/

theorem mapGet_mapIncr (m : List (Nat × Nat)) (k r : Nat) :
    mapGet (mapIncr m k) r = mapGet m r + (if k = r then 1 else 0) := by
  induction m with
  | nil => simp [mapIncr, mapGet]
  | cons e rest ih =>
    obtain ⟨k1, v⟩ := e
    simp only [mapIncr]
    by_cases h1 : k1 = k
    · subst h1
      by_cases h2 : k1 = r
      · simp [mapGet, h2]
      · simp [mapGet, h2]
    · simp only [h1, if_false, mapGet]
      by_cases h2 : k1 = r
      · have h3 : ¬ k = r := fun h => h1 (h2.trans h.symm)
        simp [h2, h3]
      · simp [h2, ih]

theorem mapGet_foldl_mapIncr (cs : List Card) (m : List (Nat × Nat)) (r : Nat) :
    mapGet (cs.foldl (fun counts card => mapIncr counts card.Rank) m) r =
      mapGet m r + (ranksOf cs).count r := by
  induction cs generalizing m with
  | nil => simp [ranksOf]
  | cons c rest ih =>
    simp only [List.foldl_cons]
    rw [ih, mapGet_mapIncr]
    simp only [ranksOf, List.map_cons, List.count_cons]
    by_cases h : c.Rank = r
    · rw [if_pos h]
      simp only [h, beq_self_eq_true, if_true]
      omega
    · rw [if_neg h]
      have h2 : (c.Rank == r) = false := by simpa using h
      simp only [h2]
      simp

theorem mapGet_getRankCounts (h : Hand) (r : Nat) :
    mapGet (getRankCounts h) r = (ranksOf h.Cards).count r := by
  unfold getRankCounts
  rw [mapGet_foldl_mapIncr]
  simp [mapGet]

/-! ## The order of the tie-break -/

theorem lessByCountThenRank_false_iff (a b : cardWithCount) :
    lessByCountThenRank a b = false ↔
      (a.count < b.count ∨ (a.count = b.count ∧ a.card.Rank ≤ b.card.Rank)) := by
  unfold lessByCountThenRank
  by_cases hc : a.count = b.count
  · rw [if_neg (by simpa using hc)]
    simp only [decide_eq_false_iff_not]
    omega
  · rw [if_pos hc]
    simp only [decide_eq_false_iff_not]
    omega

theorem lessByCountThenRank_true_iff (a b : cardWithCount) :
    lessByCountThenRank a b = true ↔
      (b.count < a.count ∨ (a.count = b.count ∧ b.card.Rank < a.card.Rank)) := by
  unfold lessByCountThenRank
  by_cases hc : a.count = b.count
  · rw [if_neg (by simpa using hc)]
    simp only [decide_eq_true_eq]
    omega
  · rw [if_pos hc]
    simp only [decide_eq_true_eq]
    omega

theorem lessByCountThenRank_asymm (a b : cardWithCount)
    (h : lessByCountThenRank a b = true) : lessByCountThenRank b a = false := by
  rw [lessByCountThenRank_true_iff] at h
  rw [lessByCountThenRank_false_iff]
  omega

theorem lessByCountThenRank_trans (a b c : cardWithCount)
    (h1 : lessByCountThenRank a b = false) (h2 : lessByCountThenRank b c = false) :
    lessByCountThenRank a c = false := by
  rw [lessByCountThenRank_false_iff] at *
  omega

/-! ## The grouped rank sequence -/

theorem groupedBefore_total (rs : List Nat) (a b : Nat) :
    groupedBefore rs a b ∨ groupedBefore rs b a := by
  unfold groupedBefore; omega

theorem groupedBefore_trans (rs : List Nat) (a b c : Nat)
    (h1 : groupedBefore rs a b) (h2 : groupedBefore rs b c) : groupedBefore rs a c := by
  unfold groupedBefore at *; omega

theorem groupedBefore_antisymm (rs : List Nat) (a b : Nat)
    (h1 : groupedBefore rs a b) (h2 : groupedBefore rs b a) : a = b := by
  unfold groupedBefore at *; omega

theorem groupedRanks_perm (cards : List Card) :
    (groupedRanks cards).Perm (ranksOf cards) :=
  List.perm_insertionSort _ _

theorem groupedRanks_sorted (cards : List Card) :
    (groupedRanks cards).Pairwise (groupedBefore (ranksOf cards)) := by
  haveI : IsTotal Nat (groupedBefore (ranksOf cards)) := ⟨groupedBefore_total _⟩
  haveI : IsTrans Nat (groupedBefore (ranksOf cards)) := ⟨groupedBefore_trans _⟩
  exact List.sorted_insertionSort _ _

theorem groupedRanks_unique (cards : List Card) (g : List Nat)
    (hp : g.Perm (ranksOf cards)) (hs : g.Pairwise (groupedBefore (ranksOf cards))) :
    g = groupedRanks cards := by
  haveI : IsAntisymm Nat (groupedBefore (ranksOf cards)) := ⟨groupedBefore_antisymm _⟩
  exact List.eq_of_perm_of_sorted (hp.trans (groupedRanks_perm cards).symm) hs
    (groupedRanks_sorted cards)

theorem groupedBefore_congr {r1 r2 : List Nat} (hp : r1.Perm r2) :
    groupedBefore r1 = groupedBefore r2 := by
  funext a b
  unfold groupedBefore
  rw [hp.count_eq a, hp.count_eq b]

theorem groupedRanks_congr {c1 c2 : List Card} (hp : (ranksOf c1).Perm (ranksOf c2)) :
    groupedRanks c1 = groupedRanks c2 := by
  apply groupedRanks_unique
  · exact (groupedRanks_perm c1).trans hp
  · rw [← groupedBefore_congr hp]
    exact groupedRanks_sorted c1

theorem groupedRanks_length (cards : List Card) :
    (groupedRanks cards).length = cards.length := by
  rw [(groupedRanks_perm cards).length_eq]
  simp [ranksOf]

/-- Every ordering of cardsWithCounts that the comparison function accepts
lists the ranks in the reference grouped order. -/
theorem sorted_cardsWithCounts_ranks {h : Hand} {cards : List Card} (hb : Built h cards)
    (s : List cardWithCount) (hp : s.Perm (cardsWithCounts h))
    (hs : s.Pairwise (fun x y => lessByCountThenRank y x = false)) :
    s.map (fun x => x.card.Rank) = groupedRanks cards := by
  have hperm : (ranksOf h.Cards).Perm (ranksOf cards) := ranksOf_perm hb.1
  rw [← groupedRanks_congr hperm]
  have hcount : ∀ x ∈ s, x.count = (ranksOf h.Cards).count x.card.Rank := by
    intro x hx
    have hx2 := hp.mem_iff.1 hx
    simp only [cardsWithCounts, List.mem_map] at hx2
    obtain ⟨c, -, rfl⟩ := hx2
    exact mapGet_getRankCounts h c.Rank
  apply groupedRanks_unique
  · have h1 := hp.map (fun x => x.card.Rank)
    refine h1.trans ?_
    simp [cardsWithCounts, ranksOf, List.map_map, Function.comp_def]
  · rw [List.pairwise_map]
    refine List.Pairwise.imp_of_mem ?_ hs
    intro x y hx hy hxy
    rw [lessByCountThenRank_false_iff, hcount x hx, hcount y hy] at hxy
    unfold groupedBefore
    omega

theorem TiebreakScore_eq (h : Hand) :
    h.TiebreakScore = scoreLoop (sortSlice lessByCountThenRank (cardsWithCounts h)) 0 0 := rfl

theorem sortSlice_cardsWithCounts_ranks {h : Hand} {cards : List Card} (hb : Built h cards) :
    (sortSlice lessByCountThenRank (cardsWithCounts h)).map (fun x => x.card.Rank) =
      groupedRanks cards :=
  sorted_cardsWithCounts_ranks hb _ (sortSlice_perm _ _)
    (sortSlice_pairwise _ lessByCountThenRank_asymm lessByCountThenRank_trans _)

/-- The OR of the scoring loop is a sum: every rank fits in 4 bits. -/
theorem or_shift_eq_add (r1 r2 r3 r4 r5 : Nat) (h2 : r2 < 16) (h3 : r3 < 16)
    (h4 : r4 < 16) (h5 : r5 < 16) :
    ((((0 ||| r1 <<< 16) ||| r2 <<< 12) ||| r3 <<< 8) ||| r4 <<< 4) ||| r5 <<< 0 =
      r1 * 2 ^ 16 + r2 * 2 ^ 12 + r3 * 2 ^ 8 + r4 * 2 ^ 4 + r5 := by
  simp only [Nat.shiftLeft_eq, Nat.zero_or, Nat.pow_zero, Nat.mul_one]
  have e1 : r1 * 2 ^ 16 ||| r2 * 2 ^ 12 = r1 * 2 ^ 16 + r2 * 2 ^ 12 := by
    have := Nat.mul_add_lt_is_or (i := 16) (b := r2 * 2 ^ 12) (by omega) r1
    rw [Nat.mul_comm (2 ^ 16) r1] at this
    exact this.symm
  have e2 : (r1 * 2 ^ 16 + r2 * 2 ^ 12) ||| r3 * 2 ^ 8 =
      r1 * 2 ^ 16 + r2 * 2 ^ 12 + r3 * 2 ^ 8 := by
    have := Nat.mul_add_lt_is_or (i := 12) (b := r3 * 2 ^ 8) (by omega) (r1 * 2 ^ 4 + r2)
    have e : 2 ^ 12 * (r1 * 2 ^ 4 + r2) = r1 * 2 ^ 16 + r2 * 2 ^ 12 := by ring
    rw [e] at this
    exact this.symm
  have e3 : (r1 * 2 ^ 16 + r2 * 2 ^ 12 + r3 * 2 ^ 8) ||| r4 * 2 ^ 4 =
      r1 * 2 ^ 16 + r2 * 2 ^ 12 + r3 * 2 ^ 8 + r4 * 2 ^ 4 := by
    have := Nat.mul_add_lt_is_or (i := 8) (b := r4 * 2 ^ 4) (by omega)
      (r1 * 2 ^ 8 + r2 * 2 ^ 4 + r3)
    have e : 2 ^ 8 * (r1 * 2 ^ 8 + r2 * 2 ^ 4 + r3) =
        r1 * 2 ^ 16 + r2 * 2 ^ 12 + r3 * 2 ^ 8 := by ring
    rw [e] at this
    exact this.symm
  have e4 : (r1 * 2 ^ 16 + r2 * 2 ^ 12 + r3 * 2 ^ 8 + r4 * 2 ^ 4) ||| r5 =
      r1 * 2 ^ 16 + r2 * 2 ^ 12 + r3 * 2 ^ 8 + r4 * 2 ^ 4 + r5 := by
    have := Nat.mul_add_lt_is_or (i := 4) (b := r5) (by omega)
      (r1 * 2 ^ 12 + r2 * 2 ^ 8 + r3 * 2 ^ 4 + r4)
    have e : 2 ^ 4 * (r1 * 2 ^ 12 + r2 * 2 ^ 8 + r3 * 2 ^ 4 + r4) =
        r1 * 2 ^ 16 + r2 * 2 ^ 12 + r3 * 2 ^ 8 + r4 * 2 ^ 4 := by ring
    rw [e] at this
    exact this.symm
  rw [e1, e2, e3, e4]

theorem scoreLoop_five (x1 x2 x3 x4 x5 : cardWithCount) :
    scoreLoop [x1, x2, x3, x4, x5] 0 0 =
      ((((0 ||| x1.card.Rank <<< 16) ||| x2.card.Rank <<< 12) ||| x3.card.Rank <<< 8) |||
        x4.card.Rank <<< 4) ||| x5.card.Rank <<< 0 := by
  simp [scoreLoop, tiebreakerShifts]

theorem ranks_bound_of_perm {cards : List Card} {g : List Nat}
    (hr : ∀ c ∈ cards, 2 ≤ c.Rank ∧ c.Rank ≤ 14) (hp : g.Perm (ranksOf cards)) :
    ∀ r ∈ g, 2 ≤ r ∧ r ≤ 14 := by
  intro r hrg
  have := hp.mem_iff.1 hrg
  simp only [ranksOf, List.mem_map] at this
  obtain ⟨c, hc, rfl⟩ := this
  exact hr c hc

theorem groupedRanks_bound {cards : List Card} (hv : ValidCards cards) :
    ∀ r ∈ groupedRanks cards, 2 ≤ r ∧ r ≤ 14 :=
  ranks_bound_of_perm hv.2.2 (groupedRanks_perm cards)

theorem list_length_five {α : Type} (l : List α) (h : l.length = 5) :
    ∃ a b c d e, l = [a, b, c, d, e] := by
  match l, h with
  | [a, b, c, d, e], _ => exact ⟨a, b, c, d, e, rfl⟩

/-- The scoring loop on any accepted ordering of cardsWithCounts gives the
packed reference sequence. -/
theorem Built.scoreLoop_eq {h : Hand} {cards : List Card} (hb : Built h cards)
    (hv : ValidCards cards) (s : List cardWithCount) (hp : s.Perm (cardsWithCounts h))
    (hs : s.Pairwise (fun x y => lessByCountThenRank y x = false)) :
    scoreLoop s 0 0 = packRanks (groupedRanks cards) := by
  have hmap := sorted_cardsWithCounts_ranks hb s hp hs
  have hbound := groupedRanks_bound hv
  have hlen : s.length = 5 := by
    have := congrArg List.length hmap
    rw [List.length_map, groupedRanks_length, hv.1] at this
    exact this
  obtain ⟨x1, x2, x3, x4, x5, rfl⟩ := list_length_five s hlen
  rw [← hmap] at hbound ⊢
  simp only [List.map_cons, List.map_nil, List.mem_cons, List.mem_singleton, List.not_mem_nil,
    or_false, forall_eq_or_imp, forall_eq] at hbound
  rw [scoreLoop_five, or_shift_eq_add _ _ _ _ _ (by omega) (by omega) (by omega) (by omega)]
  rfl

theorem Built.score {h : Hand} {cards : List Card} (hb : Built h cards)
    (hv : ValidCards cards) : h.TiebreakScore = packRanks (groupedRanks cards) := by
  rw [TiebreakScore_eq]
  exact hb.scoreLoop_eq hv _ (sortSlice_perm _ _)
    (sortSlice_pairwise _ lessByCountThenRank_asymm lessByCountThenRank_trans _)

/-- C9: for every valid hand, TiebreakScore() = r1*2^16 + r2*2^12 + r3*2^8 +
r4*2^4 + r5 where (r1,...,r5) are the ranks of the five cards ordered by
(number of cards of that rank descending, rank descending); the OR of the code
is this sum; and the value is the same for every order in which the cards are
stored and every ordering the comparison function of the sort accepts. -/
theorem C9_tiebreak_score (cards : List Card) (hv : ValidCards cards) :
    ∃ h r1 r2 r3 r4 r5, NewHand cards = Except.ok h ∧
      [r1, r2, r3, r4, r5].Perm (ranksOf cards) ∧
      [r1, r2, r3, r4, r5].Pairwise (groupedBefore (ranksOf cards)) ∧
      groupedRanks cards = [r1, r2, r3, r4, r5] ∧
      h.TiebreakScore = r1 * 2 ^ 16 + r2 * 2 ^ 12 + r3 * 2 ^ 8 + r4 * 2 ^ 4 + r5 ∧
      (∀ stored : List Card, stored.Perm cards →
        ∀ s : List cardWithCount, s.Perm (cardsWithCounts (evaluate (zeroHand stored))) →
          s.Pairwise (fun x y => lessByCountThenRank y x = false) →
            scoreLoop s 0 0 = r1 * 2 ^ 16 + r2 * 2 ^ 12 + r3 * 2 ^ 8 + r4 * 2 ^ 4 + r5) := by
  obtain ⟨h, hok, hb⟩ := NewHand_valid cards hv
  obtain ⟨r1, r2, r3, r4, r5, hg⟩ :=
    list_length_five (groupedRanks cards) ((groupedRanks_length cards).trans hv.1)
  have hperm := groupedRanks_perm cards
  have hsorted := groupedRanks_sorted cards
  have hscore := hb.score hv
  rw [hg] at hperm hsorted hscore
  refine ⟨h, r1, r2, r3, r4, r5, hok, hperm, hsorted, hg, hscore, ?_⟩
  intro stored hst s hp hs
  have hb2 : Built (evaluate (zeroHand stored)) cards := ⟨hst, evaluate_Evaluated stored⟩
  have := hb2.scoreLoop_eq hv s hp hs
  rw [hg] at this
  exact this

/-- C9 at the pair of aces A A 2 3 4: the score packs A, A, 4, 3, 2. -/
theorem C9_tiebreak_score_witness :
    ValidCards pairOfAces ∧
      ∃ h, NewHand pairOfAces = Except.ok h ∧
        h.TiebreakScore = 14 * 2 ^ 16 + 14 * 2 ^ 12 + 4 * 2 ^ 8 + 3 * 2 ^ 4 + 2 := by
  refine ⟨by decide, ?_⟩
  obtain ⟨h, r1, r2, r3, r4, r5, hok, -, -, hg, hscore, -⟩ :=
    C9_tiebreak_score pairOfAces (by decide)
  have hg2 : groupedRanks pairOfAces = [14, 14, 4, 3, 2] := by decide
  rw [hg2] at hg
  simp only [List.cons.injEq, and_true] at hg
  obtain ⟨rfl, rfl, rfl, rfl, rfl⟩ := hg
  exact ⟨h, hok, hscore⟩

/-! ## Compare as a lexicographic order -/

/-- Compare is the lexicographic comparison of (category, wheel key, score)
for two hands that are both straights or both not when their categories agree. -/
theorem Compare_eq_ite (a b : Hand)
    (hsame : a.handRank = b.handRank → a.isStraight = b.isStraight) :
    a.Compare b =
      if b.handRank < a.handRank then 1
      else if a.handRank < b.handRank then -1
      else if wheelKey b < wheelKey a then 1
      else if wheelKey a < wheelKey b then -1
      else if b.TiebreakScore < a.TiebreakScore then 1
      else if a.TiebreakScore < b.TiebreakScore then -1
      else 0 := by
  unfold Hand.Compare
  by_cases hgt : b.handRank < a.handRank
  · rw [if_pos hgt, if_pos hgt]
  · rw [if_neg hgt, if_neg hgt]
    by_cases hlt : a.handRank < b.handRank
    · rw [if_pos hlt, if_pos hlt]
    · rw [if_neg hlt, if_neg hlt]
      have hs := hsame (by omega)
      unfold wheelKey
      cases hA : a.isStraight <;> cases hB : b.isStraight <;>
        cases hWa : a.isWheel <;> cases hWb : b.isWheel <;>
        simp only [hA, hB] at hs <;> first | exact absurd hs (by decide) | simp

theorem Compare_spec (a b : Hand)
    (hsame : a.handRank = b.handRank → a.isStraight = b.isStraight) :
    (a.Compare b = 1 ↔
      (b.handRank < a.handRank ∨ (a.handRank = b.handRank ∧
        (wheelKey b < wheelKey a ∨
          (wheelKey a = wheelKey b ∧ b.TiebreakScore < a.TiebreakScore))))) ∧
    (a.Compare b = -1 ↔
      (a.handRank < b.handRank ∨ (a.handRank = b.handRank ∧
        (wheelKey a < wheelKey b ∨
          (wheelKey a = wheelKey b ∧ a.TiebreakScore < b.TiebreakScore))))) ∧
    (a.Compare b = 0 ↔
      (a.handRank = b.handRank ∧ wheelKey a = wheelKey b ∧
        a.TiebreakScore = b.TiebreakScore)) := by
  rw [Compare_eq_ite a b hsame]
  split_ifs <;> refine ⟨⟨?_, ?_⟩, ⟨?_, ?_⟩, ⟨?_, ?_⟩⟩ <;> intro hx <;>
    first | exact False.elim hx | trivial | omega

theorem Compare_range (a b : Hand) :
    a.Compare b = 1 ∨ a.Compare b = -1 ∨ a.Compare b = 0 := by
  unfold Hand.Compare
  simp only
  split_ifs <;> simp

/-- A built valid hand has its straight flag set exactly in the categories
Straight, StraightFlush and RoyalFlush, and a wheel flag only with it. -/
theorem Built.isStraight_iff {h : Hand} {cards : List Card} (hb : Built h cards)
    (hv : ValidCards cards) :
    (h.isStraight = true ↔ (h.handRank = 5 ∨ h.handRank = 9 ∨ h.handRank = 10)) ∧
      (h.isWheel = true → h.isStraight = true) := by
  have hk := rankOfKinds_cases (countKinds (getRankCounts h))
  have hcases := hb.handRank_cases hv
  obtain ⟨hS, hW, -, -⟩ := hb.straight hv.ne_nil hv.2.2
  have hRS : IsRoyalRef cards → IsStraightRef cards := IsRoyalRef.isStraightRef
  have hWS : IsWheelRef cards → IsStraightRef cards := fun x => Or.inr x
  simp only [RoyalFlush, StraightFlush, Flush, Straight, FourOfAKind, FullHouse,
    ThreeOfAKind, TwoPair, Pair, HighCard] at *
  refine ⟨?_, fun hw => hS.2 (hWS (hW.1 hw))⟩
  rw [hS]
  rcases hcases with ⟨h1, h2, h3⟩ | ⟨h1, h2, h3, h4⟩ | ⟨h1, h2, h3⟩ | ⟨h1, h2, h3⟩ |
    ⟨h1, h2, h3⟩
  · exact ⟨fun _ => by omega, fun _ => hRS h2⟩
  · exact ⟨fun _ => by omega, fun _ => h3⟩
  · exact ⟨fun hx => absurd hx h2, fun hx => by omega⟩
  · exact ⟨fun _ => by omega, fun _ => h2⟩
  · exact ⟨fun hx => absurd hx h2, fun hx => by omega⟩

theorem Built.same_straight {a b : Hand} {cardsA cardsB : List Card} (ha : Built a cardsA)
    (hb : Built b cardsB) (hA : ValidCards cardsA) (hB : ValidCards cardsB) :
    a.handRank = b.handRank → a.isStraight = b.isStraight := by
  intro heq
  have h1 := (ha.isStraight_iff hA).1
  have h2 := (hb.isStraight_iff hB).1
  rw [heq] at h1
  cases hx : a.isStraight <;> cases hy : b.isStraight <;> simp_all

theorem Compare_nonneg_iff (a b : Hand)
    (hsame : a.handRank = b.handRank → a.isStraight = b.isStraight) :
    a.Compare b ≥ 0 ↔
      (b.handRank < a.handRank ∨ (a.handRank = b.handRank ∧
        (wheelKey b < wheelKey a ∨
          (wheelKey a = wheelKey b ∧ b.TiebreakScore ≤ a.TiebreakScore)))) := by
  rw [Compare_eq_ite a b hsame]
  split_ifs <;> constructor <;> intro hx <;>
    first | exact False.elim hx | trivial | omega

theorem Compare_pos_iff (a b : Hand)
    (hsame : a.handRank = b.handRank → a.isStraight = b.isStraight) :
    a.Compare b > 0 ↔
      (b.handRank < a.handRank ∨ (a.handRank = b.handRank ∧
        (wheelKey b < wheelKey a ∨
          (wheelKey a = wheelKey b ∧ b.TiebreakScore < a.TiebreakScore)))) := by
  rw [Compare_eq_ite a b hsame]
  split_ifs <;> constructor <;> intro hx <;>
    first | exact False.elim hx | trivial | omega

/-- C7: Compare is transitive on valid hands, within and across categories
and with the wheel rule: if Compare(A,B) >= 0 and Compare(B,C) >= 0 then
Compare(A,C) >= 0, and if moreover one of the two is > 0 then Compare(A,C) > 0. -/
theorem C7_compare_transitive (cardsA cardsB cardsC : List Card) (hA : ValidCards cardsA)
    (hB : ValidCards cardsB) (hC : ValidCards cardsC) :
    ∃ a b c, NewHand cardsA = Except.ok a ∧ NewHand cardsB = Except.ok b ∧
      NewHand cardsC = Except.ok c ∧
      (a.Compare b ≥ 0 → b.Compare c ≥ 0 → a.Compare c ≥ 0) ∧
      (a.Compare b ≥ 0 → b.Compare c ≥ 0 → (a.Compare b > 0 ∨ b.Compare c > 0) →
        a.Compare c > 0) := by
  obtain ⟨a, hoka, hba⟩ := NewHand_valid cardsA hA
  obtain ⟨b, hokb, hbb⟩ := NewHand_valid cardsB hB
  obtain ⟨c, hokc, hbc⟩ := NewHand_valid cardsC hC
  have sab := hba.same_straight hbb hA hB
  have sbc := hbb.same_straight hbc hB hC
  have sac := hba.same_straight hbc hA hC
  refine ⟨a, b, c, hoka, hokb, hokc, ?_, ?_⟩
  · rw [Compare_nonneg_iff a b sab, Compare_nonneg_iff b c sbc, Compare_nonneg_iff a c sac]
    omega
  · rw [Compare_nonneg_iff a b sab, Compare_nonneg_iff b c sbc, Compare_pos_iff a b sab,
      Compare_pos_iff b c sbc, Compare_pos_iff a c sac]
    omega

/-- C7 at a straight, a pair and a high card. -/
theorem C7_compare_transitive_witness :
    ValidCards sixHighStraight ∧ ValidCards pairOfKings ∧ ValidCards highCardHand ∧
      ∃ a b c, NewHand sixHighStraight = Except.ok a ∧ NewHand pairOfKings = Except.ok b ∧
        NewHand highCardHand = Except.ok c ∧ a.Compare c > 0 := by
  refine ⟨by decide, by decide, by decide, ?_⟩
  obtain ⟨a, b, c, ha, hb, hc, -, h2⟩ := C7_compare_transitive sixHighStraight pairOfKings
    highCardHand (by decide) (by decide) (by decide)
  have ha2 : NewHand sixHighStraight = Except.ok
      (evaluate (zeroHand (sortSlice (fun a b => decide (a.Rank > b.Rank)) sixHighStraight))) :=
    rfl
  have hb2 : NewHand pairOfKings = Except.ok
      (evaluate (zeroHand (sortSlice (fun a b => decide (a.Rank > b.Rank)) pairOfKings))) := rfl
  have hc2 : NewHand highCardHand = Except.ok
      (evaluate (zeroHand (sortSlice (fun a b => decide (a.Rank > b.Rank)) highCardHand))) := rfl
  rw [ha] at ha2
  rw [hb] at hb2
  rw [hc] at hc2
  cases ha2
  cases hb2
  cases hc2
  exact ⟨_, _, _, ha, hb, hc, h2 (by decide) (by decide) (Or.inl (by decide))⟩

/-! ## The entries of the rank-count map -/

theorem mapIncr_keys (m : List (Nat × Nat)) (k : Nat) :
    (mapIncr m k).map Prod.fst =
      if k ∈ m.map Prod.fst then m.map Prod.fst else m.map Prod.fst ++ [k] := by
  induction m with
  | nil => simp [mapIncr]
  | cons e rest ih =>
    obtain ⟨k1, v⟩ := e
    simp only [mapIncr]
    by_cases h1 : k1 = k
    · subst h1
      simp
    · have h2 : ¬ k = k1 := fun h => h1 h.symm
      simp only [h1, if_false, List.map_cons, ih, List.mem_cons, h2, false_or]
      split <;> simp

theorem mapIncr_keys_nodup (m : List (Nat × Nat)) (k : Nat)
    (h : (m.map Prod.fst).Nodup) : ((mapIncr m k).map Prod.fst).Nodup := by
  rw [mapIncr_keys]
  split
  · exact h
  · rename_i hk
    rw [List.nodup_append]
    refine ⟨h, by simp, ?_⟩
    intro a ha hb
    simp only [List.mem_singleton] at hb
    subst hb
    exact hk ha

theorem foldl_mapIncr_keys_nodup (cs : List Card) (m : List (Nat × Nat))
    (h : (m.map Prod.fst).Nodup) :
    ((cs.foldl (fun counts card => mapIncr counts card.Rank) m).map Prod.fst).Nodup := by
  induction cs generalizing m with
  | nil => simpa using h
  | cons c rest ih =>
    simp only [List.foldl_cons]
    exact ih _ (mapIncr_keys_nodup m c.Rank h)

theorem mapIncr_pos (m : List (Nat × Nat)) (k : Nat) (h : ∀ e ∈ m, 1 ≤ e.2) :
    ∀ e ∈ mapIncr m k, 1 ≤ e.2 := by
  induction m with
  | nil => simp [mapIncr]
  | cons e rest ih =>
    obtain ⟨k1, v⟩ := e
    simp only [mapIncr]
    have hrest : ∀ e ∈ rest, 1 ≤ e.2 := fun e he => h e (List.mem_cons_of_mem _ he)
    by_cases h1 : k1 = k
    · simp only [h1, if_true]
      intro e he
      rw [List.mem_cons] at he
      rcases he with rfl | he
      · simp
      · exact hrest e he
    · simp only [h1, if_false]
      intro e he
      rw [List.mem_cons] at he
      rcases he with rfl | he
      · exact h _ (List.mem_cons_self _ _)
      · exact ih hrest e he

theorem foldl_mapIncr_pos (cs : List Card) (m : List (Nat × Nat))
    (h : ∀ e ∈ m, 1 ≤ e.2) :
    ∀ e ∈ cs.foldl (fun counts card => mapIncr counts card.Rank) m, 1 ≤ e.2 := by
  induction cs generalizing m with
  | nil => simpa using h
  | cons c rest ih =>
    simp only [List.foldl_cons]
    exact ih _ (mapIncr_pos m c.Rank h)

theorem mapGet_of_mem (m : List (Nat × Nat)) (h : (m.map Prod.fst).Nodup) (e : Nat × Nat)
    (he : e ∈ m) : mapGet m e.1 = e.2 := by
  induction m with
  | nil => simp at he
  | cons e1 rest ih =>
    obtain ⟨k1, v1⟩ := e1
    simp only [List.map_cons, List.nodup_cons] at h
    rw [List.mem_cons] at he
    simp only [mapGet]
    rcases he with rfl | he
    · simp
    · have hne : ¬ k1 = e.1 := by
        intro heq
        apply h.1
        rw [heq]
        exact List.mem_map_of_mem _ he
      simp only [hne, if_false]
      exact ih h.2 he

theorem mapGet_pos_iff (m : List (Nat × Nat)) (hpos : ∀ e ∈ m, 1 ≤ e.2) (k : Nat) :
    1 ≤ mapGet m k ↔ k ∈ m.map Prod.fst := by
  induction m with
  | nil => simp [mapGet]
  | cons e1 rest ih =>
    obtain ⟨k1, v1⟩ := e1
    have hrest : ∀ e ∈ rest, 1 ≤ e.2 := fun e he => hpos e (List.mem_cons_of_mem _ he)
    simp only [mapGet, List.map_cons, List.mem_cons]
    by_cases h1 : k1 = k
    · simp only [h1, if_true, true_or, iff_true]
      exact hpos _ (List.mem_cons_self _ _)
    · have h2 : ¬ k = k1 := fun h => h1 h.symm
      simp only [h1, if_false, h2, false_or]
      exact ih hrest

/-- The counting loop counts the entries by value. -/
theorem countKinds_eq (entries : List (Nat × Nat)) :
    countKinds entries =
      (entries.countP (fun e => decide (e.2 = 2)), entries.countP (fun e => decide (e.2 = 3)),
        entries.countP (fun e => decide (e.2 = 4))) := by
  unfold countKinds
  suffices h : ∀ (acc : Nat × Nat × Nat),
      entries.foldl
        (fun acc e =>
          if e.2 = 2 then (acc.1 + 1, acc.2.1, acc.2.2)
          else if e.2 = 3 then (acc.1, acc.2.1 + 1, acc.2.2)
          else if e.2 = 4 then (acc.1, acc.2.1, acc.2.2 + 1)
          else acc) acc =
      (acc.1 + entries.countP (fun e => decide (e.2 = 2)),
        acc.2.1 + entries.countP (fun e => decide (e.2 = 3)),
        acc.2.2 + entries.countP (fun e => decide (e.2 = 4))) by
    simpa using h (0, 0, 0)
  induction entries with
  | nil => intro acc; simp
  | cons e rest ih =>
    intro acc
    simp only [List.foldl_cons, ih, List.countP_cons]
    by_cases h2 : e.2 = 2
    · simp [h2]; omega
    · by_cases h3 : e.2 = 3
      · simp [h3]; omega
      · by_cases h4 : e.2 = 4
        · simp [h4]; omega
        · simp [h2, h3, h4]

/-- The counting loop gives the same counters for every visiting order. -/
theorem countKinds_perm {e1 e2 : List (Nat × Nat)} (hp : e1.Perm e2) :
    countKinds e1 = countKinds e2 := by
  rw [countKinds_eq, countKinds_eq, hp.countP_eq, hp.countP_eq, hp.countP_eq]

/-- The number of map entries with value `n` is the number of distinct ranks
held `n` times. -/
theorem countP_getRankCounts (h : Hand) (n : Nat) :
    (getRankCounts h).countP (fun e => decide (e.2 = n)) =
      (ranksOf h.Cards).dedup.countP (fun r => decide ((ranksOf h.Cards).count r = n)) := by
  have hnd : ((getRankCounts h).map Prod.fst).Nodup :=
    foldl_mapIncr_keys_nodup h.Cards [] (by simp)
  have hpos : ∀ e ∈ getRankCounts h, 1 ≤ e.2 := foldl_mapIncr_pos h.Cards [] (by simp)
  have hkeys : ((getRankCounts h).map Prod.fst).Perm (ranksOf h.Cards).dedup := by
    rw [List.perm_ext_iff_of_nodup hnd (List.nodup_dedup _)]
    intro k
    rw [← mapGet_pos_iff _ hpos, mapGet_getRankCounts, List.mem_dedup]
    exact List.count_pos_iff
  rw [← hkeys.countP_eq, List.countP_map]
  apply List.countP_congr
  intro e he
  simp only [Function.comp, decide_eq_true_eq]
  rw [← mapGet_getRankCounts, mapGet_of_mem _ hnd e he]

/-! ## Counting the kinds -/

theorem kindCount_perm {r1 r2 : List Nat} (hp : r1.Perm r2) (n : Nat) :
    kindCount r1 n = kindCount r2 n := by
  unfold kindCount
  rw [(hp.dedup).countP_eq]
  apply List.countP_congr
  intro x _
  simp only [decide_eq_true_eq]
  rw [hp.count_eq]

theorem Built.countKinds_kindCount {h : Hand} {cards : List Card} (hb : Built h cards) :
    countKinds (getRankCounts h) =
      (kindCount (ranksOf cards) 2, kindCount (ranksOf cards) 3,
        kindCount (ranksOf cards) 4) := by
  rw [Goker.countKinds_eq, countP_getRankCounts, countP_getRankCounts, countP_getRankCounts]
  have hp := ranksOf_perm hb.1
  simp only [← kindCount_perm hp]
  rfl

theorem sum_eq_weighted (D : List Nat) (c : Nat → Nat)
    (hc : ∀ x ∈ D, 1 ≤ c x ∧ c x ≤ 4) :
    (D.map c).sum =
      D.countP (fun r => decide (c r = 1)) + 2 * D.countP (fun r => decide (c r = 2)) +
        3 * D.countP (fun r => decide (c r = 3)) + 4 * D.countP (fun r => decide (c r = 4)) := by
  induction D with
  | nil => simp
  | cons x rest ih =>
    have hx := hc x (List.mem_cons_self _ _)
    have ih2 := ih (fun y hy => hc y (List.mem_cons_of_mem _ hy))
    simp only [List.map_cons, List.sum_cons, List.countP_cons, ih2]
    have h4 : c x = 1 ∨ c x = 2 ∨ c x = 3 ∨ c x = 4 := by omega
    rcases h4 with e | e | e | e <;> simp [e] <;> omega

theorem suit_list_length_le (l : List CardSuit) (h : l.Nodup) : l.length ≤ 4 := by
  have hsub : l ⊆ [CardSuit.Clubs, CardSuit.Diamonds, CardSuit.Hearts, CardSuit.Spades] := by
    intro s _
    cases s <;> simp
  exact (List.subperm_of_subset h hsub).length_le

/-- With four suits, no rank is held by more than four distinct cards. -/
theorem count_rank_le_four (cards : List Card) (hnd : cards.Nodup) (r : Nat) :
    (ranksOf cards).count r ≤ 4 := by
  have h1 : (ranksOf cards).count r = (cards.filter (fun c => c.Rank == r)).length := by
    unfold ranksOf
    rw [List.count, List.countP_map, List.countP_eq_length_filter]
    rfl
  rw [h1]
  have h2 : ((cards.filter (fun c => c.Rank == r)).map (fun c => c.Suit)).Nodup := by
    apply List.Nodup.map_on
    · intro a ha b hb hab
      have ha2 := (List.mem_filter.1 ha).2
      have hb2 := (List.mem_filter.1 hb).2
      simp only [beq_iff_eq] at ha2 hb2
      cases a; cases b
      simp only [Card.mk.injEq]
      simp only at ha2 hb2 hab
      exact ⟨ha2.trans hb2.symm, hab⟩
    · exact hnd.filter _
  have := suit_list_length_le _ h2
  simpa using this

theorem kindCount_weighted (cards : List Card) (hv : ValidCards cards) :
    kindCount (ranksOf cards) 1 + 2 * kindCount (ranksOf cards) 2 +
      3 * kindCount (ranksOf cards) 3 + 4 * kindCount (ranksOf cards) 4 = 5 := by
  have hsum := List.sum_map_count_dedup_eq_length (ranksOf cards)
  have hlen : (ranksOf cards).length = 5 := by simp [ranksOf, hv.1]
  rw [hlen] at hsum
  have hw := sum_eq_weighted (ranksOf cards).dedup (fun x => (ranksOf cards).count x) (by
    intro x hx
    refine ⟨?_, count_rank_le_four cards hv.2.1 x⟩
    exact List.count_pos_iff.2 (List.mem_dedup.1 hx))
  unfold kindCount
  rw [← hw]
  exact hsum

theorem kindCount_pos_iff (rs : List Nat) (n : Nat) :
    1 ≤ kindCount rs n ↔ ∃ x ∈ rs, rs.count x = n := by
  unfold kindCount
  rw [Nat.succ_le_iff, List.countP_pos_iff]
  constructor
  · rintro ⟨x, hx, hp⟩
    exact ⟨x, List.mem_dedup.1 hx, by simpa using hp⟩
  · rintro ⟨x, hx, hp⟩
    exact ⟨x, List.mem_dedup.2 hx, by simpa using hp⟩

/-- Pairwise distinct ranks that all occur `n` times are counted by kindCount. -/
theorem length_le_kindCount (rs ws : List Nat) (n : Nat) (hn : 1 ≤ n) (hws : ws.Nodup)
    (h : ∀ w ∈ ws, rs.count w = n) : ws.length ≤ kindCount rs n := by
  unfold kindCount
  rw [List.countP_eq_length_filter]
  apply (List.subperm_of_subset hws _).length_le
  intro w hw
  rw [List.mem_filter, List.mem_dedup]
  have hc := h w hw
  refine ⟨?_, by simpa using hc⟩
  apply List.count_pos_iff.1
  omega

theorem two_le_kindCount (rs : List Nat) (n : Nat) (h : 2 ≤ kindCount rs n) :
    ∃ x y, x ≠ y ∧ rs.count x = n ∧ rs.count y = n := by
  unfold kindCount at h
  rw [List.countP_eq_length_filter] at h
  have hnd : (rs.dedup.filter (fun r => decide (rs.count r = n))).Nodup :=
    (List.nodup_dedup rs).filter _
  match hl : rs.dedup.filter (fun r => decide (rs.count r = n)), h, hnd with
  | x :: y :: rest, _, hnd2 =>
    have hx : x ∈ rs.dedup.filter (fun r => decide (rs.count r = n)) := by
      rw [hl]; simp
    have hy : y ∈ rs.dedup.filter (fun r => decide (rs.count r = n)) := by
      rw [hl]; simp
    refine ⟨x, y, ?_, by simpa using (List.mem_filter.1 hx).2,
      by simpa using (List.mem_filter.1 hy).2⟩
    intro hxy
    subst hxy
    simp at hnd2

theorem rankOfKinds_iff (n1 n2 n3 n4 : Nat) (hsum : n1 + 2 * n2 + 3 * n3 + 4 * n4 = 5) :
    (rankOfKinds (n2, n3, n4) = FourOfAKind ↔ 1 ≤ n4) ∧
    (rankOfKinds (n2, n3, n4) = FullHouse ↔ (1 ≤ n3 ∧ 1 ≤ n2)) ∧
    (rankOfKinds (n2, n3, n4) = ThreeOfAKind ↔ (1 ≤ n3 ∧ n2 = 0)) ∧
    (rankOfKinds (n2, n3, n4) = TwoPair ↔ 2 ≤ n2) ∧
    (rankOfKinds (n2, n3, n4) = Pair ↔ (n2 = 1 ∧ n3 = 0)) ∧
    (rankOfKinds (n2, n3, n4) = HighCard ↔ (n2 = 0 ∧ n3 = 0 ∧ n4 = 0)) := by
  simp only [rankOfKinds, FourOfAKind, FullHouse, ThreeOfAKind, TwoPair, Pair, HighCard]
  split_ifs <;> refine ⟨⟨?_, ?_⟩, ⟨?_, ?_⟩, ⟨?_, ?_⟩, ⟨?_, ?_⟩, ⟨?_, ?_⟩, ⟨?_, ?_⟩⟩ <;>
    intro hx <;> first | exact False.elim hx | trivial | omega

/-- The decision of computeHandRank on the rank counts against the reference
categories. -/
theorem rankOfKinds_ref (cards : List Card) (hv : ValidCards cards) :
    (rankOfKinds (kindCount (ranksOf cards) 2, kindCount (ranksOf cards) 3,
        kindCount (ranksOf cards) 4) = FourOfAKind ↔ IsFourOfAKindRef cards) ∧
    (rankOfKinds (kindCount (ranksOf cards) 2, kindCount (ranksOf cards) 3,
        kindCount (ranksOf cards) 4) = FullHouse ↔ IsFullHouseRef cards) ∧
    (rankOfKinds (kindCount (ranksOf cards) 2, kindCount (ranksOf cards) 3,
        kindCount (ranksOf cards) 4) = ThreeOfAKind ↔ IsThreeOfAKindRef cards) ∧
    (rankOfKinds (kindCount (ranksOf cards) 2, kindCount (ranksOf cards) 3,
        kindCount (ranksOf cards) 4) = TwoPair ↔ IsTwoPairRef cards) ∧
    (rankOfKinds (kindCount (ranksOf cards) 2, kindCount (ranksOf cards) 3,
        kindCount (ranksOf cards) 4) = Pair ↔ IsPairRef cards) ∧
    (rankOfKinds (kindCount (ranksOf cards) 2, kindCount (ranksOf cards) 3,
        kindCount (ranksOf cards) 4) = HighCard ↔ IsHighCardRef cards) := by
  have hsum := kindCount_weighted cards hv
  obtain ⟨k4, kf, k3, k2p, kp, khc⟩ := rankOfKinds_iff _ _ _ _ hsum
  have b2 := kindCount_pos_iff (ranksOf cards) 2
  have b3 := kindCount_pos_iff (ranksOf cards) 3
  have b4 := kindCount_pos_iff (ranksOf cards) 4
  have hle : ∀ y, (ranksOf cards).count y ≤ 4 := count_rank_le_four cards hv.2.1
  have hmem : ∀ y, y ∈ ranksOf cards → 1 ≤ (ranksOf cards).count y :=
    fun y hy => List.count_pos_iff.2 hy
  have hmem2 : ∀ y, 1 ≤ (ranksOf cards).count y → y ∈ ranksOf cards :=
    fun y hy => List.count_pos_iff.1 hy
  have two : ∀ n x y, 1 ≤ n → x ≠ y → (ranksOf cards).count x = n →
      (ranksOf cards).count y = n → 2 ≤ kindCount (ranksOf cards) n := by
    intro n x y hn hxy hx hy
    have := length_le_kindCount (ranksOf cards) [x, y] n hn (by simp [hxy]) (by
      intro w hw
      simp only [List.mem_cons, List.mem_singleton, List.not_mem_nil, or_false] at hw
      rcases hw with rfl | rfl
      · exact hx
      · exact hy)
    simpa using this
  refine ⟨k4.trans b4, ?_, ?_, ?_, ?_, ?_⟩
  · -- full house
    rw [kf, b3, b2]
    unfold IsFullHouseRef
    constructor
    · rintro ⟨⟨x, hx, hcx⟩, ⟨y, hy, hcy⟩⟩
      exact ⟨x, hx, y, hy, hcx, hcy⟩
    · rintro ⟨x, hx, y, hy, hcx, hcy⟩
      exact ⟨⟨x, hx, hcx⟩, ⟨y, hy, hcy⟩⟩
  · -- three of a kind
    rw [k3]
    unfold IsThreeOfAKindRef
    constructor
    · rintro ⟨h3, h2⟩
      obtain ⟨x, hx, hcx⟩ := b3.1 h3
      refine ⟨x, hx, hcx, ?_⟩
      intro y hy hyx
      have h1 := hmem y hy
      have h4 := hle y
      by_contra hcon
      have hc : (ranksOf cards).count y = 2 ∨ (ranksOf cards).count y = 3 ∨
          (ranksOf cards).count y = 4 := by omega
      rcases hc with e | e | e
      · have := b2.2 ⟨y, hy, e⟩
        omega
      · have := two 3 x y (by norm_num) (fun h => hyx h.symm) hcx e
        omega
      · have := b4.2 ⟨y, hy, e⟩
        omega
    · rintro ⟨x, hx, hcx, hall⟩
      refine ⟨b3.2 ⟨x, hx, hcx⟩, ?_⟩
      by_contra hcon
      obtain ⟨z, hz, hcz⟩ := b2.1 (by omega)
      have hzx : z ≠ x := by
        intro h
        rw [h] at hcz
        omega
      have := hall z hz hzx
      omega
  · -- two pair
    rw [k2p]
    unfold IsTwoPairRef
    constructor
    · intro h2
      obtain ⟨x, y, hxy, hcx, hcy⟩ := two_le_kindCount _ _ h2
      refine ⟨x, hmem2 x (by omega), y, hmem2 y (by omega), hxy, hcx, hcy, ?_⟩
      intro z _ hcz
      by_contra hcon
      have hzx : z ≠ x := fun h => hcon (Or.inl h)
      have hzy : z ≠ y := fun h => hcon (Or.inr h)
      have := length_le_kindCount (ranksOf cards) [x, y, z] 2 (by norm_num)
        (by simp [hxy, hzx.symm, hzy.symm]) (by
          intro w hw
          simp only [List.mem_cons, List.mem_singleton, List.not_mem_nil, or_false] at hw
          rcases hw with rfl | rfl | rfl
          · exact hcx
          · exact hcy
          · exact hcz)
      simp only [List.length_cons, List.length_nil] at this
      omega
    · rintro ⟨x, _, y, _, hxy, hcx, hcy, -⟩
      exact two 2 x y (by norm_num) hxy hcx hcy
  · -- pair
    rw [kp]
    unfold IsPairRef
    constructor
    · rintro ⟨h2, h3⟩
      obtain ⟨x, hx, hcx⟩ := b2.1 (by omega)
      refine ⟨x, hx, hcx, ?_⟩
      intro y hy hyx
      have h1 := hmem y hy
      have h4 := hle y
      by_contra hcon
      have hc : (ranksOf cards).count y = 2 ∨ (ranksOf cards).count y = 3 ∨
          (ranksOf cards).count y = 4 := by omega
      rcases hc with e | e | e
      · have := two 2 x y (by norm_num) (fun h => hyx h.symm) hcx e
        omega
      · have := b3.2 ⟨y, hy, e⟩
        omega
      · have := b4.2 ⟨y, hy, e⟩
        omega
    · rintro ⟨x, hx, hcx, hall⟩
      have h2 := b2.2 ⟨x, hx, hcx⟩
      refine ⟨?_, ?_⟩
      · by_contra hcon
        obtain ⟨u, w, huw, hcu, hcw⟩ := two_le_kindCount (ranksOf cards) 2 (by omega)
        by_cases hux : u = x
        · have hwx : w ≠ x := fun h => huw (hux.trans h.symm)
          have := hall w (hmem2 w (by omega)) hwx
          omega
        · have := hall u (hmem2 u (by omega)) hux
          omega
      · by_contra hcon
        obtain ⟨z, hz, hcz⟩ := b3.1 (by omega)
        have hzx : z ≠ x := by
          intro h
          rw [h] at hcz
          omega
        have := hall z hz hzx
        omega
  · -- high card
    rw [khc]
    unfold IsHighCardRef
    rw [List.nodup_iff_count_le_one]
    constructor
    · rintro ⟨h2, h3, h4⟩ a
      by_contra hcon
      have h5 := hle a
      have hm := hmem2 a (by omega)
      have hc : (ranksOf cards).count a = 2 ∨ (ranksOf cards).count a = 3 ∨
          (ranksOf cards).count a = 4 := by omega
      rcases hc with e | e | e
      · have := b2.2 ⟨a, hm, e⟩
        omega
      · have := b3.2 ⟨a, hm, e⟩
        omega
      · have := b4.2 ⟨a, hm, e⟩
        omega
    · intro hnd
      refine ⟨?_, ?_, ?_⟩
      · by_contra hcon
        obtain ⟨z, _, hcz⟩ := b2.1 (by omega)
        have := hnd z
        omega
      · by_contra hcon
        obtain ⟨z, _, hcz⟩ := b3.1 (by omega)
        have := hnd z
        omega
      · by_contra hcon
        obtain ⟨z, _, hcz⟩ := b4.1 (by omega)
        have := hnd z
        omega

/-- The category of a built hand that is neither a flush nor a straight. -/
theorem Built.handRank_kinds {h : Hand} {cards : List Card} (hb : Built h cards)
    (hv : ValidCards cards) (hnf : ¬ AllSameSuit cards) (hns : ¬ IsStraightRef cards) :
    h.handRank = rankOfKinds (kindCount (ranksOf cards) 2, kindCount (ranksOf cards) 3,
      kindCount (ranksOf cards) 4) := by
  rw [← hb.countKinds_kindCount]
  rcases hb.handRank_cases hv with ⟨h1, -⟩ | ⟨h1, -⟩ | ⟨h1, -⟩ | ⟨-, h2, -⟩ | ⟨-, -, h3⟩
  · exact absurd h1 hnf
  · exact absurd h1 hnf
  · exact absurd h1 hnf
  · exact absurd h2 hns
  · exact h3

/-- C2: for every hand built by NewHand from 5 pairwise distinct cards with
ranks in 2..14 that is neither a flush nor a straight, Rank() is the reference
category of the rank multiset: FourOfAKind iff some rank occurs 4 times,
FullHouse iff one rank occurs 3 times and another 2 times, ThreeOfAKind iff one
rank occurs 3 times and the other two differ, TwoPair iff exactly two ranks
occur twice, Pair iff exactly one rank occurs twice and the other three are
distinct, HighCard iff all five ranks are distinct; and the result is the same
for every order in which the map entries are visited. -/
theorem C2_rank_multiset_categories (cards : List Card) (hv : ValidCards cards)
    (hnf : ¬ AllSameSuit cards) (hns : ¬ IsStraightRef cards) :
    ∃ h, NewHand cards = Except.ok h ∧
      (h.Rank = FourOfAKind ↔ IsFourOfAKindRef cards) ∧
      (h.Rank = FullHouse ↔ IsFullHouseRef cards) ∧
      (h.Rank = ThreeOfAKind ↔ IsThreeOfAKindRef cards) ∧
      (h.Rank = TwoPair ↔ IsTwoPairRef cards) ∧
      (h.Rank = Pair ↔ IsPairRef cards) ∧
      (h.Rank = HighCard ↔ IsHighCardRef cards) ∧
      (∀ entries, entries.Perm (getRankCounts h) →
        rankOfKinds (countKinds entries) = h.Rank) := by
  obtain ⟨h, hok, hb⟩ := NewHand_valid cards hv
  have hk := hb.handRank_kinds hv hnf hns
  obtain ⟨r4, rf, r3, r2p, rp, rhc⟩ := rankOfKinds_ref cards hv
  refine ⟨h, hok, ?_⟩
  unfold Hand.Rank
  rw [hk]
  refine ⟨r4, rf, r3, r2p, rp, rhc, ?_⟩
  intro entries hp
  rw [countKinds_perm hp, hb.countKinds_kindCount]

/-- C2 at the two pair A A K K 2 of TestTwoPair. -/
theorem C2_rank_multiset_categories_witness :
    ValidCards twoPairHand ∧ ¬ AllSameSuit twoPairHand ∧ ¬ IsStraightRef twoPairHand ∧
      ∃ h, NewHand twoPairHand = Except.ok h ∧ h.Rank = TwoPair := by
  refine ⟨by decide, by decide, by decide, ?_⟩
  obtain ⟨h, hok, -, -, -, h2, -⟩ :=
    C2_rank_multiset_categories twoPairHand (by decide) (by decide) (by decide)
  exact ⟨h, hok, h2.2 (by decide)⟩

/-! ## Shapes of the grouped rank sequence -/

/-- With pairwise distinct ranks the grouped sequence is the ranks in
descending order. -/
theorem groupedRanks_of_nodup (cards : List Card) (g : List Nat)
    (hnd : (ranksOf cards).Nodup) (hp : g.Perm (ranksOf cards))
    (hs : g.Pairwise (fun a b => b ≤ a)) : groupedRanks cards = g := by
  symm
  apply groupedRanks_unique cards g hp
  have hone : ∀ x ∈ g, (ranksOf cards).count x = 1 := by
    intro x hx
    exact List.count_eq_one_of_mem hnd (hp.mem_iff.1 hx)
  refine List.Pairwise.imp_of_mem ?_ hs
  intro a b ha hb hab
  unfold groupedBefore
  rw [hone a ha, hone b hb]
  omega

theorem groupedRanks_of_run (cards : List Card) (hlen : cards.length = 5) (r : Nat)
    (h : RanksExactly cards [r, r + 1, r + 2, r + 3, r + 4]) :
    groupedRanks cards = [r + 4, r + 3, r + 2, r + 1, r] := by
  have hs : [r, r + 1, r + 2, r + 3, r + 4].Nodup := by simp
  have hperm := h.perm hlen hs rfl
  apply groupedRanks_of_nodup cards _ (hperm.nodup_iff.1 hs)
  · refine List.Perm.trans ?_ hperm
    exact (List.reverse_perm [r, r + 1, r + 2, r + 3, r + 4])
  · simp only [List.pairwise_cons, List.mem_cons, List.mem_singleton, List.not_mem_nil,
      or_false, forall_eq_or_imp, forall_eq, List.Pairwise.nil, and_true, IsEmpty.forall_iff,
      implies_true]
    omega

theorem groupedRanks_of_wheel (cards : List Card) (hlen : cards.length = 5)
    (h : IsWheelRef cards) : groupedRanks cards = [14, 5, 4, 3, 2] := by
  have hs : [14, 2, 3, 4, 5].Nodup := by decide
  have hperm := RanksExactly.perm h hlen hs rfl
  apply groupedRanks_of_nodup cards _ (hperm.nodup_iff.1 hs)
  · refine List.Perm.trans ?_ hperm
    decide
  · decide

theorem RanksExactly_congr {l1 l2 : List Card} (hp : (ranksOf l1).Perm (ranksOf l2))
    (s : List Nat) : RanksExactly l1 s ↔ RanksExactly l2 s := by
  unfold RanksExactly
  have hm : ∀ r, r ∈ ranksOf l1 ↔ r ∈ ranksOf l2 := fun r => hp.mem_iff
  simp only [hm]

theorem IsWheelRef_congr {l1 l2 : List Card} (hp : (ranksOf l1).Perm (ranksOf l2)) :
    IsWheelRef l1 ↔ IsWheelRef l2 := RanksExactly_congr hp _

theorem IsRoyalRef_congr {l1 l2 : List Card} (hp : (ranksOf l1).Perm (ranksOf l2)) :
    IsRoyalRef l1 ↔ IsRoyalRef l2 := RanksExactly_congr hp _

theorem IsStraightRef_congr {l1 l2 : List Card} (hp : (ranksOf l1).Perm (ranksOf l2)) :
    IsStraightRef l1 ↔ IsStraightRef l2 := by
  unfold IsStraightRef
  rw [IsWheelRef_congr hp]
  simp only [RanksExactly_congr hp]

/-! ## Packing and the lexicographic order -/

theorem compare_step (a b x y B : Nat) (hx : x < B) (hy : y < B) :
    (if b * B + y < a * B + x then (1 : Int) else if a * B + x < b * B + y then -1 else 0) =
      if a > b then 1 else if a < b then -1
      else (if y < x then (1 : Int) else if x < y then -1 else 0) := by
  rcases Nat.lt_trichotomy a b with h | h | h
  · have h1 : (a + 1) * B ≤ b * B := Nat.mul_le_mul_right B (by omega)
    rw [Nat.add_mul] at h1
    have h2 : ¬ a > b := by omega
    have h3 : ¬ b * B + y < a * B + x := by omega
    have h4 : a * B + x < b * B + y := by omega
    simp only [h, h2, h3, h4, if_true, if_false]
  · subst h
    have h2 : ¬ a > a := by omega
    have h3 : ¬ a < a := by omega
    simp only [h2, h3, if_false, Nat.add_lt_add_iff_left]
  · have h1 : (b + 1) * B ≤ a * B := Nat.mul_le_mul_right B (by omega)
    rw [Nat.add_mul] at h1
    have h3 : b * B + y < a * B + x := by omega
    simp only [h, h3, if_true, gt_iff_lt]

theorem packRanks_lex (a1 a2 a3 a4 a5 b1 b2 b3 b4 b5 : Nat)
    (ha : a1 ≤ 14 ∧ a2 ≤ 14 ∧ a3 ≤ 14 ∧ a4 ≤ 14 ∧ a5 ≤ 14)
    (hb : b1 ≤ 14 ∧ b2 ≤ 14 ∧ b3 ≤ 14 ∧ b4 ≤ 14 ∧ b5 ≤ 14) :
    lexCompare [a1, a2, a3, a4, a5] [b1, b2, b3, b4, b5] =
      if packRanks [b1, b2, b3, b4, b5] < packRanks [a1, a2, a3, a4, a5] then 1
      else if packRanks [a1, a2, a3, a4, a5] < packRanks [b1, b2, b3, b4, b5] then -1
      else 0 := by
  have ea : packRanks [a1, a2, a3, a4, a5] =
      a1 * 65536 + (a2 * 4096 + (a3 * 256 + (a4 * 16 + a5))) := by
    simp only [packRanks]; omega
  have eb : packRanks [b1, b2, b3, b4, b5] =
      b1 * 65536 + (b2 * 4096 + (b3 * 256 + (b4 * 16 + b5))) := by
    simp only [packRanks]; omega
  rw [ea, eb, compare_step a1 b1 _ _ 65536 (by omega) (by omega),
    compare_step a2 b2 _ _ 4096 (by omega) (by omega),
    compare_step a3 b3 _ _ 256 (by omega) (by omega),
    compare_step a4 b4 _ _ 16 (by omega) (by omega)]
  simp only [lexCompare, gt_iff_lt]

theorem packRanks_inj (a1 a2 a3 a4 a5 b1 b2 b3 b4 b5 : Nat)
    (ha : a1 ≤ 14 ∧ a2 ≤ 14 ∧ a3 ≤ 14 ∧ a4 ≤ 14 ∧ a5 ≤ 14)
    (hb : b1 ≤ 14 ∧ b2 ≤ 14 ∧ b3 ≤ 14 ∧ b4 ≤ 14 ∧ b5 ≤ 14)
    (h : packRanks [a1, a2, a3, a4, a5] = packRanks [b1, b2, b3, b4, b5]) :
    [a1, a2, a3, a4, a5] = [b1, b2, b3, b4, b5] := by
  simp only [packRanks] at h
  norm_num at h
  have e1 : a1 = b1 := by omega
  have e2 : a2 = b2 := by omega
  have e3 : a3 = b3 := by omega
  have e4 : a4 = b4 := by omega
  have e5 : a5 = b5 := by omega
  rw [e1, e2, e3, e4, e5]

/-- The grouped sequence of a valid hand as five ranks of at most 14. -/
theorem groupedRanks_five {cards : List Card} (hv : ValidCards cards) :
    ∃ g1 g2 g3 g4 g5, groupedRanks cards = [g1, g2, g3, g4, g5] ∧
      (g1 ≤ 14 ∧ g2 ≤ 14 ∧ g3 ≤ 14 ∧ g4 ≤ 14 ∧ g5 ≤ 14) := by
  obtain ⟨g1, g2, g3, g4, g5, hg⟩ :=
    list_length_five (groupedRanks cards) ((groupedRanks_length cards).trans hv.1)
  have hbound := groupedRanks_bound hv
  rw [hg] at hbound
  simp only [List.mem_cons, List.mem_singleton, List.not_mem_nil, or_false, forall_eq_or_imp,
    forall_eq] at hbound
  exact ⟨g1, g2, g3, g4, g5, hg, by omega⟩

/-- Equal scores of two valid hands mean equal rank multisets. -/
theorem score_eq_iff {a b : Hand} {cardsA cardsB : List Card} (ha : Built a cardsA)
    (hb : Built b cardsB) (hA : ValidCards cardsA) (hB : ValidCards cardsB) :
    a.TiebreakScore = b.TiebreakScore ↔ (ranksOf cardsA).Perm (ranksOf cardsB) := by
  rw [ha.score hA, hb.score hB]
  constructor
  · intro h
    obtain ⟨a1, a2, a3, a4, a5, hga, hba⟩ := groupedRanks_five hA
    obtain ⟨b1, b2, b3, b4, b5, hgb, hbb⟩ := groupedRanks_five hB
    rw [hga, hgb] at h
    have := packRanks_inj _ _ _ _ _ _ _ _ _ _ hba hbb h
    have e : groupedRanks cardsA = groupedRanks cardsB := by rw [hga, hgb, this]
    exact ((groupedRanks_perm cardsA).symm.trans (e ▸ List.Perm.refl _)).trans
      (groupedRanks_perm cardsB)
  · intro h
    rw [groupedRanks_congr h]

/-- Compare on two valid hands of one category, neither a wheel, is the
lexicographic comparison of the grouped sequences. -/
theorem Compare_eq_lex {a b : Hand} {cardsA cardsB : List Card} (ha : Built a cardsA)
    (hb : Built b cardsB) (hA : ValidCards cardsA) (hB : ValidCards cardsB)
    (hrank : a.handRank = b.handRank) (hwa : ¬ IsWheelRef cardsA) (hwb : ¬ IsWheelRef cardsB) :
    a.Compare b = lexCompare (groupedRanks cardsA) (groupedRanks cardsB) := by
  rw [Compare_eq_ite a b (ha.same_straight hb hA hB)]
  have hka : wheelKey a = 1 := by
    unfold wheelKey
    have h1 : a.isWheel = false := by
      cases h : a.isWheel with
      | false => rfl
      | true => exact absurd ((ha.straight hA.ne_nil hA.2.2).2.1.1 h) hwa
    simp [h1]
  have hkb : wheelKey b = 1 := by
    unfold wheelKey
    have h1 : b.isWheel = false := by
      cases h : b.isWheel with
      | false => rfl
      | true => exact absurd ((hb.straight hB.ne_nil hB.2.2).2.1.1 h) hwb
    simp [h1]
  obtain ⟨a1, a2, a3, a4, a5, hga, hba⟩ := groupedRanks_five hA
  obtain ⟨b1, b2, b3, b4, b5, hgb, hbb⟩ := groupedRanks_five hB
  rw [ha.score hA, hb.score hB, hka, hkb, hrank, hga, hgb,
    packRanks_lex _ _ _ _ _ _ _ _ _ _ hba hbb]
  simp

theorem wheelKey_of_wheel {h : Hand} {cards : List Card} (hb : Built h cards)
    (hv : ValidCards cards) (hw : IsWheelRef cards) : wheelKey h = 0 := by
  obtain ⟨hS, hW, -, -⟩ := hb.straight hv.ne_nil hv.2.2
  unfold wheelKey
  simp [hS.2 (Or.inr hw), hW.2 hw]

theorem wheelKey_of_not_wheel {h : Hand} {cards : List Card} (hb : Built h cards)
    (hv : ValidCards cards) (hw : ¬ IsWheelRef cards) : wheelKey h = 1 := by
  obtain ⟨-, hW, -, -⟩ := hb.straight hv.ne_nil hv.2.2
  unfold wheelKey
  have h1 : h.isWheel = false := by
    cases hx : h.isWheel with
    | false => rfl
    | true => exact absurd (hW.1 hx) hw
  simp [h1]

/-- C5 as stated fails at the ace-high straight: the wheel A-2-3-4-5 and the
straight A-K-Q-J-T are both of category Straight, exactly one is the wheel, the
wheel loses, but its tie-break score is the smaller one. -/
theorem C5_counterexample :
    ∃ w o, NewHand wheelMixed = Except.ok w ∧ NewHand broadwayMixed = Except.ok o ∧
      ValidCards wheelMixed ∧ ValidCards broadwayMixed ∧
      w.Rank = o.Rank ∧ w.Rank = Straight ∧
      IsWheelRef wheelMixed ∧ ¬ IsWheelRef broadwayMixed ∧
      w.Compare o = -1 ∧ w.TiebreakScore = 939058 ∧ o.TiebreakScore = 974010 ∧
      ¬ (o.TiebreakScore < w.TiebreakScore) := by
  refine ⟨_, _, rfl, rfl, ?_⟩
  decide

/-- C5 (amended): for two valid hands of the same category Straight or
StraightFlush of which exactly one is the wheel A-2-3-4-5, the wheel loses in
both argument orders; its tie-break score is the larger one exactly when the
other hand is not the ace-high straight A-K-Q-J-T; and two wheels of the same
category tie whatever their suits. -/
theorem C5_wheel_rule (cardsW cardsO : List Card) (hW : ValidCards cardsW)
    (hO : ValidCards cardsO) :
    ∃ w o, NewHand cardsW = Except.ok w ∧ NewHand cardsO = Except.ok o ∧
      (w.Rank = o.Rank → (w.Rank = Straight ∨ w.Rank = StraightFlush) →
        IsWheelRef cardsW → ¬ IsWheelRef cardsO →
          w.Compare o = -1 ∧ o.Compare w = 1 ∧
            (o.TiebreakScore < w.TiebreakScore ↔ ¬ IsRoyalRef cardsO)) ∧
      (w.Rank = o.Rank → IsWheelRef cardsW → IsWheelRef cardsO →
        w.Compare o = 0 ∧ o.Compare w = 0) := by
  obtain ⟨w, hokw, hbw⟩ := NewHand_valid cardsW hW
  obtain ⟨o, hoko, hbo⟩ := NewHand_valid cardsO hO
  have swo := hbw.same_straight hbo hW hO
  have sow := hbo.same_straight hbw hO hW
  refine ⟨w, o, hokw, hoko, ?_, ?_⟩
  · intro hrank hcat hww hwo
    simp only [Hand.Rank, Straight, StraightFlush] at hrank hcat
    have kw := wheelKey_of_wheel hbw hW hww
    have ko := wheelKey_of_not_wheel hbo hO hwo
    refine ⟨(Compare_spec w o swo).2.1.2 (Or.inr ⟨hrank, Or.inl (by omega)⟩),
      (Compare_spec o w sow).1.2 (Or.inr ⟨hrank.symm, Or.inl (by omega)⟩), ?_⟩
    -- the other hand is a run r..r+4
    have hso : o.isStraight = true := by
      rw [(hbo.isStraight_iff hO).1]
      omega
    have href := (hbo.straight hO.ne_nil hO.2.2).1.1 hso
    rcases href with ⟨r, hr11, hr2, hrun⟩ | hw2
    · rw [hbw.score hW, hbo.score hO, groupedRanks_of_wheel cardsW hW.1 hww,
        groupedRanks_of_run cardsO hO.1 r hrun]
      have hroyal : IsRoyalRef cardsO ↔ r = 10 := by
        constructor
        · intro hroy
          have h1 := hroy.1 r (hrun.2 r (by simp))
          simp only [List.mem_cons, List.mem_singleton, List.not_mem_nil, or_false] at h1
          omega
        · intro h10
          subst h10
          exact hrun
      rw [hroyal]
      simp only [packRanks]
      omega
    · exact absurd hw2 hwo
  · intro hrank hww hwo
    simp only [Hand.Rank] at hrank
    have kw := wheelKey_of_wheel hbw hW hww
    have ko := wheelKey_of_wheel hbo hO hwo
    have hscore : w.TiebreakScore = o.TiebreakScore := by
      rw [hbw.score hW, hbo.score hO, groupedRanks_of_wheel cardsW hW.1 hww,
        groupedRanks_of_wheel cardsO hO.1 hwo]
    exact ⟨(Compare_spec w o swo).2.2.2 ⟨hrank, by omega, hscore⟩,
      (Compare_spec o w sow).2.2.2 ⟨hrank.symm, by omega, hscore.symm⟩⟩

/-- C5 (amended) at the wheel against the six-high straight of
TestWheelVsHigherStraight. -/
theorem C5_wheel_rule_witness :
    ValidCards wheelMixed ∧ ValidCards sixHighStraight ∧
      ∃ w o, NewHand wheelMixed = Except.ok w ∧ NewHand sixHighStraight = Except.ok o ∧
        w.Compare o = -1 ∧ o.Compare w = 1 ∧ o.TiebreakScore < w.TiebreakScore := by
  refine ⟨by decide, by decide, ?_⟩
  obtain ⟨w, o, hw, ho, h1, -⟩ := C5_wheel_rule wheelMixed sixHighStraight
    (by decide) (by decide)
  have hw2 : NewHand wheelMixed = Except.ok
      (evaluate (zeroHand (sortSlice (fun a b => decide (a.Rank > b.Rank)) wheelMixed))) := rfl
  have ho2 : NewHand sixHighStraight = Except.ok
      (evaluate (zeroHand (sortSlice (fun a b => decide (a.Rank > b.Rank)) sixHighStraight))) :=
    rfl
  rw [hw] at hw2
  rw [ho] at ho2
  cases hw2
  cases ho2
  obtain ⟨h2, h3, h4⟩ := h1 (by decide) (by decide) (by decide) (by decide)
  exact ⟨_, _, hw, ho, h2, h3, h4.2 (by decide)⟩

theorem wheelKey_congr {a b : Hand} {cardsA cardsB : List Card} (ha : Built a cardsA)
    (hb : Built b cardsB) (hA : ValidCards cardsA) (hB : ValidCards cardsB)
    (hp : (ranksOf cardsA).Perm (ranksOf cardsB)) : wheelKey a = wheelKey b := by
  by_cases hw : IsWheelRef cardsA
  · rw [wheelKey_of_wheel ha hA hw, wheelKey_of_wheel hb hB ((IsWheelRef_congr hp).1 hw)]
  · rw [wheelKey_of_not_wheel ha hA hw,
      wheelKey_of_not_wheel hb hB (fun h => hw ((IsWheelRef_congr hp).2 h))]

/-- The category of a built valid hand as a function of the reference notions. -/
theorem Built.handRank_eq {h : Hand} {cards : List Card} (hb : Built h cards)
    (hv : ValidCards cards) :
    h.handRank =
      if AllSameSuit cards then
        (if IsRoyalRef cards then RoyalFlush
          else if IsStraightRef cards then StraightFlush else Flush)
      else if IsStraightRef cards then Straight
      else rankOfKinds (kindCount (ranksOf cards) 2, kindCount (ranksOf cards) 3,
        kindCount (ranksOf cards) 4) := by
  rw [← hb.countKinds_kindCount]
  rcases hb.handRank_cases hv with ⟨a1, a2, a3⟩ | ⟨a1, a2, a3, a4⟩ | ⟨a1, a2, a3⟩ |
      ⟨a1, a2, a3⟩ | ⟨a1, a2, a3⟩
  · rw [if_pos a1, if_pos a2, a3]
  · rw [if_pos a1, if_neg a2, if_pos a3, a4]
  · rw [if_pos a1, if_neg (fun hr => a2 (IsRoyalRef.isStraightRef hr)), if_neg a2, a3]
  · rw [if_neg a1, if_pos a2, a3]
  · rw [if_neg a1, if_neg a2, a3]

/-- The category depends only on the rank multiset and on being a flush. -/
theorem handRank_congr {a b : Hand} {cardsA cardsB : List Card} (ha : Built a cardsA)
    (hb : Built b cardsB) (hA : ValidCards cardsA) (hB : ValidCards cardsB)
    (hp : (ranksOf cardsA).Perm (ranksOf cardsB))
    (hf : AllSameSuit cardsA ↔ AllSameSuit cardsB) : a.handRank = b.handRank := by
  have hroy := IsRoyalRef_congr hp
  have hstr := IsStraightRef_congr hp
  rw [ha.handRank_eq hA, hb.handRank_eq hB, kindCount_perm hp 2, kindCount_perm hp 3,
    kindCount_perm hp 4]
  by_cases f : AllSameSuit cardsB <;> by_cases r : IsRoyalRef cardsB <;>
    by_cases s : IsStraightRef cardsB <;> simp only [f, r, s, hf, hroy, hstr, if_true, if_false]

/-- C10: for two valid hands, Compare(A,B) = 0 (equivalently Ties(A,B)) iff
they have the same category and the same multiset of ranks; two hands with
identical ranks and the same flush-ness tie; two hands of one category with
different rank multisets never tie; the tie-break score is injective on rank
multisets. -/
theorem C10_tie_iff_same_ranks (cardsA cardsB : List Card) (hA : ValidCards cardsA)
    (hB : ValidCards cardsB) :
    ∃ a b, NewHand cardsA = Except.ok a ∧ NewHand cardsB = Except.ok b ∧
      (a.Compare b = 0 ↔ (a.Rank = b.Rank ∧ (ranksOf cardsA).Perm (ranksOf cardsB))) ∧
      (a.Ties b = true ↔ a.Compare b = 0) ∧
      ((ranksOf cardsA).Perm (ranksOf cardsB) → (AllSameSuit cardsA ↔ AllSameSuit cardsB) →
        a.Compare b = 0) ∧
      (a.Rank = b.Rank → ¬ (ranksOf cardsA).Perm (ranksOf cardsB) → a.Compare b ≠ 0) ∧
      (a.TiebreakScore = b.TiebreakScore ↔ (ranksOf cardsA).Perm (ranksOf cardsB)) := by
  obtain ⟨a, hoka, hba⟩ := NewHand_valid cardsA hA
  obtain ⟨b, hokb, hbb⟩ := NewHand_valid cardsB hB
  have hzero := (Compare_spec a b (hba.same_straight hbb hA hB)).2.2
  have hscore := score_eq_iff hba hbb hA hB
  have hiff : a.Compare b = 0 ↔ (a.Rank = b.Rank ∧ (ranksOf cardsA).Perm (ranksOf cardsB)) := by
    rw [hzero]
    unfold Hand.Rank
    constructor
    · rintro ⟨h1, -, h3⟩
      exact ⟨h1, hscore.1 h3⟩
    · rintro ⟨h1, h2⟩
      exact ⟨h1, wheelKey_congr hba hbb hA hB h2, hscore.2 h2⟩
  refine ⟨a, b, hoka, hokb, hiff, ?_, ?_, ?_, hscore⟩
  · simp [Hand.Ties]
  · intro hp hf
    exact hiff.2 ⟨handRank_congr hba hbb hA hB hp hf, hp⟩
  · intro _ hnp hc
    exact hnp (hiff.1 hc).2

/-- C10 at the two hands of TestHandTies: same ranks, other suits. -/
theorem C10_tie_iff_same_ranks_witness :
    ValidCards highCardHand ∧ ValidCards highCardHand2 ∧
      ∃ a b, NewHand highCardHand = Except.ok a ∧ NewHand highCardHand2 = Except.ok b ∧
        a.Compare b = 0 := by
  refine ⟨by decide, by decide, ?_⟩
  obtain ⟨a, b, ha, hb, -, -, h3, -⟩ := C10_tie_iff_same_ranks highCardHand highCardHand2
    (by decide) (by decide)
  exact ⟨a, b, ha, hb, h3 (by decide) (by decide)⟩

theorem Built.pair_ref {h : Hand} {cards : List Card} (hb : Built h cards)
    (hv : ValidCards cards) (hp : h.handRank = Pair) :
    IsPairRef cards ∧ ¬ IsStraightRef cards := by
  rw [hb.handRank_eq hv] at hp
  simp only [RoyalFlush, StraightFlush, Flush, Straight, Pair] at hp
  split_ifs at hp <;>
    first | omega | exact ⟨(rankOfKinds_ref cards hv).2.2.2.2.1.1 hp, by assumption⟩

theorem Built.highCard_ref {h : Hand} {cards : List Card} (hb : Built h cards)
    (hv : ValidCards cards) (hp : h.handRank = HighCard) :
    IsHighCardRef cards ∧ ¬ IsStraightRef cards := by
  rw [hb.handRank_eq hv] at hp
  simp only [RoyalFlush, StraightFlush, Flush, Straight, HighCard] at hp
  split_ifs at hp <;>
    first | omega | exact ⟨(rankOfKinds_ref cards hv).2.2.2.2.2.1 hp, by assumption⟩

/-- The grouped sequence of a hand with pairwise distinct ranks starts with
the highest rank. -/
theorem groupedRanks_head_of_nodup (cards : List Card) (hv : ValidCards cards)
    (hnd : (ranksOf cards).Nodup) :
    ∃ t g2 g3 g4 g5, groupedRanks cards = [t, g2, g3, g4, g5] ∧ t ∈ ranksOf cards ∧
      ∀ y ∈ ranksOf cards, y ≤ t := by
  obtain ⟨g1, g2, g3, g4, g5, hg, -⟩ := groupedRanks_five hv
  have hperm := groupedRanks_perm cards
  have hsorted := groupedRanks_sorted cards
  rw [hg] at hperm hsorted
  have hone : ∀ x ∈ ranksOf cards, (ranksOf cards).count x = 1 :=
    fun x hx => List.count_eq_one_of_mem hnd hx
  have hmem : ∀ y, y ∈ ranksOf cards ↔ y ∈ [g1, g2, g3, g4, g5] := fun y => hperm.mem_iff.symm
  refine ⟨g1, g2, g3, g4, g5, hg, (hmem g1).2 (by simp), ?_⟩
  intro y hy
  have hy2 := (hmem y).1 hy
  rw [List.mem_cons] at hy2
  rcases hy2 with rfl | hy2
  · exact le_refl _
  · have hb := (List.pairwise_cons.1 hsorted).1 y hy2
    unfold groupedBefore at hb
    rw [hone y hy, hone g1 ((hmem g1).2 (by simp))] at hb
    omega

/-- The grouped sequence of a one-pair hand: the pair, then the kickers from
the highest down. -/
theorem groupedRanks_of_pair (cards : List Card) (hv : ValidCards cards) (p : Nat)
    (hcp : (ranksOf cards).count p = 2)
    (hother : ∀ y ∈ ranksOf cards, y ≠ p → (ranksOf cards).count y = 1) :
    ∃ k1 k2 k3, groupedRanks cards = [p, p, k1, k2, k3] ∧ k1 ∈ ranksOf cards ∧ k1 ≠ p ∧
      ∀ y ∈ ranksOf cards, y ≠ p → y ≤ k1 := by
  obtain ⟨g1, g2, g3, g4, g5, hg, -⟩ := groupedRanks_five hv
  have hperm := groupedRanks_perm cards
  have hsorted := groupedRanks_sorted cards
  rw [hg] at hperm hsorted
  have hmem : ∀ y, y ∈ ranksOf cards ↔ y ∈ [g1, g2, g3, g4, g5] := fun y => hperm.mem_iff.symm
  have hcnt : List.count p [g1, g2, g3, g4, g5] = 2 := by rw [hperm.count_eq, hcp]
  have hc : ∀ g, g ∈ [g1, g2, g3, g4, g5] →
      (g = p ∧ (ranksOf cards).count g = 2) ∨ (g ≠ p ∧ (ranksOf cards).count g = 1) := by
    intro g hgm
    by_cases e : g = p
    · exact Or.inl ⟨e, e ▸ hcp⟩
    · exact Or.inr ⟨e, hother g ((hmem g).2 hgm) e⟩
  have c1 := hc g1 (by simp)
  have c2 := hc g2 (by simp)
  have c3 := hc g3 (by simp)
  have c4 := hc g4 (by simp)
  have c5 := hc g5 (by simp)
  simp only [List.pairwise_cons, List.mem_cons, List.mem_singleton, List.not_mem_nil,
    or_false, forall_eq_or_imp, forall_eq, List.Pairwise.nil, and_true, IsEmpty.forall_iff,
    implies_true, groupedBefore] at hsorted
  simp only [List.count_cons, List.count_nil, beq_iff_eq] at hcnt
  have hshape : g1 = p ∧ g2 = p ∧ g3 ≠ p ∧ g4 ≠ p ∧ g5 ≠ p ∧ g4 ≤ g3 ∧ g5 ≤ g3 := by
    rcases c1 with ⟨e1, n1⟩ | ⟨e1, n1⟩ <;> rcases c2 with ⟨e2, n2⟩ | ⟨e2, n2⟩ <;>
      rcases c3 with ⟨e3, n3⟩ | ⟨e3, n3⟩ <;> rcases c4 with ⟨e4, n4⟩ | ⟨e4, n4⟩ <;>
      rcases c5 with ⟨e5, n5⟩ | ⟨e5, n5⟩ <;>
      simp only [e1, e2, e3, e4, e5, if_true, if_false] at hcnt <;>
      omega
  obtain ⟨e1, e2, e3, e4, e5, l4, l5⟩ := hshape
  refine ⟨g3, g4, g5, by rw [hg, e1, e2], (hmem g3).2 (by simp), e3, ?_⟩
  intro y hy hyp
  have hy2 := (hmem y).1 hy
  simp only [List.mem_cons, List.mem_singleton, List.not_mem_nil, or_false] at hy2
  rcases hy2 with rfl | rfl | rfl | rfl | rfl
  · exact absurd e1 hyp
  · exact absurd e2 hyp
  · exact le_refl _
  · exact l4
  · exact l5

/-- C8: for two valid hands of the same category, neither a wheel, Compare is
the sign of the lexicographic comparison of their grouped rank sequences (ranks
by occurrence count descending, then rank descending). Consequently, of two
Pair hands the one with the higher paired rank wins whatever the kickers; with
equal pairs the hand holding a kicker above every kicker of the other wins; and
of two HighCard hands the one holding a card above every card of the other
wins. -/
theorem C8_tiebreak_lexicographic (cardsA cardsB : List Card) (hA : ValidCards cardsA)
    (hB : ValidCards cardsB) :
    ∃ a b, NewHand cardsA = Except.ok a ∧ NewHand cardsB = Except.ok b ∧
      (a.Rank = b.Rank → ¬ IsWheelRef cardsA → ¬ IsWheelRef cardsB →
        a.Compare b = lexCompare (groupedRanks cardsA) (groupedRanks cardsB)) ∧
      (a.Rank = Pair → b.Rank = Pair →
        ∀ pa pb, (ranksOf cardsA).count pa = 2 → (ranksOf cardsB).count pb = 2 →
          pb < pa → a.Compare b = 1) ∧
      (a.Rank = Pair → b.Rank = Pair →
        ∀ p ka, (ranksOf cardsA).count p = 2 → (ranksOf cardsB).count p = 2 →
          ka ∈ ranksOf cardsA → ka ≠ p → (∀ y ∈ ranksOf cardsB, y ≠ p → y < ka) →
            a.Compare b = 1) ∧
      (a.Rank = HighCard → b.Rank = HighCard →
        ∀ ta ∈ ranksOf cardsA, (∀ y ∈ ranksOf cardsB, y < ta) → a.Compare b = 1) := by
  obtain ⟨a, hoka, hba⟩ := NewHand_valid cardsA hA
  obtain ⟨b, hokb, hbb⟩ := NewHand_valid cardsB hB
  have hlex : a.handRank = b.handRank → ¬ IsWheelRef cardsA → ¬ IsWheelRef cardsB →
      a.Compare b = lexCompare (groupedRanks cardsA) (groupedRanks cardsB) :=
    fun h1 h2 h3 => Compare_eq_lex hba hbb hA hB h1 h2 h3
  -- the paired rank of a Pair hand, and every other rank once
  have hpairShape : ∀ (cards : List Card) (h : Hand), Built h cards → ValidCards cards →
      h.handRank = Pair → ∀ p, (ranksOf cards).count p = 2 →
        ¬ IsWheelRef cards ∧ ∃ k1 k2 k3, groupedRanks cards = [p, p, k1, k2, k3] ∧
          k1 ∈ ranksOf cards ∧ k1 ≠ p ∧ ∀ y ∈ ranksOf cards, y ≠ p → y ≤ k1 := by
    intro cards h hb hv hr p hcp
    obtain ⟨⟨x, hx, hcx, hall⟩, hns⟩ := hb.pair_ref hv hr
    have hpx : p = x := by
      by_contra hne
      have := hall p (List.count_pos_iff.1 (by omega)) hne
      omega
    subst hpx
    exact ⟨fun hw => hns (Or.inr hw), groupedRanks_of_pair cards hv p hcp hall⟩
  refine ⟨a, b, hoka, hokb, hlex, ?_, ?_, ?_⟩
  · intro hra hrb pa pb hca hcb hlt
    simp only [Hand.Rank] at hra hrb
    obtain ⟨hwa, k1, k2, k3, hga, -⟩ := hpairShape cardsA a hba hA hra pa hca
    obtain ⟨hwb, j1, j2, j3, hgb, -⟩ := hpairShape cardsB b hbb hB hrb pb hcb
    rw [hlex (hra.trans hrb.symm) hwa hwb, hga, hgb]
    have h1 : pa > pb := hlt
    simp only [lexCompare, h1, if_true]
  · intro hra hrb p ka hca hcb hka hkp hall
    simp only [Hand.Rank] at hra hrb
    obtain ⟨hwa, k1, k2, k3, hga, -, -, hmaxa⟩ := hpairShape cardsA a hba hA hra p hca
    obtain ⟨hwb, j1, j2, j3, hgb, hj1, hj1p, -⟩ := hpairShape cardsB b hbb hB hrb p hcb
    rw [hlex (hra.trans hrb.symm) hwa hwb, hga, hgb]
    have h1 := hmaxa ka hka hkp
    have h2 := hall j1 hj1 hj1p
    have h3 : k1 > j1 := by omega
    have h4 : ¬ p > p := by omega
    have h5 : ¬ p < p := by omega
    simp only [lexCompare, h3, h4, h5, if_true, if_false]
  · intro hra hrb ta hta hall
    simp only [Hand.Rank] at hra hrb
    obtain ⟨hnda, hnsa⟩ := hba.highCard_ref hA hra
    obtain ⟨hndb, hnsb⟩ := hbb.highCard_ref hB hrb
    obtain ⟨t, g2, g3, g4, g5, hga, -, hmaxa⟩ := groupedRanks_head_of_nodup cardsA hA hnda
    obtain ⟨u, i2, i3, i4, i5, hgb, hu, -⟩ := groupedRanks_head_of_nodup cardsB hB hndb
    rw [hlex (hra.trans hrb.symm) (fun hw => hnsa (Or.inr hw)) (fun hw => hnsb (Or.inr hw)),
      hga, hgb]
    have h1 := hmaxa ta hta
    have h2 := hall u hu
    have h3 : t > u := by omega
    simp only [lexCompare, h3, if_true]

/-- C8 at the hands of TestHandTiebreakerPair: A A 4 3 2 beats K K A Q J. -/
theorem C8_tiebreak_lexicographic_witness :
    ValidCards pairOfAces ∧ ValidCards pairOfKings ∧
      ∃ a b, NewHand pairOfAces = Except.ok a ∧ NewHand pairOfKings = Except.ok b ∧
        a.Compare b = 1 := by
  refine ⟨by decide, by decide, ?_⟩
  obtain ⟨a, b, ha, hb, -, h2, -⟩ := C8_tiebreak_lexicographic pairOfAces pairOfKings
    (by decide) (by decide)
  have ha2 : NewHand pairOfAces = Except.ok
      (evaluate (zeroHand (sortSlice (fun a b => decide (a.Rank > b.Rank)) pairOfAces))) := rfl
  have hb2 : NewHand pairOfKings = Except.ok
      (evaluate (zeroHand (sortSlice (fun a b => decide (a.Rank > b.Rank)) pairOfKings))) := rfl
  rw [ha] at ha2
  rw [hb] at hb2
  cases ha2
  cases hb2
  exact ⟨_, _, ha, hb, h2 (by decide) (by decide) 14 13 (by decide) (by decide) (by decide)⟩

theorem ValidCards.of_perm {c1 c2 : List Card} (hv : ValidCards c1) (hp : c2.Perm c1) :
    ValidCards c2 :=
  ⟨hp.length_eq.trans hv.1, hp.nodup_iff.2 hv.2.1, fun c hc => hv.2.2 c (hp.mem_iff.1 hc)⟩

/-- C6: for all valid hands A and B, Compare(A,A) = 0, also against a hand
built again from the same cards (in the same or any other order), and
Compare(A,B) = -Compare(B,A); so A beats B iff B loses to A, and A ties B iff
B ties A. -/
theorem C6_compare_refl_antisymm (cardsA cardsB : List Card) (hA : ValidCards cardsA)
    (hB : ValidCards cardsB) :
    ∃ a b, NewHand cardsA = Except.ok a ∧ NewHand cardsB = Except.ok b ∧
      a.Compare a = 0 ∧
      (∀ a2, NewHand cardsA = Except.ok a2 → a.Compare a2 = 0 ∧ a2.Compare a = 0) ∧
      (∀ cards2 : List Card, cards2.Perm cardsA →
        ∃ a2, NewHand cards2 = Except.ok a2 ∧ a.Compare a2 = 0 ∧ a2.Compare a = 0) ∧
      a.Compare b = -(b.Compare a) ∧
      (a.Beats b = true ↔ b.Compare a = -1) ∧
      (a.Ties b = true ↔ b.Ties a = true) := by
  obtain ⟨a, hoka, hba⟩ := NewHand_valid cardsA hA
  obtain ⟨b, hokb, hbb⟩ := NewHand_valid cardsB hB
  have hrefl : a.Compare a = 0 := ((Compare_spec a a (fun _ => rfl)).2.2).2 ⟨rfl, rfl, rfl⟩
  have hab := Compare_spec a b (hba.same_straight hbb hA hB)
  have hba2 := Compare_spec b a (hbb.same_straight hba hB hA)
  have r1 := Compare_range a b
  have r2 := Compare_range b a
  have hanti : a.Compare b = -(b.Compare a) := by
    obtain ⟨h1, h2, h3⟩ := hab
    obtain ⟨h4, h5, h6⟩ := hba2
    rcases r1 with e1 | e1 | e1 <;> rcases r2 with e2 | e2 | e2 <;> rw [e1, e2] <;>
      first
        | rfl
        | (exfalso
           have p1 := h1.1
           have p2 := h2.1
           have p3 := h3.1
           have p4 := h4.1
           have p5 := h5.1
           have p6 := h6.1
           simp only [e1, e2, true_implies] at p1 p2 p3 p4 p5 p6
           omega)
  refine ⟨a, b, hoka, hokb, hrefl, ?_, ?_, hanti, ?_, ?_⟩
  · intro a2 hok2
    rw [hoka] at hok2
    cases hok2
    exact ⟨hrefl, hrefl⟩
  · intro cards2 hp
    have hv2 := hA.of_perm hp
    obtain ⟨a2, hok2, hb2⟩ := NewHand_valid cards2 hv2
    have hpr : (ranksOf cardsA).Perm (ranksOf cards2) := ranksOf_perm hp.symm
    have hfl : AllSameSuit cardsA ↔ AllSameSuit cards2 := AllSameSuit_perm hp.symm
    have hr := handRank_congr hba hb2 hA hv2 hpr hfl
    have hw := wheelKey_congr hba hb2 hA hv2 hpr
    have hs := (score_eq_iff hba hb2 hA hv2).2 hpr
    exact ⟨a2, hok2,
      (Compare_spec a a2 (hba.same_straight hb2 hA hv2)).2.2.2 ⟨hr, hw, hs⟩,
      (Compare_spec a2 a (hb2.same_straight hba hv2 hA)).2.2.2 ⟨hr.symm, hw.symm, hs.symm⟩⟩
  · simp only [Hand.Beats, decide_eq_true_eq]
    omega
  · simp only [Hand.Ties, decide_eq_true_eq]
    omega

/-- C6 at the high-card hand of TestHighCard against the pair of kings. -/
theorem C6_compare_refl_antisymm_witness :
    ValidCards highCardHand ∧ ValidCards pairOfKings ∧
      ∃ a b, NewHand highCardHand = Except.ok a ∧ NewHand pairOfKings = Except.ok b ∧
        a.Compare a = 0 ∧ a.Compare b = -(b.Compare a) := by
  refine ⟨by decide, by decide, ?_⟩
  obtain ⟨a, b, ha, hb, h1, -, -, h2, -⟩ := C6_compare_refl_antisymm highCardHand pairOfKings
    (by decide) (by decide)
  exact ⟨a, b, ha, hb, h1, h2⟩

/-! ## Errors of NewHand -/

theorem NewHand_size_error (cards : List Card) (h : cards.length ≠ 5) :
    NewHand cards = Except.error GoError.ErrInvalidHandSize := by
  simp [NewHand, h]

theorem NewHand_of_length (cards : List Card) (h : cards.length = 5) :
    NewHand cards =
      if hasDuplicate cards [] then Except.error GoError.ErrDuplicateCards
      else Except.ok (evaluate (zeroHand (sortSlice (fun a b => decide (a.Rank > b.Rank)) cards))) := by
  simp [NewHand, h]

theorem hasDuplicate_iff (cards : List Card) :
    hasDuplicate cards [] = true ↔ ¬ cards.Nodup := by
  have h := hasDuplicate_eq_false_iff cards []
  constructor
  · intro h1 hnd
    have := h.2 ⟨hnd, by simp⟩
    rw [h1] at this
    cases this
  · intro hnd
    cases hd : hasDuplicate cards [] with
    | true => rfl
    | false => exact absurd (h.1 hd).1 hnd

/-- C11: NewHand fails with ErrInvalidHandSize iff the input does not hold
exactly 5 cards; the size check comes before the duplicate check (a 2-card or
6-card input with the same card twice gives ErrInvalidHandSize); and
NewHandWithPlayer fails in exactly the same cases with the same error. -/
theorem C11_invalid_hand_size (cards : List Card) (player : Player) :
    (NewHand cards = Except.error GoError.ErrInvalidHandSize ↔ cards.length ≠ 5) ∧
    (cards.length ≠ 5 → ¬ cards.Nodup →
      NewHand cards = Except.error GoError.ErrInvalidHandSize) ∧
    NewHand [NewCard Ace CardSuit.Spades, NewCard Ace CardSuit.Spades] =
      Except.error GoError.ErrInvalidHandSize ∧
    NewHand sixWithDuplicate = Except.error GoError.ErrInvalidHandSize ∧
    (NewHandWithPlayer cards player = Except.error GoError.ErrInvalidHandSize ↔
      cards.length ≠ 5) ∧
    (∀ e, NewHandWithPlayer cards player = Except.error e ↔ NewHand cards = Except.error e) := by
  have hiff : NewHand cards = Except.error GoError.ErrInvalidHandSize ↔ cards.length ≠ 5 := by
    constructor
    · intro h hlen
      rw [NewHand_of_length cards hlen] at h
      split at h <;> cases h
    · exact NewHand_size_error cards
  have hsame : ∀ e, NewHandWithPlayer cards player = Except.error e ↔
      NewHand cards = Except.error e := by
    intro e
    unfold NewHandWithPlayer
    cases hn : NewHand cards with
    | error err => simp
    | ok h => simp
  refine ⟨hiff, fun h _ => NewHand_size_error cards h, rfl, rfl, ?_, hsame⟩
  rw [hsame]
  exact hiff

/-- C12: for every 5-card input, NewHand fails with ErrDuplicateCards iff two
positions of the input hold a card with the same rank and the same suit; cards
that agree in rank only or in suit only are accepted; and in every other
5-card case NewHand succeeds. -/
theorem C12_duplicate_cards (cards : List Card) (hlen : cards.length = 5) :
    (NewHand cards = Except.error GoError.ErrDuplicateCards ↔
      ∃ i j, i < j ∧ j < cards.length ∧
        (cards.getD i default).Rank = (cards.getD j default).Rank ∧
        (cards.getD i default).Suit = (cards.getD j default).Suit) ∧
    (NewHand cards = Except.error GoError.ErrDuplicateCards ↔ ¬ cards.Nodup) ∧
    (cards.Nodup → ∃ h, NewHand cards = Except.ok h) ∧
    (∀ e, NewHand cards = Except.error e → e = GoError.ErrDuplicateCards) := by
  have hdup : NewHand cards = Except.error GoError.ErrDuplicateCards ↔ ¬ cards.Nodup := by
    rw [NewHand_of_length cards hlen, ← hasDuplicate_iff]
    cases hasDuplicate cards [] <;> simp
  have hpos : ¬ cards.Nodup ↔ ∃ i j, i < j ∧ j < cards.length ∧
      (cards.getD i default).Rank = (cards.getD j default).Rank ∧
      (cards.getD i default).Suit = (cards.getD j default).Suit := by
    rw [List.nodup_iff_injective_getElem]
    constructor
    · intro hni
      simp only [Function.Injective, not_forall] at hni
      obtain ⟨⟨i, hi⟩, ⟨j, hj⟩, heq, hne⟩ := hni
      simp only [Fin.mk.injEq] at hne
      rcases Nat.lt_or_gt_of_ne hne with hlt | hgt
      · refine ⟨i, j, hlt, hj, ?_, ?_⟩ <;>
          simp only [List.getD_eq_getElem?_getD, List.getElem?_eq_getElem hi,
            List.getElem?_eq_getElem hj, Option.getD_some] <;> rw [heq]
      · refine ⟨j, i, hgt, hi, ?_, ?_⟩ <;>
          simp only [List.getD_eq_getElem?_getD, List.getElem?_eq_getElem hi,
            List.getElem?_eq_getElem hj, Option.getD_some] <;> rw [heq]
    · rintro ⟨i, j, hij, hj, hr, hs⟩ hinj
      have hi : i < cards.length := by omega
      simp only [List.getD_eq_getElem?_getD, List.getElem?_eq_getElem hi,
        List.getElem?_eq_getElem hj, Option.getD_some] at hr hs
      have heq : cards[i] = cards[j] := by
        cases hci : cards[i]
        cases hcj : cards[j]
        rw [hci, hcj] at hr hs
        simp only at hr hs
        rw [hr, hs]
      have := @hinj ⟨i, hi⟩ ⟨j, hj⟩ heq
      simp only [Fin.mk.injEq] at this
      omega
  refine ⟨hdup.trans hpos, hdup, ?_, ?_⟩
  · intro hnd
    exact ⟨_, NewHand_ok cards hlen hnd⟩
  · intro e he
    rw [NewHand_of_length cards hlen] at he
    split at he
    · cases he; rfl
    · cases he

/-- C12 at the input of TestNewHandDuplicates. -/
theorem C12_duplicate_cards_witness :
    fiveWithDuplicate.length = 5 ∧
      NewHand fiveWithDuplicate = Except.error GoError.ErrDuplicateCards := by
  refine ⟨rfl, ?_⟩
  exact (C12_duplicate_cards fiveWithDuplicate rfl).2.1.2 (by decide)

/-- C13: whenever NewHand succeeds, the stored Cards are a permutation of the
input cards and their ranks are non-increasing from first to last. -/
theorem C13_stored_cards_sorted (cards : List Card) (h : Hand)
    (hok : NewHand cards = Except.ok h) :
    h.Cards.Perm cards ∧ h.Cards.Pairwise (fun a b => b.Rank ≤ a.Rank) := by
  have hlen : cards.length = 5 := by
    by_contra hne
    rw [NewHand_size_error cards hne] at hok
    cases hok
  rw [NewHand_of_length cards hlen] at hok
  split at hok
  · cases hok
  · cases hok
    refine ⟨sortSlice_perm _ cards, ?_⟩
    have hs := sortSlice_pairwise (fun (a b : Card) => decide (a.Rank > b.Rank))
      (by intro a b hab; simp only [decide_eq_true_eq, decide_eq_false_iff_not] at *; omega)
      (by intro a b c h1 h2; simp only [decide_eq_false_iff_not] at *; omega) cards
    refine List.Pairwise.imp ?_ hs
    intro a b hab
    simp only [decide_eq_false_iff_not] at hab
    omega

/-- C13 at the wheel A 2 3 4 5: the cards are stored as A 5 4 3 2. -/
theorem C13_stored_cards_sorted_witness :
    ∃ h, NewHand wheelMixed = Except.ok h ∧ h.Cards.Perm wheelMixed ∧
      h.Cards.Pairwise (fun a b => b.Rank ≤ a.Rank) ∧
      h.Cards.map (fun c => c.Rank) = [14, 5, 4, 3, 2] :=
  ⟨_, rfl, (C13_stored_cards_sorted wheelMixed _ rfl).1,
    (C13_stored_cards_sorted wheelMixed _ rfl).2, by decide⟩

/-! ## The reference enumeration of selections -/

theorem combosRef_length {α : Type} (l : List α) (k : Nat) :
    (combosRef l k).length = l.length.choose k := by
  induction l generalizing k with
  | nil => cases k <;> simp [combosRef]
  | cons x xs ih =>
    cases k with
    | zero => simp [combosRef]
    | succ k =>
      simp only [combosRef, List.length_append, List.length_map, ih, List.length_cons,
        Nat.choose_succ_succ]

theorem combosRef_elem_length {α : Type} (l : List α) (k : Nat) :
    ∀ c ∈ combosRef l k, c.length = k := by
  induction l generalizing k with
  | nil => cases k <;> simp [combosRef]
  | cons x xs ih =>
    cases k with
    | zero => simp [combosRef]
    | succ k =>
      intro c hc
      simp only [combosRef, List.mem_append, List.mem_map] at hc
      rcases hc with ⟨d, hd, rfl⟩ | hc
      · simp [ih k d hd]
      · exact ih (k + 1) c hc

theorem combosRef_eq_nil {α : Type} (l : List α) (k : Nat) (h : l.length < k) :
    combosRef l k = [] := by
  have := combosRef_length l k
  rw [Nat.choose_eq_zero_of_lt h] at this
  exact List.length_eq_zero.1 this

theorem combosRef_map {α β : Type} (f : α → β) (l : List α) (k : Nat) :
    combosRef (l.map f) k = (combosRef l k).map (fun c => c.map f) := by
  induction l generalizing k with
  | nil => cases k <;> simp [combosRef]
  | cons x xs ih =>
    cases k with
    | zero => simp [combosRef]
    | succ k =>
      simp only [List.map_cons, combosRef, ih, List.map_append, List.map_map]
      rfl

/-! ## The closure generate -/

/-- The loop of generate at depth `depth`, given what one call of the body
does: it appends the selections of k + 1 items from position `start` on, each
after the prefix `P` held in the buffer. -/
theorem generate_loop {α : Type} [Inhabited α] (items : List α) (n depth k : Nat)
    (P : List α) (G : Nat → GenState α → GenState α)
    (hG : ∀ i s, i < items.length → s.combination.length = n →
      s.combination.take depth = P →
        (G i s).result =
            s.result ++ (combosRef (items.drop (i + 1)) k).map
              (fun c => P ++ items.getD i default :: c) ∧
          (G i s).combination.length = n ∧ (G i s).combination.take depth = P)
    (cnt start : Nat) (s : GenState α) (hcnt : cnt = items.length - k - start)
    (hlen : s.combination.length = n) (hP : s.combination.take depth = P) :
    ((List.range' start cnt).foldl (fun s i => G i s) s).result =
        s.result ++ (combosRef (items.drop start) (k + 1)).map (fun c => P ++ c) ∧
      ((List.range' start cnt).foldl (fun s i => G i s) s).combination.length = n ∧
      ((List.range' start cnt).foldl (fun s i => G i s) s).combination.take depth = P := by
  induction cnt generalizing start s with
  | zero =>
    have hnil : combosRef (items.drop start) (k + 1) = [] := by
      apply combosRef_eq_nil
      rw [List.length_drop]
      omega
    simp [hnil, hlen, hP]
  | succ cnt ih =>
    have hstart : start < items.length := by omega
    obtain ⟨h1, h2, h3⟩ := hG start s hstart hlen hP
    have ih2 := ih (start + 1) (G start s) (by omega) h2 h3
    rw [List.range'_succ, List.foldl_cons]
    refine ⟨?_, ih2.2.1, ih2.2.2⟩
    rw [ih2.1, h1, List.drop_eq_getElem_cons hstart, List.getD_eq_getElem _ _ hstart]
    simp only [combosRef, List.map_append, List.map_map, List.append_assoc]
    rfl

theorem take_set_self {α : Type} (l : List α) (d : Nat) (a : α) :
    (l.set d a).take d = l.take d := by
  rw [List.set_take, List.set_eq_of_length_le]
  simp

theorem generate_spec {α : Type} [Inhabited α] (items : List α) (n : Nat)
    (hn : n ≤ items.length) (fuel : Nat) :
    ∀ (start depth : Nat) (st : GenState α), depth ≤ n → n - depth ≤ fuel →
      st.combination.length = n →
        (generate items n fuel start depth st).result =
            st.result ++ (combosRef (items.drop start) (n - depth)).map
              (fun c => st.combination.take depth ++ c) ∧
          (generate items n fuel start depth st).combination.length = n ∧
          (generate items n fuel start depth st).combination.take depth =
            st.combination.take depth := by
  induction fuel with
  | zero =>
    intro start depth st hd hf hlen
    have hdn : depth = n := by omega
    subst hdn
    simp only [generate, if_true, Nat.sub_self, combosRef, List.map_cons, List.map_nil,
      List.append_nil]
    rw [List.take_of_length_le (le_of_eq hlen)]
    exact ⟨rfl, hlen, trivial⟩
  | succ fuel ih =>
    intro start depth st hd hf hlen
    by_cases hdn : depth = n
    · subst hdn
      simp only [generate, if_true, Nat.sub_self, combosRef, List.map_cons, List.map_nil,
        List.append_nil]
      rw [List.take_of_length_le (le_of_eq hlen)]
      exact ⟨rfl, hlen, trivial⟩
    · have hlt : depth < n := by omega
      simp only [generate, hdn, if_false]
      obtain ⟨k, hk⟩ : ∃ k, n - depth = k + 1 := ⟨n - depth - 1, by omega⟩
      rw [hk]
      have hcnt : items.length - (k + 1) + 1 - start = items.length - k - start := by omega
      rw [hcnt]
      apply generate_loop items n depth k (st.combination.take depth)
        (fun i s => generate items n fuel (i + 1) (depth + 1)
          { s with combination := s.combination.set depth (items.getD i default) })
      · intro i s hi hslen hsP
        have hset : (s.combination.set depth (items.getD i default)).length = n := by
          simp [hslen]
        obtain ⟨r1, r2, r3⟩ := ih (i + 1) (depth + 1)
          { s with combination := s.combination.set depth (items.getD i default) }
          (by omega) (by omega) hset
        have hdl : depth < s.combination.length := by omega
        have htake : (s.combination.set depth (items.getD i default)).take (depth + 1) =
            st.combination.take depth ++ [items.getD i default] := by
          rw [List.take_succ, List.getElem?_set_self hdl, take_set_self, hsP]
          rfl
        simp only at r1 r2 r3
        refine ⟨?_, r2, ?_⟩
        · rw [r1, htake]
          have e : n - (depth + 1) = k := by omega
          rw [e]
          simp
        · have h5 := congrArg (List.take depth) r3
          rw [List.take_take, List.take_take, Nat.min_eq_left (by omega)] at h5
          rw [h5, take_set_self, hsP]
      · rfl
      · exact hlen
      · rfl

/-- Combinations is the reference enumeration whenever 0 < k <= len(items). -/
theorem Combinations_eq_combosRef {α : Type} [Inhabited α] (items : List α) (k : Nat)
    (hk : 0 < k) (hkn : k ≤ items.length) :
    Combinations items (k : Int) = combosRef items k := by
  unfold Combinations
  have h1 : ¬ ((k : Int) ≤ 0 ∨ (k : Int) > (items.length : Int)) := by omega
  rw [if_neg h1, Int.toNat_ofNat]
  have := (generate_spec items k hkn k 0 0
    { combination := List.replicate k default, result := [] } (by omega) (by omega)
    (by simp)).1
  rw [this]
  simp

theorem combosRef_perm_sublistsLen {α : Type} (l : List α) (k : Nat) :
    (combosRef l k).Perm (List.sublistsLen k l) := by
  induction l generalizing k with
  | nil => cases k <;> simp [combosRef]
  | cons x xs ih =>
    cases k with
    | zero => simp [combosRef]
    | succ k =>
      rw [List.sublistsLen_succ_cons]
      simp only [combosRef]
      exact (List.perm_append_comm).trans ((ih (k + 1)).append ((ih k).map _))

theorem mem_combosRef {α : Type} (l c : List α) (k : Nat) :
    c ∈ combosRef l k ↔ c.Sublist l ∧ c.length = k := by
  rw [(combosRef_perm_sublistsLen l k).mem_iff, List.mem_sublistsLen]

theorem combosRef_nodup {α : Type} (l : List α) (k : Nat) (h : l.Nodup) :
    (combosRef l k).Nodup :=
  (combosRef_perm_sublistsLen l k).nodup_iff.2 (List.nodup_sublistsLen k h)

theorem combosRef_lex (l : List Nat) (k : Nat) (h : l.Pairwise (fun a b => a < b)) :
    (combosRef l k).Pairwise (List.Lex (fun a b => a < b)) := by
  induction l generalizing k with
  | nil => cases k <;> simp [combosRef]
  | cons x xs ih =>
    cases k with
    | zero => simp [combosRef]
    | succ k =>
      rw [List.pairwise_cons] at h
      simp only [combosRef]
      rw [List.pairwise_append]
      refine ⟨?_, ih (k + 1) h.2, ?_⟩
      · rw [List.pairwise_map]
        exact List.Pairwise.imp (fun hab => List.Lex.cons hab) (ih k h.2)
      · intro a ha b hb
        rw [List.mem_map] at ha
        obtain ⟨a2, -, rfl⟩ := ha
        have hb2 := (mem_combosRef xs b (k + 1)).1 hb
        match b, hb2 with
        | y :: b2, ⟨hsub, _⟩ =>
          exact List.Lex.rel (h.1 y (hsub.subset (List.mem_cons_self _ _)))

theorem sublist_range_iff (t : List Nat) (n : Nat) :
    t.Sublist (List.range n) ↔ (t.Pairwise (fun a b => a < b) ∧ ∀ i ∈ t, i < n) := by
  constructor
  · intro h
    refine ⟨List.Pairwise.sublist h (List.pairwise_lt_range n), ?_⟩
    intro i hi
    exact List.mem_range.1 (h.subset hi)
  · rintro ⟨hp, hb⟩
    have hnd : t.Nodup := hp.imp (fun h => Nat.ne_of_lt h)
    have hsub : t ⊆ List.range n := fun i hi => List.mem_range.2 (hb i hi)
    have hsp := List.subperm_of_subset hnd hsub
    have s1 : t.Sorted (fun a b => a ≤ b) := hp.imp (fun h => Nat.le_of_lt h)
    have s2 : (List.range n).Sorted (fun a b => a ≤ b) :=
      (List.pairwise_lt_range n).imp (fun h => Nat.le_of_lt h)
    exact List.sublist_of_subperm_of_sorted hsp s1 s2

theorem map_getD_range {α : Type} [Inhabited α] (items : List α) :
    (List.range items.length).map (fun i => items.getD i default) = items := by
  apply List.ext_getElem
  · simp
  · intro i h1 h2
    simp only [List.getElem_map, List.getElem_range]
    exact List.getD_eq_getElem _ _ h2

/-- Combinations through the index tuples. -/
theorem Combinations_eq_indexTuples {α : Type} [Inhabited α] (items : List α) (k : Nat)
    (hk : 0 < k) (hkn : k ≤ items.length) :
    Combinations items (k : Int) =
      (indexTuples items.length k).map (fun t => t.map (fun i => items.getD i default)) := by
  rw [Combinations_eq_combosRef items k hk hkn]
  unfold indexTuples
  rw [← combosRef_map, map_getD_range]

theorem int_eq_natCast (k : Int) (h : 0 < k) : ∃ m : Nat, 0 < m ∧ k = (m : Int) :=
  ⟨k.toNat, by omega, by omega⟩

/-- C14: for every sequence of length n and every integer k with 0 < k <= n,
Combinations returns exactly C(n,k) combinations, each of length k (6 for
n=4, k=2; 21 for the 7-choose-5 card case); CardCombinations returns the same
result as Combinations on cards. -/
theorem C14_combinations_count {α : Type} [Inhabited α] (items : List α) (k : Int)
    (hk : 0 < k) (hkn : k ≤ items.length) :
    (Combinations items k).length = items.length.choose k.toNat ∧
    (∀ c ∈ Combinations items k, (c.length : Int) = k) ∧
    (Combinations [1, 2, 3, 4] 2).length = 6 ∧
    (CardCombinations sevenCards 5).length = 21 ∧
    (∀ (cards : List Card) (m : Int), CardCombinations cards m = Combinations cards m) := by
  obtain ⟨m, hm, rfl⟩ := int_eq_natCast k hk
  have hmn : m ≤ items.length := by omega
  rw [Combinations_eq_combosRef items m hm hmn, Int.toNat_ofNat]
  refine ⟨combosRef_length items m, ?_, by decide, by decide, fun _ _ => rfl⟩
  intro c hc
  rw [combosRef_elem_length items m c hc]

/-- C14 at four items and k = 2. -/
theorem C14_combinations_count_witness :
    (0 : Int) < 2 ∧ (2 : Int) ≤ ([1, 2, 3, 4] : List Nat).length ∧
      (Combinations [1, 2, 3, 4] 2).length = Nat.choose 4 2 :=
  ⟨by decide, by decide, (C14_combinations_count [1, 2, 3, 4] 2 (by decide) (by decide)).1⟩

/-- C15: for every sequence of length n and 0 < k <= n, the result of
Combinations consists exactly of the lists [items[i1], ..., items[ik]] for the
strictly increasing index tuples 0 <= i1 < ... < ik < n: the result is the image
of a list of index tuples without repetition whose members are exactly those
tuples, and every produced list keeps the chosen elements in input order. -/
theorem C15_combinations_index_tuples {α : Type} [Inhabited α] (items : List α) (k : Int)
    (hk : 0 < k) (hkn : k ≤ items.length) :
    Combinations items k =
      (indexTuples items.length k.toNat).map
        (fun t => t.map (fun i => items.getD i default)) ∧
    (indexTuples items.length k.toNat).Nodup ∧
    (∀ t : List Nat, t ∈ indexTuples items.length k.toNat ↔
      (t.length = k.toNat ∧ t.Pairwise (fun a b => a < b) ∧ ∀ i ∈ t, i < items.length)) ∧
    (∀ c ∈ Combinations items k, c.Sublist items) := by
  obtain ⟨m, hm, rfl⟩ := int_eq_natCast k hk
  have hmn : m ≤ items.length := by omega
  rw [Int.toNat_ofNat]
  refine ⟨Combinations_eq_indexTuples items m hm hmn,
    combosRef_nodup _ _ (List.nodup_range _), ?_, ?_⟩
  · intro t
    unfold indexTuples
    rw [mem_combosRef, sublist_range_iff]
    constructor
    · rintro ⟨⟨h1, h2⟩, h3⟩
      exact ⟨h3, h1, h2⟩
    · rintro ⟨h3, h1, h2⟩
      exact ⟨⟨h1, h2⟩, h3⟩
  · intro c hc
    rw [Combinations_eq_combosRef items m hm hmn] at hc
    exact ((mem_combosRef items c m).1 hc).1

/-- C15 at four items and k = 2: the index tuples are the six increasing pairs. -/
theorem C15_combinations_index_tuples_witness :
    (0 : Int) < 2 ∧ (2 : Int) ≤ ([1, 2, 3, 4] : List Nat).length ∧
      Combinations [1, 2, 3, 4] 2 =
        [[0, 1], [0, 2], [0, 3], [1, 2], [1, 3], [2, 3]].map
          (fun t => t.map (fun i => [1, 2, 3, 4].getD i default)) :=
  ⟨by decide, by decide,
    (C15_combinations_index_tuples [1, 2, 3, 4] 2 (by decide) (by decide)).1⟩

/-- C16: for every sequence and 0 < k <= len(items), the combinations appear
in strictly increasing lexicographic order of their selected index tuples;
Combinations([1,2,3,4], 2) is [[1,2],[1,3],[1,4],[2,3],[2,4],[3,4]] in that
order. -/
theorem C16_combinations_lex_order {α : Type} [Inhabited α] (items : List α) (k : Int)
    (hk : 0 < k) (hkn : k ≤ items.length) :
    Combinations items k =
      (indexTuples items.length k.toNat).map
        (fun t => t.map (fun i => items.getD i default)) ∧
    (indexTuples items.length k.toNat).Pairwise (List.Lex (fun a b => a < b)) ∧
    Combinations [1, 2, 3, 4] 2 = [[1, 2], [1, 3], [1, 4], [2, 3], [2, 4], [3, 4]] := by
  obtain ⟨m, hm, rfl⟩ := int_eq_natCast k hk
  have hmn : m ≤ items.length := by omega
  rw [Int.toNat_ofNat]
  exact ⟨Combinations_eq_indexTuples items m hm hmn,
    combosRef_lex _ _ (List.pairwise_lt_range _), by decide⟩

/-- C16 at five items and k = 3. -/
theorem C16_combinations_lex_order_witness :
    (0 : Int) < 3 ∧ (3 : Int) ≤ ([1, 2, 3, 4, 5] : List Nat).length ∧
      (indexTuples 5 3).Pairwise (List.Lex (fun a b => a < b)) :=
  ⟨by decide, by decide,
    (C16_combinations_lex_order [1, 2, 3, 4, 5] 3 (by decide) (by decide)).2.1⟩

/-- C17: for every sequence (the empty one included) and every integer k with
k <= 0 or k > len(items), Combinations returns the empty (nil) result. -/
theorem C17_combinations_empty {α : Type} [Inhabited α] (items : List α) (k : Int)
    (h : k ≤ 0 ∨ k > items.length) : Combinations items k = [] := by
  unfold Combinations
  rw [if_pos h]

/-- C17 at the cases of TestCombinationsEdgeCases, a negative k and the empty
sequence. -/
theorem C17_combinations_empty_witness :
    Combinations [1, 2, 3] 0 = [] ∧ Combinations [1, 2, 3] 5 = [] ∧
      Combinations [1, 2, 3] (-1) = [] ∧ Combinations ([] : List Nat) 1 = [] :=
  ⟨C17_combinations_empty [1, 2, 3] 0 (Or.inl (by decide)),
    C17_combinations_empty [1, 2, 3] 5 (Or.inr (by decide)),
    C17_combinations_empty [1, 2, 3] (-1) (Or.inl (by decide)),
    C17_combinations_empty [] 1 (Or.inr (by decide))⟩

/-! ## The counters of the equity calculator -/

theorem incrAt_getD (xs : List Nat) (idx i : Nat) :
    xs.getD i 0 ≤ (incrAt xs idx).getD i 0 ∧
      (incrAt xs idx).getD i 0 ≤ xs.getD i 0 + (if i = idx then 1 else 0) := by
  induction xs generalizing idx i with
  | nil => simp [incrAt]
  | cons x rest ih =>
    cases idx with
    | zero =>
      cases i with
      | zero => simp [incrAt]
      | succ i => simp [incrAt]
    | succ idx =>
      cases i with
      | zero => simp [incrAt]
      | succ i =>
        have := ih idx i
        simp only [incrAt, List.getD_cons_succ, Nat.add_right_cancel_iff]
        exact this

theorem foldl_incrAt_getD (ws : List Nat) (xs : List Nat) (i : Nat) :
    xs.getD i 0 ≤ (ws.foldl incrAt xs).getD i 0 ∧
      (ws.foldl incrAt xs).getD i 0 ≤ xs.getD i 0 + ws.count i := by
  induction ws generalizing xs with
  | nil => simp
  | cons w rest ih =>
    have h1 := incrAt_getD xs w i
    have h2 := ih (incrAt xs w)
    simp only [List.foldl_cons, List.count_cons]
    by_cases hw : i = w
    · subst hw
      simp only [if_true, beq_self_eq_true] at h1 ⊢
      omega
    · have hw2 : (w == i) = false := by
        simp only [beq_eq_false_iff_ne, ne_eq]
        exact fun h => hw h.symm
      simp only [hw, if_false, hw2] at h1 ⊢
      omega

/-- The winners found so far are listed in increasing order and lie below the
next index. -/
theorem winnerStep_sorted (st : WinnerState) (i : Nat) (hand : Option Hand)
    (h1 : st.winners.Pairwise (fun a b => a < b)) (h2 : ∀ j ∈ st.winners, j < i) :
    (winnerStep st i hand).winners.Pairwise (fun a b => a < b) ∧
      ∀ j ∈ (winnerStep st i hand).winners, j < i + 1 := by
  have hkeep : st.winners.Pairwise (fun a b => a < b) ∧ ∀ j ∈ st.winners, j < i + 1 :=
    ⟨h1, fun j hj => Nat.lt_succ_of_lt (h2 j hj)⟩
  have hone : ([i] : List Nat).Pairwise (fun a b => a < b) ∧ ∀ j ∈ [i], j < i + 1 := by
    simp
  have happ : (st.winners ++ [i]).Pairwise (fun a b => a < b) ∧
      ∀ j ∈ st.winners ++ [i], j < i + 1 := by
    refine ⟨?_, ?_⟩
    · rw [List.pairwise_append]
      refine ⟨h1, by simp, ?_⟩
      intro a ha b hb
      simp only [List.mem_singleton] at hb
      subst hb
      exact h2 a ha
    · intro j hj
      rw [List.mem_append, List.mem_singleton] at hj
      rcases hj with hj | rfl
      · exact Nat.lt_succ_of_lt (h2 j hj)
      · exact Nat.lt_succ_self _
  unfold winnerStep
  cases hand with
  | none => exact hkeep
  | some hand =>
    cases hb : st.bestHand with
    | none => simp only [hb]; exact hone
    | some best =>
      simp only [hb]
      split_ifs
      · exact hone
      · exact happ
      · exact hkeep

theorem foldl_winnerStep_sorted (hands : List (Option Hand)) (k : Nat) (st : WinnerState)
    (h1 : st.winners.Pairwise (fun a b => a < b)) (h2 : ∀ j ∈ st.winners, j < k) :
    ((hands.enumFrom k).foldl (fun st ih => winnerStep st ih.1 ih.2) st).winners.Pairwise
        (fun a b => a < b) ∧
      ∀ j ∈ ((hands.enumFrom k).foldl (fun st ih => winnerStep st ih.1 ih.2) st).winners,
        j < k + hands.length := by
  induction hands generalizing k st with
  | nil => exact ⟨h1, by simpa using h2⟩
  | cons hand rest ih =>
    obtain ⟨s1, s2⟩ := winnerStep_sorted st k hand h1 h2
    have := ih (k + 1) (winnerStep st k hand) s1 s2
    simp only [List.enumFrom_cons, List.foldl_cons, List.length_cons]
    refine ⟨this.1, ?_⟩
    intro j hj
    have := this.2 j hj
    omega

/-- The indices returned by findWinnerIndices are strictly increasing and
below the number of hands. -/
theorem findWinnerIndices_sorted (hands : List (Option Hand)) :
    (findWinnerIndices hands).Pairwise (fun a b => a < b) ∧
      ∀ j ∈ findWinnerIndices hands, j < hands.length := by
  have := foldl_winnerStep_sorted hands 0 { winners := [], bestHand := none }
    List.Pairwise.nil (by simp)
  unfold findWinnerIndices List.enum
  refine ⟨this.1, ?_⟩
  intro j hj
  have := this.2 j hj
  omega

theorem findWinnerIndices_nodup (hands : List (Option Hand)) :
    (findWinnerIndices hands).Nodup :=
  (findWinnerIndices_sorted hands).1.imp (fun h => Nat.ne_of_lt h)

/-- One trial adds at most one to a player's wins or ties, and takes nothing
away. -/
theorem recordWinners_step (counters : List Nat × List Nat) (ws : List Nat) (hnd : ws.Nodup)
    (i : Nat) :
    counters.1.getD i 0 ≤ (recordWinners counters ws).1.getD i 0 ∧
    counters.2.getD i 0 ≤ (recordWinners counters ws).2.getD i 0 ∧
    (recordWinners counters ws).1.getD i 0 + (recordWinners counters ws).2.getD i 0 ≤
      counters.1.getD i 0 + counters.2.getD i 0 + 1 := by
  unfold recordWinners
  split
  · have := incrAt_getD counters.1 (ws.getD 0 0) i
    simp only
    split_ifs at this <;> omega
  · have := foldl_incrAt_getD ws counters.2 i
    have hc := List.nodup_iff_count_le_one.1 hnd i
    simp only
    omega

theorem recordWinners_within (counters : List Nat × List Nat) (ws : List Nat)
    (hnd : ws.Nodup) (T : Nat) (h : CountersWithin counters T) :
    CountersWithin (recordWinners counters ws) (T + 1) := by
  intro i
  have h1 := recordWinners_step counters ws hnd i
  have h2 := h i
  omega

/-- A loop over `l` that stops at the first failure keeps an invariant indexed
by the number of steps weighted by `cost`. -/
theorem foldl_option_within {σ ι : Type} (step : σ → ι → Option σ) (Inv : σ → Nat → Prop)
    (cost : ι → Nat)
    (hstep : ∀ s i s2 T, Inv s T → step s i = some s2 → Inv s2 (T + cost i)) :
    ∀ (l : List ι) (s : σ) (T : Nat) (s2 : σ), Inv s T →
      l.foldl (fun acc i => acc.bind (fun s => step s i)) (some s) = some s2 →
      Inv s2 (T + (l.map cost).sum) := by
  intro l
  induction l with
  | nil =>
    intro s T s2 hinv h
    simp only [List.foldl_nil, Option.some.injEq] at h
    subst h
    simpa using hinv
  | cons x rest ih =>
    intro s T s2 hinv h
    simp only [List.foldl_cons, Option.some_bind] at h
    cases hx : step s x with
    | none =>
      rw [hx] at h
      have hnone : ∀ l : List ι,
          l.foldl (fun acc i => acc.bind (fun s => step s i)) (none : Option σ) = none := by
        intro l
        induction l with
        | nil => rfl
        | cons y ys ihy => simpa using ihy
      rw [hnone] at h
      cases h
    | some s1 =>
      rw [hx] at h
      have := ih s1 (T + cost x) s2 (hstep s x s1 T hinv hx) h
      simp only [List.map_cons, List.sum_cons]
      rw [← Nat.add_assoc]
      exact this

theorem runSimulations_within (shuffle : Nat → List Card → List Card)
    (holeCards : List (List Card)) (board deck : List Card) (cardsNeeded : Int)
    (numSims : Nat) (st st2 : List Nat × List Nat) (T : Nat) (h : CountersWithin st T)
    (hrun : runSimulations shuffle holeCards board deck cardsNeeded numSims st = some st2) :
    CountersWithin st2 (T + numSims) := by
  have := foldl_option_within
    (fun (s : List Nat × List Nat) (sim : Nat) =>
      if board.length > 5 then none
      else if cardsNeeded < 0 ∨ cardsNeeded > ((shuffle sim deck).length : Int) then none
      else some (recordWinners s
        (trialWinners holeCards board ((shuffle sim deck).take cardsNeeded.toNat))))
    CountersWithin (fun _ => 1)
    (by
      intro s i s2 T hinv hs
      simp only at hs
      split_ifs at hs
      simp only [Option.some.injEq] at hs
      subst hs
      exact recordWinners_within s _ (findWinnerIndices_nodup _) T hinv)
    (List.range numSims) st T st2 h hrun
  simpa using this

theorem sum_worker_sims (q r W : Nat) :
    ((List.range W).map (fun w => if w < r then q + 1 else q)).sum = q * W + min r W := by
  induction W with
  | zero => simp
  | succ W ih =>
    rw [List.range_succ, List.map_append, List.sum_append, ih, Nat.mul_succ]
    simp only [List.map_cons, List.map_nil, List.sum_cons, List.sum_nil]
    split_ifs <;> omega

theorem sum_worker_sims_eq (simulations W : Nat) (hW : 0 < W) :
    ((List.range W).map
      (fun w => if w < simulations % W then simulations / W + 1 else simulations / W)).sum =
      simulations := by
  rw [sum_worker_sims]
  have h1 := Nat.mod_lt simulations hW
  have h2 := Nat.div_add_mod simulations W
  rw [Nat.min_eq_left (Nat.le_of_lt h1), Nat.mul_comm]
  exact h2

theorem CountersWithin_zero (n : Nat) :
    CountersWithin (List.replicate n 0, List.replicate n 0) 0 := by
  intro i
  have h : ∀ m : Nat, (List.replicate m 0).getD i 0 = 0 := by
    intro m
    rw [List.getD_eq_getElem?_getD, List.getElem?_replicate]
    split <;> rfl
  simp only [h]
  omega

theorem mkEquityResult_invariant (w t total n : Nat) (h : w + t ≤ total) :
    ResultInvariant (mkEquityResult w t total n) := by
  unfold ResultInvariant mkEquityResult
  simp only
  omega

/-- Every result of Calculate is built from counters within the trial count. -/
theorem Calculate_results (ec : EquityCalculator)
    (shuffle : Nat → Nat → List Card → List Card) (holeCards : List (List Card))
    (board : List Card) (simulations : Nat) (rs : List EquityResult)
    (h : ec.Calculate shuffle holeCards board simulations = some rs) :
    ∃ st : List Nat × List Nat, CountersWithin st simulations ∧
      rs = (List.range holeCards.length).map
        (fun i => mkEquityResult (st.1.getD i 0) (st.2.getD i 0) simulations
          holeCards.length) := by
  unfold EquityCalculator.Calculate at h
  simp only at h
  split at h
  · cases h
  · rename_i remainingDeck hdeck
    split_ifs at h with hw
    split at h
    · cases h
    · rename_i st hfinal
      simp only [Option.some.injEq] at h
      refine ⟨st, ?_, h.symm⟩
      have := foldl_option_within
        (fun (s : List Nat × List Nat) (w : Nat) =>
          runSimulations (shuffle w) holeCards board remainingDeck
            (5 - (board.length : Int))
            (if w < simulations % ec.workers then simulations / ec.workers + 1
              else simulations / ec.workers) s)
        CountersWithin
        (fun w => if w < simulations % ec.workers then simulations / ec.workers + 1
          else simulations / ec.workers)
        (by
          intro s i s2 T hinv hs
          exact runSimulations_within _ _ _ _ _ _ s s2 T hinv hs)
        (List.range ec.workers) _ 0 st (CountersWithin_zero holeCards.length) hfinal
      rw [sum_worker_sims_eq simulations ec.workers (Nat.pos_of_ne_zero hw)] at this
      simpa using this

theorem foldl_recordWinners_within (holeCards : List (List Card)) (board : List Card)
    (combos : List (List Card)) (st : List Nat × List Nat) (T : Nat)
    (h : CountersWithin st T) :
    CountersWithin
      (combos.foldl (fun st combo => recordWinners st (trialWinners holeCards board combo)) st)
      (T + combos.length) := by
  induction combos generalizing st T with
  | nil => simpa using h
  | cons c rest ih =>
    simp only [List.foldl_cons, List.length_cons]
    have := ih (recordWinners st (trialWinners holeCards board c)) (T + 1)
      (recordWinners_within st _ (findWinnerIndices_nodup _) T h)
    rw [Nat.add_assoc, Nat.add_comm 1] at this
    exact this

/-- Every result of CalculateExact is built from counters within the number
of enumerated completions, which is the Total. -/
theorem CalculateExact_results (ec : EquityCalculator) (holeCards : List (List Card))
    (board : List Card) (maxCombinations : Int) (rs : List EquityResult)
    (h : ec.CalculateExact holeCards board maxCombinations = ExactOutcome.results rs) :
    ∃ (deck : List Card) (st : List Nat × List Nat),
      buildRemainingDeck (buildUsedCards holeCards board) = some deck ∧
      CountersWithin st (Combinations deck (5 - (board.length : Int))).length ∧
      rs = (List.range holeCards.length).map
        (fun i => mkEquityResult (st.1.getD i 0) (st.2.getD i 0)
          (Combinations deck (5 - (board.length : Int))).length holeCards.length) := by
  unfold EquityCalculator.CalculateExact at h
  simp only at h
  split at h
  · cases h
  · rename_i remainingDeck hdeck
    split_ifs at h
    simp only [ExactOutcome.results.injEq] at h
    refine ⟨remainingDeck, _, hdeck, ?_, h.symm⟩
    have := foldl_recordWinners_within holeCards board
      (Combinations remainingDeck (5 - (board.length : Int))) _ 0
      (CountersWithin_zero holeCards.length)
    simpa using this

/-- C18: every result returned by Calculate (for any outcome of the shuffles,
any trial count) and by CalculateExact (when it returns results) has
non-negative Wins, Ties and Losses with Wins + Ties + Losses = Total, hence
Wins + Ties <= Total; one trial adds at most one to a player's wins or ties
counter and lowers neither. -/
theorem C18_equity_result_invariant (ec : EquityCalculator)
    (shuffle : Nat → Nat → List Card → List Card) (holeCards : List (List Card))
    (board : List Card) (simulations : Nat) (maxCombinations : Int) :
    (∀ rs, ec.Calculate shuffle holeCards board simulations = some rs →
      ∀ r ∈ rs, 0 ≤ r.Wins ∧ 0 ≤ r.Ties ∧ 0 ≤ r.Losses ∧
        r.Wins + r.Ties + r.Losses = r.Total ∧ r.Wins + r.Ties ≤ r.Total) ∧
    (∀ rs, ec.CalculateExact holeCards board maxCombinations = ExactOutcome.results rs →
      ∀ r ∈ rs, 0 ≤ r.Wins ∧ 0 ≤ r.Ties ∧ 0 ≤ r.Losses ∧
        r.Wins + r.Ties + r.Losses = r.Total ∧ r.Wins + r.Ties ≤ r.Total) ∧
    (∀ (hands : List (Option Hand)) (counters : List Nat × List Nat) (i : Nat),
      counters.1.getD i 0 ≤ (recordWinners counters (findWinnerIndices hands)).1.getD i 0 ∧
      counters.2.getD i 0 ≤ (recordWinners counters (findWinnerIndices hands)).2.getD i 0 ∧
      (recordWinners counters (findWinnerIndices hands)).1.getD i 0 +
          (recordWinners counters (findWinnerIndices hands)).2.getD i 0 ≤
        counters.1.getD i 0 + counters.2.getD i 0 + 1) := by
  refine ⟨?_, ?_, ?_⟩
  · intro rs h r hr
    obtain ⟨st, hst, rfl⟩ := Calculate_results ec shuffle holeCards board simulations rs h
    rw [List.mem_map] at hr
    obtain ⟨i, -, rfl⟩ := hr
    exact mkEquityResult_invariant _ _ _ _ (hst i)
  · intro rs h r hr
    obtain ⟨deck, st, -, hst, rfl⟩ :=
      CalculateExact_results ec holeCards board maxCombinations rs h
    rw [List.mem_map] at hr
    obtain ⟨i, -, rfl⟩ := hr
    exact mkEquityResult_invariant _ _ _ _ (hst i)
  · intro hands counters i
    exact recordWinners_step counters _ (findWinnerIndices_nodup hands) i

/-- C18 at A A against K K on a complete board, three trials on two workers:
the first player's result is 3 wins, 0 ties, 0 losses of 3. -/
theorem C18_equity_result_invariant_witness :
    (EquityCalculator.mk 2).Calculate (fun _ _ d => d) acesVsKings riverBoard 3 =
        some [mkEquityResult 3 0 3 2, mkEquityResult 0 0 3 2] ∧
      mkEquityResult 3 0 3 2 ∈ [mkEquityResult 3 0 3 2, mkEquityResult 0 0 3 2] ∧
      (0 ≤ (mkEquityResult 3 0 3 2).Wins ∧ 0 ≤ (mkEquityResult 3 0 3 2).Ties ∧
        0 ≤ (mkEquityResult 3 0 3 2).Losses ∧
        (mkEquityResult 3 0 3 2).Wins + (mkEquityResult 3 0 3 2).Ties +
          (mkEquityResult 3 0 3 2).Losses = (mkEquityResult 3 0 3 2).Total ∧
        (mkEquityResult 3 0 3 2).Wins + (mkEquityResult 3 0 3 2).Ties ≤
          (mkEquityResult 3 0 3 2).Total) :=
  ⟨rfl, List.Mem.head _,
    (C18_equity_result_invariant (EquityCalculator.mk 2) (fun _ _ d => d) acesVsKings
      riverBoard 3 0).1 [mkEquityResult 3 0 3 2, mkEquityResult 0 0 3 2] rfl
      (mkEquityResult 3 0 3 2) (List.Mem.head _)⟩

theorem mkEquityResult_equity (w t total n : Nat) (h : w + t ≤ total) (ht : total ≠ 0)
    (hn : 0 < n) :
    ∃ q : Rat, (mkEquityResult w t total n).Equity = some q ∧
      q = (((mkEquityResult w t total n).Wins : Rat) +
        ((mkEquityResult w t total n).Ties : Rat) / (n : Rat)) /
          ((mkEquityResult w t total n).Total : Rat) ∧
      0 ≤ q ∧ q ≤ 1 := by
  have hn2 : (1 : Rat) ≤ (n : Rat) := by exact_mod_cast hn
  have ht2 : (0 : Rat) < (total : Rat) := by
    exact_mod_cast Nat.pos_of_ne_zero ht
  have hw : (0 : Rat) ≤ (w : Rat) := by exact_mod_cast Nat.zero_le w
  have htt : (0 : Rat) ≤ (t : Rat) := by exact_mod_cast Nat.zero_le t
  have hsum : (w : Rat) + (t : Rat) ≤ (total : Rat) := by exact_mod_cast h
  have hdiv : (t : Rat) / (n : Rat) ≤ (t : Rat) := div_le_self htt hn2
  have hdiv0 : (0 : Rat) ≤ (t : Rat) / (n : Rat) := div_nonneg htt (by linarith)
  refine ⟨((w : Rat) + (t : Rat) / (n : Rat)) / (total : Rat), ?_, ?_, ?_, ?_⟩
  · simp [mkEquityResult, ht]
  · simp [mkEquityResult]
  · exact div_nonneg (by linarith) (le_of_lt ht2)
  · rw [div_le_one ht2]
    linarith

/-- C19 as stated fails with zero trials: Calculate then returns results with
Total = 0, the quotient is 0/0 and no player's equity is a number between 0
and 1. -/
theorem C19_counterexample :
    ∃ rs, (EquityCalculator.mk 2).Calculate (fun _ _ d => d) acesVsKings [] 0 = some rs ∧
      rs.length = 2 ∧
      ∀ r ∈ rs, r.Total = 0 ∧ r.Equity = none ∧
        ¬ ∃ q : Rat, r.Equity = some q ∧ 0 ≤ q ∧ q ≤ 1 := by
  refine ⟨_, rfl, rfl, ?_⟩
  intro r hr
  have h0 : r.Total = 0 ∧ r.Equity = none := by
    revert r
    decide
  refine ⟨h0.1, h0.2, ?_⟩
  rintro ⟨q, hq, -⟩
  rw [h0.2] at hq
  cases hq

/-- C19 (amended): for every result returned by Calculate (any board, at least
one trial counted) and by CalculateExact (when it returns results) whose Total
is not zero, the equity is the exact rational (Wins + Ties/numPlayers) / Total
and lies between 0 and 1. -/
theorem C19_equity_bounds (ec : EquityCalculator)
    (shuffle : Nat → Nat → List Card → List Card) (holeCards : List (List Card))
    (board : List Card) (simulations : Nat) (maxCombinations : Int) :
    (∀ rs, ec.Calculate shuffle holeCards board simulations = some rs →
      ∀ r ∈ rs, r.Total ≠ 0 →
        ∃ q : Rat, r.Equity = some q ∧
          q = ((r.Wins : Rat) + (r.Ties : Rat) / (holeCards.length : Rat)) / (r.Total : Rat) ∧
          0 ≤ q ∧ q ≤ 1) ∧
    (∀ rs, ec.CalculateExact holeCards board maxCombinations = ExactOutcome.results rs →
      ∀ r ∈ rs, r.Total ≠ 0 →
        ∃ q : Rat, r.Equity = some q ∧
          q = ((r.Wins : Rat) + (r.Ties : Rat) / (holeCards.length : Rat)) / (r.Total : Rat) ∧
          0 ≤ q ∧ q ≤ 1) := by
  refine ⟨?_, ?_⟩
  · intro rs h r hr ht
    obtain ⟨st, hst, rfl⟩ := Calculate_results ec shuffle holeCards board simulations rs h
    rw [List.mem_map] at hr
    obtain ⟨i, hi, rfl⟩ := hr
    have hn : 0 < holeCards.length := by
      have := List.mem_range.1 hi
      omega
    have ht2 : simulations ≠ 0 := by
      intro h0
      apply ht
      simp [mkEquityResult, h0]
    exact mkEquityResult_equity _ _ _ _ (hst i) ht2 hn
  · intro rs h r hr ht
    obtain ⟨deck, st, -, hst, rfl⟩ :=
      CalculateExact_results ec holeCards board maxCombinations rs h
    rw [List.mem_map] at hr
    obtain ⟨i, hi, rfl⟩ := hr
    have hn : 0 < holeCards.length := by
      have := List.mem_range.1 hi
      omega
    have ht2 : (Combinations deck (5 - (board.length : Int))).length ≠ 0 := by
      intro h0
      apply ht
      simp [mkEquityResult, h0]
    exact mkEquityResult_equity _ _ _ _ (hst i) ht2 hn

/-- C19 (amended) at A A against K K on a complete board, three trials on two
workers: the second player's equity is (0 + 0/2) / 3, between 0 and 1. -/
theorem C19_equity_bounds_witness :
    (EquityCalculator.mk 2).Calculate (fun _ _ d => d) acesVsKings riverBoard 3 =
        some [mkEquityResult 3 0 3 2, mkEquityResult 0 0 3 2] ∧
      mkEquityResult 0 0 3 2 ∈ [mkEquityResult 3 0 3 2, mkEquityResult 0 0 3 2] ∧
      (mkEquityResult 0 0 3 2).Total ≠ 0 ∧
      ∃ q : Rat, (mkEquityResult 0 0 3 2).Equity = some q ∧
        q = (((mkEquityResult 0 0 3 2).Wins : Rat) +
          ((mkEquityResult 0 0 3 2).Ties : Rat) / (acesVsKings.length : Rat)) /
            ((mkEquityResult 0 0 3 2).Total : Rat) ∧
        0 ≤ q ∧ q ≤ 1 :=
  ⟨rfl, List.Mem.tail _ (List.Mem.head _), by decide,
    (C19_equity_bounds (EquityCalculator.mk 2) (fun _ _ d => d) acesVsKings riverBoard
      3 0).1 [mkEquityResult 3 0 3 2, mkEquityResult 0 0 3 2] rfl
      (mkEquityResult 0 0 3 2) (List.Mem.tail _ (List.Mem.head _)) (by decide)⟩

theorem foldl_append_unless {α β : Type} (p : β → Prop) [DecidablePred p] (f : β → α)
    (l : List β) (deck : List α) :
    l.foldl (fun deck x => if p x then deck else deck ++ [f x]) deck =
      deck ++ (l.filter (fun x => ¬ p x)).map f := by
  induction l generalizing deck with
  | nil => simp
  | cons x xs ih =>
    rw [List.foldl_cons, ih]
    by_cases hx : p x <;> simp [List.filter_cons, hx]

theorem buildRemainingDeck_eq (usedCards : List (Nat × CardSuit))
    (h : usedCards.length ≤ 52) :
    buildRemainingDeck usedCards =
      some (fullDeck.filter (fun c => cardKey c ∉ usedCards)) := by
  unfold buildRemainingDeck
  rw [if_neg (by omega)]
  congr 1
  have inner : ∀ (suit : CardSuit) (deck : List Card),
      AllRanks.foldl
          (fun deck rank =>
            let c := NewCard rank suit
            if cardKey c ∈ usedCards then deck else deck ++ [c])
          deck =
        deck ++ (AllRanks.filter (fun rank => ¬ cardKey (NewCard rank suit) ∈ usedCards)).map
          (fun rank => NewCard rank suit) :=
    fun suit deck =>
      foldl_append_unless (fun rank => cardKey (NewCard rank suit) ∈ usedCards)
        (fun rank => NewCard rank suit) AllRanks deck
  simp only [inner]
  simp only [AllSuits, fullDeck, List.foldl_cons, List.foldl_nil, List.flatMap_cons,
    List.flatMap_nil, List.filter_append, List.filter_map, List.nil_append, List.append_nil,
    List.append_assoc, List.filter_nil]
  rfl

theorem mem_fullDeck (c : Card) : c ∈ fullDeck ↔ 2 ≤ c.Rank ∧ c.Rank ≤ 14 := by
  constructor
  · have h : ∀ c ∈ fullDeck, 2 ≤ c.Rank ∧ c.Rank ≤ 14 := by decide
    exact h c
  · obtain ⟨r, s⟩ := c
    rintro ⟨h1, h2⟩
    simp only at h1 h2
    interval_cases r <;> cases s <;> decide

theorem fullDeck_nodup : fullDeck.Nodup := by decide

theorem runeString_small (x : Nat) (h : x < 55296) : runeString x = x := by
  unfold runeString
  simp only
  rw [Nat.mod_eq_of_lt (by omega), if_pos (Or.inl h)]

/-- The key tells apart the cards of small rank, those of rank 2..14 among
them. -/
theorem cardKey_inj (c1 c2 : Card) (h1 : c1.Rank < 55296) (h2 : c2.Rank < 55296)
    (h : cardKey c1 = cardKey c2) : c1 = c2 := by
  obtain ⟨r1, s1⟩ := c1
  obtain ⟨r2, s2⟩ := c2
  simp only at h1 h2
  simp only [cardKey, Prod.mk.injEq, runeString_small r1 h1, runeString_small r2 h2] at h
  obtain ⟨rfl, rfl⟩ := h
  rfl

theorem cardKey_inj_valid (c1 c2 : Card) (h1 : 2 ≤ c1.Rank ∧ c1.Rank ≤ 14)
    (h2 : 2 ≤ c2.Rank ∧ c2.Rank ≤ 14) (h : cardKey c1 = cardKey c2) : c1 = c2 :=
  cardKey_inj c1 c2 (by omega) (by omega) h

theorem foldl_setUsed (l : List Card) (acc : List (Nat × CardSuit))
    (h : (acc ++ l.map cardKey).Nodup) :
    l.foldl (fun used c => setUsed used (cardKey c)) acc = acc ++ l.map cardKey := by
  induction l generalizing acc with
  | nil => simp
  | cons c cs ih =>
    have hc : cardKey c ∉ acc := by
      intro hmem
      rw [List.map_cons, List.nodup_append] at h
      exact h.2.2 hmem (List.mem_cons_self _ _)
    rw [List.foldl_cons]
    have hs : setUsed acc (cardKey c) = acc ++ [cardKey c] := by
      unfold setUsed
      rw [if_neg hc]
    rw [hs, ih]
    · simp
    · simpa using h

theorem buildUsedCards_eq (holeCards : List (List Card)) (board : List Card)
    (h : (holeCards.flatten ++ board).Nodup)
    (hv : ∀ c ∈ holeCards.flatten ++ board, 2 ≤ c.Rank ∧ c.Rank ≤ 14) :
    buildUsedCards holeCards board = (holeCards.flatten ++ board).map cardKey := by
  unfold buildUsedCards
  simp only
  rw [← List.foldl_flatten, ← List.foldl_append, foldl_setUsed]
  · simp
  · simpa using h.map_on (fun x hx y hy hk => cardKey_inj_valid x y (hv x hx) (hv y hy) hk)

theorem remainingDeck_length (cards : List Card) (hn : cards.Nodup)
    (hv : ∀ c ∈ cards, 2 ≤ c.Rank ∧ c.Rank ≤ 14) :
    cards.length ≤ 52 ∧
      (fullDeck.filter (fun c => cardKey c ∉ cards.map cardKey)).length =
        52 - cards.length := by
  have hmem : ∀ c ∈ fullDeck, (cardKey c ∈ cards.map cardKey ↔ c ∈ cards) := by
    intro c hc
    rw [List.mem_map]
    constructor
    · rintro ⟨d, hd, hk⟩
      rw [← cardKey_inj_valid d c (hv d hd) ((mem_fullDeck c).1 hc) hk]
      exact hd
    · exact fun h => ⟨c, h, rfl⟩
  have hperm : (fullDeck.filter (fun c => decide (c ∈ cards))).Perm cards := by
    rw [List.perm_ext_iff_of_nodup (fullDeck_nodup.filter _) hn]
    intro c
    simp only [List.mem_filter, decide_eq_true_eq]
    constructor
    · exact fun h => h.2
    · exact fun h => ⟨(mem_fullDeck c).2 (hv c h), h⟩
  have hsplit := List.length_eq_length_filter_add (l := fullDeck)
    (fun c => decide (c ∈ cards))
  have h52 : fullDeck.length = 52 := rfl
  have hfilt : fullDeck.filter (fun c => cardKey c ∉ cards.map cardKey) =
      fullDeck.filter (fun c => !decide (c ∈ cards)) := by
    apply List.filter_congr
    intro c hc
    simp [hmem c hc]
  rw [hfilt]
  have := hperm.length_eq
  omega

theorem Combinations_length_choose {α : Type} [Inhabited α] (items : List α) (k : Nat)
    (hk : 0 < k) :
    (Combinations items (k : Int)).length = items.length.choose k := by
  by_cases hkn : k ≤ items.length
  · rw [Combinations_eq_combosRef items k hk hkn, combosRef_length]
  · have h1 : (k : Int) ≤ 0 ∨ (k : Int) > (items.length : Int) := by omega
    unfold Combinations
    rw [if_pos h1, Nat.choose_eq_zero_of_lt (by omega)]
    rfl

theorem CalculateExact_total (ec : EquityCalculator) (holeCards : List (List Card))
    (board : List Card) (maxCombinations : Int) (rs : List EquityResult)
    (hn : (holeCards.flatten ++ board).Nodup)
    (hv : ∀ c ∈ holeCards.flatten ++ board, 2 ≤ c.Rank ∧ c.Rank ≤ 14)
    (hb : board.length ≤ 4)
    (h : ec.CalculateExact holeCards board maxCombinations = ExactOutcome.results rs) :
    ∀ r ∈ rs, r.Total =
      ((52 - (holeCards.flatten ++ board).length).choose (5 - board.length) : Nat) := by
  intro r hr
  obtain ⟨deck, st, hdeck, -, rfl⟩ :=
    CalculateExact_results ec holeCards board maxCombinations rs h
  obtain ⟨h52, hlen⟩ := remainingDeck_length _ hn hv
  rw [buildUsedCards_eq holeCards board hn hv,
    buildRemainingDeck_eq _ (by rw [List.length_map]; exact h52)] at hdeck
  have hd : deck.length = 52 - (holeCards.flatten ++ board).length := by
    rw [← hlen]
    exact congrArg List.length (Option.some.inj hdeck).symm
  rw [List.mem_map] at hr
  obtain ⟨i, -, rfl⟩ := hr
  have hk : (5 : Int) - (board.length : Int) = ((5 - board.length : Nat) : Int) := by omega
  simp only [mkEquityResult]
  rw [hk, Combinations_length_choose deck (5 - board.length) (by omega), hd]

/-- C20 fails on every complete board: with 5 board cards the enumerator asks
Combinations for 0 cards, which returns nil, so every Total is 0, whereas
C(remaining, 0) = 1. -/
theorem C20_exact_total_complete_board (ec : EquityCalculator)
    (holeCards : List (List Card)) (board : List Card) (maxCombinations : Int)
    (rs : List EquityResult) (hb : board.length = 5)
    (h : ec.CalculateExact holeCards board maxCombinations = ExactOutcome.results rs) :
    ∀ r ∈ rs, r.Total = 0 ∧ r.Equity = none ∧
      (r.Total : Int) ≠
        ((52 - (holeCards.flatten ++ board).length).choose (5 - board.length) : Nat) := by
  intro r hr
  obtain ⟨deck, st, -, -, rfl⟩ :=
    CalculateExact_results ec holeCards board maxCombinations rs h
  rw [List.mem_map] at hr
  obtain ⟨i, -, rfl⟩ := hr
  have hc : Combinations deck (5 - (board.length : Int)) = [] := by
    unfold Combinations
    rw [if_pos (by omega)]
  rw [hc, hb]
  simp [mkEquityResult]

/-- C20 at A A against K K on the complete board 2c 5d 9h Js 3c with ceiling
1000: both results have Total 0, while C(43, 0) = 1. -/
theorem C20_exact_total_complete_board_witness :
    riverBoard.length = 5 ∧
      (EquityCalculator.mk 4).CalculateExact acesVsKings riverBoard 1000 =
        ExactOutcome.results [mkEquityResult 0 0 0 2, mkEquityResult 0 0 0 2] ∧
      mkEquityResult 0 0 0 2 ∈ [mkEquityResult 0 0 0 2, mkEquityResult 0 0 0 2] ∧
      ((mkEquityResult 0 0 0 2).Total = 0 ∧ (mkEquityResult 0 0 0 2).Equity = none ∧
        ((mkEquityResult 0 0 0 2).Total : Int) ≠
          ((52 - (acesVsKings.flatten ++ riverBoard).length).choose
            (5 - riverBoard.length) : Nat)) :=
  ⟨rfl, rfl, List.Mem.head _,
    C20_exact_total_complete_board (EquityCalculator.mk 4) acesVsKings riverBoard 1000
      [mkEquityResult 0 0 0 2, mkEquityResult 0 0 0 2] rfl rfl
      (mkEquityResult 0 0 0 2) (List.Mem.head _)⟩

/-! ## The board setters -/

theorem Board.after_length (b : Board) (call : BoardCall)
    (h : b.Cards.length = 0 ∨ b.Cards.length = 3 ∨ b.Cards.length = 4 ∨ b.Cards.length = 5) :
    (b.after call).Cards.length = 0 ∨ (b.after call).Cards.length = 3 ∨
      (b.after call).Cards.length = 4 ∨ (b.after call).Cards.length = 5 := by
  cases call with
  | setFlop cards =>
    simp only [Board.after, Board.SetFlop]
    split_ifs with h1 h2
    · exact h
    · exact h
    · simp only [List.length_append]
      omega
  | setTurn card =>
    simp only [Board.after, Board.SetTurn]
    split_ifs with h1
    · exact h
    · simp only [List.length_append, List.length_singleton]
      omega
  | setRiver card =>
    simp only [Board.after, Board.SetRiver]
    split_ifs with h1
    · exact h
    · simp only [List.length_append, List.length_singleton]
      omega

theorem Board.foldl_after_length (calls : List BoardCall) (b : Board)
    (h : b.Cards.length = 0 ∨ b.Cards.length = 3 ∨ b.Cards.length = 4 ∨ b.Cards.length = 5) :
    (calls.foldl Board.after b).Cards.length = 0 ∨
      (calls.foldl Board.after b).Cards.length = 3 ∨
      (calls.foldl Board.after b).Cards.length = 4 ∨
      (calls.foldl Board.after b).Cards.length = 5 := by
  induction calls generalizing b with
  | nil => exact h
  | cons c rest ih => exact ih (b.after c) (Board.after_length b c h)

/-- C29: SetFlop succeeds iff it is given 3 cards and the board is empty,
SetTurn iff the board holds 3 cards, SetRiver iff it holds 4; a successful
call appends the given cards after the existing ones and the state becomes
Flop, Turn, River; a failing call returns ErrInvalidBoardState and leaves the
board unchanged; so every board reached from NewBoard by any sequence of calls
of the setters holds 0, 3, 4 or 5 cards. -/
theorem C29_board_setters (b : Board) (cards : List Card) (card : Card)
    (calls : List BoardCall) :
    ((b.SetFlop cards).2 = none ↔ (cards.length = 3 ∧ b.Cards.length = 0)) ∧
    ((b.SetTurn card).2 = none ↔ b.Cards.length = 3) ∧
    ((b.SetRiver card).2 = none ↔ b.Cards.length = 4) ∧
    ((b.SetFlop cards).2 = none →
      (b.SetFlop cards).1.Cards = b.Cards ++ cards ∧
        (b.SetFlop cards).1.State = BoardState.Flop) ∧
    ((b.SetTurn card).2 = none →
      (b.SetTurn card).1.Cards = b.Cards ++ [card] ∧
        (b.SetTurn card).1.State = BoardState.Turn) ∧
    ((b.SetRiver card).2 = none →
      (b.SetRiver card).1.Cards = b.Cards ++ [card] ∧
        (b.SetRiver card).1.State = BoardState.River) ∧
    ((b.SetFlop cards).2 ≠ none →
      b.SetFlop cards = (b, some GoError.ErrInvalidBoardState)) ∧
    ((b.SetTurn card).2 ≠ none →
      b.SetTurn card = (b, some GoError.ErrInvalidBoardState)) ∧
    ((b.SetRiver card).2 ≠ none →
      b.SetRiver card = (b, some GoError.ErrInvalidBoardState)) ∧
    ((calls.foldl Board.after NewBoard).Cards.length = 0 ∨
      (calls.foldl Board.after NewBoard).Cards.length = 3 ∨
      (calls.foldl Board.after NewBoard).Cards.length = 4 ∨
      (calls.foldl Board.after NewBoard).Cards.length = 5) := by
  refine ⟨?_, ?_, ?_, ?_, ?_, ?_, ?_, ?_, ?_, ?_⟩
  · unfold Board.SetFlop
    split_ifs with h1 h2
    · simp only [reduceCtorEq, false_iff, not_and]
      exact fun h => absurd h h1
    · simp only [reduceCtorEq, false_iff, not_and]
      exact fun _ => h2
    · simp only [true_iff]
      omega
  · unfold Board.SetTurn
    split_ifs with h1
    · simp only [reduceCtorEq, false_iff]
      exact h1
    · simp only [true_iff]
      omega
  · unfold Board.SetRiver
    split_ifs with h1
    · simp only [reduceCtorEq, false_iff]
      exact h1
    · simp only [true_iff]
      omega
  · unfold Board.SetFlop
    split_ifs with h1 h2
    · intro h; cases h
    · intro h; cases h
    · intro _
      have h3 : cards.length = 3 := by omega
      have h0 : b.Cards.length = 0 := by omega
      simp [Board.State, h3, h0]
  · unfold Board.SetTurn
    split_ifs with h1
    · intro h; cases h
    · intro _
      have h3 : b.Cards.length = 3 := by omega
      simp [Board.State, h3]
  · unfold Board.SetRiver
    split_ifs with h1
    · intro h; cases h
    · intro _
      have h4 : b.Cards.length = 4 := by omega
      simp [Board.State, h4]
  · unfold Board.SetFlop
    split_ifs with h1 h2 <;> simp
  · unfold Board.SetTurn
    split_ifs with h1 <;> simp
  · unfold Board.SetRiver
    split_ifs with h1 <;> simp
  · exact Board.foldl_after_length calls NewBoard (Or.inl rfl)

/-! ## Dealing from the deck -/

theorem NewDeck_length (shuffle : List Card → List Card)
    (hs : ∀ cards, (shuffle cards).Perm cards) : (NewDeck shuffle).cards.length = 52 := by
  unfold NewDeck Deck.Shuffle
  simp only
  rw [(hs _).length_eq]
  rfl

theorem Deck.Draw_ok (d : Deck) (k : Nat) (h : d.cards.length = k + 1) :
    ∃ card, d.Draw = ({ cards := d.cards.take k }, Except.ok card) := by
  unfold Deck.Draw
  rw [if_neg (by omega), h]
  exact ⟨_, rfl⟩

theorem Deck.Draw_empty (d : Deck) (h : d.cards.length = 0) :
    d.Draw = (d, Except.error GoError.ErrEmptyDeck) := by
  unfold Deck.Draw
  rw [if_pos h]

theorem Deck.drawLoop_ok (m : Nat) (d : Deck) (drawn : List Card) (k : Nat)
    (h : d.cards.length = k + m) :
    ∃ cs, cs.length = m ∧
      Deck.drawLoop m d drawn = ({ cards := d.cards.take k }, Except.ok (drawn ++ cs)) := by
  induction m generalizing d drawn with
  | zero =>
    refine ⟨[], rfl, ?_⟩
    have : d.cards.take k = d.cards := List.take_of_length_le (by omega)
    simp [Deck.drawLoop, this]
  | succ m ih =>
    obtain ⟨card, hc⟩ := Deck.Draw_ok d (k + m) (by omega)
    have hlen : ({ cards := d.cards.take (k + m) } : Deck).cards.length = k + m := by
      simp only [List.length_take]
      omega
    obtain ⟨cs, hcs, hloop⟩ := ih { cards := d.cards.take (k + m) } (drawn ++ [card]) hlen
    refine ⟨card :: cs, by simp [hcs], ?_⟩
    simp only [Deck.drawLoop, hc, hloop, List.take_take, List.append_assoc,
      List.singleton_append]
    rw [Nat.min_eq_left (by omega)]

theorem Deck.DrawMany_ok (d : Deck) (m k : Nat) (h : d.cards.length = k + m) :
    ∃ cs, cs.length = m ∧ d.DrawMany m = ({ cards := d.cards.take k }, Except.ok cs) := by
  obtain ⟨cs, hcs, hl⟩ := Deck.drawLoop_ok m d [] k h
  exact ⟨cs, hcs, by simpa [Deck.DrawMany] using hl⟩

theorem Deck.Burn_ok (d : Deck) (k : Nat) (h : d.cards.length = k + 1) :
    d.Burn = ({ cards := d.cards.take k }, none) := by
  obtain ⟨card, hc⟩ := Deck.Draw_ok d k h
  simp [Deck.Burn, hc]

theorem dealHoleCardsLoop_ok (players : List Player) (d : Deck) (served : List Player)
    (k : Nat) (h : d.cards.length = k + 2 * players.length) :
    ∃ ps, ps.length = players.length ∧ (∀ p ∈ ps, p.HoleCards.length = 2) ∧
      dealHoleCardsLoop players d served = ({ cards := d.cards.take k }, served ++ ps, none) := by
  induction players generalizing d served with
  | nil =>
    refine ⟨[], rfl, by simp, ?_⟩
    have : d.cards.take k = d.cards := List.take_of_length_le (by simp at h; omega)
    simp [dealHoleCardsLoop, this]
  | cons p rest ih =>
    simp only [List.length_cons] at h
    obtain ⟨cs, hcs, hdraw⟩ := Deck.DrawMany_ok d 2 (k + 2 * rest.length) (by omega)
    have hlen : ({ cards := d.cards.take (k + 2 * rest.length) } : Deck).cards.length =
        k + 2 * rest.length := by
      simp only [List.length_take]
      omega
    obtain ⟨ps, hps, hhole, hloop⟩ :=
      ih { cards := d.cards.take (k + 2 * rest.length) }
        (served ++ [{ p with HoleCards := cs }]) hlen
    refine ⟨{ p with HoleCards := cs } :: ps, by simp [hps], ?_, ?_⟩
    · intro q hq
      rcases List.mem_cons.1 hq with rfl | hq
      · exact hcs
      · exact hhole q hq
    · simp only [dealHoleCardsLoop, hdraw, Player.SetHoleCards, hcs, ne_eq, not_true_eq_false,
        if_false, hloop, List.take_take, List.append_assoc, List.singleton_append]
      rw [Nat.min_eq_left (by omega)]

theorem NewGame_ok (shuffle : List Card → List Card)
    (hs : ∀ cards, (shuffle cards).Perm cards) (n : Nat) (hn : 2 * n ≤ 52) :
    ∃ g, NewGame shuffle (n : Int) = some g ∧ g.Players.length = n ∧
      (∀ p ∈ g.Players, p.HoleCards.length = 2) ∧ g.Deck.cards.length = 52 - 2 * n ∧
      g.Board = NewBoard := by
  unfold NewGame
  rw [if_neg (by omega)]
  simp only [Int.toNat_ofNat, Game.DealHoleCards]
  have hd := NewDeck_length shuffle hs
  obtain ⟨ps, hps, hhole, hloop⟩ := dealHoleCardsLoop_ok
    ((List.range n).map (fun i => NewPlayer ("Player " ++ toString (i + 1))))
    (NewDeck shuffle) [] (52 - 2 * n) (by simp; omega)
  rw [hloop]
  refine ⟨_, rfl, ?_, ?_, ?_, rfl⟩
  · simpa using hps
  · simpa using hhole
  · simp only [List.length_take]
    omega

theorem DealFlop_ok (g : Game) (k : Nat) (hb : g.Board.Cards.length = 0)
    (hd : g.Deck.cards.length = k + 4) :
    g.DealFlop.2 = none ∧ g.DealFlop.1.Board.Cards.length = 3 ∧
      g.DealFlop.1.Deck.cards.length = k ∧ g.DealFlop.1.Players = g.Players := by
  have hstate : g.Board.State = BoardState.Preflop := by simp [Board.State, hb]
  have hburn := Deck.Burn_ok g.Deck (k + 3) hd
  have hlen : ({ cards := g.Deck.cards.take (k + 3) } : Deck).cards.length = k + 3 := by
    simp only [List.length_take]
    omega
  obtain ⟨cs, hcs, hdraw⟩ := Deck.DrawMany_ok { cards := g.Deck.cards.take (k + 3) } 3 k hlen
  simp only [Game.DealFlop, hstate, ne_eq, not_true_eq_false, if_false, hburn, hdraw,
    Board.SetFlop, hcs, hb, List.length_append, List.length_take, true_and]
  simp only [List.length_take] at hlen
  simp only [and_true]
  omega

theorem DealTurn_ok (g : Game) (k : Nat) (hb : g.Board.Cards.length = 3)
    (hd : g.Deck.cards.length = k + 2) :
    g.DealTurn.2 = none ∧ g.DealTurn.1.Board.Cards.length = 4 ∧
      g.DealTurn.1.Deck.cards.length = k ∧ g.DealTurn.1.Players = g.Players := by
  have hstate : g.Board.State = BoardState.Flop := by simp [Board.State, hb]
  have hburn := Deck.Burn_ok g.Deck (k + 1) hd
  have hlen : ({ cards := g.Deck.cards.take (k + 1) } : Deck).cards.length = k + 1 := by
    simp only [List.length_take]
    omega
  obtain ⟨c, hdraw⟩ := Deck.Draw_ok { cards := g.Deck.cards.take (k + 1) } k hlen
  simp only [Game.DealTurn, hstate, ne_eq, not_true_eq_false, if_false, hburn, hdraw,
    Board.SetTurn, hb, List.length_append, List.length_take, List.length_singleton, true_and]
  simp only [List.length_take] at hlen
  simp only [and_true]
  omega

theorem DealRiver_ok (g : Game) (k : Nat) (hb : g.Board.Cards.length = 4)
    (hd : g.Deck.cards.length = k + 2) :
    g.DealRiver.2 = none ∧ g.DealRiver.1.Board.Cards.length = 5 ∧
      g.DealRiver.1.Deck.cards.length = k ∧ g.DealRiver.1.Players = g.Players := by
  have hstate : g.Board.State = BoardState.Turn := by simp [Board.State, hb]
  have hburn := Deck.Burn_ok g.Deck (k + 1) hd
  have hlen : ({ cards := g.Deck.cards.take (k + 1) } : Deck).cards.length = k + 1 := by
    simp only [List.length_take]
    omega
  obtain ⟨c, hdraw⟩ := Deck.Draw_ok { cards := g.Deck.cards.take (k + 1) } k hlen
  simp only [Game.DealRiver, hstate, ne_eq, not_true_eq_false, if_false, hburn, hdraw,
    Board.SetRiver, hb, List.length_append, List.length_take, List.length_singleton, true_and]
  simp only [List.length_take] at hlen
  simp only [and_true]
  omega

theorem DealNextStreet_preflop (g : Game) (hb : g.Board.Cards.length = 0) :
    g.DealNextStreet = g.DealFlop := by
  have hstate : g.Board.State = BoardState.Preflop := by simp [Board.State, hb]
  simp [Game.DealNextStreet, hstate]

theorem DealNextStreet_flop (g : Game) (hb : g.Board.Cards.length = 3) :
    g.DealNextStreet = g.DealTurn := by
  have hstate : g.Board.State = BoardState.Flop := by simp [Board.State, hb]
  simp [Game.DealNextStreet, hstate]

theorem DealNextStreet_turn (g : Game) (hb : g.Board.Cards.length = 4) :
    g.DealNextStreet = g.DealRiver := by
  have hstate : g.Board.State = BoardState.Turn := by simp [Board.State, hb]
  simp [Game.DealNextStreet, hstate]

/-- C30: for 0 <= n <= 22 and every shuffle, NewGame(n) gives n players with
2 hole cards each, an empty board and a deck of 52 - 2n cards; three
DealNextStreet calls succeed and bring the board to Flop (3 cards), Turn (4)
and River (5) while the deck shrinks by 4, 2 and 2 cards; a fourth call
returns ErrInvalidBoardState and changes nothing; in every game, DealFlop,
DealTurn and DealRiver called in another state than Preflop, Flop and Turn
return ErrInvalidBoardState and change nothing, so DealFlop called twice
fails without drawing. -/
theorem C30_street_progression (shuffle : List Card → List Card)
    (hs : ∀ cards, (shuffle cards).Perm cards) (n : Nat) (hn : n ≤ 22) :
    (∃ g0 g1 g2 g3 : Game,
      NewGame shuffle (n : Int) = some g0 ∧ g0.Players.length = n ∧
      (∀ p ∈ g0.Players, p.HoleCards.length = 2) ∧ g0.Deck.Len = 52 - 2 * n ∧
      g0.Board.Cards = [] ∧
      g0.DealNextStreet = (g1, none) ∧ g1.Board.State = BoardState.Flop ∧
      g1.Board.Cards.length = 3 ∧ g1.Deck.Len = 52 - 2 * n - 4 ∧
      g1.DealNextStreet = (g2, none) ∧ g2.Board.State = BoardState.Turn ∧
      g2.Board.Cards.length = 4 ∧ g2.Deck.Len = 52 - 2 * n - 6 ∧
      g2.DealNextStreet = (g3, none) ∧ g3.Board.State = BoardState.River ∧
      g3.Board.Cards.length = 5 ∧ g3.Deck.Len = 52 - 2 * n - 8 ∧
      g3.DealNextStreet = (g3, some GoError.ErrInvalidBoardState) ∧
      g1.DealFlop = (g1, some GoError.ErrInvalidBoardState)) ∧
    (∀ g : Game, g.Board.State ≠ BoardState.Preflop →
      g.DealFlop = (g, some GoError.ErrInvalidBoardState)) ∧
    (∀ g : Game, g.Board.State ≠ BoardState.Flop →
      g.DealTurn = (g, some GoError.ErrInvalidBoardState)) ∧
    (∀ g : Game, g.Board.State ≠ BoardState.Turn →
      g.DealRiver = (g, some GoError.ErrInvalidBoardState)) := by
  have hflop : ∀ g : Game, g.Board.State ≠ BoardState.Preflop →
      g.DealFlop = (g, some GoError.ErrInvalidBoardState) := by
    intro g hg
    simp [Game.DealFlop, hg]
  refine ⟨?_, hflop, ?_, ?_⟩
  · obtain ⟨g0, hg0, hp, hh, hd, hb⟩ := NewGame_ok shuffle hs n (by omega)
    have hb0 : g0.Board.Cards.length = 0 := by rw [hb]; rfl
    obtain ⟨e1, b1, d1, -⟩ := DealFlop_ok g0 (52 - 2 * n - 4) hb0 (by omega)
    obtain ⟨e2, b2, d2, -⟩ := DealTurn_ok g0.DealFlop.1 (52 - 2 * n - 6) b1 (by omega)
    obtain ⟨e3, b3, d3, -⟩ := DealRiver_ok g0.DealFlop.1.DealTurn.1 (52 - 2 * n - 8) b2
      (by omega)
    have s1 : g0.DealFlop.1.Board.State = BoardState.Flop := by simp [Board.State, b1]
    have s2 : g0.DealFlop.1.DealTurn.1.Board.State = BoardState.Turn := by
      simp [Board.State, b2]
    have s3 : g0.DealFlop.1.DealTurn.1.DealRiver.1.Board.State = BoardState.River := by
      simp [Board.State, b3]
    refine ⟨g0, g0.DealFlop.1, g0.DealFlop.1.DealTurn.1, g0.DealFlop.1.DealTurn.1.DealRiver.1,
      hg0, hp, hh, hd, by rw [hb]; rfl, ?_, s1, b1, d1, ?_, s2, b2, d2, ?_, s3, b3, d3, ?_, ?_⟩
    · rw [DealNextStreet_preflop g0 hb0, ← e1]
    · rw [DealNextStreet_flop _ b1, ← e2]
    · rw [DealNextStreet_turn _ b2, ← e3]
    · simp [Game.DealNextStreet, s3]
    · exact hflop _ (by rw [s1]; decide)
  · intro g hg
    simp [Game.DealTurn, hg]
  · intro g hg
    simp [Game.DealRiver, hg]

/-- C30 for a game of 2 players on the unshuffled deck. -/
theorem C30_street_progression_witness :
    (∀ cards : List Card, ((fun d => d) cards).Perm cards) ∧ 2 ≤ 22 ∧
    (∃ g0 g1 g2 g3 : Game,
      NewGame (fun d => d) ((2 : Nat) : Int) = some g0 ∧ g0.Players.length = 2 ∧
      (∀ p ∈ g0.Players, p.HoleCards.length = 2) ∧ g0.Deck.Len = 52 - 2 * 2 ∧
      g0.Board.Cards = [] ∧
      g0.DealNextStreet = (g1, none) ∧ g1.Board.State = BoardState.Flop ∧
      g1.Board.Cards.length = 3 ∧ g1.Deck.Len = 52 - 2 * 2 - 4 ∧
      g1.DealNextStreet = (g2, none) ∧ g2.Board.State = BoardState.Turn ∧
      g2.Board.Cards.length = 4 ∧ g2.Deck.Len = 52 - 2 * 2 - 6 ∧
      g2.DealNextStreet = (g3, none) ∧ g3.Board.State = BoardState.River ∧
      g3.Board.Cards.length = 5 ∧ g3.Deck.Len = 52 - 2 * 2 - 8 ∧
      g3.DealNextStreet = (g3, some GoError.ErrInvalidBoardState) ∧
      g1.DealFlop = (g1, some GoError.ErrInvalidBoardState)) :=
  ⟨fun cards => List.Perm.refl cards, by decide,
    (C30_street_progression (fun d => d) (fun cards => List.Perm.refl cards) 2
      (by decide)).1⟩

/-! ## Results written by index -/

theorem foldl_set_length {β : Type} (f : Nat → Option β)
    (step : List (Option β) → Nat → List (Option β))
    (hstep : ∀ results idx, step results idx =
      match f idx with
      | none => results
      | some v => results.set idx (some v))
    (order : List Nat) (init : List (Option β)) :
    (order.foldl step init).length = init.length := by
  induction order generalizing init with
  | nil => simp
  | cons idx rest ih =>
    simp only [List.foldl_cons, hstep init idx]
    cases hf : f idx with
    | none => exact ih init
    | some v => simpa using ih (init.set idx (some v))

/-- Goroutines that write the value `f idx`, when there is one, at their own
index `idx` leave at index `i` the value `f i` if goroutine `i` is among the
ones that ran, whatever the order. -/
theorem foldl_set_getD {β : Type} (f : Nat → Option β)
    (step : List (Option β) → Nat → List (Option β))
    (hstep : ∀ results idx, step results idx =
      match f idx with
      | none => results
      | some v => results.set idx (some v))
    (order : List Nat) (init : List (Option β)) (i : Nat) (hi : i < init.length) :
    (order.foldl step init).getD i none =
      if i ∈ order ∧ (f i).isSome then f i else init.getD i none := by
  induction order generalizing init with
  | nil => simp
  | cons idx rest ih =>
    simp only [List.foldl_cons, hstep init idx]
    cases hf : f idx with
    | none =>
      rw [ih init hi]
      by_cases hidx : i = idx
      · subst hidx
        simp [hf]
      · simp [hidx]
    | some v =>
      rw [ih (init.set idx (some v)) (by simpa using hi)]
      by_cases hidx : i = idx
      · subst hidx
        simp [hf, List.getD_eq_getElem?_getD, List.getElem?_set_self hi]
      · have hne : idx ≠ i := fun h => hidx h.symm
        simp [hidx, List.getD_eq_getElem?_getD, List.getElem?_set_ne hne]

theorem foldl_set_eq_map {β : Type} (f : Nat → Option β)
    (step : List (Option β) → Nat → List (Option β))
    (hstep : ∀ results idx, step results idx =
      match f idx with
      | none => results
      | some v => results.set idx (some v))
    (order : List Nat) (n : Nat) (hperm : order.Perm (List.range n)) :
    order.foldl step (List.replicate n none) = (List.range n).map f := by
  have hlen := foldl_set_length f step hstep order (List.replicate n none)
  apply List.ext_getElem
  · simp [hlen]
  · intro i h1 h2
    have hin : i < n := by simpa using h2
    have hget := foldl_set_getD f step hstep order (List.replicate n none) i (by simpa using hin)
    rw [List.getD_eq_getElem?_getD, List.getElem?_eq_getElem h1] at hget
    simp only [Option.getD_some] at hget
    rw [hget]
    have hmem : i ∈ order := hperm.mem_iff.2 (List.mem_range.2 hin)
    cases hf : f i with
    | none => simp [hf, List.getD_eq_getElem?_getD, List.getElem?_replicate, hin]
    | some v => simp [hf, hmem]

theorem NewHand_toOption_eq_none (c : List Card) :
    (NewHand c).toOption = none ↔ (c.length ≠ 5 ∨ ¬ c.Nodup) := by
  by_cases hlen : c.length = 5
  · rw [NewHand_of_length c hlen]
    by_cases hd : hasDuplicate c [] = true
    · have := (hasDuplicate_iff c).1 hd
      simp [hd, Except.toOption, this]
    · have hnd : c.Nodup := by
        by_contra hnd
        exact hd ((hasDuplicate_iff c).2 hnd)
      simp [hd, Except.toOption, hnd, hlen]
  · rw [NewHand_size_error c hlen]
    simp [Except.toOption, hlen]

theorem EvaluateHandsBatch_eq (numCPU : Nat) (hcpu : 0 < numCPU) (order : List Nat)
    (cardSets : List (List Card)) (workers : Int)
    (hperm : order.Perm (List.range cardSets.length)) :
    EvaluateHandsBatch numCPU order cardSets workers =
      some (cardSets.map (fun c => (NewHand c).toOption)) := by
  unfold EvaluateHandsBatch
  simp only
  have hw : ¬ ((if workers ≤ 0 then (numCPU : Int) else workers) = 0 ∧ cardSets ≠ []) := by
    rintro ⟨h, -⟩
    split_ifs at h <;> omega
  rw [if_neg hw]
  congr 1
  rw [foldl_set_eq_map (fun idx => (cardSets.get? idx).bind (fun c => (NewHand c).toOption))
    _ _ order cardSets.length hperm]
  · apply List.ext_getElem
    · simp
    · intro i h1 h2
      have hi : i < cardSets.length := by simpa using h2
      simp [List.getElem?_eq_getElem hi]
  · intro results idx
    simp only [List.get?_eq_getElem?]
    cases hg : cardSets[idx]? with
    | none => simp
    | some c =>
      cases hn : NewHand c with
      | error e => simp [hn, Except.toOption]
      | ok h => simp [hn, Except.toOption]

/-- C23: EvaluateHandsBatch returns a list as long as cardSets whose position i
holds the hand NewHand(cardSets[i]) when that call succeeds and the nil hand
when it fails, which it does exactly for a set of another size than 5 or with
a repeated card; the entries are computed one by one from their own set, and
the result is the same for every value of workers and every order in which
the goroutines complete. -/
theorem C23_evaluate_hands_batch (numCPU : Nat) (order : List Nat)
    (cardSets : List (List Card)) (workers : Int) (hcpu : 0 < numCPU)
    (hperm : order.Perm (List.range cardSets.length)) :
    ∃ hands, EvaluateHandsBatch numCPU order cardSets workers = some hands ∧
      hands.length = cardSets.length ∧
      hands = cardSets.map (fun c => (NewHand c).toOption) ∧
      (∀ i c, cardSets.get? i = some c →
        (∀ h, NewHand c = Except.ok h → hands.get? i = some (some h)) ∧
        (∀ err, NewHand c = Except.error err → hands.get? i = some none) ∧
        (hands.get? i = some none ↔ (c.length ≠ 5 ∨ ¬ c.Nodup))) ∧
      (∀ (workers2 : Int) (order2 : List Nat), order2.Perm (List.range cardSets.length) →
        EvaluateHandsBatch numCPU order2 cardSets workers2 = some hands) := by
  refine ⟨_, EvaluateHandsBatch_eq numCPU hcpu order cardSets workers hperm, by simp, rfl,
    ?_, ?_⟩
  · intro i c hc
    have hget : (cardSets.map (fun c => (NewHand c).toOption)).get? i =
        some (NewHand c).toOption := by
      simp only [List.get?_eq_getElem?] at hc
      simp [hc]
    refine ⟨?_, ?_, ?_⟩
    · intro h hh
      rw [hget, hh]
      rfl
    · intro err he
      rw [hget, he]
      rfl
    · rw [hget, ← NewHand_toOption_eq_none c]
      simp
  · intro workers2 order2 hp2
    exact EvaluateHandsBatch_eq numCPU hcpu order2 cardSets workers2 hp2

/-- C23 on the batch pair of aces, a set with a repeated card, royal flush,
with workers = 0 on 4 CPUs and the goroutines completing in the order 2, 0, 1. -/
theorem C23_evaluate_hands_batch_witness :
    0 < 4 ∧ [2, 0, 1].Perm (List.range [pairOfAces, fiveWithDuplicate, royalSpades].length) ∧
    ∃ hands,
      EvaluateHandsBatch 4 [2, 0, 1] [pairOfAces, fiveWithDuplicate, royalSpades] 0 =
        some hands ∧
      hands.length = [pairOfAces, fiveWithDuplicate, royalSpades].length ∧
      hands.map (fun h => h.map (fun h => h.handRank)) = [some Pair, none, some RoyalFlush] :=
  ⟨by decide, by decide,
    match C23_evaluate_hands_batch 4 [2, 0, 1] [pairOfAces, fiveWithDuplicate, royalSpades] 0
      (by decide) (by decide) with
    | ⟨hands, h1, h2, h3, _⟩ => ⟨hands, h1, h2, by rw [h3]; rfl⟩⟩

/-! ## Compare as the order of a key -/

theorem GoodHand.comparable {a b : Hand} (ha : GoodHand a) (hb : GoodHand b) :
    a.handRank = b.handRank → a.isStraight = b.isStraight := by
  obtain ⟨ca, ha1, ha2⟩ := ha
  obtain ⟨cb, hb1, hb2⟩ := hb
  exact ha1.same_straight hb1 ha2 hb2

theorem compareKey_le_iff (a b : Hand) :
    compareKey b ≤ compareKey a ↔
      (b.handRank < a.handRank ∨ (a.handRank = b.handRank ∧
        (wheelKey b < wheelKey a ∨
          (wheelKey a = wheelKey b ∧ b.TiebreakScore ≤ a.TiebreakScore)))) := by
  unfold compareKey
  rw [Prod.Lex.le_iff]
  simp only
  rw [Prod.Lex.le_iff]
  simp only
  constructor
  · rintro (h | ⟨h1, h2 | ⟨h2, h3⟩⟩)
    · exact Or.inl h
    · exact Or.inr ⟨h1.symm, Or.inl h2⟩
    · exact Or.inr ⟨h1.symm, Or.inr ⟨h2.symm, h3⟩⟩
  · rintro (h | ⟨h1, h2 | ⟨h2, h3⟩⟩)
    · exact Or.inl h
    · exact Or.inr ⟨h1.symm, Or.inl h2⟩
    · exact Or.inr ⟨h1.symm, Or.inr ⟨h2.symm, h3⟩⟩

theorem Compare_nonneg_iff_key {a b : Hand} (ha : GoodHand a) (hb : GoodHand b) :
    a.Compare b ≥ 0 ↔ compareKey b ≤ compareKey a := by
  rw [Compare_nonneg_iff a b (ha.comparable hb), compareKey_le_iff]

theorem Compare_neg_iff_key {a b : Hand} (ha : GoodHand a) (hb : GoodHand b) :
    a.Compare b < 0 ↔ compareKey a < compareKey b := by
  have h1 := Compare_nonneg_iff_key ha hb
  constructor
  · intro h
    exact not_le.1 (fun hle => by have := h1.2 hle; omega)
  · intro h
    by_contra hc
    exact absurd (h1.1 (by omega)) (not_le.2 h)

theorem Compare_swap_nonneg {a b : Hand} (ha : GoodHand a) (hb : GoodHand b) :
    b.Compare a ≤ 0 ↔ compareKey b ≤ compareKey a := by
  have h1 := Compare_nonneg_iff a b (ha.comparable hb)
  have h2 := Compare_pos_iff b a (hb.comparable ha)
  rw [compareKey_le_iff]
  rw [← h1]
  constructor
  · intro h
    rw [h1]
    have h3 : ¬ b.Compare a > 0 := by omega
    rw [h2] at h3
    omega
  · intro h
    rw [h1] at h
    have h3 : ¬ b.Compare a > 0 := by
      rw [h2]
      omega
    omega

theorem Compare_pos_iff_key {a b : Hand} (ha : GoodHand a) (hb : GoodHand b) :
    a.Compare b > 0 ↔ compareKey b < compareKey a := by
  have h1 := Compare_swap_nonneg hb ha
  constructor
  · intro h
    exact not_le.1 (fun hle => by have := h1.2 hle; omega)
  · intro h
    by_contra hc
    exact absurd (h1.1 (by omega)) (not_le.2 h)

theorem Compare_zero_iff_key {a b : Hand} (ha : GoodHand a) (hb : GoodHand b) :
    a.Compare b = 0 ↔ compareKey a = compareKey b := by
  have h1 := Compare_nonneg_iff_key ha hb
  have h2 := Compare_pos_iff_key ha hb
  constructor
  · intro h
    have h3 : compareKey b ≤ compareKey a := h1.1 (by omega)
    have h4 : ¬ compareKey b < compareKey a := fun hlt => by
      have := h2.2 hlt
      omega
    exact le_antisymm (not_lt.1 h4) h3
  · intro h
    have h3 : a.Compare b ≥ 0 := h1.2 (le_of_eq h.symm)
    have h4 : ¬ a.Compare b > 0 := fun hp => by
      have := h2.1 hp
      rw [h] at this
      exact lt_irrefl _ this
    omega

theorem Beats_iff_key {a b : Hand} (ha : GoodHand a) (hb : GoodHand b) :
    a.Beats b = true ↔ compareKey b < compareKey a := by
  unfold Hand.Beats
  rw [decide_eq_true_iff]
  exact Compare_pos_iff_key ha hb

/-- Two valid hands on the same cards, in any order, have the same key. -/
theorem compareKey_congr {a b : Hand} {cardsA cardsB : List Card} (ha : Built a cardsA)
    (hb : Built b cardsB) (hA : ValidCards cardsA) (hB : ValidCards cardsB)
    (hp : cardsA.Perm cardsB) : compareKey a = compareKey b := by
  have hr : (ranksOf cardsA).Perm (ranksOf cardsB) := hp.map _
  have hs : AllSameSuit cardsA ↔ AllSameSuit cardsB := AllSameSuit_perm hp
  unfold compareKey
  rw [handRank_congr ha hb hA hB hr hs, wheelKey_congr ha hb hA hB hr,
    (score_eq_iff ha hb hA hB).2 hr]

/-! ## The best hand of a list -/

/-- The loop that keeps the better hand returns a hand of the list whose key
is the largest. -/
theorem foldl_beats_max (rest : List Hand) (best : Hand) (hbest : GoodHand best)
    (hrest : ∀ h ∈ rest, GoodHand h) :
    GoodHand (rest.foldl (fun best hand => if hand.Beats best then hand else best) best) ∧
    (rest.foldl (fun best hand => if hand.Beats best then hand else best) best) ∈
      best :: rest ∧
    ∀ h ∈ best :: rest, compareKey h ≤
      compareKey (rest.foldl (fun best hand => if hand.Beats best then hand else best) best) := by
  induction rest generalizing best with
  | nil => simp [hbest]
  | cons x xs ih =>
    have hx : GoodHand x := hrest x (List.mem_cons_self _ _)
    have hxs : ∀ h ∈ xs, GoodHand h := fun h hh => hrest h (List.mem_cons_of_mem _ hh)
    simp only [List.foldl_cons]
    by_cases hb : x.Beats best = true
    · rw [if_pos hb]
      obtain ⟨h1, h2, h3⟩ := ih x hx hxs
      refine ⟨h1, ?_, ?_⟩
      · exact List.mem_cons_of_mem _ h2
      · intro h hh
        rcases List.mem_cons.1 hh with rfl | hh
        · exact le_trans (le_of_lt ((Beats_iff_key hx hbest).1 hb))
            (h3 x (List.mem_cons_self _ _))
        · exact h3 h hh
    · rw [if_neg hb]
      obtain ⟨h1, h2, h3⟩ := ih best hbest hxs
      refine ⟨h1, ?_, ?_⟩
      · rcases List.mem_cons.1 h2 with h2 | h2
        · rw [h2]
          exact List.mem_cons_self _ _
        · exact List.mem_cons_of_mem _ (List.mem_cons_of_mem _ h2)
      · intro h hh
        rcases List.mem_cons.1 hh with rfl | hh
        · exact h3 h (List.mem_cons_self _ _)
        · rcases List.mem_cons.1 hh with rfl | hh
          · have hle : compareKey h ≤ compareKey best :=
              not_lt.1 (fun hlt => hb ((Beats_iff_key hx hbest).2 hlt))
            exact le_trans hle (h3 best (List.mem_cons_self _ _))
          · exact h3 h (List.mem_cons_of_mem _ hh)

/-- The loop of findBestHand from a hand already found. -/
theorem findBestHand_loop_some (combos : List (List Card)) (best : Hand) :
    combos.foldl
        (fun best combo =>
          match NewHand combo with
          | Except.error _ => best
          | Except.ok hand =>
            match best with
            | none => some hand
            | some b => if hand.Beats b then some hand else best)
        (some best) =
      some ((combos.filterMap (fun c => (NewHand c).toOption)).foldl
        (fun best hand => if hand.Beats best then hand else best) best) := by
  induction combos generalizing best with
  | nil => rfl
  | cons c cs ih =>
    simp only [List.foldl_cons]
    cases hc : NewHand c with
    | error e =>
      simp only [List.filterMap_cons, hc, Except.toOption]
      exact ih best
    | ok h =>
      simp only [List.filterMap_cons, hc, Except.toOption, List.foldl_cons]
      by_cases hb : h.Beats best = true
      · simp only [hb, if_true]
        exact ih h
      · simp only [hb]
        exact ih best

theorem findBestHand_eq (cards : List Card) :
    findBestHand cards =
      match (CardCombinations cards 5).filterMap (fun c => (NewHand c).toOption) with
      | [] => none
      | first :: rest =>
        some (rest.foldl (fun best hand => if hand.Beats best then hand else best) first) := by
  unfold findBestHand
  generalize CardCombinations cards 5 = combos
  induction combos with
  | nil => rfl
  | cons c cs ih =>
    simp only [List.foldl_cons]
    cases hc : NewHand c with
    | error e =>
      simp only [List.filterMap_cons, hc, Except.toOption]
      exact ih
    | ok h =>
      simp only [List.filterMap_cons, hc, Except.toOption]
      exact findBestHand_loop_some cs h

/-! ## The candidate hands of a set of distinct cards -/

theorem CardCombinations_five (cards : List Card) (hlen : 5 ≤ cards.length) :
    CardCombinations cards 5 = combosRef cards 5 := by
  unfold CardCombinations
  exact Combinations_eq_combosRef cards 5 (by decide) hlen

theorem CardCombinations_short (cards : List Card) (hlen : cards.length < 5) :
    CardCombinations cards 5 = [] := by
  unfold CardCombinations Combinations
  rw [if_pos (Or.inr (by omega))]

theorem sublist_valid (cards c : List Card) (hnd : cards.Nodup)
    (hv : ∀ x ∈ cards, 2 ≤ x.Rank ∧ x.Rank ≤ 14) (hs : c.Sublist cards) (hc : c.length = 5) :
    ValidCards c :=
  ⟨hc, hnd.sublist hs, fun x hx => hv x (hs.subset hx)⟩

theorem NewHand_good (c : List Card) (hv : ValidCards c) :
    ∃ h, NewHand c = Except.ok h ∧ Built h c ∧ GoodHand h := by
  obtain ⟨h, hok, hb⟩ := NewHand_valid c hv
  exact ⟨h, hok, hb, c, hb, hv⟩

/-- Every candidate of a set of distinct cards is a valid hand: the filter of
the search drops none. -/
theorem filterMap_NewHand_combos (cards : List Card) (hnd : cards.Nodup)
    (hv : ∀ x ∈ cards, 2 ≤ x.Rank ∧ x.Rank ≤ 14) :
    ((combosRef cards 5).filterMap (fun c => (NewHand c).toOption)).length =
        (combosRef cards 5).length ∧
    (∀ h ∈ (combosRef cards 5).filterMap (fun c => (NewHand c).toOption),
      GoodHand h ∧ ∃ c, c.Sublist cards ∧ c.length = 5 ∧ NewHand c = Except.ok h) ∧
    (∀ c, c.Sublist cards → c.length = 5 →
      ∃ h, NewHand c = Except.ok h ∧
        h ∈ (combosRef cards 5).filterMap (fun c => (NewHand c).toOption)) := by
  have hall : ∀ c ∈ combosRef cards 5, ∃ h, NewHand c = Except.ok h ∧ Built h c ∧ GoodHand h := by
    intro c hc
    obtain ⟨hs, hl⟩ := (mem_combosRef cards c 5).1 hc
    exact NewHand_good c (sublist_valid cards c hnd hv hs hl)
  refine ⟨?_, ?_, ?_⟩
  · have : ∀ l : List (List Card), (∀ c ∈ l, ∃ h, NewHand c = Except.ok h ∧ Built h c ∧ GoodHand h) →
        (l.filterMap (fun c => (NewHand c).toOption)).length = l.length := by
      intro l
      induction l with
      | nil => simp
      | cons c cs ih =>
        intro hl
        obtain ⟨h, hok, -⟩ := hl c (List.mem_cons_self _ _)
        have e : (NewHand c).toOption = some h := by rw [hok]; rfl
        rw [List.filterMap_cons]
        simp only [e, List.length_cons]
        rw [ih (fun c hc => hl c (List.mem_cons_of_mem _ hc))]
    exact this _ hall
  · intro h hh
    rw [List.mem_filterMap] at hh
    obtain ⟨c, hc, hch⟩ := hh
    obtain ⟨h2, hok, -, hg⟩ := hall c hc
    rw [hok] at hch
    simp only [Except.toOption, Option.some.injEq] at hch
    subst hch
    obtain ⟨hs, hl⟩ := (mem_combosRef cards c 5).1 hc
    exact ⟨hg, c, hs, hl, hok⟩
  · intro c hs hl
    have hc : c ∈ combosRef cards 5 := (mem_combosRef cards c 5).2 ⟨hs, hl⟩
    obtain ⟨h, hok, -⟩ := hall c hc
    refine ⟨h, hok, ?_⟩
    rw [List.mem_filterMap]
    exact ⟨c, hc, by simp [hok, Except.toOption]⟩

/-- A duplicate-free set of 5 of the given cards, in any order, is a
rearrangement of a 5-card selection that keeps the order of the given cards. -/
theorem subset_perm_sublist (cards c : List Card) (hc : c.Nodup) (hnd : cards.Nodup)
    (hsub : ∀ x ∈ c, x ∈ cards) :
    ∃ s : List Card, s.Sublist cards ∧ s.Perm c := by
  refine ⟨cards.filter (fun x => decide (x ∈ c)), List.filter_sublist _, ?_⟩
  rw [List.perm_ext_iff_of_nodup (hnd.filter _) hc]
  intro x
  simp only [List.mem_filter, decide_eq_true_eq]
  exact ⟨fun h => h.2, fun h => ⟨hsub x h, h⟩⟩

theorem findBestHand_spec (cards : List Card) (hlen : 5 ≤ cards.length) (hnd : cards.Nodup)
    (hv : ∀ x ∈ cards, 2 ≤ x.Rank ∧ x.Rank ≤ 14) :
    ∃ best, findBestHand cards = some best ∧ GoodHand best ∧
      (∃ c, c.Sublist cards ∧ c.length = 5 ∧ NewHand c = Except.ok best) ∧
      (∀ c, c.Nodup → (∀ x ∈ c, x ∈ cards) → c.length = 5 →
        ∃ h, NewHand c = Except.ok h ∧ GoodHand h ∧ compareKey h ≤ compareKey best) := by
  obtain ⟨hcount, hgood, hmem⟩ := filterMap_NewHand_combos cards hnd hv
  rw [findBestHand_eq, CardCombinations_five cards hlen]
  have hpos : 0 < (combosRef cards 5).length := by
    rw [combosRef_length]
    exact Nat.choose_pos hlen
  cases hl : (combosRef cards 5).filterMap (fun c => (NewHand c).toOption) with
  | nil =>
    rw [hl] at hcount
    simp only [List.length_nil] at hcount
    omega
  | cons first rest =>
    rw [hl] at hgood hmem
    obtain ⟨g1, g2, g3⟩ := foldl_beats_max rest first
      (hgood first (List.mem_cons_self _ _)).1
      (fun h hh => (hgood h (List.mem_cons_of_mem _ hh)).1)
    refine ⟨_, rfl, g1, (hgood _ g2).2, ?_⟩
    intro c hc hsub hc5
    obtain ⟨s, hs, hp⟩ := subset_perm_sublist cards c hc hnd hsub
    have hs5 : s.length = 5 := hp.length_eq.trans hc5
    obtain ⟨hs2, hok, hin⟩ := hmem s hs hs5
    have hvs := sublist_valid cards s hnd hv hs hs5
    have hvc : ValidCards c := hvs.of_perm hp.symm
    obtain ⟨h, hokc, hbc, hgc⟩ := NewHand_good c hvc
    have hbs : Built hs2 s := Built_of_NewHand s hs2 hs5 hvs.2.1 hok
    refine ⟨h, hokc, hgc, ?_⟩
    rw [compareKey_congr hbc hbs hvc hvs hp.symm]
    exact g3 hs2 hin

/-- C22: for 5 or more pairwise distinct cards with ranks 2..14, findBestHand
evaluates C(n,5) candidate hands (1, 6, 21 for n = 5, 6, 7), every one of them
a valid hand, and returns a hand built from 5 of the given cards that no hand
of 5 of the given cards beats: Compare(best, NewHand(c)) >= 0 for every
duplicate-free c of 5 of the cards; for fewer than 5 cards it returns nil. -/
theorem C22_find_best_hand (cards small : List Card) (hlen : 5 ≤ cards.length)
    (hnd : cards.Nodup) (hv : ∀ x ∈ cards, 2 ≤ x.Rank ∧ x.Rank ≤ 14)
    (hsmall : small.length < 5) :
    (CardCombinations cards 5).length = cards.length.choose 5 ∧
    (cards.length = 5 → (CardCombinations cards 5).length = 1) ∧
    (cards.length = 6 → (CardCombinations cards 5).length = 6) ∧
    (cards.length = 7 → (CardCombinations cards 5).length = 21) ∧
    (∀ c ∈ CardCombinations cards 5, ∃ h, NewHand c = Except.ok h) ∧
    (∃ best, findBestHand cards = some best ∧
      (∃ c, c.Sublist cards ∧ c.length = 5 ∧ NewHand c = Except.ok best) ∧
      (∀ c, c.Nodup → (∀ x ∈ c, x ∈ cards) → c.length = 5 →
        ∃ h, NewHand c = Except.ok h ∧ best.Compare h ≥ 0 ∧ h.Beats best = false)) ∧
    findBestHand small = none := by
  have hcount : (CardCombinations cards 5).length = cards.length.choose 5 := by
    rw [CardCombinations_five cards hlen, combosRef_length]
  refine ⟨hcount, ?_, ?_, ?_, ?_, ?_, ?_⟩
  · intro h
    rw [hcount, h]
    rfl
  · intro h
    rw [hcount, h]
    rfl
  · intro h
    rw [hcount, h]
    rfl
  · intro c hc
    rw [CardCombinations_five cards hlen] at hc
    obtain ⟨hs, hl⟩ := (mem_combosRef cards c 5).1 hc
    obtain ⟨h, hok, -⟩ := NewHand_good c (sublist_valid cards c hnd hv hs hl)
    exact ⟨h, hok⟩
  · obtain ⟨best, hbest, hg, hfrom, hmax⟩ := findBestHand_spec cards hlen hnd hv
    refine ⟨best, hbest, hfrom, ?_⟩
    intro c hc hsub hc5
    obtain ⟨h, hok, hgh, hle⟩ := hmax c hc hsub hc5
    refine ⟨h, hok, (Compare_nonneg_iff_key hg hgh).2 hle, ?_⟩
    cases hb : h.Beats best with
    | false => rfl
    | true => exact absurd ((Beats_iff_key hgh hg).1 hb) (not_lt.2 hle)
  · rw [findBestHand_eq, CardCombinations_short small hsmall]
    rfl

/-- C22 on the seven cards A K Q J T of spades, 2 and 3 of hearts: 21
candidates, and the best hand is a royal flush; no hand from four cards. -/
theorem C22_find_best_hand_witness :
    5 ≤ royalPlusTwo.length ∧ royalPlusTwo.Nodup ∧
    (∀ x ∈ royalPlusTwo, 2 ≤ x.Rank ∧ x.Rank ≤ 14) ∧ (royalPlusTwo.take 4).length < 5 ∧
    (CardCombinations royalPlusTwo 5).length = 21 ∧
    (∃ best, findBestHand royalPlusTwo = some best ∧ best.Rank = RoyalFlush) ∧
    findBestHand (royalPlusTwo.take 4) = none :=
  ⟨by decide, by decide, by decide, by decide,
    (C22_find_best_hand royalPlusTwo (royalPlusTwo.take 4) (by decide) (by decide) (by decide)
      (by decide)).2.2.2.1 rfl,
    ⟨_, rfl, rfl⟩,
    (C22_find_best_hand royalPlusTwo (royalPlusTwo.take 4) (by decide) (by decide) (by decide)
      (by decide)).2.2.2.2.2.2⟩

/-! ## The loop that finds the winners -/

theorem findWinners_snoc {α : Type} (l : List (α × Hand)) (x : α × Hand) :
    findWinners (l ++ [x]) =
      match findWinners l with
      | [] => [x]
      | first :: rest =>
        if x.2.Compare first.2 > 0 then [x]
        else if x.2.Compare first.2 = 0 then (first :: rest) ++ [x]
        else first :: rest := by
  unfold findWinners
  rw [List.foldl_append]
  simp only [List.foldl_cons, List.foldl_nil]
  generalize List.foldl _ [] l = ws
  cases ws <;> rfl

/-- The winners are the entries whose hand has the largest key, in the order of
the list; there is one when the list is not empty. -/
theorem findWinners_spec {α : Type} (l : List (α × Hand)) (hg : ∀ p ∈ l, GoodHand p.2) :
    findWinners l =
        l.filter (fun ph => decide (∀ q ∈ l, compareKey q.2 ≤ compareKey ph.2)) ∧
      (l ≠ [] → findWinners l ≠ []) := by
  induction l using List.reverseRecOn with
  | nil => exact ⟨rfl, fun h => absurd rfl h⟩
  | append_singleton P x ih =>
    have hgP : ∀ p ∈ P, GoodHand p.2 := fun p hp => hg p (List.mem_append_left _ hp)
    have hgx : GoodHand x.2 := hg x (List.mem_append_right _ (List.mem_singleton_self x))
    obtain ⟨ih1, ih2⟩ := ih hgP
    rw [findWinners_snoc]
    cases hws : findWinners P with
    | nil =>
      have hP : P = [] := by
        by_contra hne
        exact ih2 hne hws
      subst hP
      refine ⟨?_, fun _ => by simp⟩
      simp
    | cons first rest =>
      have hfirst : first ∈ P ∧ ∀ q ∈ P, compareKey q.2 ≤ compareKey first.2 := by
        have hm : first ∈ findWinners P := by rw [hws]; exact List.mem_cons_self _ _
        rw [ih1, List.mem_filter, decide_eq_true_iff] at hm
        exact hm
      have hgf : GoodHand first.2 := hgP first hfirst.1
      simp only
      rw [List.filter_append]
      by_cases h1 : x.2.Compare first.2 > 0
      · have hk := (Compare_pos_iff_key hgx hgf).1 h1
        rw [if_pos h1]
        refine ⟨?_, by simp⟩
        have e1 : P.filter (fun ph => decide (∀ q ∈ P ++ [x], compareKey q.2 ≤ compareKey ph.2)) =
            [] := by
          rw [List.filter_eq_nil_iff]
          intro p hp
          simp only [decide_eq_true_eq]
          intro hall
          have h2 := hall x (List.mem_append_right _ (List.mem_singleton_self x))
          exact absurd (lt_of_lt_of_le (lt_of_le_of_lt (hfirst.2 p hp) hk) h2) (lt_irrefl _)
        have e2 : [x].filter (fun ph => decide (∀ q ∈ P ++ [x], compareKey q.2 ≤ compareKey ph.2)) =
            [x] := by
          rw [List.filter_eq_self]
          intro p hp
          rw [List.mem_singleton] at hp
          subst hp
          simp only [decide_eq_true_eq]
          intro q hq
          rcases List.mem_append.1 hq with hq | hq
          · exact le_trans (hfirst.2 q hq) (le_of_lt hk)
          · rw [List.mem_singleton] at hq
            rw [hq]
        rw [e1, e2]
        rfl
      · rw [if_neg h1]
        have e1 : ¬ compareKey first.2 < compareKey x.2 →
            P.filter (fun ph => decide (∀ q ∈ P ++ [x], compareKey q.2 ≤ compareKey ph.2)) =
              first :: rest := by
          intro hle
          rw [← hws, ih1]
          apply List.filter_congr
          intro p hp
          rw [decide_eq_decide]
          constructor
          · intro hall q hq
            exact hall q (List.mem_append_left _ hq)
          · intro hall q hq
            rcases List.mem_append.1 hq with hq | hq
            · exact hall q hq
            · rw [List.mem_singleton] at hq
              rw [hq]
              exact le_trans (not_lt.1 hle) (hall first hfirst.1)
        by_cases h2 : x.2.Compare first.2 = 0
        · have hk := (Compare_zero_iff_key hgx hgf).1 h2
          rw [if_pos h2]
          refine ⟨?_, by simp⟩
          have e2 : [x].filter
              (fun ph => decide (∀ q ∈ P ++ [x], compareKey q.2 ≤ compareKey ph.2)) = [x] := by
            rw [List.filter_eq_self]
            intro p hp
            rw [List.mem_singleton] at hp
            subst hp
            simp only [decide_eq_true_eq]
            intro q hq
            rcases List.mem_append.1 hq with hq | hq
            · rw [hk]
              exact hfirst.2 q hq
            · rw [List.mem_singleton] at hq
              rw [hq]
          rw [e1 (by rw [hk]; exact lt_irrefl _), e2]
        · rw [if_neg h2]
          have hneg : x.2.Compare first.2 < 0 := by omega
          have hk := (Compare_neg_iff_key hgx hgf).1 hneg
          refine ⟨?_, by simp⟩
          have e2 : [x].filter
              (fun ph => decide (∀ q ∈ P ++ [x], compareKey q.2 ≤ compareKey ph.2)) = [] := by
            rw [List.filter_eq_nil_iff]
            intro p hp
            rw [List.mem_singleton] at hp
            subst hp
            simp only [decide_eq_true_eq]
            intro hall
            exact absurd (lt_of_lt_of_le hk (hall first (List.mem_append_left _ hfirst.1)))
              (lt_irrefl _)
          rw [e1 (not_lt.2 (le_of_lt hk)), e2, List.append_nil]

/-! ## The loop over hands with nil entries -/

/-- The loop of findWinnerIndices is the loop of findWinners on the entries
that hold a hand, paired with their indices: its list is the list of the
indices, and its hand is the hand of the first winner. -/
theorem findWinnerIndices_eq (hands : List (Option Hand)) :
    findWinnerIndices hands =
      (findWinners (hands.enum.filterMap (fun ih => ih.2.map (fun h => (ih.1, h))))).map
        Prod.fst ∧
    (hands.enum.foldl (fun st ih => winnerStep st ih.1 ih.2)
        { winners := [], bestHand := none }).bestHand =
      ((findWinners (hands.enum.filterMap (fun ih => ih.2.map (fun h => (ih.1, h))))).head?).map
        Prod.snd := by
  unfold findWinnerIndices
  induction hands using List.reverseRecOn with
  | nil => exact ⟨rfl, rfl⟩
  | append_singleton P x ih =>
    obtain ⟨ih1, ih2⟩ := ih
    rw [List.enum_append, List.foldl_append, List.filterMap_append]
    simp only [List.enumFrom_cons, List.enumFrom_nil, List.foldl_cons, List.foldl_nil]
    cases x with
    | none =>
      simp only [List.filterMap_cons, Option.map_none', List.filterMap_nil, List.append_nil]
      exact ⟨ih1, ih2⟩
    | some h =>
      simp only [List.filterMap_cons, Option.map_some', List.filterMap_nil]
      rw [findWinners_snoc]
      generalize findWinners (P.enum.filterMap (fun ih => ih.2.map (fun h => (ih.1, h)))) = ws
        at ih1 ih2
      generalize P.enum.foldl (fun st ih => winnerStep st ih.1 ih.2)
        { winners := [], bestHand := none } = st at ih1 ih2
      cases ws with
      | nil =>
        have hb : st.bestHand = none := by simpa using ih2
        simp [winnerStep, hb]
      | cons first tl =>
        have hb : st.bestHand = some first.2 := by simpa using ih2
        simp only [winnerStep, hb]
        split_ifs <;> simp [ih1, hb]

theorem mem_indexed_hands (hands : List (Option Hand)) (i : Nat) (h : Hand) :
    (i, h) ∈ hands.enum.filterMap (fun ih => ih.2.map (fun h => (ih.1, h))) ↔
      hands.get? i = some (some h) := by
  rw [List.mem_filterMap]
  constructor
  · rintro ⟨⟨j, oh⟩, hmem, heq⟩
    rw [List.mk_mem_enum_iff_getElem?] at hmem
    cases oh with
    | none => simp at heq
    | some h2 =>
      simp only [Option.map_some', Option.some.injEq, Prod.mk.injEq] at heq
      obtain ⟨rfl, rfl⟩ := heq
      simpa using hmem
  · intro hget
    refine ⟨(i, some h), ?_, rfl⟩
    rw [List.mk_mem_enum_iff_getElem?]
    simpa using hget

/-- The winners among hands with nil entries: a winner exists as soon as one
entry holds a hand. -/
theorem findWinnerIndices_ne_nil (hands : List (Option Hand)) (i : Nat) (h : Hand)
    (hi : hands.get? i = some (some h)) : findWinnerIndices hands ≠ [] := by
  rw [(findWinnerIndices_eq hands).1]
  have hmem := (mem_indexed_hands hands i h).2 hi
  generalize hands.enum.filterMap (fun ih => ih.2.map (fun h => (ih.1, h))) = L at hmem
  have hne : ∀ (L : List (Nat × Hand)), L ≠ [] → findWinners L ≠ [] := by
    intro L
    induction L using List.reverseRecOn with
    | nil => exact fun h => absurd rfl h
    | append_singleton P x _ =>
      intro _
      rw [findWinners_snoc]
      cases findWinners P with
      | nil => simp
      | cons first rest =>
        simp only
        split_ifs <;> simp
  intro hnil
  have h3 := hne L (List.ne_nil_of_mem hmem)
  exact h3 (List.map_eq_nil_iff.1 hnil)

/-! ## The best hands of a batch -/

theorem NewHand_ok_good (c : List Card) (h : Hand) (hok : NewHand c = Except.ok h)
    (hv : ∀ x ∈ c, 2 ≤ x.Rank ∧ x.Rank ≤ 14) : ValidCards c ∧ Built h c ∧ GoodHand h := by
  have hsome : (NewHand c).toOption ≠ none := by
    rw [hok]
    simp [Except.toOption]
  have hlen : c.length = 5 := by
    by_contra hne
    exact hsome ((NewHand_toOption_eq_none c).2 (Or.inl hne))
  have hnd : c.Nodup := by
    by_contra hne
    exact hsome ((NewHand_toOption_eq_none c).2 (Or.inr hne))
  have hvc : ValidCards c := ⟨hlen, hnd, hv⟩
  have hb := Built_of_NewHand c h hlen hnd hok
  exact ⟨hvc, hb, c, hb, hvc⟩

theorem get?_map_toOption (cardSets : List (List Card)) (i : Nat) (h : Hand) :
    (cardSets.map (fun c => (NewHand c).toOption)).get? i = some (some h) ↔
      ∃ c, cardSets.get? i = some c ∧ NewHand c = Except.ok h := by
  simp only [List.get?_eq_getElem?, List.getElem?_map]
  cases hc : cardSets[i]? with
  | none => simp
  | some c =>
    cases hn : NewHand c with
    | error e => simp [Except.toOption, hn]
    | ok h2 => simp [Except.toOption, hn]

/-- The indices and the hand returned for a list of hands with nil entries,
all of whose hands are valid. -/
theorem winners_of_hands (hands : List (Option Hand))
    (hg : ∀ i h, hands.get? i = some (some h) → GoodHand h) :
    (findWinnerIndices hands).Pairwise (fun a b => a < b) ∧
    (∀ i, i ∈ findWinnerIndices hands ↔
      ∃ h, hands.get? i = some (some h) ∧
        ∀ j h2, hands.get? j = some (some h2) → compareKey h2 ≤ compareKey h) ∧
    (∀ i, (findWinnerIndices hands).head? = some i →
      ∃ h, hands.get? i = some (some h) ∧
        (hands.enum.foldl (fun st ih => winnerStep st ih.1 ih.2)
          { winners := [], bestHand := none }).bestHand = some h) ∧
    (findWinnerIndices hands = [] →
      (hands.enum.foldl (fun st ih => winnerStep st ih.1 ih.2)
          { winners := [], bestHand := none }).bestHand = none) := by
  obtain ⟨e1, e2⟩ := findWinnerIndices_eq hands
  have hgL : ∀ p ∈ hands.enum.filterMap (fun ih => ih.2.map (fun h => (ih.1, h))),
      GoodHand p.2 := by
    rintro ⟨i, h⟩ hp
    exact hg i h ((mem_indexed_hands hands i h).1 hp)
  obtain ⟨s1, -⟩ := findWinners_spec _ hgL
  refine ⟨(findWinnerIndices_sorted hands).1, ?_, ?_, ?_⟩
  · intro i
    rw [e1, s1, List.mem_map]
    constructor
    · rintro ⟨⟨i2, h⟩, hmem, rfl⟩
      rw [List.mem_filter, decide_eq_true_iff] at hmem
      refine ⟨h, (mem_indexed_hands hands i2 h).1 hmem.1, ?_⟩
      intro j h2 hj
      exact hmem.2 (j, h2) ((mem_indexed_hands hands j h2).2 hj)
    · rintro ⟨h, hget, hmax⟩
      refine ⟨(i, h), ?_, rfl⟩
      rw [List.mem_filter, decide_eq_true_iff]
      refine ⟨(mem_indexed_hands hands i h).2 hget, ?_⟩
      rintro ⟨j, h2⟩ hq
      exact hmax j h2 ((mem_indexed_hands hands j h2).1 hq)
  · intro i hi
    rw [e2]
    rw [e1, List.head?_map] at hi
    cases hw : (findWinners (hands.enum.filterMap (fun ih => ih.2.map (fun h => (ih.1, h))))).head? with
    | none => rw [hw] at hi; cases hi
    | some p =>
      rw [hw] at hi
      simp only [Option.map_some', Option.some.injEq] at hi
      obtain ⟨i2, h⟩ := p
      simp only at hi
      subst hi
      have hmem : (i2, h) ∈ findWinners
          (hands.enum.filterMap (fun ih => ih.2.map (fun h => (ih.1, h)))) :=
        List.mem_of_mem_head? hw
      rw [s1, List.mem_filter] at hmem
      exact ⟨h, (mem_indexed_hands hands i2 h).1 hmem.1, rfl⟩
  · intro hnil
    rw [e2]
    rw [e1, List.map_eq_nil_iff] at hnil
    rw [hnil]
    rfl

/-- C24: EvaluateAndCompareBatch returns, in increasing order, exactly the
indices i for which cardSets[i] is a valid hand that no valid hand of the
batch beats, together with the hand at the first returned index; when no set
is valid it returns no index and no hand. The cards have ranks 2..14. -/
theorem C24_evaluate_and_compare_batch (numCPU : Nat) (order : List Nat)
    (cardSets : List (List Card)) (workers : Int) (hcpu : 0 < numCPU)
    (hperm : order.Perm (List.range cardSets.length))
    (hv : ∀ cs ∈ cardSets, ∀ x ∈ cs, 2 ≤ x.Rank ∧ x.Rank ≤ 14) :
    ∃ idxs best, EvaluateAndCompareBatch numCPU order cardSets workers = some (idxs, best) ∧
      idxs.Pairwise (fun a b => a < b) ∧
      (∀ i, i ∈ idxs ↔
        ∃ c h, cardSets.get? i = some c ∧ NewHand c = Except.ok h ∧
          ∀ j c2 h2, cardSets.get? j = some c2 → NewHand c2 = Except.ok h2 →
            h2.Beats h = false) ∧
      (∀ i, idxs.head? = some i →
        ∃ c h, cardSets.get? i = some c ∧ NewHand c = Except.ok h ∧ best = some h) ∧
      ((∀ c ∈ cardSets, ∀ h, NewHand c ≠ Except.ok h) → idxs = [] ∧ best = none) := by
  have hgood : ∀ i h, (cardSets.map (fun c => (NewHand c).toOption)).get? i = some (some h) →
      GoodHand h := by
    intro i h hi
    obtain ⟨c, hc, hok⟩ := (get?_map_toOption cardSets i h).1 hi
    exact (NewHand_ok_good c h hok (hv c (List.get?_mem hc))).2.2
  obtain ⟨w1, w2, w3, w4⟩ := winners_of_hands _ hgood
  refine ⟨findWinnerIndices (cardSets.map (fun c => (NewHand c).toOption)),
    (((cardSets.map (fun c => (NewHand c).toOption)).enum.foldl
      (fun st ih => winnerStep st ih.1 ih.2) { winners := [], bestHand := none }).bestHand),
    ?_, w1, ?_, ?_, ?_⟩
  · unfold EvaluateAndCompareBatch
    rw [EvaluateHandsBatch_eq numCPU hcpu order cardSets workers hperm]
    rfl
  · intro i
    rw [w2 i]
    constructor
    · rintro ⟨h, hget, hmax⟩
      obtain ⟨c, hc, hok⟩ := (get?_map_toOption cardSets i h).1 hget
      refine ⟨c, h, hc, hok, ?_⟩
      intro j c2 h2 hc2 hok2
      have hle := hmax j h2 ((get?_map_toOption cardSets j h2).2 ⟨c2, hc2, hok2⟩)
      have g1 := (NewHand_ok_good c h hok (hv c (List.get?_mem hc))).2.2
      have g2 := (NewHand_ok_good c2 h2 hok2 (hv c2 (List.get?_mem hc2))).2.2
      cases hb : h2.Beats h with
      | false => rfl
      | true => exact absurd ((Beats_iff_key g2 g1).1 hb) (not_lt.2 hle)
    · rintro ⟨c, h, hc, hok, hmax⟩
      refine ⟨h, (get?_map_toOption cardSets i h).2 ⟨c, hc, hok⟩, ?_⟩
      intro j h2 hj
      obtain ⟨c2, hc2, hok2⟩ := (get?_map_toOption cardSets j h2).1 hj
      have g1 := (NewHand_ok_good c h hok (hv c (List.get?_mem hc))).2.2
      have g2 := (NewHand_ok_good c2 h2 hok2 (hv c2 (List.get?_mem hc2))).2.2
      have hb := hmax j c2 h2 hc2 hok2
      exact not_lt.1 (fun hlt => by
        rw [(Beats_iff_key g2 g1).2 hlt] at hb
        cases hb)
  · intro i hi
    obtain ⟨h, hget, hbest⟩ := w3 i hi
    obtain ⟨c, hc, hok⟩ := (get?_map_toOption cardSets i h).1 hget
    exact ⟨c, h, hc, hok, hbest⟩
  · intro hnone
    have hnil : findWinnerIndices (cardSets.map (fun c => (NewHand c).toOption)) = [] := by
      rw [List.eq_nil_iff_forall_not_mem]
      intro i hi
      obtain ⟨h, hget, -⟩ := (w2 i).1 hi
      obtain ⟨c, hc, hok⟩ := (get?_map_toOption cardSets i h).1 hget
      exact hnone c (List.get?_mem hc) h hok
    exact ⟨hnil, w4 hnil⟩

/-- C24 on the batch pair, royal flush, high card (index 1 wins) and on two
hands of the same ranks (both indices are returned). -/
theorem C24_evaluate_and_compare_batch_witness :
    0 < 4 ∧ [2, 0, 1].Perm (List.range [pairOfAces, royalSpades, highCardHand].length) ∧
    (∀ cs ∈ [pairOfAces, royalSpades, highCardHand], ∀ x ∈ cs, 2 ≤ x.Rank ∧ x.Rank ≤ 14) ∧
    (∃ idxs best,
      EvaluateAndCompareBatch 4 [2, 0, 1] [pairOfAces, royalSpades, highCardHand] 0 =
        some (idxs, best) ∧
      idxs.Pairwise (fun a b => a < b) ∧ idxs = [1] ∧
      (best.map fun h => h.handRank) = some RoyalFlush) ∧
    (∃ best, EvaluateAndCompareBatch 4 [1, 0] [highCardHand, highCardHand2] 1 =
      some ([0, 1], best)) :=
  ⟨by decide, by decide, by decide,
    match C24_evaluate_and_compare_batch 4 [2, 0, 1] [pairOfAces, royalSpades, highCardHand] 0
      (by decide) (by decide) (by decide) with
    | ⟨idxs, best, h1, h2, _⟩ =>
      have h3 : EvaluateAndCompareBatch 4 [2, 0, 1] [pairOfAces, royalSpades, highCardHand] 0 =
          some ([1], (NewHand royalSpades).toOption) := rfl
      have h4 : (idxs, best) = ([1], (NewHand royalSpades).toOption) :=
        Option.some.inj (h1.symm.trans h3)
      ⟨idxs, best, h1, h2, (Prod.mk.inj h4).1, by rw [(Prod.mk.inj h4).2]; rfl⟩,
    ⟨_, rfl⟩⟩

/-! ## The candidate hands of a player -/

theorem NewHandWithPlayer_toOption (c : List Card) (p : Player) :
    (NewHandWithPlayer c p).toOption =
      (NewHand c).toOption.map (fun h => { h with Player := some p }) := by
  unfold NewHandWithPlayer
  cases NewHand c <;> rfl

theorem GetCandidateHands_eq (g : Game) (player : Player) :
    g.GetCandidateHands player =
      if g.Board.Cards.length < 3 then Except.error GoError.ErrInvalidBoardState
      else Except.ok ((CardCombinations (player.HoleCards ++ g.Board.Cards) 5).filterMap
        (fun c => (NewHandWithPlayer c player).toOption)) := by
  unfold Game.GetCandidateHands
  split_ifs with h
  · rfl
  · simp only
    congr 1
    generalize CardCombinations (player.HoleCards ++ g.Board.Cards) 5 = combos
    have hgen : ∀ (l : List (List Card)) (init : List Hand),
        l.foldl
          (fun hands combo =>
            match NewHandWithPlayer combo player with
            | Except.error _ => hands
            | Except.ok hand => hands ++ [hand]) init =
          init ++ l.filterMap (fun c => (NewHandWithPlayer c player).toOption) := by
      intro l
      induction l with
      | nil => simp
      | cons c cs ih =>
        intro init
        simp only [List.foldl_cons, List.filterMap_cons]
        cases hc : NewHandWithPlayer c player with
        | error e =>
          have e1 : (Except.error e : Except GoError Hand).toOption = none := rfl
          simp only [e1]
          exact ih init
        | ok h =>
          have e1 : (Except.ok h : Except GoError Hand).toOption = some h := rfl
          simp only [e1]
          rw [ih]
          simp
    simpa using hgen combos []

theorem withPlayer_good (h : Hand) (p : Player) (c : List Card) (hb : Built h c) :
    Built { h with Player := some p } c ∧
      compareKey { h with Player := some p } = compareKey h ∧
      (∀ other : Hand, other.Compare { h with Player := some p } = other.Compare h) ∧
      (∀ other : Hand, Hand.Compare { h with Player := some p } other = h.Compare other) :=
  ⟨⟨hb.1, hb.2⟩, rfl, fun _ => rfl, fun _ => rfl⟩

/-- The candidate hands built from a duplicate-free set of at least 5 cards:
one for every 5-card selection, each attributed to the player. -/
theorem candidates_of_nodup (cards : List Card) (player : Player) (hlen : 5 ≤ cards.length)
    (hnd : cards.Nodup) :
    ((CardCombinations cards 5).filterMap
        (fun c => (NewHandWithPlayer c player).toOption)).length =
      cards.length.choose 5 ∧
    (∀ h ∈ (CardCombinations cards 5).filterMap
        (fun c => (NewHandWithPlayer c player).toOption),
      h.Player = some player ∧
        ∃ c, c.Sublist cards ∧ c.length = 5 ∧ NewHandWithPlayer c player = Except.ok h ∧
          Built h c) ∧
    (∀ c, c.Sublist cards → c.length = 5 →
      ∃ h0, NewHand c = Except.ok h0 ∧ Built h0 c ∧
        { h0 with Player := some player } ∈ (CardCombinations cards 5).filterMap
          (fun c => (NewHandWithPlayer c player).toOption)) := by
  rw [CardCombinations_five cards hlen]
  have hall : ∀ c ∈ combosRef cards 5, ∃ h0, NewHand c = Except.ok h0 ∧ Built h0 c ∧
      (NewHandWithPlayer c player).toOption = some { h0 with Player := some player } ∧
      NewHandWithPlayer c player = Except.ok { h0 with Player := some player } := by
    intro c hc
    obtain ⟨hs, hl⟩ := (mem_combosRef cards c 5).1 hc
    obtain ⟨h0, hok, hb⟩ := NewHand_Built c hl (hnd.sublist hs)
    refine ⟨h0, hok, hb, ?_, ?_⟩
    · rw [NewHandWithPlayer_toOption, hok]
      rfl
    · unfold NewHandWithPlayer
      rw [hok]
  refine ⟨?_, ?_, ?_⟩
  · rw [← combosRef_length]
    have : ∀ l : List (List Card),
        (∀ c ∈ l, ∃ h0, NewHand c = Except.ok h0 ∧ Built h0 c ∧
          (NewHandWithPlayer c player).toOption = some { h0 with Player := some player } ∧
          NewHandWithPlayer c player = Except.ok { h0 with Player := some player }) →
        (l.filterMap (fun c => (NewHandWithPlayer c player).toOption)).length = l.length := by
      intro l
      induction l with
      | nil => simp
      | cons c cs ih =>
        intro hl
        obtain ⟨h0, -, -, e, -⟩ := hl c (List.mem_cons_self _ _)
        rw [List.filterMap_cons]
        simp only [e, List.length_cons]
        rw [ih (fun c hc => hl c (List.mem_cons_of_mem _ hc))]
    exact this _ hall
  · intro h hh
    rw [List.mem_filterMap] at hh
    obtain ⟨c, hc, hch⟩ := hh
    obtain ⟨h0, hok, hb, e, e2⟩ := hall c hc
    rw [e, Option.some.injEq] at hch
    subst hch
    obtain ⟨hs, hl⟩ := (mem_combosRef cards c 5).1 hc
    exact ⟨rfl, c, hs, hl, e2, (withPlayer_good h0 player c hb).1⟩
  · intro c hs hl
    have hc : c ∈ combosRef cards 5 := (mem_combosRef cards c 5).2 ⟨hs, hl⟩
    obtain ⟨h0, hok, hb, e, -⟩ := hall c hc
    refine ⟨h0, hok, hb, ?_⟩
    rw [List.mem_filterMap]
    exact ⟨c, hc, e⟩

theorem GetBestHand_eq (g : Game) (player : Player) :
    g.GetBestHand player =
      if g.Board.Cards.length < 3 then Except.error GoError.ErrInvalidBoardState
      else
        match (CardCombinations (player.HoleCards ++ g.Board.Cards) 5).filterMap
            (fun c => (NewHandWithPlayer c player).toOption) with
        | [] => Except.error GoError.ErrInvalidBoardState
        | first :: rest =>
          Except.ok (rest.foldl (fun best hand => if hand.Beats best then hand else best) first) := by
  unfold Game.GetBestHand
  rw [GetCandidateHands_eq]
  split_ifs with h
  · rfl
  · generalize (CardCombinations (player.HoleCards ++ g.Board.Cards) 5).filterMap
      (fun c => (NewHandWithPlayer c player).toOption) = hands
    cases hands <;> rfl

theorem GetBestHand_error (g : Game) (player : Player) (err : GoError)
    (h : g.GetBestHand player = Except.error err) : err = GoError.ErrInvalidBoardState := by
  rw [GetBestHand_eq] at h
  split_ifs at h
  · cases h; rfl
  · split at h
    · cases h; rfl
    · cases h

/-- The loop of GetWinners over the players stops at the first error of
GetBestHand, and otherwise collects the pairs of a player and the best hand. -/
theorem GetWinners_eq (g : Game) :
    g.GetWinners =
      if g.Board.State ≠ BoardState.River then Except.error GoError.ErrInvalidBoardState
      else
        match firstError (g.Players.map (fun p => (p, g.GetBestHand p))) with
        | some err => Except.error err
        | none =>
          Except.ok
            ((findWinners (playerHands (g.Players.map (fun p => (p, g.GetBestHand p))))).map
              (fun w => w.1),
             (findWinners (playerHands (g.Players.map (fun p => (p, g.GetBestHand p))))).map
              (fun w => w.2)) := by
  unfold Game.GetWinners
  split_ifs with hs
  · rfl
  · simp only
    have hloop : ∀ (players : List Player) (acc : List (Player × Hand)),
        players.foldl
          (fun acc player =>
            match acc with
            | Except.error err => Except.error err
            | Except.ok bestHands =>
              match g.GetBestHand player with
              | Except.error err => Except.error err
              | Except.ok best => Except.ok (bestHands ++ [(player, best)]))
          (Except.ok acc) =
        match firstError (players.map (fun p => (p, g.GetBestHand p))) with
        | some err => (Except.error err : Except GoError (List (Player × Hand)))
        | none => Except.ok (acc ++ playerHands (players.map (fun p => (p, g.GetBestHand p)))) := by
      intro players
      induction players with
      | nil => intro acc; simp [firstError, playerHands]
      | cons p ps ih =>
        intro acc
        simp only [List.foldl_cons, List.map_cons]
        cases hb : g.GetBestHand p with
        | error e =>
          simp only [firstError]
          have herr : ∀ l : List Player,
              l.foldl
                (fun acc player =>
                  match acc with
                  | Except.error err => Except.error err
                  | Except.ok bestHands =>
                    match g.GetBestHand player with
                    | Except.error err => Except.error err
                    | Except.ok best => Except.ok (bestHands ++ [(player, best)]))
                (Except.error e : Except GoError (List (Player × Hand))) = Except.error e := by
            intro l
            induction l with
            | nil => rfl
            | cons q qs ihq => simpa using ihq
          exact herr ps
        | ok best =>
          simp only [firstError, playerHands]
          rw [ih]
          cases firstError (ps.map (fun p => (p, g.GetBestHand p))) with
          | some e => rfl
          | none => simp
    erw [hloop g.Players []]
    cases firstError (g.Players.map (fun p => (p, g.GetBestHand p))) with
    | some e => rfl
    | none => simp

theorem written_results (g : Game) (order : List Nat)
    (hperm : order.Perm (List.range g.Players.length)) :
    order.foldl
        (fun results idx =>
          match g.Players.get? idx with
          | none => results
          | some p => results.set idx (some (p, g.GetBestHand p)))
        (List.replicate g.Players.length none) =
      g.Players.map (fun p => some (p, g.GetBestHand p)) := by
  rw [foldl_set_eq_map (fun idx => (g.Players.get? idx).map (fun p => (p, g.GetBestHand p)))
    _ _ order g.Players.length hperm]
  · apply List.ext_getElem
    · simp
    · intro i h1 h2
      have hi : i < g.Players.length := by simpa using h2
      simp [List.getElem?_eq_getElem hi]
  · intro results idx
    simp only [List.get?_eq_getElem?]
    cases g.Players[idx]? <;> rfl

theorem GetWinnersParallel_eq (order : List Nat) (g : Game)
    (hperm : order.Perm (List.range g.Players.length)) :
    g.GetWinnersParallel order = some g.GetWinners := by
  unfold Game.GetWinnersParallel
  rw [GetWinners_eq]
  split_ifs with hs
  · rfl
  · erw [written_results g order hperm]
    have hall : (g.Players.map (fun p => some (p, g.GetBestHand p))).all Option.isSome = true := by
      simp
    have hfm : (g.Players.map (fun p => some (p, g.GetBestHand p))).filterMap id =
        g.Players.map (fun p => (p, g.GetBestHand p)) := by
      rw [List.filterMap_map]
      show List.filterMap (some ∘ fun p => (p, g.GetBestHand p)) g.Players = _
      rw [List.filterMap_eq_map]
    simp only [hall, if_true, hfm]
    cases firstError (g.Players.map (fun p => (p, g.GetBestHand p))) <;> rfl

/-- C25: for every game state and every order in which the goroutines
complete, GetWinnersParallel returns what GetWinners returns: the same error
(ErrInvalidBoardState when the board is not at the river), and otherwise the
same winning players and the same hands in the same order. -/
theorem C25_winners_parallel (g : Game) (order : List Nat)
    (hperm : order.Perm (List.range g.Players.length)) :
    g.GetWinnersParallel order = some g.GetWinners ∧
    (g.Board.State ≠ BoardState.River →
      g.GetWinners = Except.error GoError.ErrInvalidBoardState ∧
      g.GetWinnersParallel order = some (Except.error GoError.ErrInvalidBoardState)) := by
  refine ⟨GetWinnersParallel_eq order g hperm, ?_⟩
  intro hs
  have h1 : g.GetWinners = Except.error GoError.ErrInvalidBoardState := by
    rw [GetWinners_eq, if_pos hs]
  exact ⟨h1, by rw [GetWinnersParallel_eq order g hperm, h1]⟩

set_option maxRecDepth 100000 in
/-- C25 on the game of TestGameMultipleWinners with the second goroutine
completing first: both players win with a straight, in seating order. -/
theorem C25_winners_parallel_witness :
    [1, 0].Perm (List.range splitPotGame.Players.length) ∧
    splitPotGame.GetWinnersParallel [1, 0] = some splitPotGame.GetWinners ∧
    ∃ hands, splitPotGame.GetWinners = Except.ok (splitPotGame.Players, hands) ∧
      hands.map (fun h => h.handRank) = [Straight, Straight] :=
  ⟨by decide, (C25_winners_parallel splitPotGame [1, 0] (by decide)).1, _, rfl, rfl⟩

/-! ## The result of GetWinners -/

theorem Board.State_river_iff (b : Board) : b.State = BoardState.River ↔ b.Cards.length = 5 := by
  unfold Board.State
  split_ifs with h0 h3 h4 h5 <;> simp <;> omega

theorem firstError_map (F : Player → Except GoError Hand) (l : List Player) :
    (firstError (l.map (fun p => (p, F p))) = none ↔ ∀ p ∈ l, ∃ b, F p = Except.ok b) ∧
    (∀ err, firstError (l.map (fun p => (p, F p))) = some err →
      ∃ p ∈ l, F p = Except.error err) := by
  induction l with
  | nil => simp [firstError]
  | cons p ps ih =>
    simp only [List.map_cons]
    cases hp : F p with
    | error e =>
      simp only [firstError]
      refine ⟨?_, ?_⟩
      · constructor
        · intro h; cases h
        · intro h
          obtain ⟨b, hb⟩ := h p (List.mem_cons_self _ _)
          rw [hp] at hb
          cases hb
      · intro err he
        cases he
        exact ⟨p, List.mem_cons_self _ _, hp⟩
    | ok b =>
      simp only [firstError]
      refine ⟨?_, ?_⟩
      · rw [ih.1]
        constructor
        · intro h q hq
          rcases List.mem_cons.1 hq with rfl | hq
          · exact ⟨b, hp⟩
          · exact h q hq
        · intro h q hq
          exact h q (List.mem_cons_of_mem _ hq)
      · intro err he
        obtain ⟨q, hq, hqe⟩ := ih.2 err he
        exact ⟨q, List.mem_cons_of_mem _ hq, hqe⟩

theorem playerHands_map (F : Player → Except GoError Hand) (l : List Player)
    (h : ∀ p ∈ l, ∃ b, F p = Except.ok b) :
    (playerHands (l.map (fun p => (p, F p)))).map Prod.fst = l ∧
    ∀ ph ∈ playerHands (l.map (fun p => (p, F p))), F ph.1 = Except.ok ph.2 := by
  induction l with
  | nil => simp [playerHands]
  | cons p ps ih =>
    obtain ⟨b, hb⟩ := h p (List.mem_cons_self _ _)
    obtain ⟨i1, i2⟩ := ih (fun q hq => h q (List.mem_cons_of_mem _ hq))
    simp only [List.map_cons, hb, playerHands, List.mem_cons]
    refine ⟨by rw [i1], ?_⟩
    rintro ph (rfl | hph)
    · exact hb
    · exact i2 ph hph

/-- GetBestHand fails exactly when the board holds fewer than 3 cards or no
candidate hand is left. -/
theorem GetBestHand_error_iff (g : Game) (player : Player) :
    (∃ err, g.GetBestHand player = Except.error err) ↔
      (g.Board.Cards.length < 3 ∨
        ∀ c ∈ CardCombinations (player.HoleCards ++ g.Board.Cards) 5,
          (NewHand c).toOption = none) := by
  rw [GetBestHand_eq]
  split_ifs with h
  · simp [h]
  · cases hl : (CardCombinations (player.HoleCards ++ g.Board.Cards) 5).filterMap
        (fun c => (NewHandWithPlayer c player).toOption) with
    | nil =>
      simp only [h, false_or]
      refine ⟨fun _ => ?_, fun _ => ⟨_, rfl⟩⟩
      rw [List.filterMap_eq_nil_iff] at hl
      intro c hc
      have := hl c hc
      rw [NewHandWithPlayer_toOption, Option.map_eq_none'] at this
      exact this
    | cons first rest =>
      simp only [h, false_or]
      constructor
      · rintro ⟨err, he⟩
        cases he
      · intro hall
        have hmem : first ∈ (CardCombinations (player.HoleCards ++ g.Board.Cards) 5).filterMap
            (fun c => (NewHandWithPlayer c player).toOption) := by
          rw [hl]
          exact List.mem_cons_self _ _
        rw [List.mem_filterMap] at hmem
        obtain ⟨c, hc, hch⟩ := hmem
        rw [NewHandWithPlayer_toOption, hall c hc] at hch
        cases hch

theorem GetBestHand_spec (g : Game) (player : Player)
    (hboard : 3 ≤ g.Board.Cards.length)
    (hnd : (player.HoleCards ++ g.Board.Cards).Nodup)
    (hv : ∀ x ∈ player.HoleCards ++ g.Board.Cards, 2 ≤ x.Rank ∧ x.Rank ≤ 14)
    (hlen : 5 ≤ (player.HoleCards ++ g.Board.Cards).length) :
    ∃ b hands, g.GetCandidateHands player = Except.ok hands ∧
      g.GetBestHand player = Except.ok b ∧ GoodHand b ∧ b ∈ hands ∧
      ∀ h ∈ hands, GoodHand h ∧ compareKey h ≤ compareKey b := by
  obtain ⟨c1, c2, -⟩ := candidates_of_nodup (player.HoleCards ++ g.Board.Cards) player hlen hnd
  have hgood : ∀ h ∈ (CardCombinations (player.HoleCards ++ g.Board.Cards) 5).filterMap
      (fun c => (NewHandWithPlayer c player).toOption), GoodHand h := by
    intro h hh
    obtain ⟨-, c, hs, hl, -, hb⟩ := c2 h hh
    exact ⟨c, hb, sublist_valid _ c hnd hv hs hl⟩
  rw [GetBestHand_eq, GetCandidateHands_eq, if_neg (by omega), if_neg (by omega)]
  cases hl : (CardCombinations (player.HoleCards ++ g.Board.Cards) 5).filterMap
      (fun c => (NewHandWithPlayer c player).toOption) with
  | nil =>
    rw [hl] at c1
    have := Nat.choose_pos hlen
    simp only [List.length_nil] at c1
    omega
  | cons first rest =>
    rw [hl] at hgood
    obtain ⟨g1, g2, g3⟩ := foldl_beats_max rest first (hgood first (List.mem_cons_self _ _))
      (fun h hh => hgood h (List.mem_cons_of_mem _ hh))
    exact ⟨_, _, rfl, rfl, g1, g2, fun h hh => ⟨hgood h hh, g3 h hh⟩⟩

theorem mem_CardCombinations_five (cards c : List Card) (hc : c ∈ CardCombinations cards 5) :
    c.length = 5 ∧ c.Sublist cards := by
  by_cases hlen : 5 ≤ cards.length
  · rw [CardCombinations_five cards hlen] at hc
    obtain ⟨hs, hl⟩ := (mem_combosRef cards c 5).1 hc
    exact ⟨hl, hs⟩
  · rw [CardCombinations_short cards (by omega)] at hc
    cases hc

theorem GetWinners_error_iff (g : Game) :
    (g.GetWinners = Except.error GoError.ErrInvalidBoardState ↔
      (g.Board.Cards.length ≠ 5 ∨
        ∃ p ∈ g.Players, ∀ c ∈ CardCombinations (p.HoleCards ++ g.Board.Cards) 5, ¬ c.Nodup)) ∧
    (∀ err, g.GetWinners = Except.error err → err = GoError.ErrInvalidBoardState) := by
  have hfe := firstError_map g.GetBestHand g.Players
  rw [GetWinners_eq]
  by_cases hs : g.Board.State = BoardState.River
  · have h5 : g.Board.Cards.length = 5 := (Board.State_river_iff _).1 hs
    rw [if_neg (by simp [hs])]
    cases hf : firstError (g.Players.map (fun p => (p, g.GetBestHand p))) with
    | some e =>
      obtain ⟨p, hp, hpe⟩ := hfe.2 e hf
      have he : e = GoError.ErrInvalidBoardState := GetBestHand_error g p e hpe
      subst he
      refine ⟨?_, fun err herr => by cases herr; rfl⟩
      simp only [true_iff]
      right
      refine ⟨p, hp, ?_⟩
      rcases (GetBestHand_error_iff g p).1 ⟨_, hpe⟩ with h | h
      · omega
      · intro c hc
        rcases (NewHand_toOption_eq_none c).1 (h c hc) with h1 | h1
        · exact absurd (mem_CardCombinations_five _ c hc).1 h1
        · exact h1
    | none =>
      refine ⟨?_, fun err herr => by cases herr⟩
      simp only [reduceCtorEq, false_iff, not_or, not_not, not_exists, not_and]
      refine ⟨h5, ?_⟩
      intro p hp hall
      obtain ⟨b, hb⟩ := (hfe.1.1 hf) p hp
      have herr := (GetBestHand_error_iff g p).2
        (Or.inr (fun c hc => (NewHand_toOption_eq_none c).2 (Or.inr (hall c hc))))
      obtain ⟨err, he⟩ := herr
      rw [hb] at he
      cases he
  · have h5 : g.Board.Cards.length ≠ 5 := fun h => hs ((Board.State_river_iff _).2 h)
    rw [if_pos hs]
    exact ⟨by simp [h5], fun err herr => by cases herr; rfl⟩

theorem GetWinners_ok_of_board (g : Game) (h5 : g.Board.Cards.length = 5)
    (hnd : g.Board.Cards.Nodup) : ∃ r, g.GetWinners = Except.ok r := by
  cases hw : g.GetWinners with
  | ok r => exact ⟨r, rfl⟩
  | error e =>
    have he := (GetWinners_error_iff g).2 e hw
    subst he
    rcases (GetWinners_error_iff g).1.1 hw with h | ⟨p, -, hall⟩
    · exact absurd h5 h
    · have hmem : g.Board.Cards ∈ CardCombinations (p.HoleCards ++ g.Board.Cards) 5 := by
        rw [CardCombinations_five _ (by rw [List.length_append]; omega), mem_combosRef]
        exact ⟨List.sublist_append_right _ _, h5⟩
      exact absurd hnd (hall _ hmem)

/-- C26 as stated fails on a board that repeats a card: the board holds
exactly 5 cards, yet GetWinners returns ErrInvalidBoardState, because the
player has no 5-card hand without a repeated card. -/
theorem C26_counterexample :
    ¬ (repeatedBoardGame.GetWinners = Except.error GoError.ErrInvalidBoardState ↔
      repeatedBoardGame.Board.Cards.length ≠ 5) := by
  intro h
  exact h.1 rfl rfl

/-- C26 (amended): GetWinners returns ErrInvalidBoardState, and no other error,
iff the board does not hold exactly 5 cards or some player has no 5-card
combination of hole and board cards without a repeated card, which cannot
happen at the river when the 5 board cards are pairwise distinct. At the
river, with every player holding 2 hole cards, all cards distinct and of
ranks 2..14, every player has a best hand (a candidate hand that no candidate
hand of the player beats), and GetWinners returns, in seating order, exactly
the players whose best hand no player's best hand beats, each with that best
hand at the same position; there is at least one when the game has players. -/
theorem C26_winners (g g2 : Game) (hriver : g.Board.Cards.length = 5)
    (hhole : ∀ p ∈ g.Players, p.HoleCards.length = 2)
    (hnd : ((g.Players.map (fun p => p.HoleCards)).flatten ++ g.Board.Cards).Nodup)
    (hv : ∀ x ∈ (g.Players.map (fun p => p.HoleCards)).flatten ++ g.Board.Cards,
      2 ≤ x.Rank ∧ x.Rank ≤ 14) :
    (g2.GetWinners = Except.error GoError.ErrInvalidBoardState ↔
      (g2.Board.Cards.length ≠ 5 ∨
        ∃ p ∈ g2.Players, ∀ c ∈ CardCombinations (p.HoleCards ++ g2.Board.Cards) 5,
          ¬ c.Nodup)) ∧
    (∀ err, g2.GetWinners = Except.error err → err = GoError.ErrInvalidBoardState) ∧
    (g2.Board.Cards.length = 5 → g2.Board.Cards.Nodup → ∃ r, g2.GetWinners = Except.ok r) ∧
    ∃ bestHands : List (Player × Hand),
      bestHands.map Prod.fst = g.Players ∧
      (∀ ph ∈ bestHands, g.GetBestHand ph.1 = Except.ok ph.2 ∧
        ∃ hands, g.GetCandidateHands ph.1 = Except.ok hands ∧ ph.2 ∈ hands ∧
          ∀ h ∈ hands, h.Beats ph.2 = false) ∧
      g.GetWinners = Except.ok
        ((bestHands.filter
            (fun ph => decide (∀ q ∈ bestHands, q.2.Beats ph.2 = false))).map Prod.fst,
          (bestHands.filter
            (fun ph => decide (∀ q ∈ bestHands, q.2.Beats ph.2 = false))).map Prod.snd) ∧
      (g.Players ≠ [] →
        bestHands.filter (fun ph => decide (∀ q ∈ bestHands, q.2.Beats ph.2 = false)) ≠ []) := by
  refine ⟨(GetWinners_error_iff g2).1, (GetWinners_error_iff g2).2,
    GetWinners_ok_of_board g2, ?_⟩
  have hspec : ∀ p ∈ g.Players, ∃ b hands, g.GetCandidateHands p = Except.ok hands ∧
      g.GetBestHand p = Except.ok b ∧ GoodHand b ∧ b ∈ hands ∧
      ∀ h ∈ hands, GoodHand h ∧ compareKey h ≤ compareKey b := by
    intro p hp
    have hsub : (p.HoleCards ++ g.Board.Cards).Sublist
        ((g.Players.map (fun p => p.HoleCards)).flatten ++ g.Board.Cards) :=
      List.Sublist.append
        (List.sublist_flatten_of_mem (List.mem_map_of_mem (fun p => p.HoleCards) hp))
        (List.Sublist.refl _)
    exact GetBestHand_spec g p (by omega) (hnd.sublist hsub)
      (fun x hx => hv x (hsub.subset hx))
      (by rw [List.length_append, hhole p hp]; omega)
  have hok : ∀ p ∈ g.Players, ∃ b, g.GetBestHand p = Except.ok b := by
    intro p hp
    obtain ⟨b, -, -, hb, -⟩ := hspec p hp
    exact ⟨b, hb⟩
  have hfe := (firstError_map g.GetBestHand g.Players).1.2 hok
  obtain ⟨m1, m2⟩ := playerHands_map g.GetBestHand g.Players hok
  have hin : ∀ ph ∈ playerHands (g.Players.map (fun p => (p, g.GetBestHand p))),
      ph.1 ∈ g.Players := by
    intro ph hph
    rw [← m1]
    exact List.mem_map_of_mem Prod.fst hph
  have hgood : ∀ ph ∈ playerHands (g.Players.map (fun p => (p, g.GetBestHand p))),
      GoodHand ph.2 := by
    intro ph hph
    obtain ⟨b, -, -, hb, hg, -⟩ := hspec ph.1 (hin ph hph)
    rw [m2 ph hph] at hb
    cases hb
    exact hg
  obtain ⟨w1, w2⟩ := findWinners_spec _ hgood
  have hfilter :
      (playerHands (g.Players.map (fun p => (p, g.GetBestHand p)))).filter
          (fun ph => decide (∀ q ∈ playerHands (g.Players.map (fun p => (p, g.GetBestHand p))),
            compareKey q.2 ≤ compareKey ph.2)) =
        (playerHands (g.Players.map (fun p => (p, g.GetBestHand p)))).filter
          (fun ph => decide (∀ q ∈ playerHands (g.Players.map (fun p => (p, g.GetBestHand p))),
            q.2.Beats ph.2 = false)) := by
    apply List.filter_congr
    intro ph hph
    rw [decide_eq_decide]
    constructor
    · intro hall q hq
      cases hb : q.2.Beats ph.2 with
      | false => rfl
      | true =>
        exact absurd ((Beats_iff_key (hgood q hq) (hgood ph hph)).1 hb) (not_lt.2 (hall q hq))
    · intro hall q hq
      exact not_lt.1 (fun hlt => by
        have := hall q hq
        rw [(Beats_iff_key (hgood q hq) (hgood ph hph)).2 hlt] at this
        cases this)
  refine ⟨playerHands (g.Players.map (fun p => (p, g.GetBestHand p))), m1, ?_, ?_, ?_⟩
  · intro ph hph
    refine ⟨m2 ph hph, ?_⟩
    obtain ⟨b, hands, hc, hb, hg, hbm, hmax⟩ := hspec ph.1 (hin ph hph)
    rw [m2 ph hph] at hb
    cases hb
    refine ⟨hands, hc, hbm, ?_⟩
    intro h hh
    cases hbe : h.Beats ph.2 with
    | false => rfl
    | true =>
      exact absurd ((Beats_iff_key (hmax h hh).1 hg).1 hbe) (not_lt.2 (hmax h hh).2)
  · rw [GetWinners_eq, if_neg (by simp [(Board.State_river_iff _).2 hriver]), hfe]
    simp only
    rw [w1, hfilter]
  · intro hne
    rw [← hfilter, ← w1]
    apply w2
    intro hnil
    rw [hnil] at m1
    exact hne m1.symm

set_option maxRecDepth 100000 in
/-- C26 (amended) on the game of TestGameMultipleWinners: two players holding
2-3 in different suits on the board 4 5 6 K Q both win. -/
theorem C26_winners_witness :
    splitPotGame.Board.Cards.length = 5 ∧
    (∀ p ∈ splitPotGame.Players, p.HoleCards.length = 2) ∧
    ((splitPotGame.Players.map (fun p => p.HoleCards)).flatten ++
      splitPotGame.Board.Cards).Nodup ∧
    (∀ x ∈ (splitPotGame.Players.map (fun p => p.HoleCards)).flatten ++
      splitPotGame.Board.Cards, 2 ≤ x.Rank ∧ x.Rank ≤ 14) ∧
    (∃ r, splitPotGame.GetWinners = Except.ok r) ∧
    ∃ hands, splitPotGame.GetWinners = Except.ok (splitPotGame.Players, hands) ∧
      hands.length = 2 :=
  ⟨by decide, by decide, by decide, by decide,
    (C26_winners splitPotGame splitPotGame (by decide) (by decide) (by decide)
      (by decide)).2.2.1 (by decide) (by decide),
    _, rfl, rfl⟩

/-! ## The feasibility check of CalculateExact -/

/-- On a board of at most 4 cards, all cards distinct and of ranks 2..14,
CalculateExact compares the number C(remaining, needed) of completions with
the ceiling, and returns one result per player when it is not above it. -/
theorem CalculateExact_ceiling (ec : EquityCalculator) (holeCards : List (List Card))
    (board : List Card) (maxCombinations : Int)
    (hn : (holeCards.flatten ++ board).Nodup)
    (hv : ∀ c ∈ holeCards.flatten ++ board, 2 ≤ c.Rank ∧ c.Rank ≤ 14)
    (hb : board.length ≤ 4) (hw : 0 < ec.workers) :
    (ec.CalculateExact holeCards board maxCombinations = ExactOutcome.notComputed ↔
      (((52 - (holeCards.flatten ++ board).length).choose (5 - board.length) : Nat) : Int) >
        maxCombinations) ∧
    (¬ (((52 - (holeCards.flatten ++ board).length).choose (5 - board.length) : Nat) : Int) >
        maxCombinations →
      ∃ rs, ec.CalculateExact holeCards board maxCombinations = ExactOutcome.results rs ∧
        rs.length = holeCards.length) := by
  obtain ⟨h52, hlen⟩ := remainingDeck_length _ hn hv
  have hdeck := buildRemainingDeck_eq ((holeCards.flatten ++ board).map cardKey)
    (by rw [List.length_map]; exact h52)
  have hk : (5 : Int) - (board.length : Int) = ((5 - board.length : Nat) : Int) := by omega
  unfold EquityCalculator.CalculateExact
  rw [buildUsedCards_eq holeCards board hn hv, hdeck]
  simp only
  rw [hk, Combinations_length_choose _ (5 - board.length) (by omega), hlen]
  have hw0 : ec.workers ≠ 0 := by omega
  constructor
  · split_ifs with h1 h2
    · exact ⟨fun _ => h1, fun _ => rfl⟩
    · exact absurd h2.1 hw0
    · exact ⟨fun h => (by cases h), fun h => absurd h h1⟩
  · intro hnot
    rw [if_neg hnot, if_neg (fun h => hw0 h.1)]
    exact ⟨_, rfl, by simp⟩

/-- The example of TestEquityCalculatorExactTooMany: A A against K K before the
flop has C(48, 5) = 1712304 completions, above the ceiling 1000. -/
theorem CalculateExact_preflop_too_many :
    (EquityCalculator.mk 4).CalculateExact acesVsKings [] 1000 = ExactOutcome.notComputed := by
  rw [(CalculateExact_ceiling (EquityCalculator.mk 4) acesVsKings [] 1000 (by decide)
    (by decide) (by decide) (by decide)).1]
  decide

/-- C21 fails on a complete board with ceiling 0: there is C(remaining, 0) = 1
completion, above the ceiling, but CalculateExact does not return the
not-computed signal; Combinations returns nil for 0 cards, and the length 0
of nil is compared with the ceiling. -/
theorem C21_exact_ceiling_complete_board (ec : EquityCalculator)
    (holeCards : List (List Card)) (board : List Card) (hb : board.length = 5) :
    ec.CalculateExact holeCards board 0 ≠ ExactOutcome.notComputed ∧
    (((52 - (holeCards.flatten ++ board).length).choose (5 - board.length) : Nat) : Int) >
      0 := by
  constructor
  · unfold EquityCalculator.CalculateExact
    split
    · intro h; cases h
    · have hc : ∀ deck : List Card, Combinations deck (5 - (board.length : Int)) = [] := by
        intro deck
        unfold Combinations
        rw [if_pos (by omega)]
      simp only [hc]
      intro h
      simp at h
  · rw [hb]
    simp

/-- C21 at A A against K K on the complete board 2c 5d 9h Js 3c with ceiling
0: results come back (with Total 0) although C(43, 0) = 1 > 0. -/
theorem C21_exact_ceiling_complete_board_witness :
    riverBoard.length = 5 ∧
    (EquityCalculator.mk 4).CalculateExact acesVsKings riverBoard 0 =
      ExactOutcome.results [mkEquityResult 0 0 0 2, mkEquityResult 0 0 0 2] ∧
    (EquityCalculator.mk 4).CalculateExact acesVsKings riverBoard 0 ≠
      ExactOutcome.notComputed ∧
    (((52 - (acesVsKings.flatten ++ riverBoard).length).choose (5 - riverBoard.length) : Nat) :
      Int) > 0 :=
  ⟨rfl, rfl,
    (C21_exact_ceiling_complete_board (EquityCalculator.mk 4) acesVsKings riverBoard rfl).1,
    (C21_exact_ceiling_complete_board (EquityCalculator.mk 4) acesVsKings riverBoard rfl).2⟩

/-! ## The sum of the equities -/

theorem incrAt_sum (xs : List Nat) (idx : Nat) (h : idx < xs.length) :
    (incrAt xs idx).length = xs.length ∧ (incrAt xs idx).sum = xs.sum + 1 := by
  induction xs generalizing idx with
  | nil => simp at h
  | cons x rest ih =>
    cases idx with
    | zero => simp [incrAt]; omega
    | succ idx =>
      obtain ⟨h1, h2⟩ := ih idx (by simpa using h)
      simp only [incrAt, List.length_cons, List.sum_cons, h1, h2, true_and]
      omega

theorem foldl_incrAt_sum (ws : List Nat) (xs : List Nat) (h : ∀ i ∈ ws, i < xs.length) :
    (ws.foldl incrAt xs).length = xs.length ∧ (ws.foldl incrAt xs).sum = xs.sum + ws.length := by
  induction ws generalizing xs with
  | nil => simp
  | cons w rest ih =>
    obtain ⟨h1, h2⟩ := incrAt_sum xs w (h w (List.mem_cons_self _ _))
    obtain ⟨h3, h4⟩ := ih (incrAt xs w) (fun i hi => by
      rw [h1]
      exact h i (List.mem_cons_of_mem _ hi))
    simp only [List.foldl_cons, List.length_cons]
    rw [h3, h4, h1, h2]
    exact ⟨rfl, by omega⟩

theorem nodup_lt_length_le (ws : List Nat) (n : Nat) (hnd : ws.Nodup) (h : ∀ i ∈ ws, i < n) :
    ws.length ≤ n := by
  have hsub : ws ⊆ List.range n := fun i hi => List.mem_range.2 (h i hi)
  have := (List.Nodup.subperm hnd hsub).length_le
  simpa using this

/-- One trial with a non-empty winner set keeps the counters split. -/
theorem recordWinners_split (n : Nat) (hn : 2 ≤ n) (counters : List Nat × List Nat)
    (ws : List Nat) (T : Nat) (hnd : ws.Nodup) (hlt : ∀ i ∈ ws, i < n) (hne : ws ≠ [])
    (h : CountersSplit n counters T) : CountersSplit n (recordWinners counters ws) (T + 1) := by
  obtain ⟨l1, l2, hu, hl⟩ := h
  have hk := nodup_lt_length_le ws n hnd hlt
  have hpos : 0 < ws.length := List.length_pos.2 hne
  unfold recordWinners
  split_ifs with h1
  · have hmem : ws.getD 0 0 ∈ ws := by
      cases ws with
      | nil => exact absurd rfl hne
      | cons w rest => simp
    obtain ⟨e1, e2⟩ := incrAt_sum counters.1 (ws.getD 0 0) (by rw [l1]; exact hlt _ hmem)
    have e3 : n * (counters.1.sum + 1) = n * counters.1.sum + n := by ring
    have e4 : n * (T + 1) = n * T + n := by ring
    refine ⟨by rw [e1]; exact l1, l2, ?_, ?_⟩
    · simp only [e2]
      rw [e3, e4]
      omega
    · simp only [e2]
      rw [e3]
      omega
  · obtain ⟨e1, e2⟩ := foldl_incrAt_sum ws counters.2 (fun i hi => by rw [l2]; exact hlt i hi)
    have e4 : n * (T + 1) = n * T + n := by ring
    refine ⟨l1, by rw [e1]; exact l2, ?_, ?_⟩
    · simp only [e2]
      rw [e4]
      omega
    · simp only [e2]
      omega

theorem CountersSplit_zero (n : Nat) :
    CountersSplit n (List.replicate n 0, List.replicate n 0) 0 := by
  unfold CountersSplit
  simp

theorem map_getD_range_eq {β : Type} (f : Nat → Nat → β) (l1 l2 : List Nat) (n : Nat)
    (h1 : l1.length = n) (h2 : l2.length = n) :
    (List.range n).map (fun i => f (l1.getD i 0) (l2.getD i 0)) = List.zipWith f l1 l2 := by
  apply List.ext_getElem
  · simp [h1, h2]
  · intro i hi1 hi2
    have hi : i < n := by simpa using hi1
    simp [List.getD_eq_getElem?_getD, List.getElem?_eq_getElem (h1 ▸ hi),
      List.getElem?_eq_getElem (h2 ▸ hi)]

theorem equitySum_zipWith (n total : Nat) (l1 l2 : List Nat) (h : l1.length = l2.length) :
    equitySum n (List.zipWith (fun w t => mkEquityResult w t total n) l1 l2) =
      ((l1.sum : Rat) + (l2.sum : Rat) / (n : Rat)) / (total : Rat) := by
  unfold equitySum
  induction l1 generalizing l2 with
  | nil =>
    cases l2 with
    | nil => simp
    | cons b bs => simp at h
  | cons a as ih =>
    cases l2 with
    | nil => simp at h
    | cons b bs =>
      have := ih bs (by simpa using h)
      simp only [List.zipWith_cons_cons, List.map_cons, List.sum_cons, this]
      simp only [mkEquityResult, Int.cast_natCast, Nat.cast_add]
      ring

/-- The sum of the equities built from split counters lies between
2/numPlayers and 1. -/
theorem equitySum_bounds (n total : Nat) (hn : 2 ≤ n) (htotal : 0 < total)
    (st : List Nat × List Nat) (h : CountersSplit n st total) :
    equitySum n ((List.range n).map
        (fun i => mkEquityResult (st.1.getD i 0) (st.2.getD i 0) total n)) ≤ 1 ∧
    (2 : Rat) / (n : Rat) ≤ equitySum n ((List.range n).map
        (fun i => mkEquityResult (st.1.getD i 0) (st.2.getD i 0) total n)) := by
  obtain ⟨l1, l2, hu, hl⟩ := h
  rw [map_getD_range_eq (fun w t => mkEquityResult w t total n) st.1 st.2 n l1 l2,
    equitySum_zipWith n total st.1 st.2 (l1.trans l2.symm)]
  generalize st.1.sum = A at hu hl ⊢
  generalize st.2.sum = B at hu hl ⊢
  have hnq : (0 : Rat) < (n : Rat) := by exact_mod_cast (by omega : 0 < n)
  have htq : (0 : Rat) < (total : Rat) := by exact_mod_cast htotal
  have huq : (n : Rat) * (A : Rat) + (B : Rat) ≤ (n : Rat) * (total : Rat) := by
    exact_mod_cast hu
  have hlq : (2 : Rat) * (total : Rat) ≤ (n : Rat) * (A : Rat) + (B : Rat) := by
    exact_mod_cast hl
  have heq : ((A : Rat) + (B : Rat) / (n : Rat)) / (total : Rat) =
      ((n : Rat) * (A : Rat) + (B : Rat)) / ((n : Rat) * (total : Rat)) := by
    field_simp
    ring
  rw [heq]
  constructor
  · rw [div_le_one (by positivity)]
    exact huq
  · rw [div_le_div_iff₀ hnq (by positivity)]
    nlinarith

/-! ## Every trial has a winner -/

theorem findBestHand_isSome (cards c : List Card) (hc : c.Sublist cards) (hl : c.length = 5)
    (hnd : c.Nodup) : ∃ h, findBestHand cards = some h := by
  have hlen : 5 ≤ cards.length := by
    rw [← hl]
    exact hc.length_le
  obtain ⟨h0, hok, -⟩ := NewHand_Built c hl hnd
  have hmem : h0 ∈ (CardCombinations cards 5).filterMap (fun c => (NewHand c).toOption) := by
    rw [List.mem_filterMap]
    refine ⟨c, ?_, by rw [hok]; rfl⟩
    rw [CardCombinations_five cards hlen, mem_combosRef]
    exact ⟨hc, hl⟩
  rw [findBestHand_eq]
  cases hf : (CardCombinations cards 5).filterMap (fun c => (NewHand c).toOption) with
  | nil =>
    rw [hf] at hmem
    cases hmem
  | cons first rest => exact ⟨_, rfl⟩

/-- With a complete board of 5 distinct cards every player has a hand, so the
winner set of the trial is not empty; it lists each player at most once. -/
theorem trialWinners_good (holeCards : List (List Card)) (board boardCards : List Card)
    (hne : holeCards ≠ []) (hlen : (board ++ boardCards).length = 5)
    (hnd : (board ++ boardCards).Nodup) :
    (trialWinners holeCards board boardCards).Nodup ∧
    (∀ i ∈ trialWinners holeCards board boardCards, i < holeCards.length) ∧
    trialWinners holeCards board boardCards ≠ [] := by
  unfold trialWinners
  simp only
  refine ⟨findWinnerIndices_nodup _, ?_, ?_⟩
  · intro i hi
    have := (findWinnerIndices_sorted _).2 i hi
    simpa using this
  · cases holeCards with
    | nil => exact absurd rfl hne
    | cons hole rest =>
      obtain ⟨h, hh⟩ := findBestHand_isSome (hole ++ (board ++ boardCards)) (board ++ boardCards)
        (List.sublist_append_right _ _) hlen hnd
      apply findWinnerIndices_ne_nil _ 0 h
      simp [hh]

/-! ## The remaining deck -/

theorem foldl_setUsed_mem (l : List Card) (acc : List (Nat × CardSuit)) (key : Nat × CardSuit) :
    key ∈ l.foldl (fun used c => setUsed used (cardKey c)) acc ↔
      key ∈ acc ∨ ∃ c ∈ l, cardKey c = key := by
  induction l generalizing acc with
  | nil => simp
  | cons c cs ih =>
    rw [List.foldl_cons, ih]
    unfold setUsed
    split_ifs with h
    · constructor
      · rintro (h1 | ⟨d, hd, hk⟩)
        · exact Or.inl h1
        · exact Or.inr ⟨d, List.mem_cons_of_mem _ hd, hk⟩
      · rintro (h1 | ⟨d, hd, hk⟩)
        · exact Or.inl h1
        · rcases List.mem_cons.1 hd with rfl | hd
          · rw [← hk]
            exact Or.inl h
          · exact Or.inr ⟨d, hd, hk⟩
    · constructor
      · rintro (h1 | ⟨d, hd, hk⟩)
        · rcases List.mem_append.1 h1 with h1 | h1
          · exact Or.inl h1
          · rw [List.mem_singleton] at h1
            exact Or.inr ⟨c, List.mem_cons_self _ _, h1.symm⟩
        · exact Or.inr ⟨d, List.mem_cons_of_mem _ hd, hk⟩
      · rintro (h1 | ⟨d, hd, hk⟩)
        · exact Or.inl (List.mem_append_left _ h1)
        · rcases List.mem_cons.1 hd with rfl | hd
          · rw [← hk]
            exact Or.inl (List.mem_append_right _ (List.mem_singleton_self _))
          · exact Or.inr ⟨d, hd, hk⟩

theorem mem_buildUsedCards_board (holeCards : List (List Card)) (board : List Card) (c : Card)
    (hc : c ∈ board) : cardKey c ∈ buildUsedCards holeCards board := by
  unfold buildUsedCards
  simp only
  rw [foldl_setUsed_mem]
  exact Or.inr ⟨c, hc, rfl⟩

/-- The remaining deck has no repeated card and no card of the board. -/
theorem remainingDeck_fresh (holeCards : List (List Card)) (board deck : List Card)
    (h : buildRemainingDeck (buildUsedCards holeCards board) = some deck) :
    deck.Nodup ∧ ∀ c ∈ deck, c ∉ board := by
  have hlen : (buildUsedCards holeCards board).length ≤ 52 := by
    by_contra hgt
    unfold buildRemainingDeck at h
    rw [if_pos (by omega)] at h
    cases h
  rw [buildRemainingDeck_eq _ hlen] at h
  cases h
  refine ⟨fullDeck_nodup.filter _, ?_⟩
  intro c hc hb
  rw [List.mem_filter, decide_eq_true_iff] at hc
  exact hc.2 (mem_buildUsedCards_board holeCards board c hb)

theorem complete_board_nodup (board deck cs : List Card) (hb : board.Nodup) (hd : deck.Nodup)
    (hfresh : ∀ c ∈ deck, c ∉ board) (hs : cs.Sublist deck) : (board ++ cs).Nodup := by
  rw [List.nodup_append]
  refine ⟨hb, hd.sublist hs, ?_⟩
  intro a ha hc
  exact hfresh a (hs.subset hc) ha

/-! ## The counters stay split -/

theorem runSimulations_split (shuffle : Nat → List Card → List Card)
    (hperm : ∀ sim d, (shuffle sim d).Perm d)
    (holeCards : List (List Card)) (board deck : List Card) (numSims : Nat)
    (st st2 : List Nat × List Nat) (T : Nat) (hn : 2 ≤ holeCards.length) (hb : board.Nodup)
    (hd : deck.Nodup) (hfresh : ∀ c ∈ deck, c ∉ board)
    (h : CountersSplit holeCards.length st T)
    (hrun : runSimulations shuffle holeCards board deck (5 - (board.length : Int)) numSims st =
      some st2) :
    CountersSplit holeCards.length st2 (T + numSims) := by
  have := foldl_option_within
    (fun (s : List Nat × List Nat) (sim : Nat) =>
      if board.length > 5 then none
      else if (5 - (board.length : Int)) < 0 ∨
          (5 - (board.length : Int)) > ((shuffle sim deck).length : Int) then none
      else some (recordWinners s
        (trialWinners holeCards board
          ((shuffle sim deck).take (5 - (board.length : Int)).toNat))))
    (CountersSplit holeCards.length) (fun _ => 1)
    (by
      intro s i s2 T hinv hs
      simp only at hs
      split_ifs at hs with h1 h2
      simp only [Option.some.injEq] at hs
      subst hs
      have hne : holeCards ≠ [] := by
        intro h0
        rw [h0] at hn
        simp at hn
      have hlen : (board ++ (shuffle i deck).take (5 - (board.length : Int)).toNat).length = 5 := by
        rw [List.length_append, List.length_take]
        omega
      have hnd : (board ++ (shuffle i deck).take (5 - (board.length : Int)).toNat).Nodup := by
        rw [List.nodup_append]
        refine ⟨hb, ((hperm i deck).nodup_iff.2 hd).sublist (List.take_sublist _ _), ?_⟩
        intro a ha hc
        exact hfresh a ((hperm i deck).mem_iff.1 ((List.take_sublist _ _).subset hc)) ha
      obtain ⟨w1, w2, w3⟩ := trialWinners_good holeCards board _ hne hlen hnd
      exact recordWinners_split holeCards.length hn s _ T w1 w2 w3 hinv)
    (List.range numSims) st T st2 h hrun
  simpa using this

/-- The results of Calculate come from split counters when the board has no
repeated card, there are at least two players, and every shuffle permutes
the deck. -/
theorem Calculate_split (ec : EquityCalculator)
    (shuffle : Nat → Nat → List Card → List Card)
    (hperm : ∀ w sim d, (shuffle w sim d).Perm d) (holeCards : List (List Card))
    (board : List Card) (simulations : Nat) (rs : List EquityResult)
    (hn : 2 ≤ holeCards.length) (hb : board.Nodup)
    (h : ec.Calculate shuffle holeCards board simulations = some rs) :
    ∃ st : List Nat × List Nat, CountersSplit holeCards.length st simulations ∧
      rs = (List.range holeCards.length).map
        (fun i => mkEquityResult (st.1.getD i 0) (st.2.getD i 0) simulations
          holeCards.length) := by
  unfold EquityCalculator.Calculate at h
  simp only at h
  split at h
  · cases h
  · rename_i remainingDeck hdeck
    obtain ⟨hd, hfresh⟩ := remainingDeck_fresh holeCards board remainingDeck hdeck
    split_ifs at h with hw
    split at h
    · cases h
    · rename_i st hfinal
      simp only [Option.some.injEq] at h
      refine ⟨st, ?_, h.symm⟩
      have := foldl_option_within
        (fun (s : List Nat × List Nat) (w : Nat) =>
          runSimulations (shuffle w) holeCards board remainingDeck
            (5 - (board.length : Int))
            (if w < simulations % ec.workers then simulations / ec.workers + 1
              else simulations / ec.workers) s)
        (CountersSplit holeCards.length)
        (fun w => if w < simulations % ec.workers then simulations / ec.workers + 1
          else simulations / ec.workers)
        (by
          intro s i s2 T hinv hs
          exact runSimulations_split _ (hperm i) _ _ _ _ s s2 T hn hb hd hfresh hinv hs)
        (List.range ec.workers) _ 0 st (CountersSplit_zero holeCards.length) hfinal
      rw [sum_worker_sims_eq simulations ec.workers (Nat.pos_of_ne_zero hw)] at this
      simpa using this

theorem foldl_recordWinners_split (holeCards : List (List Card)) (board deck : List Card)
    (combos : List (List Card)) (st : List Nat × List Nat) (T : Nat)
    (hn : 2 ≤ holeCards.length) (hb : board.Nodup) (hd : deck.Nodup)
    (hfresh : ∀ c ∈ deck, c ∉ board)
    (hcombos : ∀ c ∈ combos, c.Sublist deck ∧ (board ++ c).length = 5)
    (h : CountersSplit holeCards.length st T) :
    CountersSplit holeCards.length
      (combos.foldl (fun st combo => recordWinners st (trialWinners holeCards board combo)) st)
      (T + combos.length) := by
  induction combos generalizing st T with
  | nil => simpa using h
  | cons c rest ih =>
    simp only [List.foldl_cons, List.length_cons]
    have hne : holeCards ≠ [] := by
      intro h0
      rw [h0] at hn
      simp at hn
    obtain ⟨hs, hl⟩ := hcombos c (List.mem_cons_self _ _)
    obtain ⟨w1, w2, w3⟩ := trialWinners_good holeCards board c hne hl
      (complete_board_nodup board deck c hb hd hfresh hs)
    have := ih (recordWinners st (trialWinners holeCards board c)) (T + 1)
      (fun c2 hc2 => hcombos c2 (List.mem_cons_of_mem _ hc2))
      (recordWinners_split holeCards.length hn st _ T w1 w2 w3 h)
    rw [Nat.add_assoc, Nat.add_comm 1] at this
    exact this

theorem Combinations_mem {α : Type} [Inhabited α] (items c : List α) (n : Int)
    (hc : c ∈ Combinations items n) : c.Sublist items ∧ (c.length : Int) = n := by
  by_cases hn : n ≤ 0 ∨ n > (items.length : Int)
  · unfold Combinations at hc
    rw [if_pos hn] at hc
    cases hc
  · obtain ⟨m, hm, rfl⟩ := int_eq_natCast n (by omega)
    rw [Combinations_eq_combosRef items m hm (by omega), mem_combosRef] at hc
    exact ⟨hc.1, by rw [hc.2]⟩

/-- The results of CalculateExact come from split counters when the board has
no repeated card and there are at least two players. -/
theorem CalculateExact_split (ec : EquityCalculator) (holeCards : List (List Card))
    (board : List Card) (maxCombinations : Int) (rs : List EquityResult)
    (hn : 2 ≤ holeCards.length) (hb : board.Nodup)
    (h : ec.CalculateExact holeCards board maxCombinations = ExactOutcome.results rs) :
    ∃ (total : Nat) (st : List Nat × List Nat),
      CountersSplit holeCards.length st total ∧
      rs = (List.range holeCards.length).map
        (fun i => mkEquityResult (st.1.getD i 0) (st.2.getD i 0) total holeCards.length) := by
  unfold EquityCalculator.CalculateExact at h
  simp only at h
  split at h
  · cases h
  · rename_i remainingDeck hdeck
    obtain ⟨hd, hfresh⟩ := remainingDeck_fresh holeCards board remainingDeck hdeck
    split_ifs at h
    simp only [ExactOutcome.results.injEq] at h
    refine ⟨_, _, ?_, h.symm⟩
    have := foldl_recordWinners_split holeCards board remainingDeck
      (Combinations remainingDeck (5 - (board.length : Int))) _ 0 hn hb hd hfresh
      (by
        intro c hc
        obtain ⟨hs, hl⟩ := Combinations_mem remainingDeck c _ hc
        refine ⟨hs, ?_⟩
        rw [List.length_append]
        omega)
      (CountersSplit_zero holeCards.length)
    simpa using this

/-- C28 as stated fails for three players when two of them split the pot:
2-3 of spades, 2-3 of hearts and Ad Jd on the complete board 4d 5c 6d Kc Qc,
one trial. The two straights tie and get 1/3 each, the third player gets 0:
the sum is 2/3, further from 1 than 0.1. -/
theorem C28_counterexample :
    2 ≤ splitOfThree.length ∧ (splitOfThree.flatten ++ splitBoard).Nodup ∧
    ∃ rs, (EquityCalculator.mk 2).Calculate (fun _ _ d => d) splitOfThree splitBoard 1 =
        some rs ∧
      (∀ r ∈ rs, 0 < r.Total) ∧ equitySum 3 rs = 2 / 3 ∧
      ¬ (|equitySum 3 rs - 1| ≤ 1 / 10) := by
  refine ⟨by decide, by decide,
    [mkEquityResult 0 1 1 3, mkEquityResult 0 1 1 3, mkEquityResult 0 0 1 3], rfl, by decide,
    ?_, ?_⟩
  · norm_num [equitySum, mkEquityResult]
  · have h : equitySum 3 [mkEquityResult 0 1 1 3, mkEquityResult 0 1 1 3,
        mkEquityResult 0 0 1 3] = 2 / 3 := by
      norm_num [equitySum, mkEquityResult]
    rw [h]
    norm_num [abs_le]

/-- C28 (amended): for two or more players, all hole and board cards pairwise
distinct, the sum over the players of the exact rational equity
(Wins + Ties/numPlayers) / Total of the results of Calculate (at least one
trial, every shuffle a permutation of the deck) and of CalculateExact (when it
returns results with Total > 0) is at most 1 and at least 2/numPlayers; it is
exactly 1 for two players. -/
theorem C28_equity_sum (ec : EquityCalculator)
    (shuffle : Nat → Nat → List Card → List Card) (holeCards : List (List Card))
    (board : List Card) (simulations : Nat) (maxCombinations : Int)
    (hperm : ∀ w sim d, (shuffle w sim d).Perm d) (hplayers : 2 ≤ holeCards.length)
    (hnd : (holeCards.flatten ++ board).Nodup) (hsims : 0 < simulations) :
    (∀ rs, ec.Calculate shuffle holeCards board simulations = some rs →
      (2 : Rat) / (holeCards.length : Rat) ≤ equitySum holeCards.length rs ∧
      equitySum holeCards.length rs ≤ 1 ∧
      (holeCards.length = 2 → equitySum holeCards.length rs = 1)) ∧
    (∀ rs, ec.CalculateExact holeCards board maxCombinations = ExactOutcome.results rs →
      (∀ r ∈ rs, 0 < r.Total) →
      (2 : Rat) / (holeCards.length : Rat) ≤ equitySum holeCards.length rs ∧
      equitySum holeCards.length rs ≤ 1 ∧
      (holeCards.length = 2 → equitySum holeCards.length rs = 1)) := by
  have hb : board.Nodup := (List.nodup_append.1 hnd).2.1
  have hfinal : ∀ (total : Nat) (st : List Nat × List Nat), 0 < total →
      CountersSplit holeCards.length st total →
      (2 : Rat) / (holeCards.length : Rat) ≤ equitySum holeCards.length
        ((List.range holeCards.length).map
          (fun i => mkEquityResult (st.1.getD i 0) (st.2.getD i 0) total holeCards.length)) ∧
      equitySum holeCards.length
        ((List.range holeCards.length).map
          (fun i => mkEquityResult (st.1.getD i 0) (st.2.getD i 0) total holeCards.length)) ≤ 1 ∧
      (holeCards.length = 2 → equitySum holeCards.length
        ((List.range holeCards.length).map
          (fun i => mkEquityResult (st.1.getD i 0) (st.2.getD i 0) total holeCards.length)) =
            1) := by
    intro total st htotal hst
    obtain ⟨h1, h2⟩ := equitySum_bounds holeCards.length total hplayers htotal st hst
    refine ⟨h2, h1, ?_⟩
    intro h2p
    apply le_antisymm h1
    have h3 : (2 : Rat) / (holeCards.length : Rat) = 1 := by
      rw [h2p]
      norm_num
    rw [← h3]
    exact h2
  constructor
  · intro rs hrs
    obtain ⟨st, hst, rfl⟩ := Calculate_split ec shuffle hperm holeCards board simulations rs
      hplayers hb hrs
    exact hfinal simulations st hsims hst
  · intro rs hrs hpos
    obtain ⟨total, st, hst, rfl⟩ := CalculateExact_split ec holeCards board maxCombinations rs
      hplayers hb hrs
    have htotal : 0 < total := by
      have h0 := hpos (mkEquityResult (st.1.getD 0 0) (st.2.getD 0 0) total holeCards.length)
        (by
          rw [List.mem_map]
          exact ⟨0, List.mem_range.2 (by omega), rfl⟩)
      simpa [mkEquityResult] using h0
    exact hfinal total st htotal hst

/-- C28 (amended) at the three players 2-3 of spades, 2-3 of hearts and Ad Jd
on the complete board 4d 5c 6d Kc Qc, one trial: the sum is 2/3. -/
theorem C28_equity_sum_witness :
    (∀ (w sim : Nat) (d : List Card), ((fun _ _ d => d) w sim d : List Card).Perm d) ∧
    2 ≤ splitOfThree.length ∧ (splitOfThree.flatten ++ splitBoard).Nodup ∧ 0 < 1 ∧
    (EquityCalculator.mk 2).Calculate (fun _ _ d => d) splitOfThree splitBoard 1 =
      some [mkEquityResult 0 1 1 3, mkEquityResult 0 1 1 3, mkEquityResult 0 0 1 3] ∧
    (2 : Rat) / (splitOfThree.length : Rat) ≤ equitySum splitOfThree.length
      [mkEquityResult 0 1 1 3, mkEquityResult 0 1 1 3, mkEquityResult 0 0 1 3] ∧
    equitySum splitOfThree.length
      [mkEquityResult 0 1 1 3, mkEquityResult 0 1 1 3, mkEquityResult 0 0 1 3] ≤ 1 :=
  ⟨fun _ _ d => List.Perm.refl d, by decide, by decide, by decide, rfl,
    ((C28_equity_sum (EquityCalculator.mk 2) (fun _ _ d => d) splitOfThree splitBoard 1 0
      (fun _ _ d => List.Perm.refl d) (by decide) (by decide) (by decide)).1 _ rfl).1,
    ((C28_equity_sum (EquityCalculator.mk 2) (fun _ _ d => d) splitOfThree splitBoard 1 0
      (fun _ _ d => List.Perm.refl d) (by decide) (by decide) (by decide)).1 _ rfl).2.1⟩

/-! ## Drawing from the deck -/

theorem Deck.Draw_last (d : Deck) (rest : List Card) (card : Card)
    (h : d.cards = rest ++ [card]) : d.Draw = ({ cards := rest }, Except.ok card) := by
  unfold Deck.Draw
  rw [if_neg (by rw [h]; simp)]
  simp [h, List.getD_eq_getElem?_getD]

theorem Deck.drawLoop_eq (k : Nat) (d : Deck) (drawn : List Card) :
    Deck.drawLoop k d drawn =
      if k ≤ d.cards.length then
        ({ cards := d.cards.take (d.cards.length - k) },
          Except.ok (drawn ++ (d.cards.drop (d.cards.length - k)).reverse))
      else ({ cards := [] }, Except.error GoError.ErrEmptyDeck) := by
  induction k generalizing d drawn with
  | zero =>
    simp [Deck.drawLoop]
  | succ k ih =>
    rcases List.eq_nil_or_concat d.cards with hnil | ⟨rest, card, hc⟩
    · have hd : d.Draw = (d, Except.error GoError.ErrEmptyDeck) :=
        Deck.Draw_empty d (by rw [hnil]; rfl)
      have hd2 : d = { cards := [] } := by
        cases d
        simp only at hnil
        rw [hnil]
      simp only [Deck.drawLoop, hd, hnil, List.length_nil]
      rw [if_neg (by omega), hd2]
    · rw [List.concat_eq_append] at hc
      simp only [Deck.drawLoop, Deck.Draw_last d rest card hc, ih]
      simp only [hc, List.length_append, List.length_singleton]
      by_cases hk : k ≤ rest.length
      · rw [if_pos hk, if_pos (by omega)]
        have e1 : rest.length + 1 - (k + 1) = rest.length - k := by omega
        rw [e1, List.take_append_of_le_length (by omega),
          List.drop_append_of_le_length (by omega)]
        simp
      · rw [if_neg hk, if_neg (by omega)]

/-- C31: Draw on a deck of m > 0 cards returns its last card and leaves the
other m-1 cards in their order; on an empty deck it returns ErrEmptyDeck (and
leaves the deck empty). DrawMany(n) succeeds iff n <= m; it then returns the
last n cards of the deck from the top down, which is the card of a Draw
followed by the cards of DrawMany(n-1) on the deck that Draw leaves, and it
leaves the first m - n cards; when n > m it returns ErrEmptyDeck and no
cards. -/
theorem C31_deck_drawing (d : Deck) (n : Nat) :
    (∀ rest card, d.cards = rest ++ [card] →
      d.Draw = ({ cards := rest }, Except.ok card)) ∧
    (d.cards = [] → d.Draw = (d, Except.error GoError.ErrEmptyDeck)) ∧
    ((∃ cs, (d.DrawMany n).2 = Except.ok cs) ↔ n ≤ d.cards.length) ∧
    (n ≤ d.cards.length →
      d.DrawMany n = ({ cards := d.cards.take (d.cards.length - n) },
        Except.ok (d.cards.drop (d.cards.length - n)).reverse) ∧
      ((d.cards.drop (d.cards.length - n)).reverse).length = n ∧
      (d.DrawMany n).1.cards.length = d.cards.length - n) ∧
    (∀ d2 d3 card cs, d.Draw = (d2, Except.ok card) → d2.DrawMany n = (d3, Except.ok cs) →
      d.DrawMany (n + 1) = (d3, Except.ok (card :: cs))) ∧
    (d.cards.length < n → (d.DrawMany n).2 = Except.error GoError.ErrEmptyDeck) := by
  have hdm : d.DrawMany n =
      if n ≤ d.cards.length then
        ({ cards := d.cards.take (d.cards.length - n) },
          Except.ok (d.cards.drop (d.cards.length - n)).reverse)
      else ({ cards := [] }, Except.error GoError.ErrEmptyDeck) := by
    unfold Deck.DrawMany
    rw [Deck.drawLoop_eq]
    simp
  refine ⟨fun rest card h => Deck.Draw_last d rest card h, ?_, ?_, ?_, ?_, ?_⟩
  · intro h
    exact Deck.Draw_empty d (by rw [h]; rfl)
  · rw [hdm]
    split_ifs with h
    · exact ⟨fun _ => h, fun _ => ⟨_, rfl⟩⟩
    · exact ⟨fun ⟨cs, hcs⟩ => (by cases hcs), fun h2 => absurd h2 h⟩
  · intro h
    rw [hdm, if_pos h]
    refine ⟨rfl, ?_, ?_⟩
    · rw [List.length_reverse, List.length_drop]
      omega
    · simp only [List.length_take]
      omega
  · intro d2 d3 card cs h1 h2
    unfold Deck.DrawMany at h2 ⊢
    simp only [Deck.drawLoop, h1]
    rw [Deck.drawLoop_eq] at h2 ⊢
    split_ifs at h2 with hk
    · rw [if_pos hk]
      simp only [Prod.mk.injEq, Except.ok.injEq, List.nil_append] at h2
      obtain ⟨e1, e2⟩ := h2
      rw [e1, e2]
      rfl
    · simp at h2
  · intro h
    rw [hdm, if_neg (by omega)]

/-- C31 on small decks: Draw gives the last card; DrawMany(2) gives
the last two cards from the top down; DrawMany(4) fails. -/
theorem C31_deck_drawing_witness :
    (Deck.mk royalSpades).Draw =
      ({ cards := royalSpades.take 4 }, Except.ok (NewCard Ten CardSuit.Spades)) ∧
    (Deck.mk (royalSpades.take 3)).DrawMany 2 =
      ({ cards := [NewCard Ace CardSuit.Spades] },
        Except.ok [NewCard Queen CardSuit.Spades, NewCard King CardSuit.Spades]) ∧
    ((Deck.mk (royalSpades.take 3)).DrawMany 4).2 = Except.error GoError.ErrEmptyDeck :=
  ⟨(C31_deck_drawing (Deck.mk royalSpades) 0).1 (royalSpades.take 4)
      (NewCard Ten CardSuit.Spades) rfl,
    ((C31_deck_drawing (Deck.mk (royalSpades.take 3)) 2).2.2.2.1 (by decide)).1,
    (C31_deck_drawing (Deck.mk (royalSpades.take 3)) 4).2.2.2.2.2 (by decide)⟩

/-! ## The split of the trials over the workers -/

/-- Calculate runs worker `w` for `workerSims simulations ec.workers w`
trials. -/
theorem Calculate_workerSims (ec : EquityCalculator)
    (shuffle : Nat → Nat → List Card → List Card) (holeCards : List (List Card))
    (board : List Card) (simulations : Nat) :
    ec.Calculate shuffle holeCards board simulations =
      match buildRemainingDeck (buildUsedCards holeCards board) with
      | none => none
      | some remainingDeck =>
        if ec.workers = 0 then none
        else
          match (List.range ec.workers).foldl
            (fun acc w =>
              acc.bind (fun st =>
                runSimulations (shuffle w) holeCards board remainingDeck
                  (5 - (board.length : Int)) (workerSims simulations ec.workers w) st))
            (some (List.replicate holeCards.length 0, List.replicate holeCards.length 0)) with
          | none => none
          | some st =>
            some ((List.range holeCards.length).map
              (fun i => mkEquityResult (st.1.getD i 0) (st.2.getD i 0) simulations
                holeCards.length)) := by
  unfold EquityCalculator.Calculate workerSims
  rfl

/-- C33: with W >= 1 workers, Calculate runs worker w (0 <= w < W) for
floor(simulations / W) trials plus one more iff w < simulations mod W, which is
the count workerSims of the source; the assigned counts sum to simulations,
two workers' counts differ by at most 1, and every returned result has
Total = simulations. -/
theorem C33_trial_split (ec : EquityCalculator)
    (shuffle : Nat → Nat → List Card → List Card) (holeCards : List (List Card))
    (board : List Card) (simulations : Nat) (hW : 1 ≤ ec.workers) :
    (ec.Calculate shuffle holeCards board simulations =
      match buildRemainingDeck (buildUsedCards holeCards board) with
      | none => none
      | some remainingDeck =>
        match (List.range ec.workers).foldl
          (fun acc w =>
            acc.bind (fun st =>
              runSimulations (shuffle w) holeCards board remainingDeck
                (5 - (board.length : Int))
                (simulations / ec.workers + (if w < simulations % ec.workers then 1 else 0))
                st))
          (some (List.replicate holeCards.length 0, List.replicate holeCards.length 0)) with
        | none => none
        | some st =>
          some ((List.range holeCards.length).map
            (fun i => mkEquityResult (st.1.getD i 0) (st.2.getD i 0) simulations
              holeCards.length))) ∧
    (∀ w, workerSims simulations ec.workers w =
      simulations / ec.workers + (if w < simulations % ec.workers then 1 else 0)) ∧
    ((List.range ec.workers).map
      (fun w => simulations / ec.workers + (if w < simulations % ec.workers then 1 else 0))).sum =
        simulations ∧
    ((List.range ec.workers).map (workerSims simulations ec.workers)).sum = simulations ∧
    (∀ w1 w2, workerSims simulations ec.workers w1 ≤ workerSims simulations ec.workers w2 + 1) ∧
    (∀ w1 w2, w1 ≤ w2 →
      workerSims simulations ec.workers w2 ≤ workerSims simulations ec.workers w1) ∧
    (∀ rs, ec.Calculate shuffle holeCards board simulations = some rs →
      rs.length = holeCards.length ∧ ∀ r ∈ rs, r.Total = simulations) := by
  have hcount : ∀ w, workerSims simulations ec.workers w =
      simulations / ec.workers + (if w < simulations % ec.workers then 1 else 0) := by
    intro w
    unfold workerSims
    split_ifs <;> rfl
  refine ⟨?_, hcount, ?_, ?_, ?_, ?_, ?_⟩
  · rw [Calculate_workerSims]
    cases buildRemainingDeck (buildUsedCards holeCards board) with
    | none => rfl
    | some remainingDeck =>
      simp only
      rw [if_neg (by omega)]
      simp only [hcount]
  · have := sum_worker_sims_eq simulations ec.workers hW
    have e : (fun w => simulations / ec.workers +
        (if w < simulations % ec.workers then 1 else 0)) =
        workerSims simulations ec.workers := funext (fun w => (hcount w).symm)
    rw [e]
    exact this
  · exact sum_worker_sims_eq simulations ec.workers hW
  · intro w1 w2
    unfold workerSims
    split_ifs <;> omega
  · intro w1 w2 h
    unfold workerSims
    split_ifs <;> omega
  · intro rs hrs
    obtain ⟨st, -, rfl⟩ := Calculate_results ec shuffle holeCards board simulations rs hrs
    refine ⟨by simp, ?_⟩
    intro r hr
    rw [List.mem_map] at hr
    obtain ⟨i, -, rfl⟩ := hr
    rfl

/-- C33 for 1000 trials on 4 workers (250 each) and 10 trials on 4 workers
(3, 3, 2, 2); three trials on two workers give Total = 3. -/
theorem C33_trial_split_witness :
    1 ≤ (EquityCalculator.mk 4).workers ∧
    (List.range 4).map (workerSims 1000 4) = [250, 250, 250, 250] ∧
    ((List.range 4).map (workerSims 1000 4)).sum = 1000 ∧
    (List.range 4).map (workerSims 10 4) = [3, 3, 2, 2] ∧
    (EquityCalculator.mk 2).Calculate (fun _ _ d => d) acesVsKings riverBoard 3 =
      some [mkEquityResult 3 0 3 2, mkEquityResult 0 0 3 2] ∧
    (mkEquityResult 3 0 3 2).Total = 3 :=
  ⟨by decide, by decide,
    (C33_trial_split (EquityCalculator.mk 4) (fun _ _ d => d) acesVsKings riverBoard 1000
      (by decide)).2.2.2.1,
    by decide, rfl,
    ((C33_trial_split (EquityCalculator.mk 2) (fun _ _ d => d) acesVsKings riverBoard 3
      (by decide)).2.2.2.2.2.2 _ rfl).2 _ (List.Mem.head _)⟩

/-! ## The winner set of one trial -/

theorem not_beats_iff_key {a b : Hand} (ha : GoodHand a) (hb : GoodHand b) :
    a.Beats b = false ↔ compareKey a ≤ compareKey b := by
  constructor
  · intro h
    exact not_lt.1 (fun hlt => by
      rw [(Beats_iff_key ha hb).2 hlt] at h
      cases h)
  · intro h
    cases hbe : a.Beats b with
    | false => rfl
    | true => exact absurd ((Beats_iff_key ha hb).1 hbe) (not_lt.2 h)

theorem good_of_card_sets (cardSets : List (List Card))
    (hv : ∀ cs ∈ cardSets, ∀ x ∈ cs, 2 ≤ x.Rank ∧ x.Rank ≤ 14) :
    ∀ i h, (cardSets.map (fun c => (NewHand c).toOption)).get? i = some (some h) →
      GoodHand h := by
  intro i h hi
  obtain ⟨c, hc, hok⟩ := (get?_map_toOption cardSets i h).1 hi
  exact (NewHand_ok_good c h hok (hv c (List.get?_mem hc))).2.2

theorem sorted_eq_singleton (ws : List Nat) (i : Nat) (hs : ws.Pairwise (fun a b => a < b))
    (hmem : ∀ k, k ∈ ws ↔ k = i) : ws = [i] := by
  cases ws with
  | nil => exact absurd ((hmem i).2 rfl) (List.not_mem_nil i)
  | cons a rest =>
    have ha : a = i := (hmem a).1 (List.mem_cons_self _ _)
    subst ha
    cases rest with
    | nil => rfl
    | cons b rest2 =>
      have hb : b = a := (hmem b).1 (List.mem_cons_of_mem _ (List.mem_cons_self _ _))
      have hlt : a < b := (List.pairwise_cons.1 hs).1 b (List.mem_cons_self _ _)
      omega

/-- The winner set in terms of Beats, for valid hands. -/
theorem findWinnerIndices_spec (hands : List (Option Hand))
    (hg : ∀ i h, hands.get? i = some (some h) → GoodHand h) :
    (∀ i, i ∈ findWinnerIndices hands ↔
      ∃ h, hands.get? i = some (some h) ∧
        ∀ j h2, hands.get? j = some (some h2) → h2.Beats h = false) ∧
    (∀ i h, hands.get? i = some (some h) →
      (∀ j h2, j ≠ i → hands.get? j = some (some h2) → h.Beats h2 = true) →
      findWinnerIndices hands = [i]) ∧
    (∀ i, findWinnerIndices hands = [i] →
      ∃ h, hands.get? i = some (some h) ∧
        ∀ j h2, j ≠ i → hands.get? j = some (some h2) → h.Beats h2 = true) := by
  obtain ⟨w1, w2, -, -⟩ := winners_of_hands hands hg
  have hmem : ∀ i, i ∈ findWinnerIndices hands ↔
      ∃ h, hands.get? i = some (some h) ∧
        ∀ j h2, hands.get? j = some (some h2) → h2.Beats h = false := by
    intro i
    rw [w2 i]
    constructor
    · rintro ⟨h, hget, hmax⟩
      exact ⟨h, hget, fun j h2 hj =>
        (not_beats_iff_key (hg j h2 hj) (hg i h hget)).2 (hmax j h2 hj)⟩
    · rintro ⟨h, hget, hmax⟩
      exact ⟨h, hget, fun j h2 hj =>
        (not_beats_iff_key (hg j h2 hj) (hg i h hget)).1 (hmax j h2 hj)⟩
  refine ⟨hmem, ?_, ?_⟩
  · intro i h hget hbeats
    apply sorted_eq_singleton _ i w1
    intro k
    rw [w2 k]
    constructor
    · rintro ⟨hk, hkget, hkmax⟩
      by_contra hne
      have h1 := (Beats_iff_key (hg i h hget) (hg k hk hkget)).1 (hbeats k hk hne hkget)
      exact absurd (hkmax i h hget) (not_le.2 h1)
    · rintro rfl
      refine ⟨h, hget, ?_⟩
      intro j h2 hj
      by_cases hji : j = k
      · subst hji
        rw [hget] at hj
        cases hj
        exact le_refl _
      · exact le_of_lt ((Beats_iff_key (hg k h hget) (hg j h2 hj)).1 (hbeats j h2 hji hj))
  · intro i hw
    have hi : i ∈ findWinnerIndices hands := by rw [hw]; exact List.mem_singleton_self i
    obtain ⟨h, hget, hmax⟩ := (w2 i).1 hi
    refine ⟨h, hget, ?_⟩
    intro j h2 hji hj
    rw [Beats_iff_key (hg i h hget) (hg j h2 hj)]
    apply lt_of_le_of_ne (hmax j h2 hj)
    intro heq
    have hj2 : j ∈ findWinnerIndices hands := by
      rw [w2 j]
      refine ⟨h2, hj, ?_⟩
      intro k h3 hk
      rw [heq]
      exact hmax k h3 hk
    rw [hw, List.mem_singleton] at hj2
    exact hji hj2

/-- C34: for every list of hands with nil entries, the hands being valid
hands, findWinnerIndices returns, in strictly increasing order and without
repetition, exactly the indices whose hand is not nil and is not beaten by a
hand of the list; it returns the single index i exactly when hand i beats
every other hand; it is not empty when some hand is not nil, and empty
exactly when every hand is nil. -/
theorem C34_find_winner_indices (hands : List (Option Hand))
    (hg : ∀ i h, hands.get? i = some (some h) → GoodHand h) :
    (findWinnerIndices hands).Pairwise (fun a b => a < b) ∧
    (findWinnerIndices hands).Nodup ∧
    (∀ i, i ∈ findWinnerIndices hands ↔
      ∃ h, hands.get? i = some (some h) ∧
        ∀ j h2, hands.get? j = some (some h2) → h2.Beats h = false) ∧
    (∀ i, findWinnerIndices hands = [i] ↔
      ∃ h, hands.get? i = some (some h) ∧
        ∀ j h2, j ≠ i → hands.get? j = some (some h2) → h.Beats h2 = true) ∧
    ((∃ i h, hands.get? i = some (some h)) → findWinnerIndices hands ≠ []) ∧
    (findWinnerIndices hands = [] ↔ ∀ i h, hands.get? i ≠ some (some h)) := by
  obtain ⟨s1, s2, s3⟩ := findWinnerIndices_spec hands hg
  refine ⟨(findWinnerIndices_sorted hands).1, findWinnerIndices_nodup hands, s1, ?_, ?_, ?_⟩
  · intro i
    exact ⟨s3 i, fun ⟨h, hget, hb⟩ => s2 i h hget hb⟩
  · rintro ⟨i, h, hget⟩
    exact findWinnerIndices_ne_nil hands i h hget
  · constructor
    · intro hnil i h hget
      exact findWinnerIndices_ne_nil hands i h hget hnil
    · intro hall
      rw [List.eq_nil_iff_forall_not_mem]
      intro i hi
      obtain ⟨h, hget, -⟩ := (s1 i).1 hi
      exact hall i h hget

/-- C34 on the hands pair of aces, royal flush, high card: the result is [1];
on a nil hand and two hands of the same ranks: the result is [1, 2]. -/
theorem C34_find_winner_indices_witness :
    (∀ i h, ([pairOfAces, royalSpades, highCardHand].map
      (fun c => (NewHand c).toOption)).get? i = some (some h) → GoodHand h) ∧
    findWinnerIndices ([pairOfAces, royalSpades, highCardHand].map
      (fun c => (NewHand c).toOption)) = [1] ∧
    (findWinnerIndices ([pairOfAces, royalSpades, highCardHand].map
      (fun c => (NewHand c).toOption))).Pairwise (fun a b => a < b) ∧
    findWinnerIndices ([fiveWithDuplicate, highCardHand, highCardHand2].map
      (fun c => (NewHand c).toOption)) = [1, 2] :=
  ⟨good_of_card_sets _ (by decide), rfl,
    (C34_find_winner_indices _ (good_of_card_sets [pairOfAces, royalSpades, highCardHand]
      (by decide))).1,
    rfl⟩

/-! ## The reduction of the trial outcomes -/

theorem incrAt_comm (xs : List Nat) (i j : Nat) :
    incrAt (incrAt xs i) j = incrAt (incrAt xs j) i := by
  induction xs generalizing i j with
  | nil => rfl
  | cons x rest ih =>
    cases i with
    | zero =>
      cases j with
      | zero => rfl
      | succ j => rfl
    | succ i =>
      cases j with
      | zero => rfl
      | succ j =>
        simp only [incrAt]
        rw [ih]

theorem foldl_incrAt_incrAt (ws : List Nat) (xs : List Nat) (i : Nat) :
    ws.foldl incrAt (incrAt xs i) = incrAt (ws.foldl incrAt xs) i := by
  induction ws generalizing xs with
  | nil => rfl
  | cons w rest ih =>
    simp only [List.foldl_cons]
    rw [incrAt_comm, ih]

theorem foldl_incrAt_comm (ws1 ws2 : List Nat) (xs : List Nat) :
    ws1.foldl incrAt (ws2.foldl incrAt xs) = ws2.foldl incrAt (ws1.foldl incrAt xs) := by
  induction ws2 generalizing xs with
  | nil => rfl
  | cons w rest ih =>
    simp only [List.foldl_cons]
    rw [ih, foldl_incrAt_incrAt]

/-- Two trial outcomes can be recorded in either order. -/
theorem recordWinners_comm (st : List Nat × List Nat) (a b : List Nat) :
    recordWinners (recordWinners st a) b = recordWinners (recordWinners st b) a := by
  unfold recordWinners
  by_cases ha : a.length = 1 <;> by_cases hb : b.length = 1
  · simp only [ha, hb, if_true]
    rw [incrAt_comm]
  · simp only [ha, hb, if_true, if_false]
  · simp only [ha, hb, if_true, if_false]
  · simp only [ha, hb, if_false]
    rw [foldl_incrAt_comm]

theorem aggregate_perm (n : Nat) (l1 l2 : List (List Nat)) (hp : l1.Perm l2) :
    aggregate n l1 = aggregate n l2 := by
  unfold aggregate
  exact List.Perm.foldl_eq' hp (fun x _ y _ z => recordWinners_comm z x y) _

/-- A loop that stops at the first failure and whose successful steps are
folds over lists of items is, when it succeeds, the fold over all items. -/
theorem foldl_option_eq {σ ι τ : Type} (step : σ → ι → Option σ) (items : ι → List τ)
    (f : σ → τ → σ)
    (hstep : ∀ s i s2, step s i = some s2 → s2 = (items i).foldl f s) :
    ∀ (l : List ι) (s s2 : σ),
      l.foldl (fun acc i => acc.bind (fun s => step s i)) (some s) = some s2 →
      s2 = (l.flatMap items).foldl f s := by
  intro l
  induction l with
  | nil =>
    intro s s2 h
    simp only [List.foldl_nil, Option.some.injEq] at h
    subst h
    rfl
  | cons x rest ih =>
    intro s s2 h
    simp only [List.foldl_cons, Option.some_bind] at h
    cases hx : step s x with
    | none =>
      rw [hx] at h
      have hnone : ∀ l : List ι,
          l.foldl (fun acc i => acc.bind (fun s => step s i)) (none : Option σ) = none := by
        intro l
        induction l with
        | nil => rfl
        | cons y ys ihy => simpa using ihy
      rw [hnone] at h
      cases h
    | some s1 =>
      rw [hx] at h
      have h1 := hstep s x s1 hx
      have h2 := ih s1 s2 h
      rw [h2, h1, List.flatMap_cons, List.foldl_append]

theorem runSimulations_eq (shuffle : Nat → List Card → List Card)
    (holeCards : List (List Card)) (board deck : List Card) (cardsNeeded : Int)
    (numSims : Nat) (st st2 : List Nat × List Nat)
    (hrun : runSimulations shuffle holeCards board deck cardsNeeded numSims st = some st2) :
    st2 = ((List.range numSims).map
      (fun sim => trialWinners holeCards board ((shuffle sim deck).take cardsNeeded.toNat))).foldl
        recordWinners st := by
  have := foldl_option_eq
    (fun (s : List Nat × List Nat) (sim : Nat) =>
      if board.length > 5 then none
      else if cardsNeeded < 0 ∨ cardsNeeded > ((shuffle sim deck).length : Int) then none
      else some (recordWinners s
        (trialWinners holeCards board ((shuffle sim deck).take cardsNeeded.toNat))))
    (fun sim => [trialWinners holeCards board ((shuffle sim deck).take cardsNeeded.toNat)])
    recordWinners
    (by
      intro s i s2 hs
      simp only at hs
      split_ifs at hs
      simp only [Option.some.injEq] at hs
      subst hs
      rfl)
    (List.range numSims) st st2 hrun
  rw [this]
  congr 1
  induction (List.range numSims) with
  | nil => rfl
  | cons x xs ih => simp [List.flatMap_cons, ih]

/-- The results of Calculate are built from the reduction of the winner sets
of its runouts. -/
theorem Calculate_aggregate (ec : EquityCalculator)
    (shuffle : Nat → Nat → List Card → List Card) (holeCards : List (List Card))
    (board : List Card) (simulations : Nat) (rs : List EquityResult)
    (h : ec.Calculate shuffle holeCards board simulations = some rs) :
    ∃ deck, buildRemainingDeck (buildUsedCards holeCards board) = some deck ∧
      rs = (List.range holeCards.length).map
        (fun i => mkEquityResult
          ((aggregate holeCards.length
            ((calculateRunouts ec shuffle board deck simulations).map
              (trialWinners holeCards board))).1.getD i 0)
          ((aggregate holeCards.length
            ((calculateRunouts ec shuffle board deck simulations).map
              (trialWinners holeCards board))).2.getD i 0)
          simulations holeCards.length) := by
  rw [Calculate_workerSims] at h
  split at h
  · cases h
  · rename_i remainingDeck hdeck
    split_ifs at h with hw
    split at h
    · cases h
    · rename_i st hfinal
      simp only [Option.some.injEq] at h
      refine ⟨remainingDeck, hdeck, ?_⟩
      have := foldl_option_eq
        (fun (s : List Nat × List Nat) (w : Nat) =>
          runSimulations (shuffle w) holeCards board remainingDeck
            (5 - (board.length : Int)) (workerSims simulations ec.workers w) s)
        (fun w => (List.range (workerSims simulations ec.workers w)).map
          (fun sim => trialWinners holeCards board
            ((shuffle w sim remainingDeck).take (5 - (board.length : Int)).toNat)))
        recordWinners
        (by
          intro s i s2 hs
          exact runSimulations_eq _ _ _ _ _ _ s s2 hs)
        (List.range ec.workers) _ st hfinal
      rw [← h, this]
      unfold aggregate calculateRunouts
      simp only [List.map_flatMap, List.map_map]
      rfl

theorem calculateRunouts_length (ec : EquityCalculator)
    (shuffle : Nat → Nat → List Card → List Card) (board deck : List Card)
    (simulations : Nat) (hW : 0 < ec.workers) :
    (calculateRunouts ec shuffle board deck simulations).length = simulations := by
  unfold calculateRunouts
  rw [List.length_flatMap]
  have := sum_worker_sims_eq simulations ec.workers hW
  simpa [workerSims, Function.comp_def] using this

/-- The results of CalculateExact are built from the reduction of the winner
sets of the enumerated completions, taken in any order. -/
theorem CalculateExact_aggregate (ec : EquityCalculator) (holeCards : List (List Card))
    (board : List Card) (maxCombinations : Int) (rs : List EquityResult)
    (h : ec.CalculateExact holeCards board maxCombinations = ExactOutcome.results rs) :
    ∃ deck, buildRemainingDeck (buildUsedCards holeCards board) = some deck ∧
      ∀ order : List (List Card),
        order.Perm (Combinations deck (5 - (board.length : Int))) →
        rs = (List.range holeCards.length).map
          (fun i => mkEquityResult
            ((aggregate holeCards.length (order.map (trialWinners holeCards board))).1.getD i 0)
            ((aggregate holeCards.length (order.map (trialWinners holeCards board))).2.getD i 0)
            order.length holeCards.length) := by
  unfold EquityCalculator.CalculateExact at h
  simp only at h
  split at h
  · cases h
  · rename_i remainingDeck hdeck
    split_ifs at h
    simp only [ExactOutcome.results.injEq] at h
    refine ⟨remainingDeck, hdeck, ?_⟩
    intro order hp
    rw [← h, aggregate_perm holeCards.length _ _ (hp.map (trialWinners holeCards board)),
      hp.length_eq]
    unfold aggregate
    rw [List.foldl_map]

/-- C35: the reduction of a list of per-trial winner sets into the counters
gives the same counters for every permutation of the list (two outcomes can
be recorded in either order); so the results of CalculateExact are those of
the reduction over the completions in any order and do not depend on the
worker count, and two runs of Calculate whose runouts are the same up to
order, with any worker counts, return the same results. -/
theorem C35_aggregation_order_independent (n : Nat) (l1 l2 : List (List Nat))
    (ec1 ec2 : EquityCalculator) (shuffle1 shuffle2 : Nat → Nat → List Card → List Card)
    (holeCards : List (List Card)) (board : List Card) (sims1 sims2 : Nat)
    (maxCombinations : Int) (hp : l1.Perm l2) (hw1 : 0 < ec1.workers)
    (hw2 : 0 < ec2.workers) :
    aggregate n l1 = aggregate n l2 ∧
    (∀ (st : List Nat × List Nat) (a b : List Nat),
      recordWinners (recordWinners st a) b = recordWinners (recordWinners st b) a) ∧
    ec1.CalculateExact holeCards board maxCombinations =
      ec2.CalculateExact holeCards board maxCombinations ∧
    (∀ rs, ec1.CalculateExact holeCards board maxCombinations = ExactOutcome.results rs →
      ∃ deck, buildRemainingDeck (buildUsedCards holeCards board) = some deck ∧
        ∀ order : List (List Card),
          order.Perm (Combinations deck (5 - (board.length : Int))) →
          rs = (List.range holeCards.length).map
            (fun i => mkEquityResult
              ((aggregate holeCards.length
                (order.map (trialWinners holeCards board))).1.getD i 0)
              ((aggregate holeCards.length
                (order.map (trialWinners holeCards board))).2.getD i 0)
              order.length holeCards.length)) ∧
    (∀ rs1 rs2 deck, buildRemainingDeck (buildUsedCards holeCards board) = some deck →
      ec1.Calculate shuffle1 holeCards board sims1 = some rs1 →
      ec2.Calculate shuffle2 holeCards board sims2 = some rs2 →
      (calculateRunouts ec1 shuffle1 board deck sims1).Perm
        (calculateRunouts ec2 shuffle2 board deck sims2) →
      rs1 = rs2) := by
  refine ⟨aggregate_perm n l1 l2 hp, recordWinners_comm, ?_,
    CalculateExact_aggregate ec1 holeCards board maxCombinations, ?_⟩
  · unfold EquityCalculator.CalculateExact
    have e1 : ec1.workers ≠ 0 := by omega
    have e2 : ec2.workers ≠ 0 := by omega
    simp only [e1, e2, false_and, if_false]
  · intro rs1 rs2 deck hdeck h1 h2 hperm
    obtain ⟨d1, hd1, r1⟩ := Calculate_aggregate ec1 shuffle1 holeCards board sims1 rs1 h1
    obtain ⟨d2, hd2, r2⟩ := Calculate_aggregate ec2 shuffle2 holeCards board sims2 rs2 h2
    rw [hdeck] at hd1 hd2
    cases hd1
    cases hd2
    have hs : sims1 = sims2 := by
      have := hperm.length_eq
      rw [calculateRunouts_length _ _ _ _ _ hw1, calculateRunouts_length _ _ _ _ _ hw2] at this
      exact this
    subst hs
    rw [r1, r2,
      aggregate_perm holeCards.length _ _ (hperm.map (trialWinners holeCards board))]

/-- C35 on the winner sets [0], [0, 1], [1] and a rearrangement, and on two
runs of Calculate of 3 trials on a complete board, with 1 and with 2 workers. -/
theorem C35_aggregation_order_independent_witness :
    [[0], [0, 1], [1]].Perm [[1], [0], [0, 1]] ∧
    0 < (EquityCalculator.mk 1).workers ∧ 0 < (EquityCalculator.mk 2).workers ∧
    aggregate 2 [[0], [0, 1], [1]] = aggregate 2 [[1], [0], [0, 1]] ∧
    aggregate 2 [[0], [0, 1], [1]] = ([1, 1], [1, 1]) ∧
    (EquityCalculator.mk 1).CalculateExact acesVsKings turnBoard 1000 =
      (EquityCalculator.mk 2).CalculateExact acesVsKings turnBoard 1000 :=
  ⟨by decide, by decide, by decide,
    (C35_aggregation_order_independent 2 [[0], [0, 1], [1]] [[1], [0], [0, 1]]
      (EquityCalculator.mk 1) (EquityCalculator.mk 2) (fun _ _ d => d) (fun _ _ d => d)
      acesVsKings turnBoard 3 3 1000 (by decide) (by decide) (by decide)).1,
    by decide,
    (C35_aggregation_order_independent 2 [[0], [0, 1], [1]] [[1], [0], [0, 1]]
      (EquityCalculator.mk 1) (EquityCalculator.mk 2) (fun _ _ d => d) (fun _ _ d => d)
      acesVsKings turnBoard 3 3 1000 (by decide) (by decide) (by decide)).2.2.1⟩

/-! ## More cards, better hand -/

/-- The best hand of a set of cards is at most as strong as the best hand of
a larger set. -/
theorem findBestHand_mono (cs cs2 : List Card) (hl : 5 ≤ cs.length) (hnd : cs.Nodup)
    (hnd2 : cs2.Nodup) (hsub : ∀ x ∈ cs, x ∈ cs2)
    (hv2 : ∀ x ∈ cs2, 2 ≤ x.Rank ∧ x.Rank ≤ 14) :
    ∃ b1 b2, findBestHand cs = some b1 ∧ findBestHand cs2 = some b2 ∧ GoodHand b1 ∧
      GoodHand b2 ∧ compareKey b1 ≤ compareKey b2 := by
  have hl2 : 5 ≤ cs2.length := by
    have := (List.Nodup.subperm hnd hsub).length_le
    omega
  obtain ⟨b1, hb1, g1, ⟨c, hcs, hc5, hcok⟩, -⟩ :=
    findBestHand_spec cs hl hnd (fun x hx => hv2 x (hsub x hx))
  obtain ⟨b2, hb2, g2, -, hmax⟩ := findBestHand_spec cs2 hl2 hnd2 hv2
  obtain ⟨h, hok, -, hle⟩ := hmax c (hnd.sublist hcs) (fun x hx => hsub x (hcs.subset hx)) hc5
  rw [hcok] at hok
  cases hok
  exact ⟨b1, b2, hb1, hb2, g1, g2, hle⟩

theorem NewHandWithPlayer_ok (c : List Card) (p : Player) (h h0 : Hand)
    (h1 : NewHandWithPlayer c p = Except.ok h) (h2 : NewHand c = Except.ok h0) :
    h = { h0 with Player := some p } := by
  unfold NewHandWithPlayer at h1
  rw [h2] at h1
  cases h1
  rfl

/-- C36: for 5 or more pairwise distinct cards cs (ranks 2..14) and a card c
not in cs, findBestHand(cs ++ [c]) is not weaker than findBestHand(cs):
Compare is >= 0; so is GetBestHand of a player after one more board card
against GetBestHand before it (river against turn, turn against flop). -/
theorem C36_adding_card (cs : List Card) (c : Card) (g : Game) (player : Player) (c2 : Card)
    (hl : 5 ≤ cs.length) (hnd : (cs ++ [c]).Nodup)
    (hv : ∀ x ∈ cs ++ [c], 2 ≤ x.Rank ∧ x.Rank ≤ 14)
    (hboard : 3 ≤ g.Board.Cards.length)
    (hgl : 5 ≤ (player.HoleCards ++ g.Board.Cards).length)
    (hgnd : (player.HoleCards ++ g.Board.Cards ++ [c2]).Nodup)
    (hgv : ∀ x ∈ player.HoleCards ++ g.Board.Cards ++ [c2], 2 ≤ x.Rank ∧ x.Rank ≤ 14) :
    (∃ b1 b2, findBestHand cs = some b1 ∧ findBestHand (cs ++ [c]) = some b2 ∧
      b2.Compare b1 ≥ 0 ∧ b1.Beats b2 = false) ∧
    (∃ b1 b2, g.GetBestHand player = Except.ok b1 ∧
      { g with Board := { Cards := g.Board.Cards ++ [c2] } }.GetBestHand player =
        Except.ok b2 ∧
      b2.Compare b1 ≥ 0 ∧ b1.Beats b2 = false) := by
  have hnd1 : cs.Nodup := (List.nodup_append.1 hnd).1
  constructor
  · obtain ⟨b1, b2, h1, h2, g1, g2, hle⟩ := findBestHand_mono cs (cs ++ [c]) hl hnd1 hnd
      (fun x hx => List.mem_append_left _ hx) hv
    exact ⟨b1, b2, h1, h2, (Compare_nonneg_iff_key g2 g1).2 hle,
      (not_beats_iff_key g1 g2).2 hle⟩
  · have hgnd1 : (player.HoleCards ++ g.Board.Cards).Nodup := (List.nodup_append.1 hgnd).1
    have hv1 : ∀ x ∈ player.HoleCards ++ g.Board.Cards, 2 ≤ x.Rank ∧ x.Rank ≤ 14 :=
      fun x hx => hgv x (List.mem_append_left _ hx)
    obtain ⟨b1, hands1, hc1, hb1, g1, hm1, -⟩ :=
      GetBestHand_spec g player hboard hgnd1 hv1 hgl
    have hnd2 : (player.HoleCards ++
        ({ g with Board := { Cards := g.Board.Cards ++ [c2] } } : Game).Board.Cards).Nodup := by
      simpa [List.append_assoc] using hgnd
    obtain ⟨b2, hands2, hc2, hb2, g2, -, hmax2⟩ :=
      GetBestHand_spec { g with Board := { Cards := g.Board.Cards ++ [c2] } } player
        (by simp only [List.length_append, List.length_singleton]; omega) hnd2
        (fun x hx => hgv x (by simpa [List.append_assoc] using hx))
        (by simp only [List.length_append, List.length_singleton] at hgl ⊢; omega)
    have hle : compareKey b1 ≤ compareKey b2 := by
      apply (hmax2 b1 _).2
      rw [GetCandidateHands_eq, if_neg (by omega)] at hc1
      rw [GetCandidateHands_eq,
        if_neg (by simp only [List.length_append, List.length_singleton]; omega)] at hc2
      cases hc1
      cases hc2
      obtain ⟨-, c0, hs0, hl0, hok0, -⟩ :=
        (candidates_of_nodup _ player hgl hgnd1).2.1 b1 hm1
      obtain ⟨h0, hok, -, hmem⟩ := (candidates_of_nodup
        (player.HoleCards ++ (g.Board.Cards ++ [c2])) player
        (by simp only [List.length_append, List.length_singleton] at hgl ⊢; omega)
        (by simpa [List.append_assoc] using hgnd)).2.2 c0
        (by
          rw [← List.append_assoc]
          exact hs0.trans (List.sublist_append_left _ _)) hl0
      rw [NewHandWithPlayer_ok c0 player b1 h0 hok0 hok]
      exact hmem
    exact ⟨b1, b2, hb1, hb2, (Compare_nonneg_iff_key g2 g1).2 hle,
      (not_beats_iff_key g1 g2).2 hle⟩

set_option maxRecDepth 100000 in
/-- C36 on A K Q J T of spades with the 2 of hearts, adding the 3 of hearts
(a royal flush before and after), and for the first player of the game of
TestGameMultipleWinners between the turn 4d 5c 6d Kc and the river Qc. -/
theorem C36_adding_card_witness :
    5 ≤ (royalPlusTwo.take 6).length ∧
    (royalPlusTwo.take 6 ++ [NewCard Three CardSuit.Hearts]).Nodup ∧
    3 ≤ ({ splitPotGame with Board := { Cards := splitBoard.take 4 } } : Game).Board.Cards.length ∧
    (∃ b1 b2, findBestHand (royalPlusTwo.take 6) = some b1 ∧
      findBestHand (royalPlusTwo.take 6 ++ [NewCard Three CardSuit.Hearts]) = some b2 ∧
      b2.Compare b1 ≥ 0 ∧ b1.Beats b2 = false) ∧
    (∃ b1 b2,
      ({ splitPotGame with Board := { Cards := splitBoard.take 4 } } : Game).GetBestHand
        (splitPotGame.Players.getD 0 (NewPlayer "")) = Except.ok b1 ∧
      splitPotGame.GetBestHand (splitPotGame.Players.getD 0 (NewPlayer "")) = Except.ok b2 ∧
      b2.Compare b1 ≥ 0) :=
  ⟨by decide, by decide, by decide,
    (C36_adding_card (royalPlusTwo.take 6) (NewCard Three CardSuit.Hearts)
      { splitPotGame with Board := { Cards := splitBoard.take 4 } }
      (splitPotGame.Players.getD 0 (NewPlayer "")) (NewCard Queen CardSuit.Clubs)
      (by decide) (by decide) (by decide) (by decide) (by decide) (by decide) (by decide)).1,
    match (C36_adding_card (royalPlusTwo.take 6) (NewCard Three CardSuit.Hearts)
      { splitPotGame with Board := { Cards := splitBoard.take 4 } }
      (splitPotGame.Players.getD 0 (NewPlayer "")) (NewCard Queen CardSuit.Clubs)
      (by decide) (by decide) (by decide) (by decide) (by decide) (by decide) (by decide)).2 with
    | ⟨b1, b2, h1, h2, h3, _⟩ => ⟨b1, b2, h1, h2, h3⟩⟩

/-! ## The order of the cards -/

theorem cardValues_congr {a b : Hand} {cardsA cardsB : List Card} (ha : Built a cardsA)
    (hb : Built b cardsB) (hp : cardsA.Perm cardsB) : a.cardValues = b.cardValues := by
  apply Nat.eq_of_testBit_eq
  intro i
  rw [ha.testBit, hb.testBit]
  have := ((ranksOf_perm hp).mem_iff (a := i))
  simp [this]

/-- Two evaluated hands on the same cards, in any order, have the same flags. -/
theorem flags_congr {a b : Hand} {cardsA cardsB : List Card} (ha : Built a cardsA)
    (hb : Built b cardsB) (hne : cardsA ≠ []) (hp : cardsA.Perm cardsB) :
    a.isFlush = b.isFlush ∧ a.isStraight = b.isStraight ∧ a.isWheel = b.isWheel := by
  have hcv := cardValues_congr ha hb hp
  have hneB : cardsB ≠ [] := by
    intro h
    rw [h] at hp
    exact hne (List.perm_nil.1 hp)
  refine ⟨?_, ?_, ?_⟩
  · have h1 := ha.isFlush_iff hne
    have h2 := hb.isFlush_iff hneB
    have h3 : AllSameSuit cardsA ↔ AllSameSuit cardsB := AllSameSuit_perm hp
    cases hx : a.isFlush <;> cases hy : b.isFlush <;> simp_all
  · rw [ha.2.2.2.1, hb.2.2.2.1]
    unfold computeIsStraight
    rw [hcv]
  · rw [ha.2.2.2.2.1, hb.2.2.2.2.1]
    unfold computeIsStraight
    rw [hcv]

/-- C37: for 5 pairwise distinct cards (ranks 2..14) and every permutation of
them, NewHand yields hands with the same Rank(), IsFlush(), IsStraight(),
IsWheel() and TiebreakScore(), which tie under Compare; and for 5 or more
pairwise distinct cards and every permutation of them, the results of
findBestHand have the same category and the same tie-break score, and tie. -/
theorem C37_order_independent (cards cards2 many many2 : List Card) (hv : ValidCards cards)
    (hp : cards2.Perm cards) (hl : 5 ≤ many.length) (hnd : many.Nodup)
    (hvm : ∀ x ∈ many, 2 ≤ x.Rank ∧ x.Rank ≤ 14) (hpm : many2.Perm many) :
    (∃ h1 h2, NewHand cards = Except.ok h1 ∧ NewHand cards2 = Except.ok h2 ∧
      h1.Rank = h2.Rank ∧ h1.IsFlush = h2.IsFlush ∧ h1.IsStraight = h2.IsStraight ∧
      h1.IsWheel = h2.IsWheel ∧ h1.TiebreakScore = h2.TiebreakScore ∧
      h1.Compare h2 = 0 ∧ h2.Compare h1 = 0) ∧
    (∃ b1 b2, findBestHand many = some b1 ∧ findBestHand many2 = some b2 ∧
      b1.Rank = b2.Rank ∧ b1.TiebreakScore = b2.TiebreakScore ∧
      b1.Compare b2 = 0 ∧ b2.Compare b1 = 0) := by
  constructor
  · have hv2 : ValidCards cards2 := hv.of_perm hp
    obtain ⟨h1, hok1, hb1, hg1⟩ := NewHand_good cards hv
    obtain ⟨h2, hok2, hb2, hg2⟩ := NewHand_good cards2 hv2
    have hne : cards ≠ [] := by
      intro h
      have := hv.1
      rw [h] at this
      cases this
    obtain ⟨f1, f2, f3⟩ := flags_congr hb1 hb2 hne hp.symm
    have hr : (ranksOf cards).Perm (ranksOf cards2) := hp.symm.map _
    have hk := compareKey_congr hb1 hb2 hv hv2 hp.symm
    exact ⟨h1, h2, hok1, hok2,
      handRank_congr hb1 hb2 hv hv2 hr (AllSameSuit_perm hp.symm), f1, f2, f3,
      (score_eq_iff hb1 hb2 hv hv2).2 hr,
      (Compare_zero_iff_key hg1 hg2).2 hk, (Compare_zero_iff_key hg2 hg1).2 hk.symm⟩
  · have hnd2 : many2.Nodup := hpm.nodup_iff.2 hnd
    have hvm2 : ∀ x ∈ many2, 2 ≤ x.Rank ∧ x.Rank ≤ 14 := fun x hx => hvm x (hpm.mem_iff.1 hx)
    have hl2 : 5 ≤ many2.length := by rw [hpm.length_eq]; exact hl
    obtain ⟨b1, b2, e1, e2, g1, g2, hle⟩ := findBestHand_mono many many2 hl hnd hnd2
      (fun x hx => hpm.mem_iff.2 hx) hvm2
    obtain ⟨c2, c1, e3, e4, -, -, hle2⟩ := findBestHand_mono many2 many hl2 hnd2 hnd
      (fun x hx => hpm.mem_iff.1 hx) hvm
    rw [e2] at e3
    rw [e1] at e4
    cases e3
    cases e4
    have hk : compareKey b1 = compareKey b2 := le_antisymm hle hle2
    have hk2 := hk
    unfold compareKey at hk2
    have hk3 := congrArg (fun x => (ofLex x)) hk2
    simp only [ofLex_toLex, Prod.mk.injEq] at hk3
    have hk4 := congrArg (fun x => (ofLex x)) hk3.2
    simp only [ofLex_toLex, Prod.mk.injEq] at hk4
    exact ⟨b1, b2, e1, e2, hk3.1, hk4.2, (Compare_zero_iff_key g1 g2).2 hk,
      (Compare_zero_iff_key g2 g1).2 hk.symm⟩

/-- C37 on the royal flush of spades and its reversal, and on the seven cards
of TestFindBestHand and their reversal. -/
theorem C37_order_independent_witness :
    ValidCards royalSpades ∧ royalSpades.reverse.Perm royalSpades ∧
    5 ≤ royalPlusTwo.length ∧ royalPlusTwo.Nodup ∧
    (∀ x ∈ royalPlusTwo, 2 ≤ x.Rank ∧ x.Rank ≤ 14) ∧
    royalPlusTwo.reverse.Perm royalPlusTwo ∧
    (∃ h1 h2, NewHand royalSpades = Except.ok h1 ∧ NewHand royalSpades.reverse = Except.ok h2 ∧
      h1.Rank = h2.Rank ∧ h1.TiebreakScore = h2.TiebreakScore ∧ h1.Compare h2 = 0) ∧
    (∃ b1 b2, findBestHand royalPlusTwo = some b1 ∧
      findBestHand royalPlusTwo.reverse = some b2 ∧ b1.Rank = b2.Rank ∧ b1.Compare b2 = 0) :=
  ⟨by decide, List.reverse_perm _, by decide, by decide, by decide, List.reverse_perm _,
    match (C37_order_independent royalSpades royalSpades.reverse royalPlusTwo
      royalPlusTwo.reverse (by decide) (List.reverse_perm _) (by decide) (by decide)
      (by decide) (List.reverse_perm _)).1 with
    | ⟨h1, h2, e1, e2, r, _, _, _, t, c, _⟩ => ⟨h1, h2, e1, e2, r, t, c⟩,
    match (C37_order_independent royalSpades royalSpades.reverse royalPlusTwo
      royalPlusTwo.reverse (by decide) (List.reverse_perm _) (by decide) (by decide)
      (by decide) (List.reverse_perm _)).2 with
    | ⟨b1, b2, e1, e2, r, _, c, _⟩ => ⟨b1, b2, e1, e2, r, c⟩⟩

/-! ## The remaining deck for any input -/

theorem foldl_setUsed_nodup (l : List Card) (acc : List (Nat × CardSuit)) (h : acc.Nodup) :
    (l.foldl (fun used c => setUsed used (cardKey c)) acc).Nodup ∧
    (l.foldl (fun used c => setUsed used (cardKey c)) acc).length ≤ acc.length + l.length := by
  induction l generalizing acc with
  | nil => exact ⟨h, by simp⟩
  | cons c cs ih =>
    simp only [List.foldl_cons, List.length_cons]
    have hs : (setUsed acc (cardKey c)).Nodup ∧ (setUsed acc (cardKey c)).length ≤ acc.length + 1 := by
      unfold setUsed
      split_ifs with hm
      · exact ⟨h, by omega⟩
      · refine ⟨?_, by simp⟩
        rw [List.nodup_append]
        refine ⟨h, List.nodup_singleton _, ?_⟩
        intro a ha hb
        rw [List.mem_singleton] at hb
        subst hb
        exact hm ha
    obtain ⟨i1, i2⟩ := ih (setUsed acc (cardKey c)) hs.1
    exact ⟨i1, by omega⟩

theorem buildUsedCards_spec (holeCards : List (List Card)) (board : List Card) :
    (buildUsedCards holeCards board).Nodup ∧
    (buildUsedCards holeCards board).length ≤ (holeCards.flatten ++ board).length ∧
    (∀ c : Card, cardKey c ∈ buildUsedCards holeCards board ↔
      ∃ d ∈ holeCards.flatten ++ board, cardKey d = cardKey c) := by
  have heq : buildUsedCards holeCards board =
      (holeCards.flatten ++ board).foldl (fun used c => setUsed used (cardKey c)) [] := by
    unfold buildUsedCards
    simp only
    rw [← List.foldl_flatten, ← List.foldl_append]
  rw [heq]
  obtain ⟨h1, h2⟩ := foldl_setUsed_nodup (holeCards.flatten ++ board) [] List.nodup_nil
  refine ⟨h1, by simpa using h2, ?_⟩
  intro c
  rw [foldl_setUsed_mem]
  constructor
  · rintro (h | ⟨d, hd, hk⟩)
    · cases h
    · exact ⟨d, hd, hk⟩
  · rintro ⟨d, hd, hk⟩
    exact Or.inr ⟨d, hd, hk⟩

theorem filter_unused_length (used : List (Nat × CardSuit)) :
    52 - used.length ≤ (fullDeck.filter (fun c => cardKey c ∉ used)).length := by
  have hsplit := List.length_eq_length_filter_add (l := fullDeck)
    (fun c => decide (cardKey c ∈ used))
  have h52 : fullDeck.length = 52 := rfl
  have hin : (fullDeck.filter (fun c => decide (cardKey c ∈ used))).length ≤ used.length := by
    have hnd : ((fullDeck.filter (fun c => decide (cardKey c ∈ used))).map cardKey).Nodup :=
      (fullDeck_nodup.filter _).map_on (fun x hx y hy hk =>
        cardKey_inj_valid x y ((mem_fullDeck x).1 (List.mem_filter.1 hx).1)
          ((mem_fullDeck y).1 (List.mem_filter.1 hy).1) hk)
    have hsub : (fullDeck.filter (fun c => decide (cardKey c ∈ used))).map cardKey ⊆ used := by
      intro k hk
      rw [List.mem_map] at hk
      obtain ⟨c, hc, rfl⟩ := hk
      rw [List.mem_filter, decide_eq_true_iff] at hc
      exact hc.2
    have := (List.Nodup.subperm hnd hsub).length_le
    simpa using this
  have hfilt : fullDeck.filter (fun c => cardKey c ∉ used) =
      fullDeck.filter (fun c => !decide (cardKey c ∈ used)) := by
    apply List.filter_congr
    intro c _
    simp
  rw [hfilt]
  omega

/-- The remaining deck for hole cards and a board that may overlap: the cards
of the 52-card deck whose key is the key of no hole card and of no board card;
for hole and board cards of rank 2..14, the cards of the 52-card deck that are
in no hole-card set and not on the board. -/
theorem remainingDeck_spec (holeCards : List (List Card)) (board : List Card)
    (hlen : (holeCards.flatten ++ board).length ≤ 52) :
    ∃ deck, buildRemainingDeck (buildUsedCards holeCards board) = some deck ∧
      deck.Nodup ∧
      (∀ c, c ∈ deck ↔
        (c ∈ fullDeck ∧ ∀ d ∈ holeCards.flatten ++ board, cardKey d ≠ cardKey c)) ∧
      ((∀ d ∈ holeCards.flatten ++ board, 2 ≤ d.Rank ∧ d.Rank ≤ 14) →
        ∀ c, c ∈ deck ↔ (c ∈ fullDeck ∧ c ∉ holeCards.flatten ∧ c ∉ board)) ∧
      52 - (holeCards.flatten ++ board).length ≤ deck.length := by
  obtain ⟨u1, u2, u3⟩ := buildUsedCards_spec holeCards board
  have hkey : ∀ c, c ∈ fullDeck.filter (fun c => cardKey c ∉ buildUsedCards holeCards board) ↔
      (c ∈ fullDeck ∧ ∀ d ∈ holeCards.flatten ++ board, cardKey d ≠ cardKey c) := by
    intro c
    rw [List.mem_filter, decide_eq_true_iff, u3 c]
    constructor
    · rintro ⟨h1, h2⟩
      exact ⟨h1, fun d hd hk => h2 ⟨d, hd, hk⟩⟩
    · rintro ⟨h1, h2⟩
      exact ⟨h1, fun ⟨d, hd, hk⟩ => h2 d hd hk⟩
  refine ⟨_, buildRemainingDeck_eq _ (by omega), fullDeck_nodup.filter _, hkey, ?_, ?_⟩
  · intro hv c
    rw [hkey c]
    constructor
    · rintro ⟨h1, h2⟩
      exact ⟨h1, fun h => h2 c (List.mem_append.2 (Or.inl h)) rfl,
        fun h => h2 c (List.mem_append.2 (Or.inr h)) rfl⟩
    · rintro ⟨h1, h2, h3⟩
      refine ⟨h1, fun d hd hk => ?_⟩
      have hdc : d = c := cardKey_inj_valid d c (hv d hd) ((mem_fullDeck c).1 h1) hk
      rw [hdc] at hd
      exact (List.mem_append.1 hd).elim h2 h3
  · have := filter_unused_length (buildUsedCards holeCards board)
    omega

/-- A loop that stops at the first failure succeeds when every step does. -/
theorem foldl_option_isSome {σ ι : Type} (step : σ → ι → Option σ)
    (l : List ι) (hstep : ∀ s, ∀ i ∈ l, ∃ s2, step s i = some s2) (s : σ) :
    ∃ s2, l.foldl (fun acc i => acc.bind (fun s => step s i)) (some s) = some s2 := by
  induction l generalizing s with
  | nil => exact ⟨s, rfl⟩
  | cons x rest ih =>
    obtain ⟨s1, h1⟩ := hstep s x (List.mem_cons_self _ _)
    simp only [List.foldl_cons, Option.some_bind, h1]
    exact ih (fun s i hi => hstep s i (List.mem_cons_of_mem _ hi)) s1

theorem runSimulations_isSome (shuffle : Nat → List Card → List Card)
    (holeCards : List (List Card)) (board deck : List Card) (numSims : Nat)
    (st : List Nat × List Nat) (hb : board.length ≤ 5)
    (hd : ∀ sim, 5 - board.length ≤ (shuffle sim deck).length) :
    ∃ st2, runSimulations shuffle holeCards board deck (5 - (board.length : Int)) numSims st =
      some st2 := by
  unfold runSimulations
  apply foldl_option_isSome
    (fun (s : List Nat × List Nat) (sim : Nat) =>
      if board.length > 5 then none
      else if (5 - (board.length : Int)) < 0 ∨
          (5 - (board.length : Int)) > ((shuffle sim deck).length : Int) then none
      else some (recordWinners s
        (trialWinners holeCards board
          ((shuffle sim deck).take (5 - (board.length : Int)).toNat))))
  intro s i _
  have := hd i
  rw [if_neg (by omega), if_neg (by omega)]
  exact ⟨_, rfl⟩

theorem Calculate_isSome (ec : EquityCalculator)
    (shuffle : Nat → Nat → List Card → List Card) (holeCards : List (List Card))
    (board deck : List Card) (simulations : Nat) (hw : 0 < ec.workers)
    (hdeck : buildRemainingDeck (buildUsedCards holeCards board) = some deck)
    (hb : board.length ≤ 5)
    (hd : ∀ w sim, 5 - board.length ≤ (shuffle w sim deck).length) :
    ∃ rs, ec.Calculate shuffle holeCards board simulations = some rs := by
  rw [Calculate_workerSims, hdeck]
  simp only
  rw [if_neg (by omega)]
  obtain ⟨st, hst⟩ := foldl_option_isSome
    (fun (s : List Nat × List Nat) (w : Nat) =>
      runSimulations (shuffle w) holeCards board deck
        (5 - (board.length : Int)) (workerSims simulations ec.workers w) s)
    (List.range ec.workers)
    (fun s w _ => runSimulations_isSome (shuffle w) holeCards board deck _ s hb (hd w))
    (List.replicate holeCards.length 0, List.replicate holeCards.length 0)
  rw [hst]
  exact ⟨_, rfl⟩

theorem flatten_length_two (holeCards : List (List Card))
    (h : ∀ hole ∈ holeCards, hole.length = 2) : holeCards.flatten.length = 2 * holeCards.length := by
  induction holeCards with
  | nil => rfl
  | cons x xs ih =>
    rw [List.flatten_cons, List.length_append, h x (List.mem_cons_self _ _),
      ih (fun hole hh => h hole (List.mem_cons_of_mem _ hh)), List.length_cons]
    omega

theorem mem_calculateRunouts (ec : EquityCalculator)
    (shuffle : Nat → Nat → List Card → List Card) (board deck : List Card)
    (simulations : Nat) (r : List Card)
    (hr : r ∈ calculateRunouts ec shuffle board deck simulations) :
    ∃ w sim, w < ec.workers ∧ sim < workerSims simulations ec.workers w ∧
      r = (shuffle w sim deck).take (5 - (board.length : Int)).toNat := by
  unfold calculateRunouts at hr
  rw [List.mem_flatMap] at hr
  obtain ⟨w, hw, hr⟩ := hr
  rw [List.mem_map] at hr
  obtain ⟨sim, hsim, rfl⟩ := hr
  exact ⟨w, sim, List.mem_range.1 hw, List.mem_range.1 hsim, rfl⟩

/-- C40: with at most 23 players holding 2 hole cards each and a board of 0
to 5 cards, overlaps allowed, buildRemainingDeck returns, each once, the cards
of the 52-card deck whose key is the key of no hole or board card: for hole and
board cards of rank 2..14, exactly the cards of the 52-card deck that are in no
hole-card set and not on the board. There are at least
52 - 2*players - boardSize >= 5 - boardSize of them, so in every trial of
Calculate the slice localDeck[:cardsNeeded] is in bounds and the completed
board has exactly 5 cards: Calculate returns the results built from the winner
sets of its `simulations` runouts, each of which completes the board to 5
cards with distinct cards of the remaining deck. Every shuffle permutes the
deck. -/
theorem C40_runout_in_bounds (ec : EquityCalculator)
    (shuffle : Nat → Nat → List Card → List Card) (holeCards : List (List Card))
    (board : List Card) (simulations : Nat)
    (hperm : ∀ w sim d, (shuffle w sim d).Perm d) (hw : 0 < ec.workers)
    (hplayers : holeCards.length ≤ 23) (hhole : ∀ hole ∈ holeCards, hole.length = 2)
    (hboard : board.length ≤ 5) :
    ∃ deck, buildRemainingDeck (buildUsedCards holeCards board) = some deck ∧
      deck.Nodup ∧
      (∀ c, c ∈ deck ↔
        (c ∈ fullDeck ∧ ∀ d ∈ holeCards.flatten ++ board, cardKey d ≠ cardKey c)) ∧
      ((∀ d ∈ holeCards.flatten ++ board, 2 ≤ d.Rank ∧ d.Rank ≤ 14) →
        ∀ c, c ∈ deck ↔ (c ∈ fullDeck ∧ c ∉ holeCards.flatten ∧ c ∉ board)) ∧
      52 - 2 * holeCards.length - board.length ≤ deck.length ∧
      5 - board.length ≤ 52 - 2 * holeCards.length - board.length ∧
      (∀ w sim, (5 - (board.length : Int)).toNat ≤ (shuffle w sim deck).length ∧
        (board ++ (shuffle w sim deck).take (5 - (board.length : Int)).toNat).length = 5) ∧
      (calculateRunouts ec shuffle board deck simulations).length = simulations ∧
      (∀ r ∈ calculateRunouts ec shuffle board deck simulations,
        (board ++ r).length = 5 ∧ r.Nodup ∧ ∀ c ∈ r, c ∈ deck) ∧
      ec.Calculate shuffle holeCards board simulations =
        some ((List.range holeCards.length).map
          (fun i => mkEquityResult
            ((aggregate holeCards.length
              ((calculateRunouts ec shuffle board deck simulations).map
                (trialWinners holeCards board))).1.getD i 0)
            ((aggregate holeCards.length
              ((calculateRunouts ec shuffle board deck simulations).map
                (trialWinners holeCards board))).2.getD i 0)
            simulations holeCards.length)) := by
  have hfl := flatten_length_two holeCards hhole
  obtain ⟨deck, hdeck, hnd, hkey, hmem, hlen⟩ := remainingDeck_spec holeCards board
    (by rw [List.length_append, hfl]; omega)
  rw [List.length_append, hfl] at hlen
  have hsh : ∀ w sim, (shuffle w sim deck).length = deck.length :=
    fun w sim => (hperm w sim deck).length_eq
  have htrial : ∀ w sim, (5 - (board.length : Int)).toNat ≤ (shuffle w sim deck).length ∧
      (board ++ (shuffle w sim deck).take (5 - (board.length : Int)).toNat).length = 5 := by
    intro w sim
    have := hsh w sim
    refine ⟨by omega, ?_⟩
    rw [List.length_append, List.length_take]
    omega
  refine ⟨deck, hdeck, hnd, hkey, hmem, by omega, by omega, htrial,
    calculateRunouts_length ec shuffle board deck simulations hw, ?_, ?_⟩
  · intro r hr
    obtain ⟨w, sim, -, -, rfl⟩ := mem_calculateRunouts ec shuffle board deck simulations r hr
    refine ⟨(htrial w sim).2, ?_, ?_⟩
    · exact ((hperm w sim deck).nodup_iff.2 hnd).sublist (List.take_sublist _ _)
    · intro c hc
      exact (hperm w sim deck).subset (List.mem_of_mem_take hc)
  · obtain ⟨rs, hrs⟩ := Calculate_isSome ec shuffle holeCards board deck simulations hw hdeck
      hboard (fun w sim => by have := hsh w sim; omega)
    obtain ⟨deck2, hdeck2, hrs2⟩ := Calculate_aggregate ec shuffle holeCards board simulations
      rs hrs
    rw [hdeck] at hdeck2
    cases hdeck2
    rw [hrs, hrs2]

/-- C40 for A A against K K on the 4-card board 2c 5d 9h Js: the remaining
deck has 44 cards, none of them a hole or board card, and the three trials of
Calculate complete the board to 5 cards. -/
theorem C40_runout_in_bounds_witness :
    (∀ (w sim : Nat) (d : List Card), ((fun _ _ d => d) w sim d : List Card).Perm d) ∧
    0 < (EquityCalculator.mk 2).workers ∧ acesVsKings.length ≤ 23 ∧
    (∀ hole ∈ acesVsKings, hole.length = 2) ∧ turnBoard.length ≤ 5 ∧
    ∃ deck, buildRemainingDeck (buildUsedCards acesVsKings turnBoard) = some deck ∧
      deck.length = 44 ∧
      (∀ c, c ∈ deck ↔ (c ∈ fullDeck ∧ c ∉ acesVsKings.flatten ∧ c ∉ turnBoard)) ∧
      (calculateRunouts (EquityCalculator.mk 2) (fun _ _ d => d) turnBoard deck 3).length = 3 ∧
      (∀ r ∈ calculateRunouts (EquityCalculator.mk 2) (fun _ _ d => d) turnBoard deck 3,
        (turnBoard ++ r).length = 5) ∧
      ∃ rs, (EquityCalculator.mk 2).Calculate (fun _ _ d => d) acesVsKings turnBoard 3 =
        some rs :=
  ⟨fun _ _ d => List.Perm.refl d, by decide, by decide, by decide, by decide,
    match C40_runout_in_bounds (EquityCalculator.mk 2) (fun _ _ d => d) acesVsKings turnBoard 3
      (fun _ _ d => List.Perm.refl d) (by decide) (by decide) (by decide) (by decide) with
    | ⟨deck, h1, _, _, h4, _, _, _, h8, h9, h10⟩ =>
      have h0 : buildRemainingDeck (buildUsedCards acesVsKings turnBoard) =
          some ((buildRemainingDeck (buildUsedCards acesVsKings turnBoard)).getD []) := rfl
      have he : deck = (buildRemainingDeck (buildUsedCards acesVsKings turnBoard)).getD [] :=
        Option.some.inj (h1.symm.trans h0)
      ⟨deck, h1, by rw [he]; rfl, h4 (by decide), h8, fun r hr => (h9 r hr).1, _, h10⟩⟩

/-! ## Invariants of the exact enumeration -/

/-- An invariant of the counters that every trial with a sorted, non-empty
winner set keeps holds after the enumeration of the completions. -/
theorem foldl_trials_inv (holeCards : List (List Card)) (board deck : List Card)
    (Inv : List Nat × List Nat → Nat → Prop)
    (hstep : ∀ st T ws, ws.Pairwise (fun a b => a < b) → (∀ i ∈ ws, i < holeCards.length) →
      ws ≠ [] → Inv st T → Inv (recordWinners st ws) (T + 1))
    (hne : holeCards ≠ []) (hb : board.Nodup) (hd : deck.Nodup)
    (hfresh : ∀ c ∈ deck, c ∉ board) (combos : List (List Card))
    (hcombos : ∀ c ∈ combos, c.Sublist deck ∧ (board ++ c).length = 5)
    (st : List Nat × List Nat) (T : Nat) (h : Inv st T) :
    Inv (combos.foldl (fun st combo => recordWinners st (trialWinners holeCards board combo)) st)
      (T + combos.length) := by
  induction combos generalizing st T with
  | nil => simpa using h
  | cons c rest ih =>
    simp only [List.foldl_cons, List.length_cons]
    obtain ⟨hs, hl⟩ := hcombos c (List.mem_cons_self _ _)
    obtain ⟨-, w2, w3⟩ := trialWinners_good holeCards board c hne hl
      (complete_board_nodup board deck c hb hd hfresh hs)
    have w1 : (trialWinners holeCards board c).Pairwise (fun a b => a < b) := by
      unfold trialWinners
      exact (findWinnerIndices_sorted _).1
    have := ih (fun c2 hc2 => hcombos c2 (List.mem_cons_of_mem _ hc2))
      (recordWinners st (trialWinners holeCards board c)) (T + 1) (hstep st T _ w1 w2 w3 h)
    rw [Nat.add_assoc, Nat.add_comm 1] at this
    exact this

/-- The counters of CalculateExact satisfy every such invariant, at the number
of completions. -/
theorem CalculateExact_inv (ec : EquityCalculator) (holeCards : List (List Card))
    (board : List Card) (maxCombinations : Int) (rs : List EquityResult)
    (Inv : List Nat × List Nat → Nat → Prop)
    (hstep : ∀ st T ws, ws.Pairwise (fun a b => a < b) → (∀ i ∈ ws, i < holeCards.length) →
      ws ≠ [] → Inv st T → Inv (recordWinners st ws) (T + 1))
    (h0 : Inv (List.replicate holeCards.length 0, List.replicate holeCards.length 0) 0)
    (hne : holeCards ≠ []) (hb : board.Nodup)
    (h : ec.CalculateExact holeCards board maxCombinations = ExactOutcome.results rs) :
    ∃ (deck : List Card) (st : List Nat × List Nat),
      buildRemainingDeck (buildUsedCards holeCards board) = some deck ∧
      Inv st (Combinations deck (5 - (board.length : Int))).length ∧
      rs = (List.range holeCards.length).map
        (fun i => mkEquityResult (st.1.getD i 0) (st.2.getD i 0)
          (Combinations deck (5 - (board.length : Int))).length holeCards.length) := by
  unfold EquityCalculator.CalculateExact at h
  simp only at h
  split at h
  · cases h
  · rename_i remainingDeck hdeck
    obtain ⟨hd, hfresh⟩ := remainingDeck_fresh holeCards board remainingDeck hdeck
    split_ifs at h
    simp only [ExactOutcome.results.injEq] at h
    refine ⟨remainingDeck, _, hdeck, ?_, h.symm⟩
    have := foldl_trials_inv holeCards board remainingDeck Inv hstep hne hb hd hfresh
      (Combinations remainingDeck (5 - (board.length : Int)))
      (by
        intro c hc
        obtain ⟨hs, hl⟩ := Combinations_mem remainingDeck c _ hc
        refine ⟨hs, ?_⟩
        rw [List.length_append]
        omega)
      _ 0 h0
    simpa using this

theorem sorted_lt_two (ws : List Nat) (hs : ws.Pairwise (fun a b => a < b))
    (hlt : ∀ i ∈ ws, i < 2) (hne : ws ≠ []) : ws = [0] ∨ ws = [1] ∨ ws = [0, 1] := by
  cases ws with
  | nil => exact absurd rfl hne
  | cons a rest =>
    have ha := hlt a (List.mem_cons_self _ _)
    cases rest with
    | nil =>
      have : a = 0 ∨ a = 1 := by omega
      rcases this with rfl | rfl
      · exact Or.inl rfl
      · exact Or.inr (Or.inl rfl)
    | cons b rest2 =>
      have hb := hlt b (List.mem_cons_of_mem _ (List.mem_cons_self _ _))
      have hab : a < b := (List.pairwise_cons.1 hs).1 b (List.mem_cons_self _ _)
      have ha0 : a = 0 := by omega
      have hb1 : b = 1 := by omega
      subst ha0
      subst hb1
      cases rest2 with
      | nil => exact Or.inr (Or.inr rfl)
      | cons c rest3 =>
        have hc := hlt c (List.mem_cons_of_mem _ (List.mem_cons_of_mem _ (List.mem_cons_self _ _)))
        have hbc : 1 < c := (List.pairwise_cons.1 (List.pairwise_cons.1 hs).2).1 c
          (List.mem_cons_self _ _)
        omega

/-- C38: for two players with two hole cards each and a board of at most four
cards, all cards distinct and of valid rank, the results of CalculateExact
satisfy Wins0 + Wins1 + Ties0 = Total, Ties0 = Ties1, Losses0 = Wins1 and
Losses1 = Wins0, the two equities are defined and sum to 1; and CalculateExact
returns results whenever the number of completions is within the ceiling. -/
theorem C38_heads_up (ec : EquityCalculator) (holeCards : List (List Card))
    (board : List Card) (maxCombinations : Int)
    (h2 : holeCards.length = 2) (hhole : ∀ hole ∈ holeCards, hole.length = 2)
    (hb : board.length ≤ 4) (hn : (holeCards.flatten ++ board).Nodup)
    (hv : ∀ c ∈ holeCards.flatten ++ board, 2 ≤ c.Rank ∧ c.Rank ≤ 14)
    (hw : 0 < ec.workers) :
    (∀ rs, ec.CalculateExact holeCards board maxCombinations = ExactOutcome.results rs →
      ∃ r0 r1 q0 q1, rs = [r0, r1] ∧
        r0.Wins + r1.Wins + r0.Ties = r0.Total ∧ r1.Total = r0.Total ∧ 0 < r0.Total ∧
        r0.Ties = r1.Ties ∧ r0.Losses = r1.Wins ∧ r1.Losses = r0.Wins ∧
        r0.Equity = some q0 ∧ r1.Equity = some q1 ∧ q0 + q1 = 1) ∧
    (¬ (((52 - (holeCards.flatten ++ board).length).choose (5 - board.length) : Nat) : Int) >
        maxCombinations →
      ∃ rs, ec.CalculateExact holeCards board maxCombinations = ExactOutcome.results rs) := by
  constructor
  · intro rs h
    have hne : holeCards ≠ [] := by
      intro h0
      rw [h0] at h2
      cases h2
    obtain ⟨deck, st, hdeck, ⟨w0, w1, t, hst, hsum⟩, hrs⟩ :=
      CalculateExact_inv ec holeCards board maxCombinations rs
        (fun st T => ∃ w0 w1 t, st = ([w0, w1], [t, t]) ∧ w0 + w1 + t = T)
        (by
          rintro st T ws hs hlt hne2 ⟨w0, w1, t, rfl, hsum⟩
          rw [h2] at hlt
          rcases sorted_lt_two ws hs hlt hne2 with rfl | rfl | rfl
          · exact ⟨w0 + 1, w1, t, rfl, by omega⟩
          · exact ⟨w0, w1 + 1, t, rfl, by omega⟩
          · exact ⟨w0, w1, t + 1, rfl, by omega⟩)
        ⟨0, 0, 0, by rw [h2]; rfl, rfl⟩ hne (List.Nodup.of_append_right hn) h
    have hfl := flatten_length_two holeCards hhole
    obtain ⟨deck2, hdeck2, -, -, -, hlen⟩ := remainingDeck_spec holeCards board
      (by rw [List.length_append, hfl, h2]; omega)
    rw [hdeck] at hdeck2
    cases hdeck2
    rw [List.length_append, hfl, h2] at hlen
    have hk : (5 : Int) - (board.length : Int) = ((5 - board.length : Nat) : Int) := by omega
    rw [hk, Combinations_length_choose _ (5 - board.length) (by omega)] at hsum hrs
    have hpos : 0 < deck.length.choose (5 - board.length) := Nat.choose_pos (by omega)
    generalize deck.length.choose (5 - board.length) = T at hsum hrs hpos
    subst hst
    rw [h2] at hrs
    have hT : (T : Rat) ≠ 0 := by
      have : (0 : Rat) < (T : Rat) := by exact_mod_cast hpos
      exact ne_of_gt this
    have hT0 : T ≠ 0 := by omega
    refine ⟨mkEquityResult w0 t T 2, mkEquityResult w1 t T 2,
      ((w0 : Rat) + (t : Rat) / ((2 : Nat) : Rat)) / (T : Rat),
      ((w1 : Rat) + (t : Rat) / ((2 : Nat) : Rat)) / (T : Rat), hrs, ?_, rfl, ?_, rfl, ?_, ?_,
      ?_, ?_, ?_⟩
    · simp only [mkEquityResult]
      omega
    · simp only [mkEquityResult]
      omega
    · simp only [mkEquityResult]
      omega
    · simp only [mkEquityResult]
      omega
    · simp only [mkEquityResult, if_neg hT0]
    · simp only [mkEquityResult, if_neg hT0]
    · have hsumq : (w0 : Rat) + (w1 : Rat) + (t : Rat) = (T : Rat) := by exact_mod_cast hsum
      rw [← add_div, div_eq_one_iff_eq hT, ← hsumq]
      push_cast
      ring
  · intro hc
    obtain ⟨rs, hrs, -⟩ := (CalculateExact_ceiling ec holeCards board maxCombinations hn hv hb hw).2 hc
    exact ⟨rs, hrs⟩

/-- The heads-up identities hold for aces against kings on the turn. -/
theorem C38_heads_up_witness :
    ∃ rs, (EquityCalculator.mk 4).CalculateExact acesVsKings turnBoard 1000 =
        ExactOutcome.results rs ∧
      ∃ r0 r1 q0 q1, rs = [r0, r1] ∧
        r0.Wins + r1.Wins + r0.Ties = r0.Total ∧ r1.Total = r0.Total ∧ 0 < r0.Total ∧
        r0.Ties = r1.Ties ∧ r0.Losses = r1.Wins ∧ r1.Losses = r0.Wins ∧
        r0.Equity = some q0 ∧ r1.Equity = some q1 ∧ q0 + q1 = 1 := by
  have h := C38_heads_up (EquityCalculator.mk 4) acesVsKings turnBoard 1000 rfl
    (by decide) (by decide) (by decide) (by decide) (by decide)
  obtain ⟨rs, hrs⟩ := h.2 (by decide)
  exact ⟨rs, hrs, h.1 rs hrs⟩

/-! ## Exact counters -/

theorem incrAt_length (xs : List Nat) (idx : Nat) : (incrAt xs idx).length = xs.length := by
  induction xs generalizing idx with
  | nil => rfl
  | cons x rest ih =>
    cases idx with
    | zero => rfl
    | succ k => simp [incrAt, ih k]

theorem foldl_incrAt_length (ws : List Nat) (xs : List Nat) :
    (ws.foldl incrAt xs).length = xs.length := by
  induction ws generalizing xs with
  | nil => rfl
  | cons w rest ih =>
    simp only [List.foldl_cons]
    rw [ih, incrAt_length]

theorem incrAt_getD_eq (xs : List Nat) (idx i : Nat) (hi : i < xs.length) :
    (incrAt xs idx).getD i 0 = xs.getD i 0 + (if idx = i then 1 else 0) := by
  induction xs generalizing idx i with
  | nil => simp at hi
  | cons x rest ih =>
    cases idx with
    | zero =>
      cases i with
      | zero => simp [incrAt]
      | succ k => simp [incrAt]
    | succ j =>
      cases i with
      | zero => simp [incrAt]
      | succ k =>
        have := ih j k (by simpa using hi)
        simpa [incrAt] using this

theorem foldl_incrAt_count (ws : List Nat) (xs : List Nat) (i : Nat) (hi : i < xs.length) :
    (ws.foldl incrAt xs).getD i 0 = xs.getD i 0 + ws.count i := by
  induction ws generalizing xs with
  | nil => simp
  | cons w rest ih =>
    simp only [List.foldl_cons]
    rw [ih (incrAt xs w) (by rw [incrAt_length]; exact hi), incrAt_getD_eq xs w i hi,
      List.count_cons]
    by_cases hw : w = i
    · simp [hw]
      omega
    · simp [hw]

theorem recordWinners_length (st : List Nat × List Nat) (ws : List Nat) :
    (recordWinners st ws).1.length = st.1.length ∧
      (recordWinners st ws).2.length = st.2.length := by
  unfold recordWinners
  split_ifs
  · exact ⟨incrAt_length _ _, rfl⟩
  · exact ⟨rfl, foldl_incrAt_length _ _⟩

/-- One trial adds one to the win counter of `i` exactly when the winner set
is `[i]`, and one to the tie counter of `i` exactly when `i` is one of several
winners. -/
theorem recordWinners_getD (st : List Nat × List Nat) (ws : List Nat) (i : Nat)
    (h1 : i < st.1.length) (h2 : i < st.2.length) (hnd : ws.Nodup) :
    (recordWinners st ws).1.getD i 0 = st.1.getD i 0 + (if ws = [i] then 1 else 0) ∧
    (recordWinners st ws).2.getD i 0 =
      st.2.getD i 0 + (if i ∈ ws ∧ ws.length ≠ 1 then 1 else 0) := by
  unfold recordWinners
  by_cases hl : ws.length = 1
  · obtain ⟨a, rfl⟩ := List.length_eq_one.1 hl
    simp only [List.length_singleton, if_true, List.getD_cons_zero, ne_eq, not_true_eq_false,
      and_false, if_false, Nat.add_zero, and_true]
    rw [incrAt_getD_eq _ _ _ h1]
    by_cases ha : a = i
    · simp [ha]
    · simp [ha]
  · simp only [hl, if_false, ne_eq, not_false_eq_true, and_true]
    have hne : ws ≠ [i] := by
      intro h
      rw [h] at hl
      exact hl rfl
    rw [if_neg hne, foldl_incrAt_count _ _ _ h2]
    refine ⟨rfl, ?_⟩
    by_cases hm : i ∈ ws
    · rw [if_pos hm, List.count_eq_one_of_mem hnd hm]
    · rw [if_neg hm, List.count_eq_zero_of_not_mem hm]

/-- The counters after a list of trials: the initial counters plus the counts
of the trials won alone and of the trials tied. -/
theorem foldl_recordWinners_count (W : List (List Nat)) (st : List Nat × List Nat) (i : Nat)
    (h1 : i < st.1.length) (h2 : i < st.2.length) (hnd : ∀ ws ∈ W, ws.Nodup) :
    (W.foldl recordWinners st).1.getD i 0 =
      st.1.getD i 0 + W.countP (fun ws => decide (ws = [i])) ∧
    (W.foldl recordWinners st).2.getD i 0 =
      st.2.getD i 0 + W.countP (fun ws => decide (i ∈ ws ∧ ws.length ≠ 1)) := by
  induction W generalizing st with
  | nil => simp
  | cons ws rest ih =>
    simp only [List.foldl_cons]
    obtain ⟨l1, l2⟩ := recordWinners_length st ws
    obtain ⟨e1, e2⟩ := ih (recordWinners st ws) (by rw [l1]; exact h1) (by rw [l2]; exact h2)
      (fun w hw => hnd w (List.mem_cons_of_mem _ hw))
    obtain ⟨r1, r2⟩ := recordWinners_getD st ws i h1 h2 (hnd ws (List.mem_cons_self _ _))
    rw [e1, e2, r1, r2, List.countP_cons, List.countP_cons]
    constructor
    · by_cases c : ws = [i]
      · simp [c]
        omega
      · simp [c]
    · by_cases c : i ∈ ws ∧ ws.length ≠ 1
      · simp only [c, and_self, if_true, decide_True]
        simp
        omega
      · simp only [c, if_false, decide_False]
        simp

/-- Every hand found by the search among cards of valid rank is a valid hand. -/
theorem findBestHand_good (cards : List Card) (h : Hand)
    (hv : ∀ x ∈ cards, 2 ≤ x.Rank ∧ x.Rank ≤ 14) (hb : findBestHand cards = some h) :
    GoodHand h := by
  have hall : ∀ h2 ∈ (CardCombinations cards 5).filterMap (fun c => (NewHand c).toOption),
      GoodHand h2 := by
    intro h2 hh2
    obtain ⟨c, hc, hok⟩ := List.mem_filterMap.1 hh2
    have hok2 : NewHand c = Except.ok h2 := by
      cases hn : NewHand c with
      | error e =>
        rw [hn] at hok
        cases hok
      | ok h3 =>
        rw [hn] at hok
        cases hok
        rfl
    obtain ⟨-, hs⟩ := mem_CardCombinations_five cards c hc
    exact (NewHand_ok_good c h2 hok2 (fun x hx => hv x (hs.subset hx))).2.2
  rw [findBestHand_eq] at hb
  cases hf : (CardCombinations cards 5).filterMap (fun c => (NewHand c).toOption) with
  | nil =>
    rw [hf] at hb
    cases hb
  | cons first rest =>
    rw [hf] at hb hall
    simp only [Option.some.injEq] at hb
    rw [← hb]
    exact (foldl_beats_max rest first (hall first (List.mem_cons_self _ _))
      (fun x hx => hall x (List.mem_cons_of_mem _ hx))).1

theorem trialWinners_eq (holeCards : List (List Card)) (board boardCards : List Card) :
    trialWinners holeCards board boardCards =
      findWinnerIndices (trialBestHands holeCards board boardCards) := rfl

theorem trialBestHands_good (holeCards : List (List Card)) (board boardCards : List Card)
    (hv : ∀ c ∈ holeCards.flatten ++ board ++ boardCards, 2 ≤ c.Rank ∧ c.Rank ≤ 14) :
    ∀ i h, (trialBestHands holeCards board boardCards).get? i = some (some h) → GoodHand h := by
  intro i h hi
  unfold trialBestHands at hi
  rw [List.get?_eq_getElem?, List.getElem?_map] at hi
  cases hc : holeCards[i]? with
  | none =>
    rw [hc] at hi
    cases hi
  | some hole =>
    rw [hc] at hi
    simp only [Option.map_some', Option.some.injEq] at hi
    have hmem : hole ∈ holeCards :=
      List.get?_mem (by rw [List.get?_eq_getElem?]; exact hc)
    refine findBestHand_good _ h ?_ hi
    intro x hx
    apply hv x
    simp only [List.mem_append, List.mem_flatten] at hx ⊢
    rcases hx with hx | hx | hx
    · exact Or.inl (Or.inl ⟨hole, hmem, hx⟩)
    · exact Or.inl (Or.inr hx)
    · exact Or.inr hx

theorem beatsAllOthers_iff (hands : List (Option Hand)) (i : Nat) :
    beatsAllOthers hands i = true ↔
      ∃ h, hands.get? i = some (some h) ∧
        ∀ j h2, j ≠ i → hands.get? j = some (some h2) → h.Beats h2 = true := by
  unfold beatsAllOthers
  cases hget : hands.get? i with
  | none => simp
  | some o =>
    cases o with
    | none => simp
    | some h =>
      simp only [List.all_eq_true, List.mem_range, Bool.or_eq_true, decide_eq_true_iff,
        Option.some.injEq, exists_eq_left']
      constructor
      · intro H j h2 hj hj2
        have hlt : j < hands.length := by
          rw [List.get?_eq_getElem?] at hj2
          exact (List.getElem?_eq_some_iff.1 hj2).1
        rcases H j hlt with e | e
        · exact absurd e hj
        · rw [hj2] at e
          exact e
      · intro H j _
        by_cases hj : j = i
        · exact Or.inl hj
        · right
          cases hj2 : hands.get? j with
          | none => rfl
          | some o2 =>
            cases o2 with
            | none => rfl
            | some h2 => exact H j h2 hj hj2

theorem unbeatenAndTied_iff (hands : List (Option Hand)) (i : Nat) :
    unbeatenAndTied hands i = true ↔
      ∃ h, hands.get? i = some (some h) ∧
        (∀ j h2, hands.get? j = some (some h2) → h2.Beats h = false) ∧
        ∃ j h2, j ≠ i ∧ hands.get? j = some (some h2) ∧ h.Ties h2 = true := by
  unfold unbeatenAndTied
  cases hget : hands.get? i with
  | none => simp
  | some o =>
    cases o with
    | none => simp
    | some h =>
      simp only [Bool.and_eq_true, List.all_eq_true, List.mem_range, List.any_eq_true,
        decide_eq_true_iff, Option.some.injEq, exists_eq_left']
      constructor
      · rintro ⟨H1, j, hlt, hj, H2⟩
        refine ⟨fun k h2 hk => ?_, ?_⟩
        · have hklt : k < hands.length := by
            rw [List.get?_eq_getElem?] at hk
            exact (List.getElem?_eq_some_iff.1 hk).1
          have := H1 k hklt
          rw [hk] at this
          simpa using this
        · cases hj2 : hands.get? j with
          | none =>
            rw [hj2] at H2
            cases H2
          | some o2 =>
            cases o2 with
            | none =>
              rw [hj2] at H2
              cases H2
            | some h2 =>
              rw [hj2] at H2
              exact ⟨j, h2, hj, hj2, H2⟩
      · rintro ⟨H1, j, h2, hj, hj2, H2⟩
        refine ⟨fun k _ => ?_, j, ?_, hj, ?_⟩
        · cases hk : hands.get? k with
          | none => rfl
          | some o2 =>
            cases o2 with
            | none => rfl
            | some h3 =>
              have := H1 k h3 hk
              simpa using this
        · rw [List.get?_eq_getElem?] at hj2
          exact (List.getElem?_eq_some_iff.1 hj2).1
        · rw [hj2]
          exact H2

theorem winners_single_iff (hands : List (Option Hand))
    (hg : ∀ i h, hands.get? i = some (some h) → GoodHand h) (i : Nat) :
    findWinnerIndices hands = [i] ↔ beatsAllOthers hands i = true := by
  obtain ⟨-, s2, s3⟩ := findWinnerIndices_spec hands hg
  rw [beatsAllOthers_iff]
  constructor
  · exact s3 i
  · rintro ⟨h, hget, hb⟩
    exact s2 i h hget hb

theorem winners_tied_iff (hands : List (Option Hand))
    (hg : ∀ i h, hands.get? i = some (some h) → GoodHand h) (i : Nat) :
    (i ∈ findWinnerIndices hands ∧ (findWinnerIndices hands).length ≠ 1) ↔
      unbeatenAndTied hands i = true := by
  obtain ⟨s1, -, -⟩ := findWinnerIndices_spec hands hg
  rw [unbeatenAndTied_iff]
  constructor
  · rintro ⟨hi, hlen⟩
    obtain ⟨h, hget, hmax⟩ := (s1 i).1 hi
    refine ⟨h, hget, hmax, ?_⟩
    have hex : ∃ j, j ∈ findWinnerIndices hands ∧ j ≠ i := by
      by_contra hno
      push_neg at hno
      have := sorted_eq_singleton (findWinnerIndices hands) i (findWinnerIndices_sorted hands).1
        (fun k => ⟨hno k, fun hk => hk ▸ hi⟩)
      rw [this] at hlen
      exact hlen rfl
    obtain ⟨j, hj, hji⟩ := hex
    obtain ⟨h2, hget2, hmax2⟩ := (s1 j).1 hj
    refine ⟨j, h2, hji, hget2, ?_⟩
    have k1 := (not_beats_iff_key (hg i h hget) (hg j h2 hget2)).1 (hmax2 i h hget)
    have k2 := (not_beats_iff_key (hg j h2 hget2) (hg i h hget)).1 (hmax j h2 hget2)
    unfold Hand.Ties
    rw [decide_eq_true_iff]
    exact (Compare_zero_iff_key (hg i h hget) (hg j h2 hget2)).2 (le_antisymm k1 k2)
  · rintro ⟨h, hget, hmax, j, h2, hji, hget2, hties⟩
    have hi : i ∈ findWinnerIndices hands := (s1 i).2 ⟨h, hget, hmax⟩
    unfold Hand.Ties at hties
    rw [decide_eq_true_iff] at hties
    have hk := (Compare_zero_iff_key (hg i h hget) (hg j h2 hget2)).1 hties
    have hj : j ∈ findWinnerIndices hands := by
      refine (s1 j).2 ⟨h2, hget2, fun k h3 hk3 => ?_⟩
      have := (not_beats_iff_key (hg k h3 hk3) (hg i h hget)).1 (hmax k h3 hk3)
      exact (not_beats_iff_key (hg k h3 hk3) (hg j h2 hget2)).2 (hk ▸ this)
    refine ⟨hi, fun hlen => ?_⟩
    obtain ⟨a, ha⟩ := List.length_eq_one.1 hlen
    rw [ha] at hi hj
    simp only [List.mem_singleton] at hi hj
    exact hji (hj.trans hi.symm)

/-- A completion that is tied for a player is won by nobody. -/
theorem tied_not_won (hands : List (Option Hand))
    (hg : ∀ i h, hands.get? i = some (some h) → GoodHand h) (i j : Nat)
    (h : unbeatenAndTied hands i = true) : beatsAllOthers hands j = false := by
  obtain ⟨-, hlen⟩ := (winners_tied_iff hands hg i).2 h
  cases hb : beatsAllOthers hands j with
  | false => rfl
  | true =>
    have := (winners_single_iff hands hg j).2 hb
    rw [this] at hlen
    exact absurd rfl hlen

/-- C32: when CalculateExact returns results, on hole and board cards of valid
rank, the result of every player i has as Wins the number of enumerated
completions in which the best hand of i strictly beats every other best hand,
and as Ties the number of completions in which the best hand of i is unbeaten
and tied with another best hand; a completion counted as a tie for one player
is counted as a win for nobody. -/
theorem C32_exact_counts (ec : EquityCalculator) (holeCards : List (List Card))
    (board : List Card) (maxCombinations : Int)
    (hv : ∀ c ∈ holeCards.flatten ++ board, 2 ≤ c.Rank ∧ c.Rank ≤ 14) :
    ∀ rs, ec.CalculateExact holeCards board maxCombinations = ExactOutcome.results rs →
      ∃ deck, buildRemainingDeck (buildUsedCards holeCards board) = some deck ∧
        rs.length = holeCards.length ∧
        (∀ i r, rs.get? i = some r →
          r.Wins = (((Combinations deck (5 - (board.length : Int))).countP
            (fun combo => beatsAllOthers (trialBestHands holeCards board combo) i) : Nat) : Int) ∧
          r.Ties = (((Combinations deck (5 - (board.length : Int))).countP
            (fun combo => unbeatenAndTied (trialBestHands holeCards board combo) i) : Nat) :
              Int)) ∧
        (∀ combo ∈ Combinations deck (5 - (board.length : Int)), ∀ i j,
          unbeatenAndTied (trialBestHands holeCards board combo) i = true →
            beatsAllOthers (trialBestHands holeCards board combo) j = false) := by
  intro rs h
  unfold EquityCalculator.CalculateExact at h
  simp only at h
  split at h
  · cases h
  · rename_i deck hdeck
    split_ifs at h
    simp only [ExactOutcome.results.injEq] at h
    have hlen52 : (buildUsedCards holeCards board).length ≤ 52 := by
      by_contra hgt
      unfold buildRemainingDeck at hdeck
      rw [if_pos (by omega)] at hdeck
      cases hdeck
    have hdv : ∀ c ∈ deck, 2 ≤ c.Rank ∧ c.Rank ≤ 14 := by
      intro c hc
      rw [buildRemainingDeck_eq _ hlen52] at hdeck
      simp only [Option.some.injEq] at hdeck
      rw [← hdeck] at hc
      exact (mem_fullDeck c).1 (List.mem_filter.1 hc).1
    have hgood : ∀ combo ∈ Combinations deck (5 - (board.length : Int)),
        ∀ i h, (trialBestHands holeCards board combo).get? i = some (some h) → GoodHand h := by
      intro combo hc
      obtain ⟨hs, -⟩ := Combinations_mem deck combo _ hc
      apply trialBestHands_good
      intro c hcm
      rw [List.mem_append] at hcm
      rcases hcm with hcm | hcm
      · exact hv c hcm
      · exact hdv c (hs.subset hcm)
    refine ⟨deck, hdeck, ?_, ?_, ?_⟩
    · rw [← h]
      simp
    · intro i r hi
      rw [← h, List.get?_eq_getElem?, List.getElem?_map] at hi
      have hilt : i < holeCards.length := by
        by_contra hge
        rw [List.getElem?_eq_none (by simpa using hge)] at hi
        cases hi
      rw [List.getElem?_range hilt] at hi
      simp only [Option.map_some', Option.some.injEq] at hi
      rw [← hi, ← List.foldl_map]
      obtain ⟨e1, e2⟩ := foldl_recordWinners_count
        ((Combinations deck (5 - (board.length : Int))).map (trialWinners holeCards board))
        (List.replicate holeCards.length 0, List.replicate holeCards.length 0) i
        (by simpa using hilt) (by simpa using hilt)
        (by
          intro ws hws
          obtain ⟨combo, -, rfl⟩ := List.mem_map.1 hws
          exact findWinnerIndices_nodup _)
      have z : (List.replicate holeCards.length 0).getD i 0 = 0 := by
        simp [List.getD_eq_getElem?_getD, List.getElem?_replicate, hilt]
      simp only [z, Nat.zero_add, List.countP_map] at e1 e2
      have c1 : (Combinations deck (5 - (board.length : Int))).countP
          ((fun ws => decide (ws = [i])) ∘ trialWinners holeCards board) =
          (Combinations deck (5 - (board.length : Int))).countP
            (fun combo => beatsAllOthers (trialBestHands holeCards board combo) i) := by
        apply List.countP_congr
        intro combo hc
        simp only [Function.comp, decide_eq_true_iff]
        rw [trialWinners_eq]
        exact winners_single_iff _ (hgood combo hc) i
      have c2 : (Combinations deck (5 - (board.length : Int))).countP
          ((fun ws => decide (i ∈ ws ∧ ws.length ≠ 1)) ∘ trialWinners holeCards board) =
          (Combinations deck (5 - (board.length : Int))).countP
            (fun combo => unbeatenAndTied (trialBestHands holeCards board combo) i) := by
        apply List.countP_congr
        intro combo hc
        simp only [Function.comp, decide_eq_true_iff]
        rw [trialWinners_eq]
        exact winners_tied_iff _ (hgood combo hc) i
      rw [c1] at e1
      rw [c2] at e2
      simp only [mkEquityResult]
      rw [e1, e2]
      exact ⟨rfl, rfl⟩
    · intro combo hc i j ht
      exact tied_not_won _ (hgood combo hc) i j ht

/-- The counters of aces against kings on the turn are the true counts. -/
theorem C32_exact_counts_witness :
    ∃ rs deck, (EquityCalculator.mk 4).CalculateExact acesVsKings turnBoard 1000 =
        ExactOutcome.results rs ∧
      buildRemainingDeck (buildUsedCards acesVsKings turnBoard) = some deck ∧
      rs.length = 2 ∧
      ∀ i r, rs.get? i = some r →
        r.Wins = (((Combinations deck 1).countP
          (fun combo => beatsAllOthers (trialBestHands acesVsKings turnBoard combo) i) : Nat) :
            Int) ∧
        r.Ties = (((Combinations deck 1).countP
          (fun combo => unbeatenAndTied (trialBestHands acesVsKings turnBoard combo) i) : Nat) :
            Int) := by
  obtain ⟨rs, hrs, -⟩ := (CalculateExact_ceiling (EquityCalculator.mk 4) acesVsKings turnBoard
    1000 (by decide) (by decide) (by decide) (by decide)).2 (by decide)
  obtain ⟨deck, hdeck, hlen, hcount, -⟩ :=
    C32_exact_counts (EquityCalculator.mk 4) acesVsKings turnBoard 1000 (by decide) rs hrs
  exact ⟨rs, deck, hrs, hdeck, hlen, hcount⟩

/-! ## No card is dealt twice -/

/-- The cards held by a game, as a multiset. -/
theorem allCards_coe (g : Game) :
    (g.allCards : Multiset Card) =
      ((g.Players.map (fun p => p.HoleCards)).flatten : Multiset Card) +
        (g.Board.Cards : Multiset Card) + (g.Deck.cards : Multiset Card) := by
  unfold Game.allCards
  rw [← Multiset.coe_add, ← Multiset.coe_add]

theorem Deck.Draw_sub (d : Deck) :
    (∀ d2 card, d.Draw = (d2, Except.ok card) →
      (d2.cards : Multiset Card) + ([card] : Multiset Card) = (d.cards : Multiset Card)) ∧
    (∀ d2 err, d.Draw = (d2, Except.error err) → d2 = d) := by
  rcases List.eq_nil_or_concat d.cards with hnil | ⟨rest, card, hc⟩
  · rw [Deck.Draw_empty d (by rw [hnil]; rfl)]
    constructor
    · intro d2 c h
      cases h
    · intro d2 err h
      cases h
      rfl
  · rw [List.concat_eq_append] at hc
    rw [Deck.Draw_last d rest card hc]
    constructor
    · intro d2 c h
      cases h
      rw [hc, Multiset.coe_add]
    · intro d2 err h
      cases h

theorem Deck.DrawMany_sub (d : Deck) (n : Nat) :
    (∀ d2 cards, d.DrawMany n = (d2, Except.ok cards) →
      (d2.cards : Multiset Card) + (cards : Multiset Card) = (d.cards : Multiset Card)) ∧
    (∀ d2 err, d.DrawMany n = (d2, Except.error err) →
      (d2.cards : Multiset Card) ≤ (d.cards : Multiset Card)) := by
  unfold Deck.DrawMany
  rw [Deck.drawLoop_eq]
  split_ifs with hk
  · constructor
    · intro d2 cards h
      cases h
      simp only [List.nil_append]
      rw [Multiset.coe_add, Multiset.coe_eq_coe]
      have := List.take_append_drop (d.cards.length - n) d.cards
      exact (List.Perm.append_left _ (List.reverse_perm _)).trans (by rw [this])
    · intro d2 err h
      cases h
  · constructor
    · intro d2 cards h
      cases h
    · intro d2 err h
      cases h
      exact Multiset.zero_le _

theorem Deck.Burn_sub (d : Deck) :
    ((d.Burn).1.cards : Multiset Card) ≤ (d.cards : Multiset Card) := by
  obtain ⟨h1, h2⟩ := Deck.Draw_sub d
  unfold Deck.Burn
  cases hd : d.Draw with
  | mk d2 r =>
    cases r with
    | error err =>
      rw [h2 d2 err hd]
    | ok card =>
      rw [← h1 d2 card hd]
      exact Multiset.le_add_right _ _

theorem Board.SetFlop_sub (b : Board) (cards : List Card) :
    ((b.SetFlop cards).1.Cards : Multiset Card) ≤
      (b.Cards : Multiset Card) + (cards : Multiset Card) := by
  unfold Board.SetFlop
  split_ifs
  · exact Multiset.le_add_right _ _
  · exact Multiset.le_add_right _ _
  · simp only [Multiset.coe_add]
    exact le_refl _

theorem Board.SetTurn_sub (b : Board) (card : Card) :
    ((b.SetTurn card).1.Cards : Multiset Card) ≤
      (b.Cards : Multiset Card) + ([card] : Multiset Card) := by
  unfold Board.SetTurn
  split_ifs
  · exact Multiset.le_add_right _ _
  · simp only [Multiset.coe_add]
    exact le_refl _

theorem Board.SetRiver_sub (b : Board) (card : Card) :
    ((b.SetRiver card).1.Cards : Multiset Card) ≤
      (b.Cards : Multiset Card) + ([card] : Multiset Card) := by
  unfold Board.SetRiver
  split_ifs
  · exact Multiset.le_add_right _ _
  · simp only [Multiset.coe_add]
    exact le_refl _

/-- A game with the same players, whose board gained at most the cards `X` and
whose deck lost at least the cards `X`, holds no new card. -/
theorem allCards_le (g g2 : Game) (X : Multiset Card) (hp : g2.Players = g.Players)
    (hB : (g2.Board.Cards : Multiset Card) ≤ (g.Board.Cards : Multiset Card) + X)
    (hD : (g2.Deck.cards : Multiset Card) + X ≤ (g.Deck.cards : Multiset Card)) :
    (g2.allCards : Multiset Card) ≤ (g.allCards : Multiset Card) := by
  rw [allCards_coe, allCards_coe, hp]
  calc ((g.Players.map (fun p => p.HoleCards)).flatten : Multiset Card) +
        (g2.Board.Cards : Multiset Card) + (g2.Deck.cards : Multiset Card)
      ≤ ((g.Players.map (fun p => p.HoleCards)).flatten : Multiset Card) +
        ((g.Board.Cards : Multiset Card) + X) + (g2.Deck.cards : Multiset Card) :=
        add_le_add_right (add_le_add_left hB _) _
    _ = ((g.Players.map (fun p => p.HoleCards)).flatten : Multiset Card) +
        (g.Board.Cards : Multiset Card) + ((g2.Deck.cards : Multiset Card) + X) := by
        abel
    _ ≤ _ := add_le_add_left hD _

theorem DealFlop_sub (g : Game) :
    ((g.DealFlop).1.allCards : Multiset Card) ≤ (g.allCards : Multiset Card) := by
  unfold Game.DealFlop
  split_ifs
  · exact le_refl _
  · have hburn := Deck.Burn_sub g.Deck
    cases hb : g.Deck.Burn with
    | mk d1 e =>
      rw [hb] at hburn
      cases e with
      | some err =>
        dsimp only
        exact allCards_le g _ 0 rfl (by simp) (by simpa using hburn)
      | none =>
        dsimp only
        obtain ⟨m1, m2⟩ := Deck.DrawMany_sub d1 3
        cases hd : d1.DrawMany 3 with
        | mk d2 r =>
          cases r with
          | error err =>
            dsimp only
            exact allCards_le g _ 0 rfl (by simp)
              (by simpa using le_trans (m2 d2 err hd) hburn)
          | ok cards =>
            dsimp only
            exact allCards_le g _ (cards : Multiset Card) rfl (Board.SetFlop_sub _ _)
              (by
                have := m1 d2 cards hd
                simp only at hburn ⊢
                rw [this]
                exact hburn)

theorem DealTurn_sub (g : Game) :
    ((g.DealTurn).1.allCards : Multiset Card) ≤ (g.allCards : Multiset Card) := by
  unfold Game.DealTurn
  split_ifs
  · exact le_refl _
  · have hburn := Deck.Burn_sub g.Deck
    cases hb : g.Deck.Burn with
    | mk d1 e =>
      rw [hb] at hburn
      cases e with
      | some err =>
        dsimp only
        exact allCards_le g _ 0 rfl (by simp) (by simpa using hburn)
      | none =>
        dsimp only
        obtain ⟨m1, m2⟩ := Deck.Draw_sub d1
        cases hd : d1.Draw with
        | mk d2 r =>
          cases r with
          | error err =>
            dsimp only
            exact allCards_le g _ 0 rfl (by simp)
              (by
                rw [m2 d2 err hd]
                simpa using hburn)
          | ok card =>
            dsimp only
            exact allCards_le g _ ([card] : Multiset Card) rfl (Board.SetTurn_sub _ _)
              (by
                have := m1 d2 card hd
                simp only at hburn ⊢
                rw [this]
                exact hburn)

theorem DealRiver_sub (g : Game) :
    ((g.DealRiver).1.allCards : Multiset Card) ≤ (g.allCards : Multiset Card) := by
  unfold Game.DealRiver
  split_ifs
  · exact le_refl _
  · have hburn := Deck.Burn_sub g.Deck
    cases hb : g.Deck.Burn with
    | mk d1 e =>
      rw [hb] at hburn
      cases e with
      | some err =>
        dsimp only
        exact allCards_le g _ 0 rfl (by simp) (by simpa using hburn)
      | none =>
        dsimp only
        obtain ⟨m1, m2⟩ := Deck.Draw_sub d1
        cases hd : d1.Draw with
        | mk d2 r =>
          cases r with
          | error err =>
            dsimp only
            exact allCards_le g _ 0 rfl (by simp)
              (by
                rw [m2 d2 err hd]
                simpa using hburn)
          | ok card =>
            dsimp only
            exact allCards_le g _ ([card] : Multiset Card) rfl (Board.SetRiver_sub _ _)
              (by
                have := m1 d2 card hd
                simp only at hburn ⊢
                rw [this]
                exact hburn)

theorem DealNextStreet_sub (g : Game) :
    ((g.DealNextStreet).1.allCards : Multiset Card) ≤ (g.allCards : Multiset Card) := by
  unfold Game.DealNextStreet
  cases g.Board.State with
  | Preflop => exact DealFlop_sub g
  | Flop => exact DealTurn_sub g
  | Turn => exact DealRiver_sub g
  | River => exact le_refl _

theorem holes_append (a b : List Player) :
    (((a ++ b).map (fun p => p.HoleCards)).flatten : Multiset Card) =
      ((a.map (fun p => p.HoleCards)).flatten : Multiset Card) +
        ((b.map (fun p => p.HoleCards)).flatten : Multiset Card) := by
  rw [List.map_append, List.flatten_append, Multiset.coe_add]

theorem holes_cons (p : Player) (b : List Player) :
    ((((p :: b)).map (fun p => p.HoleCards)).flatten : Multiset Card) =
      (p.HoleCards : Multiset Card) +
        ((b.map (fun p => p.HoleCards)).flatten : Multiset Card) := by
  rw [List.map_cons, List.flatten_cons, Multiset.coe_add]

/-- The loop of DealHoleCards hands out cards of the deck only: the hole cards
after the loop and the deck after the loop are among the hole cards of the
players served before, and the deck before. -/
theorem dealHoleCardsLoop_sub (rest : List Player) (d : Deck) (served : List Player) :
    ((((dealHoleCardsLoop rest d served).2.1).map (fun p => p.HoleCards)).flatten :
        Multiset Card) + ((dealHoleCardsLoop rest d served).1.cards : Multiset Card) ≤
      ((served.map (fun p => p.HoleCards)).flatten : Multiset Card) +
        ((rest.map (fun p => p.HoleCards)).flatten : Multiset Card) +
        (d.cards : Multiset Card) := by
  induction rest generalizing d served with
  | nil =>
    simp [dealHoleCardsLoop]
  | cons player rest ih =>
    obtain ⟨m1, m2⟩ := Deck.DrawMany_sub d 2
    unfold dealHoleCardsLoop
    cases hd : d.DrawMany 2 with
    | mk d2 r =>
      cases r with
      | error err =>
        simp only
        rw [holes_append]
        exact add_le_add_left (m2 d2 err hd) _
      | ok cards =>
        have hsum := m1 d2 cards hd
        dsimp only
        have hset : ∀ p2 e, player.SetHoleCards cards = (p2, e) →
            (e = none → p2.HoleCards = cards) ∧ (e ≠ none → p2 = player) := by
          intro p2 e he
          unfold Player.SetHoleCards at he
          split_ifs at he
          · cases he
            exact ⟨fun h => (by cases h), fun _ => rfl⟩
          · cases he
            exact ⟨fun _ => rfl, fun h => absurd rfl h⟩
        cases hs : player.SetHoleCards cards with
        | mk p2 e =>
          cases e with
          | some err =>
            dsimp only
            rw [holes_append, ((hset p2 (some err) hs).2 (by simp)), ← hsum]
            exact add_le_add_left (Multiset.le_add_right _ _) _
          | none =>
            dsimp only
            have hi := ih d2 (served ++ [p2])
            refine le_trans hi ?_
            rw [holes_append, holes_cons, holes_cons, ← hsum, (hset p2 none hs).1 rfl]
            simp only [List.map_nil, List.flatten_nil, Multiset.coe_nil, add_zero]
            have e : ∀ (a b c d2 p : Multiset Card),
                a + b + c + d2 ≤ a + (p + c) + (d2 + b) := by
              intro a b c d2 p
              have : a + (p + c) + (d2 + b) = a + b + c + d2 + p := by abel
              rw [this]
              exact Multiset.le_add_right _ _
            exact e _ _ _ _ _

theorem DealHoleCards_sub (g : Game) :
    ((g.DealHoleCards).1.allCards : Multiset Card) ≤ (g.allCards : Multiset Card) := by
  have h := dealHoleCardsLoop_sub g.Players g.Deck []
  unfold Game.DealHoleCards
  rw [allCards_coe, allCards_coe]
  simp only [List.map_nil, List.flatten_nil, Multiset.coe_nil, zero_add] at h
  have e : ∀ (a b c : Multiset Card), a + b + c = (a + c) + b := fun a b c => by abel
  rw [e, e _ _ (g.Deck.cards : Multiset Card)]
  exact add_le_add_right h _

theorem Game.after_sub (g : Game) (call : GameCall) :
    ((g.after call).allCards : Multiset Card) ≤ (g.allCards : Multiset Card) := by
  cases call with
  | dealHoleCards => exact DealHoleCards_sub g
  | dealFlop => exact DealFlop_sub g
  | dealTurn => exact DealTurn_sub g
  | dealRiver => exact DealRiver_sub g
  | dealNextStreet => exact DealNextStreet_sub g

theorem foldl_after_sub (calls : List GameCall) (g : Game) :
    ((calls.foldl Game.after g).allCards : Multiset Card) ≤ (g.allCards : Multiset Card) := by
  induction calls generalizing g with
  | nil => exact le_refl _
  | cons c rest ih =>
    simp only [List.foldl_cons]
    exact le_trans (ih (g.after c)) (Game.after_sub g c)

theorem NewDeck_perm (shuffle : List Card → List Card)
    (hs : ∀ cards, (shuffle cards).Perm cards) : (NewDeck shuffle).cards.Perm fullDeck := by
  unfold NewDeck Deck.Shuffle
  exact hs _

/-- A new game holds cards of the 52-card deck only, each at most once. -/
theorem NewGame_sub (shuffle : List Card → List Card)
    (hs : ∀ cards, (shuffle cards).Perm cards) (n : Int) (hn : 0 ≤ n) :
    ∃ g0, NewGame shuffle n = some g0 ∧
      (g0.allCards : Multiset Card) ≤ (fullDeck : Multiset Card) := by
  unfold NewGame
  rw [if_neg (by omega)]
  refine ⟨_, rfl, le_trans (DealHoleCards_sub _) ?_⟩
  rw [allCards_coe]
  have hholes : (((List.range n.toNat).map
      (fun i => NewPlayer ("Player " ++ toString (i + 1)))).map
        (fun p => p.HoleCards)).flatten = [] := by
    rw [List.flatten_eq_nil_iff]
    intro l hl
    simp only [List.map_map, List.mem_map, Function.comp] at hl
    obtain ⟨i, -, hi⟩ := hl
    rw [← hi]
    rfl
  simp only [hholes, NewBoard, Multiset.coe_nil, zero_add, add_zero]
  rw [Multiset.coe_eq_coe.2 (NewDeck_perm shuffle hs)]

/-- C39: in every game state reached from NewGame(n), n >= 0 and any shuffle,
through calls of DealHoleCards, DealFlop, DealTurn, DealRiver and
DealNextStreet, successful or failing, the hole cards of all players, the board
cards and the cards remaining in the deck are pairwise distinct cards of the
52-card deck, with ranks 2..14; and every 5-card combination of a player's hole
and board cards is accepted by NewHandWithPlayer, so none is rejected with
ErrDuplicateCards. -/
theorem C39_no_card_dealt_twice (shuffle : List Card → List Card) (n : Int)
    (calls : List GameCall) (hs : ∀ cards, (shuffle cards).Perm cards) (hn : 0 ≤ n) :
    ∃ g0, NewGame shuffle n = some g0 ∧
      (calls.foldl Game.after g0).allCards.Nodup ∧
      (∀ c ∈ (calls.foldl Game.after g0).allCards,
        c ∈ fullDeck ∧ 2 ≤ c.Rank ∧ c.Rank ≤ 14) ∧
      ∀ p ∈ (calls.foldl Game.after g0).Players,
        ∀ combo ∈ CardCombinations (p.HoleCards ++ (calls.foldl Game.after g0).Board.Cards) 5,
          (∃ h, NewHandWithPlayer combo p = Except.ok h) ∧
          NewHand combo ≠ Except.error GoError.ErrDuplicateCards ∧
          NewHandWithPlayer combo p ≠ Except.error GoError.ErrDuplicateCards := by
  obtain ⟨g0, h0, hsub0⟩ := NewGame_sub shuffle hs n hn
  refine ⟨g0, h0, ?_⟩
  have hsub : ((calls.foldl Game.after g0).allCards : Multiset Card) ≤
      (fullDeck : Multiset Card) := le_trans (foldl_after_sub calls g0) hsub0
  generalize calls.foldl Game.after g0 = g at hsub
  have hnd : g.allCards.Nodup :=
    Multiset.coe_nodup.1 (Multiset.nodup_of_le hsub (Multiset.coe_nodup.2 fullDeck_nodup))
  refine ⟨hnd, ?_, ?_⟩
  · intro c hc
    have hm : c ∈ fullDeck := by
      have := Multiset.mem_of_le hsub (Multiset.mem_coe.2 hc)
      exact Multiset.mem_coe.1 this
    exact ⟨hm, (mem_fullDeck c).1 hm⟩
  · intro p hp combo hcombo
    obtain ⟨hlen, hsl⟩ := mem_CardCombinations_five _ combo hcombo
    have hpnd : (p.HoleCards ++ g.Board.Cards).Nodup := by
      unfold Game.allCards at hnd
      have h1 := List.Nodup.of_append_left hnd
      rw [List.nodup_append] at h1 ⊢
      obtain ⟨a, b, c⟩ := h1
      refine ⟨?_, b, ?_⟩
      · exact (List.nodup_flatten.1 a).1 p.HoleCards (List.mem_map.2 ⟨p, hp, rfl⟩)
      · intro x hx hxb
        exact c (List.mem_flatten.2 ⟨p.HoleCards, List.mem_map.2 ⟨p, hp, rfl⟩, hx⟩) hxb
    obtain ⟨h, hok, -⟩ := NewHand_Built combo hlen (hpnd.sublist hsl)
    refine ⟨⟨{ h with Player := some p }, ?_⟩, ?_, ?_⟩
    · unfold NewHandWithPlayer
      rw [hok]
    · rw [hok]
      intro hc
      cases hc
    · unfold NewHandWithPlayer
      rw [hok]
      intro hc
      cases hc

/-- Two players, the deck reversed by the shuffle, and the streets dealt, with
a failing second flop and a second deal of hole cards. -/
theorem C39_no_card_dealt_twice_witness :
    ∃ g0, NewGame (fun cards => cards.reverse) 2 = some g0 ∧
      ([GameCall.dealFlop, GameCall.dealFlop, GameCall.dealTurn, GameCall.dealHoleCards,
        GameCall.dealNextStreet].foldl Game.after g0).allCards.Nodup ∧
      (∀ c ∈ ([GameCall.dealFlop, GameCall.dealFlop, GameCall.dealTurn, GameCall.dealHoleCards,
          GameCall.dealNextStreet].foldl Game.after g0).allCards,
        c ∈ fullDeck ∧ 2 ≤ c.Rank ∧ c.Rank ≤ 14) ∧
      ∀ p ∈ ([GameCall.dealFlop, GameCall.dealFlop, GameCall.dealTurn, GameCall.dealHoleCards,
          GameCall.dealNextStreet].foldl Game.after g0).Players,
        ∀ combo ∈ CardCombinations (p.HoleCards ++
            ([GameCall.dealFlop, GameCall.dealFlop, GameCall.dealTurn, GameCall.dealHoleCards,
              GameCall.dealNextStreet].foldl Game.after g0).Board.Cards) 5,
          (∃ h, NewHandWithPlayer combo p = Except.ok h) ∧
          NewHand combo ≠ Except.error GoError.ErrDuplicateCards ∧
          NewHandWithPlayer combo p ≠ Except.error GoError.ErrDuplicateCards :=
  C39_no_card_dealt_twice (fun cards => cards.reverse) 2
    [GameCall.dealFlop, GameCall.dealFlop, GameCall.dealTurn, GameCall.dealHoleCards,
      GameCall.dealNextStreet]
    (fun cards => List.reverse_perm cards) (by decide)

end Goker
